import Mathlib

/-!
# Percolator: Score Set, cross-validation split and standard-deviation normalizer

A shallow embedding of `src/Scores.cpp` and `src/StdvNormalizer.cpp`.

Modelling conventions.
* `double` values are rationals (`ℚ`).  Except in the part on double arithmetic, an
  arithmetic operation gives its exact result: rounding, infinities and NaN are outside that
  reading.  A division whose divisor may be zero in the source returns `Option ℚ`.
* In the part on double arithmetic every `+`, `-`, `*`, `/` and `sqrt` of the source gives its
  exact result rounded to IEEE 754 binary64 (round to nearest, ties to even, subnormals
  included, no extended precision and no fused multiply-add), and `none` stands for a result
  that is not a finite double.  The functions whose claims depend on rounding are embedded a
  second time in that arithmetic, under the source's name followed by `Double`.
* `unsigned int` scan numbers are `Nat`, `int` labels are `Int`.
* A `ScoreHolder` holds its PSM by value; the value stands for the pointer `pPSM`.
* `std::sort` is a sort returning an ordered permutation (`stdSort`); the theorems use only
  these two facts about it.
* Code of the PosteriorEstimator, the PRNG and the description-of-correct model is not part
  of the sources; it enters through the fields of `Env` and through explicit parameters.
-/

namespace Percolator

/-! ## Data model -/

/-- Modelled from the spec: `PSMDescription.h` is not among the sources.  The record follows
the PSM of the data model (id, scan, observed and calculated mass, peptide sequence with its
flanking residues, protein ids, feature row); `charge` is the third component of the tuple
used by target-decoy competition, `retentionFeatures` the row set by `setRetentionFeatures`. -/
structure PSMDescription where
  id : String
  scan : Nat
  expMass : ℚ
  calcMass : ℚ
  charge : Int
  flankN : String
  peptideSequence : String
  flankC : String
  proteinIds : List String
  features : List ℚ
  retentionFeatures : Option (List ℚ)
deriving DecidableEq

/-- Modelled from the spec: accessor of `PSMDescription.h`, the peptide sequence without its
flanking residues. -/
def PSMDescription.getPeptideSequence (p : PSMDescription) : String := p.peptideSequence

/-- The `ScoreHolder` record: a PSM with its statistics and label. -/
structure ScoreHolder where
  score : ℚ
  q : ℚ
  pep : ℚ
  p : ℚ
  label : Int
  pPSM : PSMDescription
deriving DecidableEq

/-- Modelled from the spec: the default-constructed `ScoreHolder` of `Scores.h`, with which
`vector::resize` would fill new slots. -/
def ScoreHolder.blank : ScoreHolder :=
  { score := 0, q := 0, pep := 0, p := 0, label := 0,
    pPSM := { id := "", scan := 0, expMass := 0, calcMass := 0, charge := 0,
              flankN := "", peptideSequence := "", flankC := "", proteinIds := [],
              features := [], retentionFeatures := none } }

/-- Modelled from the spec: `ScoreHolder::isTarget` of `Scores.h`, label `+1` is a target. -/
def ScoreHolder.isTarget (sh : ScoreHolder) : Bool := sh.label == 1

/-- Modelled from the spec: `ScoreHolder::isDecoy` of `Scores.h`, label `-1` is a decoy. -/
def ScoreHolder.isDecoy (sh : ScoreHolder) : Bool := sh.label == -1

/-- Modelled from the spec: `ScoreHolder::toPair` of `Scores.h`, the `(score, is_decoy)` pair
handed to the posterior estimator. -/
def ScoreHolder.toPair (sh : ScoreHolder) : ℚ × Bool := (sh.score, sh.isDecoy)

/-- `operator>(ScoreHolder, ScoreHolder)`, `Scores.cpp` lines 45-52. -/
def ScoreHolder.gt (one other : ScoreHolder) : Bool :=
  decide (one.score > other.score)
  || (decide (one.score = other.score) && decide (one.pPSM.scan > other.pPSM.scan))
  || (decide (one.score = other.score) && decide (one.pPSM.scan = other.pPSM.scan)
        && decide (one.pPSM.expMass > other.pPSM.expMass))
  || (decide (one.score = other.score) && decide (one.pPSM.scan = other.pPSM.scan)
        && decide (one.pPSM.expMass = other.pPSM.expMass) && decide (one.label > other.label))

/-- The ordering key `(score, scan, expMass, label)` of a holder. -/
def ScoreHolder.key (sh : ScoreHolder) : ℚ × Nat × ℚ × Int :=
  (sh.score, sh.pPSM.scan, sh.pPSM.expMass, sh.label)

/-- The key in the lexicographic order of the product. -/
def ScoreHolder.lexKey (sh : ScoreHolder) : ℚ ×ₗ Nat ×ₗ ℚ ×ₗ Int :=
  toLex (sh.score, toLex (sh.pPSM.scan, toLex (sh.pPSM.expMass, sh.label)))

/-- Exceptions that leave a member function: `MyException` and the `std::out_of_range` of
`vector::at`. -/
inductive Exn where
  | MyException
  | out_of_range
deriving DecidableEq

/-- Code and global configuration that is not among the sources, taken as parameters:
`FeatureNames::getNumFeatures()`, the `NO_TERMINATE` flag, `DataSet::getCalcDoc()`, the
PosteriorEstimator functions used by `checkSeparationAndSetPi0` and `calcQ`, and the effect of
the description-of-correct calls of `scoreAndAddPSM` on a PSM. -/
structure Env where
  numFeatures : Nat
  noTerminate : Bool
  calcDoc : Bool
  getPValues : List (ℚ × Bool) → List ℚ
  checkSeparation : List ℚ → Bool
  estimatePi0 : List ℚ → ℚ
  totalNumRTFeatures : Nat
  normalizeRT : ℚ → Nat → ℚ
  calcRegressionFeature : PSMDescription → PSMDescription
  docSetFeatures : PSMDescription → PSMDescription
  getQValues : ℚ → List (ℚ × Bool) → Bool → List ℚ

/-- The map `peptidePsmMap_` from a representative PSM to the PSMs that share its peptide. -/
abbrev PsmMap := List (PSMDescription × List PSMDescription)

/-- The statement `peptidePsmMap_[key].push_back(value)`. -/
def PsmMap.pushBack (m : PsmMap) (key value : PSMDescription) : PsmMap :=
  if m.any (fun e => decide (e.1 = key)) then
    m.map (fun e => if e.1 = key then (e.1, e.2 ++ [value]) else e)
  else m ++ [(key, [value])]

/-- The state of a `Scores` object.  `targetDecoySizeRatio_` is `none` when the division that
computed it had a zero divisor. -/
structure Scores where
  scores_ : List ScoreHolder
  totalNumberOfDecoys_ : Nat
  totalNumberOfTargets_ : Nat
  targetDecoySizeRatio_ : Option ℚ
  pi0_ : ℚ
  usePi0_ : Bool
  peptidePsmMap_ : PsmMap

/-- Modelled from the spec: the constructor `Scores(usePi0)` of `Scores.h`, an empty Score Set. -/
def Scores.init (usePi0 : Bool) : Scores :=
  { scores_ := [], totalNumberOfDecoys_ := 0, totalNumberOfTargets_ := 0,
    targetDecoySizeRatio_ := some 0, pi0_ := 1, usePi0_ := usePi0, peptidePsmMap_ := [] }

/-- Modelled from the spec: `Scores::addScoreHolder` of `Scores.h`, appending a holder. -/
def Scores.addScoreHolder (s : Scores) (sh : ScoreHolder) : Scores :=
  { s with scores_ := s.scores_ ++ [sh] }

/-- A division of doubles whose divisor may be zero. -/
def divDouble (a b : ℚ) : Option ℚ := if b = 0 then none else some (a / b)

/-! ## Standard library algorithms -/

/-- `std::sort(first, last, comp)`: the result is a permutation in which no element comes
before one that `comp` puts before it. -/
def stdSort {α : Type} (comp : α → α → Bool) (l : List α) : List α :=
  l.insertionSort (fun a b => comp b a = false)

/-- The scan of `std::unique` after the first element, `last` being the last element kept. -/
def stdUniqueAux {α : Type} (pred : α → α → Bool) (last : α) : List α → List α
  | [] => []
  | b :: l => if pred last b then stdUniqueAux pred last l else b :: stdUniqueAux pred b l

/-- `std::unique(first, last, pred)` followed by `erase`: of every run of consecutive
equivalent elements only the first is kept. -/
def stdUnique {α : Type} (pred : α → α → Bool) : List α → List α
  | [] => []
  | a :: l => a :: stdUniqueAux pred a l

/-- `vector::resize(n, d)`. -/
def vectorResize {α : Type} (v : List α) (n : Nat) (d : α) : List α :=
  v.take n ++ List.replicate (n - v.length) d

/-- `multimap::insert`: the entry goes after the entries whose key is not larger. -/
def multimapInsert (m : List (Nat × ScoreHolder)) (e : Nat × ScoreHolder) :
    List (Nat × ScoreHolder) :=
  match m with
  | [] => [e]
  | x :: rest => if e.1 < x.1 then e :: x :: rest else x :: multimapInsert rest e

/-! ## Score Set operations -/

/-- `Scores::getScoreLabelPairs`, lines 577-581. -/
def Scores.getScoreLabelPairs (s : Scores) : List (ℚ × Bool) := s.scores_.map ScoreHolder.toPair

/-- `Scores::checkSeparationAndSetPi0`, lines 786-812: the object after the call and the
exception thrown, if any. -/
def Scores.checkSeparationAndSetPi0 (env : Env) (s : Scores) : Scores × Option Exn :=
  let combined := s.getScoreLabelPairs
  let pvals := env.getPValues combined
  let s1 := { s with pi0_ := 1 }
  let tooGoodSeparation := env.checkSeparation pvals
  if tooGoodSeparation then
    if env.noTerminate then (s1, none) else (s1, some Exn.MyException)
  else if s1.usePi0_ then ({ s1 with pi0_ := env.estimatePi0 pvals }, none)
  else (s1, none)

/-- `Scores::postMergeStep`, lines 169-179. -/
def Scores.postMergeStep (env : Env) (s : Scores) : Scores × Option Exn :=
  let sorted := stdSort ScoreHolder.gt s.scores_
  let decoys := sorted.countP ScoreHolder.isDecoy
  let targets := sorted.countP ScoreHolder.isTarget
  Scores.checkSeparationAndSetPi0 env
    { s with
      scores_ := sorted
      totalNumberOfDecoys_ := decoys
      totalNumberOfTargets_ := targets
      targetDecoySizeRatio_ := some ((targets : ℚ) / max 1 (decoys : ℚ)) }

/-- `Scores::recalculateSizes`, lines 481-493. -/
def Scores.recalculateSizes (s : Scores) : Scores :=
  let counts := s.scores_.foldl
    (fun (c : Nat × Nat) sh => if sh.isTarget then (c.1 + 1, c.2) else (c.1, c.2 + 1)) (0, 0)
  { s with
    totalNumberOfTargets_ := counts.1
    totalNumberOfDecoys_ := counts.2
    targetDecoySizeRatio_ := divDouble (counts.1 : ℚ) (counts.2 : ℚ) }

/-- `Scores::calcScore`, lines 191-198: start from the bias `w[F]` and add `feat[ix] * w[ix]`
for `ix = F-1` down to `0`. -/
def Scores.calcScore (env : Env) (feat : List ℚ) (w : List ℚ) : ℚ :=
  (List.range env.numFeatures).reverse.foldl
    (fun score ix => score + feat.getD ix 0 * w.getD ix 0) (w.getD env.numFeatures 0)

/-- The feature pool as far as `scoreAndAddPSM` uses it: the rows handed back to it. -/
structure FeatureMemoryPool where
  deallocated : List (List ℚ)

/-- `Scores::scoreAndAddPSM`, lines 200-235.  Returns the Score Set, the holder `sh` (passed
by reference) and the feature pool after the call.  The PSM of a refused holder is freed by
`PSMDescription::deletePtr`; the model leaves the holder as it is. -/
def Scores.scoreAndAddPSM (env : Env) (s : Scores) (sh : ScoreHolder) (rawWeights : List ℚ)
    (featurePool : FeatureMemoryPool) : Scores × ScoreHolder × FeatureMemoryPool :=
  let numFeatures := env.numFeatures
  let sh1 : ScoreHolder :=
    if env.calcDoc then
      let rtFeatures := (List.replicate env.totalNumRTFeatures (0 : ℚ)).mapIdx
        (fun i x => env.normalizeRT x (numFeatures + i))
      let psm := env.calcRegressionFeature sh.pPSM
      { sh with pPSM := env.docSetFeatures { psm with retentionFeatures := some rtFeatures } }
    else sh
  let sh2 : ScoreHolder := (List.range numFeatures).foldl
    (fun (h : ScoreHolder) j =>
      { h with score := h.score + h.pPSM.features.getD j 0 * rawWeights.getD j 0 }) sh1
  let sh3 : ScoreHolder := { sh2 with score := sh2.score + rawWeights.getD numFeatures 0 }
  let pool1 : FeatureMemoryPool := { deallocated := featurePool.deallocated ++ [sh3.pPSM.features] }
  let sh4 : ScoreHolder := { sh3 with pPSM := { sh3.pPSM with retentionFeatures := none } }
  let s1 : Scores :=
    if sh4.label = 1 then { s with totalNumberOfTargets_ := s.totalNumberOfTargets_ + 1 }
    else if sh4.label = -1 then { s with totalNumberOfDecoys_ := s.totalNumberOfDecoys_ + 1 }
    else s
  if sh4.label ≠ 1 ∧ sh4.label ≠ -1 then (s1, sh4, pool1)
  else ({ s1 with scores_ := s1.scores_ ++ [sh4] }, sh4, pool1)

/-- The first loop of `Scores::normalizeScores`, lines 522-531: returns `fdrScore` and
`medianDecoyScore`; `decoys` counts the decoys met so far. -/
def normalizeScoresScan (fdr : ℚ) (medianIndex : Nat) :
    List ScoreHolder → Nat → ℚ → ℚ → ℚ × ℚ
  | [], _, fdrScore, medianDecoyScore => (fdrScore, medianDecoyScore)
  | it :: rest, decoys, fdrScore, medianDecoyScore =>
    let fdrScore1 := if it.q < fdr then it.score else fdrScore
    if it.isDecoy then
      if decoys + 1 = medianIndex then (fdrScore1, it.score)
      else normalizeScoresScan fdr medianIndex rest (decoys + 1) fdrScore1 medianDecoyScore
    else normalizeScoresScan fdr medianIndex rest decoys fdrScore1 medianDecoyScore

/-- `Scores::normalizeScores`, lines 515-545, in exact arithmetic; `normalizeScoresDouble` is
the same function in double arithmetic.  On an empty Score Set the source dereferences
`begin()`; the model returns `none`. -/
def Scores.normalizeScores (s : Scores) (fdr : ℚ) : Option Scores :=
  match s.scores_ with
  | [] => none
  | first :: _ =>
    let medianIndex := max 0 (s.totalNumberOfDecoys_ / 2)
    let fdrScore0 := first.score
    let r := normalizeScoresScan fdr medianIndex s.scores_ 0 fdrScore0 (fdrScore0 + 1)
    let fdrScore := r.1
    let medianDecoyScore := r.2
    let diff := fdrScore - medianDecoyScore
    some { s with
      scores_ := s.scores_.map (fun sh =>
        let sh1 : ScoreHolder := { sh with score := sh.score - fdrScore }
        if diff > 0 then { sh1 with score := sh1.score / diff } else sh1) }

/-! ## Removing redundant PSMs -/

/-- Modelled from the spec: the comparator `lexicOrderProb` of `Scores.h`, the lexicographic
order by (peptide, label, -score). -/
def lexicOrderProb (x y : ScoreHolder) : Bool :=
  decide (x.pPSM.getPeptideSequence < y.pPSM.getPeptideSequence)
  || (decide (x.pPSM.getPeptideSequence = y.pPSM.getPeptideSequence)
        && decide (x.label < y.label))
  || (decide (x.pPSM.getPeptideSequence = y.pPSM.getPeptideSequence)
        && decide (x.label = y.label) && decide (x.score > y.score))

/-- Modelled from the spec: the comparator `OrderScanMassCharge` of `Scores.h`, the order by
(scan, expMass, charge, -score). -/
def OrderScanMassCharge (x y : ScoreHolder) : Bool :=
  decide (x.pPSM.scan < y.pPSM.scan)
  || (decide (x.pPSM.scan = y.pPSM.scan) && decide (x.pPSM.expMass < y.pPSM.expMass))
  || (decide (x.pPSM.scan = y.pPSM.scan) && decide (x.pPSM.expMass = y.pPSM.expMass)
        && decide (x.pPSM.charge < y.pPSM.charge))
  || (decide (x.pPSM.scan = y.pPSM.scan) && decide (x.pPSM.expMass = y.pPSM.expMass)
        && decide (x.pPSM.charge = y.pPSM.charge) && decide (x.score > y.score))

/-- Modelled from the spec: the predicate `UniqueScanMassCharge` of `Scores.h`, equality of
the (scan, expMass, charge) tuple. -/
def UniqueScanMassCharge (x y : ScoreHolder) : Bool :=
  decide (x.pPSM.scan = y.pPSM.scan) && decide (x.pPSM.expMass = y.pPSM.expMass)
    && decide (x.pPSM.charge = y.pPSM.charge)

/-- The variables of the compaction loop of `weedOutRedundant`. -/
structure WeedState where
  scores_ : List ScoreHolder
  peptidePsmMap_ : PsmMap
  previousPeptide : String
  previousLabel : Int
  lastWrittenIdx : Nat

/-- One iteration of the loop of `Scores::weedOutRedundant`, lines 660-671, for the index
`idx`.  Every `at` is bounds-checked; `lastWrittenIdx - 1` wraps around at zero, which no
index satisfies. -/
def weedOutRedundantStep (st : WeedState) (idx : Nat) : WeedState × Option Exn :=
  match st.scores_.get? idx with
  | none => (st, some Exn.out_of_range)
  | some cur =>
    let currentPeptide := cur.pPSM.getPeptideSequence
    let currentLabel := cur.label
    if currentPeptide ≠ st.previousPeptide ∨ currentLabel ≠ st.previousLabel then
      if st.lastWrittenIdx < st.scores_.length then
        let st1 : WeedState :=
          { st with
            scores_ := st.scores_.set st.lastWrittenIdx cur
            lastWrittenIdx := st.lastWrittenIdx + 1
            previousPeptide := currentPeptide
            previousLabel := currentLabel }
        match st1.scores_.get? (st1.lastWrittenIdx - 1), st1.scores_.get? idx with
        | some rep, some member =>
          ({ st1 with peptidePsmMap_ := st1.peptidePsmMap_.pushBack rep.pPSM member.pPSM }, none)
        | _, _ => (st1, some Exn.out_of_range)
      else (st, some Exn.out_of_range)
    else if st.lastWrittenIdx = 0 then (st, some Exn.out_of_range)
    else
      match st.scores_.get? (st.lastWrittenIdx - 1), st.scores_.get? idx with
      | some rep, some member =>
        ({ st with peptidePsmMap_ := st.peptidePsmMap_.pushBack rep.pPSM member.pPSM }, none)
      | _, _ => (st, some Exn.out_of_range)

/-- The loop of `weedOutRedundant` over the given indices; it stops at the first exception. -/
def weedOutRedundantLoop (st : WeedState) : List Nat → WeedState × Option Exn
  | [] => (st, none)
  | idx :: rest =>
    match weedOutRedundantStep st idx with
    | (st1, none) => weedOutRedundantLoop st1 rest
    | (st1, some e) => (st1, some e)

/-- `Scores::weedOutRedundant`, lines 648-674. -/
def Scores.weedOutRedundant (env : Env) (s : Scores) : Scores × Option Exn :=
  let sorted := stdSort lexicOrderProb s.scores_
  let st0 : WeedState :=
    { scores_ := sorted, peptidePsmMap_ := s.peptidePsmMap_, previousPeptide := "",
      previousLabel := 0, lastWrittenIdx := 0 }
  match weedOutRedundantLoop st0 (List.range sorted.length) with
  | (st, some e) =>
    ({ s with scores_ := st.scores_, peptidePsmMap_ := st.peptidePsmMap_ }, some e)
  | (st, none) =>
    Scores.postMergeStep env
      { s with
        scores_ := vectorResize st.scores_ st.lastWrittenIdx ScoreHolder.blank
        peptidePsmMap_ := st.peptidePsmMap_ }

/-- `Scores::weedOutRedundantTDC`, lines 679-703. -/
def Scores.weedOutRedundantTDC (env : Env) (s : Scores) : Scores × Option Exn :=
  Scores.postMergeStep env
    { s with scores_ := stdUnique UniqueScanMassCharge (stdSort OrderScanMassCharge s.scores_) }

/-! ## Cross-validation split -/

/-- The quota loop of `createXvalSetsBySpectrum`, lines 418-422:
`while (fold--) { remain[fold] = ix / (fold + 1); ix -= remain[fold]; }`. -/
def initRemain : Nat → Int → List Int → List Int
  | 0, _, remain => remain
  | fold + 1, ix, remain =>
    let r := Int.tdiv ix ((fold : Int) + 1)
    initRemain fold (ix - r) (remain.set fold r)

/-- The choice of a fold for a new spectrum, lines 445-449: draw until the fold drawn is not
full.  `rand` is the stream of values returned by `PseudoRandom::lcg_rand()`, `pos` the number
of values consumed, `fuel` a bound on the number of draws.  Returns the fold and the new
position. -/
def drawNonFull (rand : Nat → Nat) (xval_fold : Nat) (remain : List Int) :
    Nat → Nat → Option (Nat × Nat)
  | 0, _ => none
  | fuel + 1, pos =>
    let randIndex := rand pos % xval_fold
    if remain.getD randIndex 0 ≤ 0 then drawNonFull rand xval_fold remain fuel (pos + 1)
    else some (randIndex, pos + 1)

/-- The variables of the distribution loop of `createXvalSetsBySpectrum`. -/
structure XvalState where
  train : List Scores
  test : List Scores
  remain : List Int
  previousSpectrum : Nat
  randIndex : Nat
  randPos : Nat

/-- One iteration of the distribution loop, lines 437-463.  `train` and `test` have
`xval_fold` entries, so the inner loop over `i < xval_fold` visits each of their entries. -/
def xvalStep (rand : Nat → Nat) (xval_fold fuel : Nat) (st : XvalState)
    (it : Nat × ScoreHolder) : Option XvalState :=
  let curScan := it.1
  let sh := it.2
  let chosen : Option (Nat × Nat) :=
    if st.previousSpectrum ≠ curScan then drawNonFull rand xval_fold st.remain fuel st.randPos
    else some (st.randIndex, st.randPos)
  match chosen with
  | none => none
  | some (randIndex, pos) =>
    some
      { train := st.train.mapIdx (fun i t => if i = randIndex then t else t.addScoreHolder sh)
        test := st.test.mapIdx (fun i t => if i = randIndex then t.addScoreHolder sh else t)
        remain := st.remain.set randIndex (st.remain.getD randIndex 0 - 1)
        previousSpectrum := curScan
        randIndex := randIndex
        randPos := pos }

/-- The distribution loop over the entries of the multimap. -/
def xvalLoop (rand : Nat → Nat) (xval_fold fuel : Nat) :
    XvalState → List (Nat × ScoreHolder) → Option XvalState
  | st, [] => some st
  | st, it :: rest =>
    match xvalStep rand xval_fold fuel st it with
    | none => none
    | some st1 => xvalLoop rand xval_fold fuel st1 rest

/-- The multimap `spectraScores` of `createXvalSetsBySpectrum`, lines 425-430. -/
def spectraScores (scores : List ScoreHolder) : List (Nat × ScoreHolder) :=
  scores.foldl (fun m sh => multimapInsert m (sh.pPSM.scan, sh)) []

/-- `Scores::createXvalSetsBySpectrum`, lines 408-469: the vectors `train` and `test` after
the call and the number of random values consumed.  `none` stands for the undefined behaviour
of the source on an empty Score Set or with zero folds, and for a fold choice that did not
end within `fuel` draws.  The closing pass over `reorderFeatureRows` (lines 471-478) moves
rows inside the feature pool and rebinds the `features` pointer of the PSMs; it leaves the
holder sequences of `train` and `test` as they are and is not part of this function. -/
def Scores.createXvalSetsBySpectrum (rand : Nat → Nat) (fuel : Nat) (s : Scores)
    (train test : List Scores) (xval_fold : Nat) (randPos : Nat) :
    Option (List Scores × List Scores × Nat) :=
  let train1 := vectorResize train xval_fold (Scores.init s.usePi0_)
  let test1 := vectorResize test xval_fold (Scores.init s.usePi0_)
  let remain := initRemain xval_fold (s.scores_.length : Int) (List.replicate xval_fold 0)
  match spectraScores s.scores_ with
  | [] => none
  | first :: rest =>
    if xval_fold = 0 then none
    else
      let st0 : XvalState :=
        { train := train1, test := test1, remain := remain, previousSpectrum := first.1,
          randIndex := rand randPos % xval_fold, randPos := randPos + 1 }
      match xvalLoop rand xval_fold fuel st0 (first :: rest) with
      | none => none
      | some st =>
        some (st.train.map Scores.recalculateSizes, st.test.map Scores.recalculateSizes,
          st.randPos)

/-! ## Standard-deviation normalizer -/

/-- The state of a `StdvNormalizer`: the vectors `avg` and `stdv`. -/
structure StdvNormalizer where
  avg : List ℚ
  stdv : List ℚ

/-- `StdvNormalizer::normalize`, lines 22-26, in exact arithmetic; `out` is the output buffer
before the call, `numFeatures` the value of `DataSet::getNumFeatures()`. -/
def StdvNormalizer.normalize (n : StdvNormalizer) (numFeatures : Nat) (inp out : List ℚ) :
    List ℚ :=
  (List.range numFeatures).foldl
    (fun o ix => o.set ix ((inp.getD ix 0 - n.avg.getD ix 0) / n.stdv.getD ix 0)) out

/-- `StdvNormalizer::unnormalizeweight`, lines 28-36, in exact arithmetic;
`unnormalizeweightDouble` is the same function in double arithmetic. -/
def StdvNormalizer.unnormalizeweight (n : StdvNormalizer) (numFeatures : Nat)
    (inp out : List ℚ) : List ℚ :=
  let r := (List.range numFeatures).foldl
    (fun (st : List ℚ × ℚ) i =>
      (st.1.set i (inp.getD i 0 / n.stdv.getD i 0), n.avg.getD i 0 / n.stdv.getD i 0))
    (out, 0)
  r.1.set numFeatures (inp.getD numFeatures 0 - r.2)

/-- `StdvNormalizer::normalizeweight`, lines 38-46, in exact arithmetic;
`normalizeweightDouble` is the same function in double arithmetic. -/
def StdvNormalizer.normalizeweight (n : StdvNormalizer) (numFeatures : Nat)
    (inp out : List ℚ) : List ℚ :=
  let r := (List.range numFeatures).foldl
    (fun (st : List ℚ × ℚ) i =>
      (st.1.set i (inp.getD i 0 * n.stdv.getD i 0), n.avg.getD i 0 / n.stdv.getD i 0))
    (out, 0)
  r.1.set numFeatures (inp.getD numFeatures 0 + r.2)

/-- The linear score of a feature row: the sum of `w[j] * x[j]` over `j < F`, plus `w[F]`. -/
def linearScore (F : Nat) (w x : List ℚ) : ℚ :=
  (∑ j ∈ Finset.range F, w.getD j 0 * x.getD j 0) + w.getD F 0

/-! ## Q-values, merging and filling -/

/-- Modelled from the spec: the data handler as far as `fillFeatures` uses it, the holders
it hands out for a label and the size it reports for a label. -/
structure SetHandler where
  fillFeatures : Int → List ScoreHolder
  getSizeFromLabel : Int → Nat

/-- `Scores::fillFeatures`, lines 357-399. -/
def Scores.fillFeatures (env : Env) (s : Scores) (setHandler : SetHandler) :
    Scores × Option Exn :=
  let scores1 := setHandler.fillFeatures 1
  let scores2 := scores1 ++ setHandler.fillFeatures (-1)
  let targets := setHandler.getSizeFromLabel 1
  let decoys := setHandler.getSizeFromLabel (-1)
  let s1 : Scores :=
    { s with
      scores_ := scores2
      totalNumberOfTargets_ := targets
      totalNumberOfDecoys_ := decoys
      targetDecoySizeRatio_ := divDouble (targets : ℚ) (decoys : ℚ) }
  if targets = 0 ∧ env.noTerminate = false then (s1, some Exn.MyException)
  else if decoys = 0 ∧ env.noTerminate = false then (s1, some Exn.MyException)
  else (s1, none)

/-! ## Initial direction -/

/-- The options read by lines 492-497 and 582-613 of `Caller::parseOptions`: whether `-y`,
`-Y` and `-OI` are set, and the value of `-I` when it is set. -/
structure ModeOptions where
  y : Bool
  Y : Bool
  I : Option String
  OI : Bool

/-- The fields of a `Caller` that hold the statistical mode. -/
structure Caller where
  useMixMax_ : Bool
  targetDecoyCompetition_ : Bool
  inputSearchType_ : String

/-- The constructor `Caller::Caller`, lines 30-41. -/
def Caller.init : Caller :=
  { useMixMax_ := false, targetDecoyCompetition_ := false, inputSearchType_ := "auto" }

/-- The statements of `Caller::parseOptions` that touch the statistical mode, lines 492-497
and 582-613; `none` when `parseOptions` returns 0 there. -/
def Caller.parseOptionsMode (c : Caller) (cmd : ModeOptions) : Option Caller :=
  let c1 : Caller := if cmd.OI then { c with inputSearchType_ := "separate" } else c
  let c2 : Option Caller :=
    if cmd.y then
      if cmd.Y then none else some { c1 with useMixMax_ := true }
    else if cmd.Y then some { c1 with targetDecoyCompetition_ := true }
    else some c1
  match c2 with
  | none => none
  | some c3 =>
    match cmd.I with
    | none => some c3
    | some v =>
      let c4 : Caller := { c3 with inputSearchType_ := v }
      if v = "concatenated" then
        if c4.useMixMax_ then none
        else some { c4 with targetDecoyCompetition_ := false, useMixMax_ := false }
      else if v = "separate" then
        if !c4.targetDecoyCompetition_ then some { c4 with useMixMax_ := true } else some c4
      else if v ≠ "auto" then none
      else some c4

/-- The selection of the statistical mode in `Caller::run`, lines 860-897;
`concatenatedSearch` is the value of `pCheck_->concatenatedSearch()`. -/
def Caller.selectMode (c : Caller) (concatenatedSearch : Bool) : Caller :=
  if c.inputSearchType_ = "auto" then
    if concatenatedSearch then c
    else if c.targetDecoyCompetition_ then c
    else { c with useMixMax_ := true }
  else c

/-- The selection of the statistical mode followed by the assertion of line 898; `none` when
the assertion fails. -/
def Caller.runModeSelection (c : Caller) (concatenatedSearch : Bool) : Option Caller :=
  let c1 := c.selectMode concatenatedSearch
  if c1.useMixMax_ && c1.targetDecoyCompetition_ then none else some c1

/-! ## Fitting the standard-deviation normalizer -/

/-- The constructor `StdvNormalizer::StdvNormalizer`, lines 12-16. -/
def StdvNormalizer.init (numFeatures : Nat) : StdvNormalizer :=
  { avg := List.replicate numFeatures 0, stdv := List.replicate numFeatures 0 }

/-- `StdvNormalizer::setSet`, lines 48-84, in exact arithmetic; `setSetDouble` is the same
function in double arithmetic.  `set` lists the rows that `getNext` hands out, `sqrt` is the
square root of `math.h`. -/
def StdvNormalizer.setSet (sqrt : ℚ → ℚ) (numFeatures : Nat) (nz : StdvNormalizer)
    (set : List (List ℚ)) : StdvNormalizer :=
  let z : StdvNormalizer := (List.range numFeatures).foldl
    (fun (m : StdvNormalizer) ix => { avg := m.avg.set ix 0, stdv := m.stdv.set ix 0 }) nz
  let r1 : ℚ × List ℚ := set.foldl
    (fun (st : ℚ × List ℚ) features =>
      (st.1 + 1, (List.range numFeatures).foldl
        (fun (avg : List ℚ) ix => avg.set ix (avg.getD ix 0 + features.getD ix 0)) st.2))
    (0, z.avg)
  let n := r1.1
  let avg1 := (List.range numFeatures).foldl
    (fun (avg : List ℚ) ix => if n > 0 then avg.set ix (avg.getD ix 0 / n) else avg) r1.2
  let stdv1 := set.foldl
    (fun (stdv : List ℚ) features =>
      (List.range numFeatures).foldl
        (fun (sd : List ℚ) ix =>
          let d := features.getD ix 0 - avg1.getD ix 0
          sd.set ix (sd.getD ix 0 + d * d)) stdv)
    z.stdv
  let stdv2 := (List.range numFeatures).foldl
    (fun (sd : List ℚ) ix =>
      if sd.getD ix 0 ≤ 0 ∨ n = 0 then sd.set ix 1 else sd.set ix (sqrt (sd.getD ix 0 / n)))
    stdv1
  { avg := avg1, stdv := stdv2 }

/-! ## Specification notions and example data -/

/-- The holders that the loop of `weedOutRedundant` keeps: those whose (peptide, label) pair
differs from the pair of the holder kept last, `prevPep` and `prevLab` being that pair. -/
def keepNew (prevPep : String) (prevLab : Int) : List ScoreHolder → List ScoreHolder
  | [] => []
  | x :: t =>
    if x.pPSM.getPeptideSequence ≠ prevPep ∨ x.label ≠ prevLab then
      x :: keepNew x.pPSM.getPeptideSequence x.label t
    else keepNew prevPep prevLab t

/-- Equality of the (peptide, label) pair of two holders. -/
def samePeptideLabel (x y : ScoreHolder) : Bool :=
  decide (x.pPSM.getPeptideSequence = y.pPSM.getPeptideSequence) && decide (x.label = y.label)

/-- A PSM for the examples. -/
def examplePSM (scan : Nat) (expMass : ℚ) (charge : Int) (peptide : String)
    (features : List ℚ) : PSMDescription :=
  { id := "", scan := scan, expMass := expMass, calcMass := expMass, charge := charge,
    flankN := "-", peptideSequence := peptide, flankC := "-", proteinIds := [],
    features := features, retentionFeatures := none }

/-- A holder for the examples. -/
def exampleHolder (score q : ℚ) (label : Int) (psm : PSMDescription) : ScoreHolder :=
  { score := score, q := q, pep := 0, p := 0, label := label, pPSM := psm }

/-- An environment for the examples: one feature, no-terminate set, description-of-correct
off, a posterior estimator that never reports too good a separation. -/
def exampleEnv : Env :=
  { numFeatures := 1, noTerminate := true, calcDoc := false, getPValues := fun _ => [],
    checkSeparation := fun _ => false, estimatePi0 := fun _ => 1, totalNumRTFeatures := 0,
    normalizeRT := fun x _ => x, calcRegressionFeature := fun p => p,
    docSetFeatures := fun p => p, getQValues := fun _ c _ => c.map (fun _ => 0) }

/-- The scores of the decoys of a list of holders. -/
def decoyScores (l : List ScoreHolder) : List ℚ :=
  (l.filter ScoreHolder.isDecoy).map ScoreHolder.score

/-- The value `x` is a median of `vals`: it occurs in `vals`, at most half of the values are
smaller and at most half are larger. -/
def IsMedian (x : ℚ) (vals : List ℚ) : Prop :=
  x ∈ vals ∧ 2 * vals.countP (fun v => decide (v < x)) ≤ vals.length
    ∧ 2 * vals.countP (fun v => decide (x < v)) ≤ vals.length

/-- The FDR-cutoff score of a ranked list: the score of the lowest-ranked holder with
`q < fdr`. -/
def fdrCutoffScore (fdr : ℚ) (l : List ScoreHolder) : Option ℚ :=
  (l.filter (fun sh => decide (sh.q < fdr))).getLast?.map ScoreHolder.score

/-- A Score Set in descending order with one target and three decoys. -/
def normalizeExample : Scores :=
  { scores_ := [exampleHolder 5 0 1 (examplePSM 1 100 2 "A" [5]),
                exampleHolder 3 1 (-1) (examplePSM 2 100 2 "B" [3]),
                exampleHolder 2 1 (-1) (examplePSM 3 100 2 "C" [2]),
                exampleHolder 1 1 (-1) (examplePSM 4 100 2 "D" [1])],
    totalNumberOfDecoys_ := 3, totalNumberOfTargets_ := 1, targetDecoySizeRatio_ := some (1 / 3),
    pi0_ := 1, usePi0_ := false, peptidePsmMap_ := [] }

/-- A target holder that carries score 1, with the feature row (2). -/
def scoreExample : ScoreHolder := exampleHolder 1 0 1 (examplePSM 1 100 2 "A" [2])

/-- A normalizer for one feature with mean 1 and standard deviation 2. -/
def stdvExample : StdvNormalizer := { avg := [1], stdv := [2] }

/-- The (scan, expMass, charge) tuple of a holder, in lexicographic order. -/
def tdcGroup (x : ScoreHolder) : Nat ×ₗ ℚ ×ₗ Int :=
  toLex (x.pPSM.scan, toLex (x.pPSM.expMass, x.pPSM.charge))

/-- The (peptide, label) pair of a holder, in lexicographic order. -/
def peptideGroup (x : ScoreHolder) : String ×ₗ Int :=
  toLex (x.pPSM.getPeptideSequence, x.label)

/-- The invariant of the distribution loop of `createXvalSetsBySpectrum` after the holders
`done` have been placed and `restLen` are left. -/
structure XvalInv (k : Nat) (st : XvalState) (done : List ScoreHolder) (restLen : Nat) :
    Prop where
  lenTrain : st.train.length = k
  lenTest : st.test.length = k
  part : ∀ (i : Nat) (r t : Scores), st.train[i]? = some r → st.test[i]? = some t →
    (r.scores_ ++ t.scores_).Perm done
  placed : ∀ h ∈ done, ∃ (i : Nat) (t : Scores), st.test[i]? = some t ∧ h ∈ t.scores_
  sameScan : ∀ (i j : Nat) (ta tb : Scores), st.test[i]? = some ta → st.test[j]? = some tb →
    ∀ a ∈ ta.scores_, ∀ b ∈ tb.scores_, a.pPSM.scan = b.pPSM.scan → i = j
  apart : ∀ (i : Nat) (r t : Scores), st.train[i]? = some r → st.test[i]? = some t →
    ∀ a ∈ t.scores_, ∀ b ∈ r.scores_, a.pPSM.scan ≠ b.pPSM.scan
  bound : ∀ h ∈ done, h.pPSM.scan ≤ st.previousSpectrum
  current : ∀ h ∈ done, h.pPSM.scan = st.previousSpectrum →
    (∀ (i : Nat) (t : Scores), st.test[i]? = some t → i ≠ st.randIndex → h ∉ t.scores_)
    ∧ (∀ r : Scores, st.train[st.randIndex]? = some r → h ∉ r.scores_)
  idx : st.randIndex < k
  lenRemain : st.remain.length = k
  quota : st.remain.sum = (restLen : Int)

/-- The stream `rand` hits every fold index within any `B` consecutive draws. -/
def FairDraws (rand : Nat → Nat) (k B : Nat) : Prop :=
  ∀ pos i, i < k → ∃ j, j < B ∧ rand (pos + j) % k = i

/-- The holders of fold `i` of a vector of Score Sets. -/
def foldScores (v : List Scores) (i : Nat) : List ScoreHolder :=
  match v[i]? with
  | some t => t.scores_
  | none => []

/-- The three holders of the tied-scores scenario: score 1, label `+1`, and (scan, expMass)
equal to (5, 100), (5, 101) and (7, 100). -/
def tiedExample : List ScoreHolder :=
  [exampleHolder 1 0 1 (examplePSM 5 100 2 "A" []),
   exampleHolder 1 0 1 (examplePSM 5 101 2 "B" []),
   exampleHolder 1 0 1 (examplePSM 7 100 2 "C" [])]

/-- A Score Set holding the three holders of the tied-scores scenario. -/
def tiedScores : Scores := { Scores.init false with scores_ := tiedExample }

/-- A Score Set with one target and no decoy. -/
def noDecoyExample : Scores :=
  { Scores.init false with scores_ := [exampleHolder 1 0 1 (examplePSM 1 100 2 "A" [1])] }

/-- A data handler that hands out one target and no decoy. -/
def noDecoyHandler : SetHandler :=
  { fillFeatures := fun label =>
      if label = 1 then [exampleHolder 1 0 1 (examplePSM 1 100 2 "A" [1])] else []
    getSizeFromLabel := fun label => if label = 1 then 1 else 0 }

/-- The ratio of the data model: the number of targets over the larger of 1 and the number of
decoys. -/
def specRatio (targets decoys : Nat) : ℚ := (targets : ℚ) / max 1 (decoys : ℚ)

/-- The two statistical modes. -/
inductive StatMode where
  | mixMax
  | tdc
deriving DecidableEq

/-- The statistical mode in effect after the selection step: mix-max when `useMixMax_` is
set; target-decoy competition when mix-max is not set and the competition is either carried
out on the Percolator scores (`targetDecoyCompetition_`) or was part of the concatenated
search that produced the input. -/
def effectiveMode (c : Caller) (concatenatedSearch : Bool) : Option StatMode :=
  if c.useMixMax_ then
    if c.targetDecoyCompetition_ then none else some StatMode.mixMax
  else if c.targetDecoyCompetition_ || concatenatedSearch then some StatMode.tdc
  else none

/-- The options with `-I` and `-OI` not given. -/
def autoOptions (y Y : Bool) : ModeOptions := { y := y, Y := Y, I := none, OI := false }

/-- The sum of the `j`-th values of the rows. -/
def columnSum (set : List (List ℚ)) (j : Nat) : ℚ :=
  (set.map (fun row => row.getD j 0)).sum

/-- The sum over the rows of the squared deviation of the `j`-th value from `m`. -/
def sumSquaredDeviations (set : List (List ℚ)) (j : Nat) (m : ℚ) : ℚ :=
  (set.map (fun row => (row.getD j 0 - m) * (row.getD j 0 - m))).sum

/-- The entry `peptidePsmMap_[key]` as it is read: the list stored under `key`, the empty
list when the map has no such key. -/
def PsmMap.psmsOf (m : PsmMap) (key : PSMDescription) : List PSMDescription :=
  match m.find? (fun e => decide (e.1 = key)) with
  | some e => e.2
  | none => []

/-- The pairs (representative, member) that the loop of `weedOutRedundant` records for the
holders still to visit: `rep` is the holder written last, `prevPep` and `prevLab` are its
peptide and label. -/
def weedPairs (rep : ScoreHolder) (prevPep : String) (prevLab : Int) :
    List ScoreHolder → List (ScoreHolder × ScoreHolder)
  | [] => []
  | x :: t =>
    if x.pPSM.getPeptideSequence ≠ prevPep ∨ x.label ≠ prevLab then
      (x, x) :: weedPairs x x.pPSM.getPeptideSequence x.label t
    else (rep, x) :: weedPairs rep prevPep prevLab t

/-- The map after recording the pairs of `weedPairs`. -/
def recordPairs (m : PsmMap) (pairs : List (ScoreHolder × ScoreHolder)) : PsmMap :=
  (pairs.map (fun p => (p.1.pPSM, p.2.pPSM))).foldl (fun m p => PsmMap.pushBack m p.1 p.2) m

/-- Two holders with the same peptide and label, and a third with another peptide. -/
def peptideExample : Scores :=
  { Scores.init false with
    scores_ := [exampleHolder 1 0 1 (examplePSM 1 100 2 "A" [1]),
                exampleHolder 2 0 1 (examplePSM 2 100 2 "A" [2]),
                exampleHolder 3 0 1 (examplePSM 3 100 2 "B" [3])] }

/-- Three holders of one scan. -/
def sameScanExample : Scores :=
  { Scores.init false with
    scores_ := [exampleHolder 1 0 1 (examplePSM 5 100 2 "A" [1]),
                exampleHolder 2 0 1 (examplePSM 5 101 2 "B" [2]),
                exampleHolder 3 0 (-1) (examplePSM 5 102 2 "C" [3])] }

/-- The sizes of the test folds against the quotas `q` while `restLen` holders are left: a
fold holds its quota less what remains of it, the remainders add up to the holders left, and a
remainder below zero is `-1` on a fold with quota zero. -/
def XvalSizes (k : Nat) (q : List Int) (st : XvalState) (restLen : Nat) : Prop :=
  st.test.length = k ∧ st.remain.length = k
  ∧ st.remain.sum = (restLen : Int)
  ∧ (∀ i, i < k → ((foldScores st.test i).length : Int) + st.remain.getD i 0 = q.getD i 0)
  ∧ (∀ i, i < k → 0 ≤ st.remain.getD i 0 ∨ (st.remain.getD i 0 = -1 ∧ q.getD i 0 = 0))

/-- The map that `normalizeScores` applies to every holder: `fdrScore` is subtracted from the
score and, when `diff` is positive, the result is divided by `diff`. -/
def rescale (fdrScore diff : ℚ) (sh : ScoreHolder) : ScoreHolder :=
  { sh with score := if diff > 0 then (sh.score - fdrScore) / diff else sh.score - fdrScore }

/-- The command line as `Caller::parseOptions` queries it after `cmd.parseArgs`: whether
`-U`, `-A`, `-e`, `--stdinput`, `-y` and `-Y` are set, the values of `-k`, `-OI`, `-j`, `-N`
and `-I` when they are set, the value stored for `-OL`, and the positional arguments. -/
structure CommandLine where
  U : Bool
  A : Bool
  k : Option String
  OI : Option String
  OL : String
  e : Bool
  j : Option String
  stdinput : Bool
  N : Option Nat
  y : Bool
  Y : Bool
  I : Option String
  arguments : List String

/-- A command line with no option and no positional argument. -/
def CommandLine.empty : CommandLine :=
  { U := false, A := false, k := none, OI := none, OL := "", e := false, j := none,
    stdinput := false, N := none, y := false, Y := false, I := none, arguments := [] }

/-- The options of the command line that touch the statistical mode. -/
def CommandLine.modeOptions (cmd : CommandLine) : ModeOptions :=
  { y := cmd.y, Y := cmd.Y, I := cmd.I, OI := cmd.OI.isSome }

/-- The fields of a `Caller` that describe the input and the size of the training subset. -/
structure CallerInput where
  tabInput_ : Bool
  oswInput_ : Bool
  oswLevel_ : String
  readStdIn_ : Bool
  inputFN_ : String
  reportUniquePeptides_ : Bool
  maxPSMs_ : Nat

/-- The constructor `Caller::Caller`, lines 30-41, on the input fields. -/
def CallerInput.init : CallerInput :=
  { tabInput_ := true, oswInput_ := true, oswLevel_ := "MS2", readStdIn_ := false,
    inputFN_ := "", reportUniquePeptides_ := true, maxPSMs_ := 0 }

/-- The statements of `Caller::parseOptions` on the input fields up to the handling of the
positional arguments: `-U` (line 382), `-k`, `-OI`, `-e`, `-j` and `--stdinput` (lines
487-515) and `-N` (lines 563-565). -/
def Caller.parseOptionsInput (cmd : CommandLine) : CallerInput :=
  let i0 : CallerInput := CallerInput.init
  let i1 : CallerInput := if cmd.U then { i0 with reportUniquePeptides_ := false } else i0
  let i2 : CallerInput :=
    match cmd.k with
    | some fn => { i1 with tabInput_ := false, inputFN_ := fn }
    | none => i1
  let i3 : CallerInput :=
    match cmd.OI with
    | some fn =>
      { i2 with tabInput_ := false, oswInput_ := true, reportUniquePeptides_ := false,
                inputFN_ := fn, oswLevel_ := cmd.OL }
    | none => i2
  let i4 : CallerInput := if cmd.e then { i3 with readStdIn_ := true, tabInput_ := false } else i3
  let i5 : CallerInput :=
    match cmd.j with
    | some fn => { i4 with tabInput_ := true, inputFN_ := fn }
    | none => i4
  let i6 : CallerInput :=
    if cmd.stdinput then { i5 with readStdIn_ := true, tabInput_ := true } else i5
  match cmd.N with
  | some n => { i6 with maxPSMs_ := n }
  | none => i6

/-- `Caller::parseOptions`, lines 374-381 and 486-644, on the fields of the statistical mode
and of the input; `none` when it returns 0.  The statements on the input fields before the
positional arguments are those of `parseOptionsInput`, the statements on the mode those of
`parseOptionsMode`. -/
def Caller.parseOptions (cmd : CommandLine) : Option (Caller × CallerInput) :=
  if cmd.U && cmd.A then none
  else
    let i7 : CallerInput := Caller.parseOptionsInput cmd
    match Caller.init.parseOptionsMode cmd.modeOptions with
    | none => none
    | some c =>
      if cmd.arguments.length = 0 ∧ cmd.j.isSome = false ∧ cmd.k.isSome = false
          ∧ cmd.e = false ∧ cmd.OI.isSome = false ∧ cmd.stdinput = false then none
      else
        let i8 : CallerInput :=
          if cmd.arguments.length = 1 then
            { i7 with tabInput_ := true, inputFN_ := cmd.arguments.headD "" }
          else i7
        if cmd.arguments.length = 1 ∧ (cmd.k.isSome = true ∨ cmd.j.isSome = true) then none
        else if cmd.arguments.length = 1 ∧ (cmd.e = true ∨ cmd.stdinput = true) then none
        else if cmd.arguments.length > 1 then none
        else some (c, i8)

/-- The readers that `Caller::run` can call on the input. -/
inductive Reader where
  | readTab
  | readOSW
  | readPin
  | readAndScoreTab
  | readAndScorePin
deriving DecidableEq

/-- The two ways in which `calculatePSMProb` writes the results. -/
inductive Writer where
  | reportOSW
  | print
deriving DecidableEq

/-- The reader with which `Caller::run` reads the input, lines 822-837. -/
def CallerInput.inputReader (i : CallerInput) : Reader :=
  if i.tabInput_ then Reader.readTab
  else if i.oswInput_ then Reader.readOSW
  else Reader.readPin

/-- The size of the training subset that `Caller::run` hands to the set handler, lines
808-821: reading from standard input switches the subset off. -/
def CallerInput.subsetSize (i : CallerInput) : Nat :=
  if i.readStdIn_ = false then i.maxPSMs_
  else if i.maxPSMs_ > 0 then 0
  else i.maxPSMs_

/-- The readers called by the re-score phase of `Caller::run`, lines 953-970, in the order of
the calls; the phase is entered when the set handler has a positive subset size. -/
def CallerInput.rescoreReaders (i : CallerInput) : List Reader :=
  if i.subsetSize > 0 then
    (if i.tabInput_ then [Reader.readAndScoreTab] else [])
      ++ (if i.oswInput_ then [Reader.readAndScoreTab] else [Reader.readAndScorePin])
  else []

/-- The writer through which `calculatePSMProb` gives out the results, lines 719-732. -/
def CallerInput.resultWriter (i : CallerInput) : Writer :=
  if i.oswInput_ then Writer.reportOSW else Writer.print

/-- The conditions under which the claim lets `parseOptions` fail. -/
def parseFailure (cmd : CommandLine) : Prop :=
  (cmd.y = true ∧ cmd.Y = true)
  ∨ (cmd.U = true ∧ cmd.A = true)
  ∨ (cmd.I = some "concatenated" ∧ cmd.y = true)
  ∨ (∃ v, cmd.I = some v ∧ v ≠ "auto" ∧ v ≠ "concatenated" ∧ v ≠ "separate")
  ∨ (cmd.arguments.length = 0 ∧ cmd.j = none ∧ cmd.k = none ∧ cmd.e = false
      ∧ cmd.OI = none ∧ cmd.stdinput = false)
  ∨ (cmd.arguments.length = 1
      ∧ (cmd.k ≠ none ∨ cmd.j ≠ none ∨ cmd.e = true ∨ cmd.stdinput = true))
  ∨ 1 < cmd.arguments.length

/-- The command line `percolator pin.tsv`. -/
def tabCommand : CommandLine := { CommandLine.empty with arguments := ["pin.tsv"] }

/-- The command line `percolator -k pin.xml`. -/
def xmlCommand : CommandLine := { CommandLine.empty with k := some "pin.xml" }

/-- The command line `percolator -N 100 pin.tsv`. -/
def subsetCommand : CommandLine :=
  { CommandLine.empty with N := some 100, arguments := ["pin.tsv"] }

/-- Modelled from the spec: the SVM input `AlgIn` as far as the generators of the training
set use it: the arrays `vals` (the feature row of every example), `Y` (its label) and `C`
(its cost), allocated with a fixed number of entries, and the counts `m`, `positives` and
`negatives`. -/
structure AlgIn where
  vals : List (List ℚ)
  Y : List ℚ
  C : List ℚ
  m : Nat
  positives : Nat
  negatives : Nat

/-- The loop of `Scores::generateNegativeTrainingSet`, lines 615-621, from the index `ix2`;
`none` when it writes past the end of an array. -/
def negativeLoop (cneg : ℚ) : List ScoreHolder → AlgIn → Nat → Option (AlgIn × Nat)
  | [], data, ix2 => some (data, ix2)
  | sh :: rest, data, ix2 =>
    if sh.isDecoy then
      if ix2 < data.vals.length ∧ ix2 < data.Y.length ∧ ix2 < data.C.length then
        negativeLoop cneg rest
          { data with vals := data.vals.set ix2 sh.pPSM.features, Y := data.Y.set ix2 (-1),
                      C := data.C.set ix2 cneg } (ix2 + 1)
      else none
    else negativeLoop cneg rest data ix2

/-- `Scores::generateNegativeTrainingSet`, lines 612-623. -/
def Scores.generateNegativeTrainingSet (s : Scores) (data : AlgIn) (cneg : ℚ) : Option AlgIn :=
  match negativeLoop cneg s.scores_ data 0 with
  | none => none
  | some (d, ix2) => some { d with negatives := ix2 }

/-- The loop of `Scores::generatePositiveTrainingSet`, lines 628-639, from the index `ix2`
and the count `p`: it ends at the first target with `q > fdr`; `none` when it writes past the
end of an array. -/
def positiveLoop (fdr cpos : ℚ) : List ScoreHolder → AlgIn → Nat → Nat →
    Option (AlgIn × Nat × Nat)
  | [], data, ix2, p => some (data, ix2, p)
  | sh :: rest, data, ix2, p =>
    if sh.isTarget then
      if sh.q > fdr then some (data, ix2, p)
      else if ix2 < data.vals.length ∧ ix2 < data.Y.length ∧ ix2 < data.C.length then
        positiveLoop fdr cpos rest
          { data with vals := data.vals.set ix2 sh.pPSM.features, Y := data.Y.set ix2 1,
                      C := data.C.set ix2 cpos } (ix2 + 1) (p + 1)
      else none
    else positiveLoop fdr cpos rest data ix2 p

/-- `Scores::generatePositiveTrainingSet`, lines 625-642. -/
def Scores.generatePositiveTrainingSet (s : Scores) (data : AlgIn) (fdr cpos : ℚ) :
    Option AlgIn :=
  match positiveLoop fdr cpos s.scores_ data data.negatives 0 with
  | none => none
  | some (d, ix2, p) => some { d with positives := p, m := ix2 }

/-- The holders that the loop of `generatePositiveTrainingSet` writes: the targets before the
first target with `q > fdr`. -/
def selectedUntilBreak (fdr : ℚ) : List ScoreHolder → List ScoreHolder
  | [] => []
  | sh :: rest =>
    if sh.isTarget then
      if sh.q > fdr then [] else sh :: selectedUntilBreak fdr rest
    else selectedUntilBreak fdr rest

/-- The targets with `q ≤ fdr`. -/
def targetsWithin (fdr : ℚ) (l : List ScoreHolder) : List ScoreHolder :=
  l.filter (fun sh => sh.isTarget && decide (sh.q ≤ fdr))

/-- The targets with `q < fdr`. -/
def targetsBelow (fdr : ℚ) (l : List ScoreHolder) : List ScoreHolder :=
  l.filter (fun sh => sh.isTarget && decide (sh.q < fdr))

/-- A Score Set with one target whose q-value is 1. -/
def boundaryExample : Scores :=
  { Scores.init false with
    scores_ := [exampleHolder 1 1 1 (examplePSM 1 100 2 "A" [1])],
    totalNumberOfTargets_ := 1 }

/-- An SVM input with room for one example and no negatives. -/
def boundaryData : AlgIn :=
  { vals := [[]], Y := [0], C := [0], m := 0, positives := 0, negatives := 0 }

/-- A holder as the reorder pass sees it: its label and its PSM.  PSMs are named by numbers,
since the pass writes to the `features` pointer of the PSM object that a holder points to. -/
structure RowHolder where
  label : Int
  pPSM : Nat
deriving DecidableEq

/-- `ScoreHolder::isTarget` on a holder of the reorder pass. -/
def RowHolder.isTarget (sh : RowHolder) : Bool := sh.label == 1

/-- The state that the reorder pass works on: the rows of the feature pool, a row being the
`numFeatures` doubles of one PSM and an address being the index of a row; the row that the
`features` pointer of every PSM addresses; the map `movedAddresses`; and the running index
`idx`. -/
structure PoolState where
  rows : List (List ℚ)
  features : Nat → Nat
  movedAddresses : Nat → Option Nat
  idx : Nat

/-- The loop `while (movedAddresses.find(oldAddress) != movedAddresses.end())
oldAddress = movedAddresses[oldAddress]` of lines 503-505; `fuel` bounds the number of
look-ups. -/
def followMoved (moved : Nat → Option Nat) : Nat → Nat → Option Nat
  | 0, _ => none
  | fuel + 1, oldAddress =>
    match moved oldAddress with
    | some next => followMoved moved fuel next
    | none => some oldAddress

/-- The body of the loop of `Scores::reorderFeatureRows`, lines 501-510, for the PSM of a
holder of the wanted class.  `swap_ranges` over `numFeatures` doubles exchanges the two rows;
`none` when an address is outside the pool or the look-up runs out of fuel. -/
def reorderStep (fuel : Nat) (st : PoolState) (psm : Nat) : Option PoolState :=
  let newAddress := st.idx
  match followMoved st.movedAddresses fuel (st.features psm) with
  | none => none
  | some oldAddress =>
    match st.rows[oldAddress]?, st.rows[newAddress]? with
    | some oldRow, some newRow =>
      some
        { rows := (st.rows.set oldAddress newRow).set newAddress oldRow
          features := fun p => if p = psm then newAddress else st.features p
          movedAddresses :=
            if oldAddress ≠ newAddress then
              fun a => if a = newAddress then some oldAddress else st.movedAddresses a
            else st.movedAddresses
          idx := st.idx + 1 }
    | _, _ => none

/-- `Scores::reorderFeatureRows`, lines 495-513, over the holders of one Score Set. -/
def reorderFeatureRows (fuel : Nat) : List RowHolder → Bool → PoolState → Option PoolState
  | [], _, st => some st
  | sh :: rest, isTarget, st =>
    if sh.isTarget = isTarget then
      match reorderStep fuel st sh.pPSM with
      | none => none
      | some st1 => reorderFeatureRows fuel rest isTarget st1
    else reorderFeatureRows fuel rest isTarget st

/-- The closing pass of `createXvalSetsBySpectrum`, lines 471-478, over the test folds: for
every fold first its targets, then its other holders. -/
def reorderPass (fuel : Nat) : List (List RowHolder) → PoolState → Option PoolState
  | [], st => some st
  | fold :: rest, st =>
    match reorderFeatureRows fuel fold true st with
    | none => none
    | some st1 =>
      match reorderFeatureRows fuel fold false st1 with
      | none => none
      | some st2 => reorderPass fuel rest st2

/-- The PSMs of a fold in the order in which the pass visits them. -/
def foldOrder (fold : List RowHolder) : List Nat :=
  ((fold.filter (fun sh => sh.isTarget)).map (fun sh => sh.pPSM))
    ++ ((fold.filter (fun sh => !sh.isTarget)).map (fun sh => sh.pPSM))

/-- The PSMs of all test folds in the order in which the pass visits them. -/
def processingOrder : List (List RowHolder) → List Nat
  | [] => []
  | fold :: rest => foldOrder fold ++ processingOrder rest

/-- The body of the loop applied to a list of PSMs in turn. -/
def reorderSteps (fuel : Nat) : List Nat → PoolState → Option PoolState
  | [], st => some st
  | psm :: rest, st =>
    match reorderStep fuel st psm with
    | none => none
    | some st1 => reorderSteps fuel rest st1

/-- The look-up of line 503 started at `x` ends at `r`. -/
inductive MovedTo (moved : Nat → Option Nat) : Nat → Nat → Prop where
  | stop (r : Nat) : moved r = none → MovedTo moved r r
  | step (x y r : Nat) : moved x = some y → MovedTo moved y r → MovedTo moved x r

/-- The state of the pass after the PSMs `done` have been visited and before the PSMs `rest`
are: `rows0` and `h0` are the rows and the handles before the pass.  A visited PSM has the
handle of its position and finds its row there; a waiting PSM has its handle of old, and the
look-up from it ends at a row not yet assigned that holds its row; no two waiting PSMs end at
the same row; the keys of `movedAddresses` are assigned rows and the values lie above their
keys. -/
structure PoolInv (rows0 : List (List ℚ)) (h0 : Nat → Nat) (done rest : List Nat)
    (st : PoolState) : Prop where
  idx : st.idx = done.length
  len : st.rows.length = rows0.length
  placed : ∀ j p, done[j]? = some p → st.features p = j ∧ st.rows[j]? = rows0[h0 p]?
  waiting : ∀ p ∈ rest, st.features p = h0 p
    ∧ ∃ r, MovedTo st.movedAddresses (h0 p) r ∧ done.length ≤ r ∧ r < rows0.length
        ∧ st.rows[r]? = rows0[h0 p]?
  apart : ∀ p ∈ rest, ∀ p2 ∈ rest, ∀ r, MovedTo st.movedAddresses (h0 p) r →
    MovedTo st.movedAddresses (h0 p2) r → p = p2
  keys : ∀ a b, st.movedAddresses a = some b → a < done.length ∧ a < b

/-- Two test folds over the PSMs 0, 1 and 2: a target and a decoy, and a target. -/
def poolExample : List (List RowHolder) :=
  [[{ label := -1, pPSM := 1 }, { label := 1, pPSM := 0 }], [{ label := 1, pPSM := 2 }]]

/-- Handles for the example: PSM 0 holds row 1, PSM 1 row 0 and PSM 2 row 2. -/
def poolHandles (p : Nat) : Nat := if p = 0 then 1 else if p = 1 then 0 else p

/-! ## Double arithmetic -/

/-- Rounding of a rational to the nearest integer, a tie going to the even neighbour. -/
def roundHalfEven (x : ℚ) : ℤ :=
  if x - ⌊x⌋ < 1 / 2 then ⌊x⌋
  else if 1 / 2 < x - ⌊x⌋ then ⌊x⌋ + 1
  else if ⌊x⌋ % 2 = 0 then ⌊x⌋ else ⌊x⌋ + 1

/-- The binary exponent of the spacing of the doubles around `x`: 52 below the binary exponent
of `x` in the normal range, and `-1074` throughout the subnormal range. -/
def quantumExp (x : ℚ) : ℤ := max (Int.log 2 |x|) (-1022) - 52

/-- The multiple of the spacing `2 ^ quantumExp x` nearest to `x`, a tie going to the even
multiple: the IEEE 754 rounding of `x` to binary64 with the exponent unbounded above. -/
def roundNearest (x : ℚ) : ℚ := (roundHalfEven (x / 2 ^ quantumExp x) : ℚ) * 2 ^ quantumExp x

/-- IEEE 754 rounding of an exact result to `double` (binary64, round to nearest, ties to
even, subnormals included).  The result is `none` when the rounded value is not finite, that
is on overflow. -/
def roundDouble (x : ℚ) : Option ℚ :=
  if |roundNearest x| < 2 ^ (1024 : ℤ) then some (roundNearest x) else none

/-- The rational `x` is a finite double: rounding leaves it as it is. -/
def isDouble (x : ℚ) : Prop := roundDouble x = some x

/-- The `+` of `double`: the exact sum, rounded; `none` stands for a result that is not a
finite double. -/
def dadd (a b : ℚ) : Option ℚ := roundDouble (a + b)

/-- The `-` of `double`: the exact difference, rounded. -/
def dsub (a b : ℚ) : Option ℚ := roundDouble (a - b)

/-- The `*` of `double`: the exact product, rounded. -/
def dmul (a b : ℚ) : Option ℚ := roundDouble (a * b)

/-- The `/` of `double`: the exact quotient, rounded; a zero divisor gives an infinity or NaN,
which is `none`. -/
def ddiv (a b : ℚ) : Option ℚ := if b = 0 then none else roundDouble (a / b)

/-- The body of the second loop of `Scores::normalizeScores`, lines 540-543, in double
arithmetic: `score -= fdrScore` and, when `diff > 0.0`, `score /= diff`, each rounded. -/
def rescaleDouble (fdrScore diff : ℚ) (sh : ScoreHolder) : Option ScoreHolder := do
  let score1 ← dsub sh.score fdrScore
  if diff > 0 then
    let score2 ← ddiv score1 diff
    pure { sh with score := score2 }
  else pure { sh with score := score1 }

/-- The second loop of `Scores::normalizeScores`, lines 539-544, in double arithmetic. -/
def rescaleLoopDouble (fdrScore diff : ℚ) : List ScoreHolder → Option (List ScoreHolder)
  | [] => pure []
  | sh :: rest => do
    let sh1 ← rescaleDouble fdrScore diff sh
    let rest1 ← rescaleLoopDouble fdrScore diff rest
    pure (sh1 :: rest1)

/-- `Scores::normalizeScores`, lines 515-545, in double arithmetic: the addition, the
subtractions and the divisions of the source are rounded to `double`.  The result is `none`
on an empty Score Set, where the source dereferences `begin()`, and when an operation leaves
the finite doubles. -/
def Scores.normalizeScoresDouble (s : Scores) (fdr : ℚ) : Option Scores :=
  match s.scores_ with
  | [] => none
  | first :: _ => do
    let medianIndex := max 0 (s.totalNumberOfDecoys_ / 2)
    let fdrScore0 := first.score
    let medianDecoyScore0 ← dadd fdrScore0 1
    let r := normalizeScoresScan fdr medianIndex s.scores_ 0 fdrScore0 medianDecoyScore0
    let fdrScore := r.1
    let medianDecoyScore := r.2
    let diff ← dsub fdrScore medianDecoyScore
    let scores1 ← rescaleLoopDouble fdrScore diff s.scores_
    pure { s with scores_ := scores1 }

/-- A Score Set in descending order: a target of score 1 with q-value 0, two targets of
scores `2 ^ -60` and `2 ^ -61`, and two decoys of scores -1 and -2. -/
def collapseExample : Scores :=
  { scores_ := [exampleHolder 1 0 1 (examplePSM 1 100 2 "A" [1]),
                exampleHolder (1 / 2 ^ 60) 1 1 (examplePSM 2 100 2 "B" [1]),
                exampleHolder (1 / 2 ^ 61) 1 1 (examplePSM 3 100 2 "C" [1]),
                exampleHolder (-1) 1 (-1) (examplePSM 4 100 2 "D" [1]),
                exampleHolder (-2) 1 (-1) (examplePSM 5 100 2 "E" [1])],
    totalNumberOfDecoys_ := 2, totalNumberOfTargets_ := 3, targetDecoySizeRatio_ := some (3 / 2),
    pi0_ := 1, usePi0_ := false, peptidePsmMap_ := [] }

/-- The Score Set that `normalizeScores` makes of `collapseExample` in double arithmetic. -/
def collapseResult : Scores :=
  { scores_ := [exampleHolder 0 0 1 (examplePSM 1 100 2 "A" [1]),
                exampleHolder (-1 / 2) 1 1 (examplePSM 2 100 2 "B" [1]),
                exampleHolder (-1 / 2) 1 1 (examplePSM 3 100 2 "C" [1]),
                exampleHolder (-1) 1 (-1) (examplePSM 4 100 2 "D" [1]),
                exampleHolder (-3 / 2) 1 (-1) (examplePSM 5 100 2 "E" [1])],
    totalNumberOfDecoys_ := 2, totalNumberOfTargets_ := 3, targetDecoySizeRatio_ := some (3 / 2),
    pi0_ := 1, usePi0_ := false, peptidePsmMap_ := [] }

/-- `StdvNormalizer::unnormalizeweight`, lines 28-36, in double arithmetic: the quotients of
lines 32 and 33 and the difference of line 35 are rounded to `double`.  The result is `none`
when an operation leaves the finite doubles. -/
def StdvNormalizer.unnormalizeweightDouble (n : StdvNormalizer) (numFeatures : Nat)
    (inp out : List ℚ) : Option (List ℚ) := do
  let r ← (List.range numFeatures).foldlM
    (fun (st : List ℚ × ℚ) i => do
      let o ← ddiv (inp.getD i 0) (n.stdv.getD i 0)
      let sum ← ddiv (n.avg.getD i 0) (n.stdv.getD i 0)
      pure (st.1.set i o, sum))
    (out, 0)
  let o ← dsub (inp.getD numFeatures 0) r.2
  pure (r.1.set numFeatures o)

/-- `StdvNormalizer::normalizeweight`, lines 38-46, in double arithmetic: the product of line
42, the quotient of line 43 and the sum of line 45 are rounded to `double`.  The result is
`none` when an operation leaves the finite doubles. -/
def StdvNormalizer.normalizeweightDouble (n : StdvNormalizer) (numFeatures : Nat)
    (inp out : List ℚ) : Option (List ℚ) := do
  let r ← (List.range numFeatures).foldlM
    (fun (st : List ℚ × ℚ) i => do
      let o ← dmul (inp.getD i 0) (n.stdv.getD i 0)
      let sum ← ddiv (n.avg.getD i 0) (n.stdv.getD i 0)
      pure (st.1.set i o, sum))
    (out, 0)
  let o ← dadd (inp.getD numFeatures 0) r.2
  pure (r.1.set numFeatures o)

/-- A normalizer for one feature with mean 1 and standard deviation 49. -/
def stdvExample49 : StdvNormalizer := { avg := [1], stdv := [49] }

/-- The `sqrt` of `math.h` on a finite double, correctly rounded as IEEE 754 requires: with
`q` the exponent of the spacing of the doubles around the root and `f` the integer part of
the root in units of `2 ^ q`, the root is rounded up when it lies above `f + 1/2`, a tie going
to the even neighbour.  A negative argument gives NaN, which is `none`. -/
def sqrtDouble (x : ℚ) : Option ℚ :=
  if x < 0 then none
  else
    let q : ℤ := max (Int.log 2 x / 2) (-1022) - 52
    let y : ℚ := x / 4 ^ q
    let f : ℕ := Nat.sqrt ⌊y⌋₊
    let h : ℚ := ((f : ℚ) + 1 / 2) ^ 2
    let m : ℕ := if y < h then f else if h < y then f + 1 else if f % 2 = 0 then f else f + 1
    some ((m : ℚ) * 2 ^ q)

/-- `StdvNormalizer::normalize`, lines 22-26, in double arithmetic.  The result is `none` when
an operation leaves the finite doubles, in particular when `stdv[ix]` is zero. -/
def StdvNormalizer.normalizeDouble (n : StdvNormalizer) (numFeatures : Nat) (inp out : List ℚ) :
    Option (List ℚ) :=
  (List.range numFeatures).foldlM
    (fun (o : List ℚ) ix => do
      let d ← dsub (inp.getD ix 0) (n.avg.getD ix 0)
      let v ← ddiv d (n.stdv.getD ix 0)
      pure (o.set ix v)) out

/-- `StdvNormalizer::setSet`, lines 48-84, in double arithmetic: the counter `n`, the sums,
the mean, the deviations, their squares and the quotient under the root are rounded to
`double`, and `sqrt` is `sqrtDouble`.  `set` lists the rows that `getNext` hands out.  The
result is `none` when an operation leaves the finite doubles. -/
def StdvNormalizer.setSetDouble (numFeatures : Nat) (nz : StdvNormalizer)
    (set : List (List ℚ)) : Option StdvNormalizer := do
  let z : StdvNormalizer := (List.range numFeatures).foldl
    (fun (m : StdvNormalizer) ix => { avg := m.avg.set ix 0, stdv := m.stdv.set ix 0 }) nz
  let r1 ← set.foldlM
    (fun (st : ℚ × List ℚ) features => do
      let n ← dadd st.1 1
      let avg ← (List.range numFeatures).foldlM
        (fun (avg : List ℚ) ix => do
          let a ← dadd (avg.getD ix 0) (features.getD ix 0)
          pure (avg.set ix a)) st.2
      pure (n, avg))
    (0, z.avg)
  let n := r1.1
  let avg1 ← (List.range numFeatures).foldlM
    (fun (avg : List ℚ) ix =>
      if n > 0 then do
        let a ← ddiv (avg.getD ix 0) n
        pure (avg.set ix a)
      else pure avg) r1.2
  let stdv1 ← set.foldlM
    (fun (stdv : List ℚ) features =>
      (List.range numFeatures).foldlM
        (fun (sd : List ℚ) ix => do
          let d ← dsub (features.getD ix 0) (avg1.getD ix 0)
          let dd ← dmul d d
          let s ← dadd (sd.getD ix 0) dd
          pure (sd.set ix s)) stdv)
    z.stdv
  let stdv2 ← (List.range numFeatures).foldlM
    (fun (sd : List ℚ) ix =>
      if sd.getD ix 0 ≤ 0 ∨ n = 0 then pure (sd.set ix 1)
      else do
        let v ← ddiv (sd.getD ix 0) n
        let r ← sqrtDouble v
        pure (sd.set ix r)) stdv1
  pure { avg := avg1, stdv := stdv2 }

/-- Three rows of one feature with the values 0, 0 and `3 * 2 ^ -538`. -/
def underflowRows : List (List ℚ) := [[0], [0], [3 / 2 ^ 538]]

/-! ## Theorems -/

/-! ### The total order on holders -/

theorem gt_iff_lexKey (a b : ScoreHolder) : a.gt b = true ↔ b.lexKey < a.lexKey := by
  simp only [ScoreHolder.gt, ScoreHolder.lexKey, Prod.Lex.lt_iff, Bool.or_eq_true,
    Bool.and_eq_true, decide_eq_true_eq, gt_iff_lt, ofLex_toLex]
  constructor
  · rintro (((h | h) | h) | h)
    · exact Or.inl h
    · exact Or.inr ⟨h.1.symm, Or.inl h.2⟩
    · exact Or.inr ⟨h.1.1.symm, Or.inr ⟨h.1.2.symm, Or.inl h.2⟩⟩
    · exact Or.inr ⟨h.1.1.1.symm, Or.inr ⟨h.1.1.2.symm, Or.inr ⟨h.1.2.symm, h.2⟩⟩⟩
  · rintro (h | ⟨h1, h | ⟨h2, h | ⟨h3, h⟩⟩⟩)
    · exact Or.inl (Or.inl (Or.inl h))
    · exact Or.inl (Or.inl (Or.inr ⟨h1.symm, h⟩))
    · exact Or.inl (Or.inr ⟨⟨h1.symm, h2.symm⟩, h⟩)
    · exact Or.inr ⟨⟨⟨h1.symm, h2.symm⟩, h3.symm⟩, h⟩

theorem stdSort_perm {α : Type} (comp : α → α → Bool) (l : List α) :
    (stdSort comp l).Perm l :=
  List.perm_insertionSort _ l

theorem stdSort_pairwise {α β : Type} [LinearOrder β] (comp : α → α → Bool) (k : α → β)
    (h : ∀ a b, comp a b = true ↔ k a < k b) (l : List α) :
    (stdSort comp l).Pairwise (fun a b => k a ≤ k b) := by
  have hr : ∀ a b, comp b a = false ↔ k a ≤ k b := by
    intro a b
    rw [← not_lt, ← h, Bool.not_eq_true]
  haveI : IsTotal α (fun a b => comp b a = false) :=
    ⟨fun a b => by simp only [hr]; exact le_total _ _⟩
  haveI : IsTrans α (fun a b => comp b a = false) :=
    ⟨fun a b c => by simp only [hr]; exact le_trans⟩
  have hs := List.sorted_insertionSort (fun a b => comp b a = false) l
  exact List.Pairwise.imp (fun {a b} hab => (hr a b).mp hab) hs

theorem stdSort_gt_pairwise (l : List ScoreHolder) :
    (stdSort ScoreHolder.gt l).Pairwise (fun a b => b.gt a = false) := by
  have h := stdSort_pairwise ScoreHolder.gt (fun a => OrderDual.toDual a.lexKey)
    (fun a b => by rw [gt_iff_lexKey]; exact Iff.rfl) l
  refine List.Pairwise.imp ?_ h
  intro a b hab
  have hab2 : b.lexKey ≤ a.lexKey := hab
  rw [← Bool.not_eq_true, gt_iff_lexKey]
  exact not_lt.mpr hab2

theorem checkSeparationAndSetPi0_fields (env : Env) (s : Scores) :
    (s.checkSeparationAndSetPi0 env).1.scores_ = s.scores_
    ∧ (s.checkSeparationAndSetPi0 env).1.totalNumberOfTargets_ = s.totalNumberOfTargets_
    ∧ (s.checkSeparationAndSetPi0 env).1.totalNumberOfDecoys_ = s.totalNumberOfDecoys_
    ∧ (s.checkSeparationAndSetPi0 env).1.targetDecoySizeRatio_ = s.targetDecoySizeRatio_
    ∧ (s.checkSeparationAndSetPi0 env).1.peptidePsmMap_ = s.peptidePsmMap_ := by
  unfold Scores.checkSeparationAndSetPi0
  simp only
  split_ifs <;> simp

theorem postMergeStep_scores (env : Env) (s : Scores) :
    (s.postMergeStep env).1.scores_ = stdSort ScoreHolder.gt s.scores_ := by
  unfold Scores.postMergeStep
  simp only [(checkSeparationAndSetPi0_fields env _).1]

section runs
variable {α γ : Type} [LinearOrder γ] (g : α → γ) (sc : α → ℚ) (pred : α → α → Bool)

theorem stdUniqueAux_runs (hpred : ∀ a b, pred a b = true ↔ g a = g b) (t : List α) :
    ∀ last : α,
      (last :: t).Pairwise (fun a b => g a < g b ∨ (g a = g b ∧ sc b ≤ sc a)) →
      (stdUniqueAux pred last t).Sublist t
      ∧ (∀ y ∈ stdUniqueAux pred last t, g last < g y)
      ∧ (stdUniqueAux pred last t).Pairwise (fun a b => g a < g b)
      ∧ (∀ x ∈ t, g x = g last ∨ ∃ y ∈ stdUniqueAux pred last t, g y = g x ∧ sc x ≤ sc y) := by
  induction t with
  | nil =>
    intro last _
    simp [stdUniqueAux]
  | cons b t ih =>
    intro last hp
    rw [List.pairwise_cons] at hp
    obtain ⟨hlast, hbt⟩ := hp
    have hbt2 := hbt
    rw [List.pairwise_cons] at hbt2
    by_cases hpb : pred last b = true
    · have hg : g last = g b := (hpred _ _).mp hpb
      have hp2 : (last :: t).Pairwise (fun a b => g a < g b ∨ (g a = g b ∧ sc b ≤ sc a)) :=
        List.pairwise_cons.mpr ⟨fun x hx => hlast x (List.mem_cons_of_mem _ hx), hbt2.2⟩
      obtain ⟨i1, i2, i3, i4⟩ := ih last hp2
      simp only [stdUniqueAux, hpb, if_true]
      refine ⟨List.Sublist.cons _ i1, i2, i3, ?_⟩
      intro x hx
      rcases List.mem_cons.mp hx with rfl | hx
      · exact Or.inl hg.symm
      · exact i4 x hx
    · have hg : g last ≠ g b := fun h => hpb ((hpred _ _).mpr h)
      have hlt : g last < g b := by
        rcases hlast b (List.mem_cons_self _ _) with h | h
        · exact h
        · exact absurd h.1 hg
      obtain ⟨i1, i2, i3, i4⟩ := ih b hbt
      simp only [stdUniqueAux, hpb, Bool.false_eq_true, if_false]
      refine ⟨List.Sublist.cons₂ _ i1, ?_, ?_, ?_⟩
      · intro y hy
        rcases List.mem_cons.mp hy with rfl | hy
        · exact hlt
        · exact lt_trans hlt (i2 y hy)
      · exact List.pairwise_cons.mpr ⟨i2, i3⟩
      · intro x hx
        rcases List.mem_cons.mp hx with rfl | hx
        · exact Or.inr ⟨x, List.mem_cons_self _ _, rfl, le_refl _⟩
        · rcases i4 x hx with h | ⟨y, hy, h1, h2⟩
          · refine Or.inr ⟨b, List.mem_cons_self _ _, h.symm, ?_⟩
            rcases hbt2.1 x hx with h3 | h3
            · exact absurd h (ne_of_gt h3)
            · exact h3.2
          · exact Or.inr ⟨y, List.mem_cons_of_mem _ hy, h1, h2⟩

theorem stdUnique_runs (hpred : ∀ a b, pred a b = true ↔ g a = g b) (l : List α)
    (hp : l.Pairwise (fun a b => g a < g b ∨ (g a = g b ∧ sc b ≤ sc a))) :
    (stdUnique pred l).Sublist l
    ∧ (stdUnique pred l).Pairwise (fun a b => g a < g b)
    ∧ (∀ x ∈ l, ∃ y ∈ stdUnique pred l, g y = g x ∧ sc x ≤ sc y) := by
  cases l with
  | nil => simp [stdUnique]
  | cons a t =>
    obtain ⟨i1, i2, i3, i4⟩ := stdUniqueAux_runs g sc pred hpred t a hp
    simp only [stdUnique]
    refine ⟨List.Sublist.cons₂ _ i1, List.pairwise_cons.mpr ⟨i2, i3⟩, ?_⟩
    intro x hx
    rcases List.mem_cons.mp hx with rfl | hx
    · exact ⟨x, List.mem_cons_self _ _, rfl, le_refl _⟩
    · rcases i4 x hx with h | ⟨y, hy, h1, h2⟩
      · refine ⟨a, List.mem_cons_self _ _, h.symm, ?_⟩
        rcases (List.pairwise_cons.mp hp).1 x hx with h3 | h3
        · exact absurd h (ne_of_gt h3)
        · exact h3.2
      · exact ⟨y, List.mem_cons_of_mem _ hy, h1, h2⟩

theorem countP_le_one_of_strict (u : List α) (hpw : u.Pairwise (fun a b => g a < g b))
    (k : γ) : u.countP (fun r => decide (g r = k)) ≤ 1 := by
  induction u with
  | nil => simp
  | cons a t ih =>
    rw [List.pairwise_cons] at hpw
    by_cases ha : g a = k
    · have h0 : t.countP (fun r => decide (g r = k)) = 0 := by
        rw [List.countP_eq_zero]
        intro b hb
        have := hpw.1 b hb
        simp only [decide_eq_true_eq]
        rw [← ha]
        exact ne_of_gt this
      simp [List.countP_cons, ha, h0]
    · simpa [List.countP_cons, ha] using ih hpw.2

theorem eq_of_strict (u : List α) (hpw : u.Pairwise (fun a b => g a < g b)) :
    ∀ a ∈ u, ∀ b ∈ u, g a = g b → a = b := by
  have h2 : u.Pairwise (fun a b => g a = g b → a = b) :=
    hpw.imp (fun {a b} hlt he => absurd he (ne_of_lt hlt))
  have hsymm : Symmetric (fun a b : α => g a = g b → a = b) :=
    fun x y hxy he => (hxy he.symm).symm
  intro a ha b hb
  exact List.Pairwise.forall_of_forall hsymm (fun x _ _ => rfl) h2 ha hb

/-- What the kept first elements of the runs give for a permutation `out` of them. -/
theorem runs_count_one {u out l : List α} (hperm : out.Perm u) (hsub : u.Sublist l)
    (hpw : u.Pairwise (fun a b => g a < g b))
    (hex : ∀ x ∈ l, ∃ y ∈ u, g y = g x ∧ sc x ≤ sc y) :
    (∀ x ∈ l, out.countP (fun r => decide (g r = g x)) = 1)
    ∧ (∀ r ∈ out, r ∈ l)
    ∧ (∀ r ∈ out, ∀ x ∈ l, g r = g x → sc x ≤ sc r) := by
  refine ⟨?_, ?_, ?_⟩
  · intro x hx
    rw [hperm.countP_eq]
    apply le_antisymm (countP_le_one_of_strict g u hpw (g x))
    obtain ⟨y, hy, hgy, _⟩ := hex x hx
    exact List.countP_pos_iff.mpr ⟨y, hy, by simpa using hgy⟩
  · intro r hr
    exact hsub.subset (hperm.mem_iff.mp hr)
  · intro r hr x hx hg
    obtain ⟨y, hy, hgy, hsc⟩ := hex x hx
    have : r = y := eq_of_strict g u hpw r (hperm.mem_iff.mp hr) y hy (hg.trans hgy.symm)
    rw [this]; exact hsc
end runs

/-! ### Weight transforms of the standard-deviation normalizer -/

theorem foldl_set_range (f g : Nat → ℚ) (out : List ℚ) (c : ℚ) (F : Nat) :
    ((List.range F).foldl (fun (st : List ℚ × ℚ) i => (st.1.set i (f i), g i)) (out, c)).1.length
      = out.length
    ∧ (∀ j, ((List.range F).foldl (fun (st : List ℚ × ℚ) i => (st.1.set i (f i), g i))
          (out, c)).1[j]? = if j < F ∧ j < out.length then some (f j) else out[j]?)
    ∧ ((List.range F).foldl (fun (st : List ℚ × ℚ) i => (st.1.set i (f i), g i)) (out, c)).2
      = if F = 0 then c else g (F - 1) := by
  induction F with
  | zero => simp
  | succ n ih =>
    obtain ⟨h1, h2, _⟩ := ih
    rw [List.range_succ, List.foldl_append]
    simp only [List.foldl_cons, List.foldl_nil, List.length_set, h1, true_and]
    refine ⟨?_, by simp⟩
    intro j
    rw [List.getElem?_set, h1, h2]
    by_cases hjn : n = j
    · subst hjn
      by_cases hl : n < out.length
      · simp [hl]
      · simp [hl]
        omega
    · have : j < n + 1 ↔ j < n := by omega
      simp [hjn, this]

theorem unnormalizeweight_spec (n : StdvNormalizer) (F : Nat) (inp out : List ℚ)
    (hout : out.length = F + 1) :
    (n.unnormalizeweight F inp out).length = F + 1
    ∧ (∀ j, j < F → (n.unnormalizeweight F inp out).getD j 0 = inp.getD j 0 / n.stdv.getD j 0)
    ∧ (n.unnormalizeweight F inp out).getD F 0
        = inp.getD F 0 - (if F = 0 then 0 else n.avg.getD (F - 1) 0 / n.stdv.getD (F - 1) 0) := by
  obtain ⟨h1, h2, h3⟩ := foldl_set_range (fun i => inp.getD i 0 / n.stdv.getD i 0)
    (fun i => n.avg.getD i 0 / n.stdv.getD i 0) out 0 F
  unfold StdvNormalizer.unnormalizeweight
  simp only [List.getD_eq_getElem?_getD, List.length_set, List.getElem?_set] at *
  refine ⟨by rw [h1, hout], ?_, ?_⟩
  · intro j hj
    have hne : ¬ F = j := by omega
    rw [if_neg hne, h2, if_pos ⟨hj, by omega⟩]
    rfl
  · rw [if_pos trivial, h1, if_pos (by omega), h3]
    rfl

theorem normalizeweight_spec (n : StdvNormalizer) (F : Nat) (inp out : List ℚ)
    (hout : out.length = F + 1) :
    (n.normalizeweight F inp out).length = F + 1
    ∧ (∀ j, j < F → (n.normalizeweight F inp out).getD j 0 = inp.getD j 0 * n.stdv.getD j 0)
    ∧ (n.normalizeweight F inp out).getD F 0
        = inp.getD F 0 + (if F = 0 then 0 else n.avg.getD (F - 1) 0 / n.stdv.getD (F - 1) 0) := by
  obtain ⟨h1, h2, h3⟩ := foldl_set_range (fun i => inp.getD i 0 * n.stdv.getD i 0)
    (fun i => n.avg.getD i 0 / n.stdv.getD i 0) out 0 F
  unfold StdvNormalizer.normalizeweight
  simp only [List.getD_eq_getElem?_getD, List.length_set, List.getElem?_set] at *
  refine ⟨by rw [h1, hout], ?_, ?_⟩
  · intro j hj
    have hne : ¬ F = j := by omega
    rw [if_neg hne, h2, if_pos ⟨hj, by omega⟩]
    rfl
  · rw [if_pos trivial, h1, if_pos (by omega), h3]
    rfl

theorem list_eq_of_getD (F : Nat) (a b : List ℚ) (ha : a.length = F + 1) (hb : b.length = F + 1)
    (h : ∀ j, j ≤ F → a.getD j 0 = b.getD j 0) : a = b := by
  apply List.ext_getElem (by rw [ha, hb])
  intro j h1 h2
  have := h j (by omega)
  simpa [List.getD_eq_getElem?_getD, List.getElem?_eq_getElem h1, List.getElem?_eq_getElem h2]
    using this

/-- In exact arithmetic, when `stdv[j]` is non-zero for every feature, `normalizeweight`
after `unnormalizeweight` and `unnormalizeweight` after `normalizeweight` both return the
weight vector they started from, bias slot included. -/
theorem weight_transforms_inverse_exact (n : StdvNormalizer) (F : Nat) (w out1 out2 : List ℚ)
    (hstdv : ∀ j, j < F → n.stdv.getD j 0 ≠ 0)
    (hw : w.length = F + 1) (h1 : out1.length = F + 1) (h2 : out2.length = F + 1) :
    n.normalizeweight F (n.unnormalizeweight F w out1) out2 = w
    ∧ n.unnormalizeweight F (n.normalizeweight F w out1) out2 = w := by
  obtain ⟨ul, uj, uF⟩ := unnormalizeweight_spec n F w out1 h1
  obtain ⟨nl, nj, nF⟩ := normalizeweight_spec n F w out1 h1
  constructor
  · obtain ⟨l, hj, hF⟩ := normalizeweight_spec n F (n.unnormalizeweight F w out1) out2 h2
    apply list_eq_of_getD F _ _ l hw
    intro j hjF
    rcases Nat.lt_or_eq_of_le hjF with hlt | heq
    · rw [hj j hlt, uj j hlt]
      exact div_mul_cancel₀ _ (hstdv j hlt)
    · subst heq
      rw [hF, uF]; ring
  · obtain ⟨l, hj, hF⟩ := unnormalizeweight_spec n F (n.normalizeweight F w out1) out2 h2
    apply list_eq_of_getD F _ _ l hw
    intro j hjF
    rcases Nat.lt_or_eq_of_le hjF with hlt | heq
    · rw [hj j hlt, nj j hlt]
      exact mul_div_cancel_right₀ _ (hstdv j hlt)
    · subst heq
      rw [hF, nF]; ring



/-! ### Scoring and score normalization -/

theorem calcScore_fold (feat w : List ℚ) (F : Nat) :
    ∀ init : ℚ, (List.range F).reverse.foldl
        (fun score ix => score + feat.getD ix 0 * w.getD ix 0) init
      = init + ∑ j ∈ Finset.range F, w.getD j 0 * feat.getD j 0 := by
  induction F with
  | zero => intro init; simp
  | succ n ih =>
    intro init
    rw [List.range_succ, List.reverse_append, List.reverse_singleton, List.singleton_append,
      List.foldl_cons, ih, Finset.sum_range_succ]
    ring

/-- `calcScore` returns the linear score of the row. -/
theorem calcScore_eq_linearScore (env : Env) (feat w : List ℚ) :
    Scores.calcScore env feat w = linearScore env.numFeatures w feat := by
  unfold Scores.calcScore linearScore
  rw [calcScore_fold]
  ring

theorem scoreLoop_fold (w : List ℚ) (F : Nat) (sh : ScoreHolder) :
    (List.range F).foldl
        (fun (h : ScoreHolder) j =>
          { h with score := h.score + h.pPSM.features.getD j 0 * w.getD j 0 }) sh
      = { sh with score := sh.score
            + ∑ j ∈ Finset.range F, w.getD j 0 * sh.pPSM.features.getD j 0 } := by
  induction F with
  | zero => simp
  | succ n ih =>
    rw [List.range_succ, List.foldl_append, ih, Finset.sum_range_succ]
    simp only [List.foldl_cons, List.foldl_nil]
    congr 1
    ring

/-- With description-of-correct off, the holder that `scoreAndAddPSM` appends for a label in
`{+1, -1}` carries the score it had on entry plus the linear score of its feature row. -/
theorem scoreAndAddPSM_score (env : Env) (s : Scores) (sh : ScoreHolder) (w : List ℚ)
    (pool : FeatureMemoryPool) (hdoc : env.calcDoc = false)
    (hlab : sh.label = 1 ∨ sh.label = -1) :
    ((s.scoreAndAddPSM env sh w pool).1.scores_.map ScoreHolder.score)
      = s.scores_.map ScoreHolder.score
        ++ [sh.score + linearScore env.numFeatures w sh.pPSM.features] := by
  unfold Scores.scoreAndAddPSM
  simp only [hdoc, Bool.false_eq_true, if_false, scoreLoop_fold, linearScore]
  rcases hlab with h | h
  · simp [h, add_assoc]
  · simp [h, add_assoc]

/-- On a non-empty Score Set `normalizeScores` returns, and what it returns is one affine
map applied to every score: `x - f` when the difference `d` of the two reference scores is
not positive, `(x - f) / d` otherwise. -/
theorem normalizeScores_affine (s : Scores) (fdr : ℚ) :
    (s.scores_ ≠ [] → (s.normalizeScores fdr).isSome = true)
    ∧ (∀ r, s.normalizeScores fdr = some r → ∃ f d : ℚ,
        r.scores_.map ScoreHolder.score
          = s.scores_.map (fun sh => if d > 0 then (sh.score - f) / d else sh.score - f)) := by
  unfold Scores.normalizeScores
  constructor
  · intro hne
    split
    · next h => exact absurd h hne
    · rfl
  · intro r hr
    split at hr
    · exact absurd hr (by simp)
    · next first rest hs =>
      simp only [Option.some.injEq] at hr
      refine ⟨(normalizeScoresScan fdr (max 0 (s.totalNumberOfDecoys_ / 2)) s.scores_ 0
          first.score (first.score + 1)).1,
        (normalizeScoresScan fdr (max 0 (s.totalNumberOfDecoys_ / 2)) s.scores_ 0
          first.score (first.score + 1)).1
        - (normalizeScoresScan fdr (max 0 (s.totalNumberOfDecoys_ / 2)) s.scores_ 0
          first.score (first.score + 1)).2, ?_⟩
      rw [← hr]
      simp only [List.map_map]
      apply List.map_congr_left
      intro sh _
      simp only [Function.comp]
      split_ifs <;> rfl

theorem normalizeExample_median_unique :
    ∀ x, IsMedian x (decoyScores normalizeExample.scores_) → x = 2 := by
  intro x hx
  obtain ⟨hm, h1, h2⟩ := hx
  have hd : decoyScores normalizeExample.scores_ = [3, 2, 1] := by
    simp [decoyScores, normalizeExample, exampleHolder, List.filter_cons, ScoreHolder.isDecoy]
  rw [hd] at hm h1 h2
  simp only [List.mem_cons, List.mem_singleton, List.not_mem_nil, or_false] at hm
  rcases hm with rfl | rfl | rfl
  · norm_num [List.countP_cons] at h1
  · rfl
  · norm_num [List.countP_cons] at h2

/-- Claim C7, evaluated on a Score Set in descending order with one target (score 5,
q = 0) and three decoys (scores 3, 2, 1, q = 1) at fdr = 1/100.  The cutoff score is 5, the
only median of the decoy scores is 2, and their difference is positive; `normalizeScores`
turns the scores into 0, -1, -3/2, -2, so the holder with the median decoy score gets -3/2
and it is the highest decoy that gets -1. -/
theorem normalizeScores_median_mismatch :
    normalizeExample.scores_.Pairwise (fun a b => b.gt a = false)
    ∧ normalizeExample.scores_.countP ScoreHolder.isDecoy = normalizeExample.totalNumberOfDecoys_
    ∧ fdrCutoffScore (1 / 100) normalizeExample.scores_ = some 5
    ∧ IsMedian 2 (decoyScores normalizeExample.scores_)
    ∧ (∀ x, IsMedian x (decoyScores normalizeExample.scores_) → x = 2)
    ∧ (5 : ℚ) - 2 > 0
    ∧ normalizeExample.scores_.map ScoreHolder.score = [5, 3, 2, 1]
    ∧ (normalizeExample.normalizeScores (1 / 100)).map
        (fun r => r.scores_.map ScoreHolder.score) = some [0, -1, -3 / 2, -2] := by
  refine ⟨?_, ?_, ?_, ?_, normalizeExample_median_unique, by norm_num, ?_, ?_⟩
  · simp [normalizeExample, exampleHolder, examplePSM, ScoreHolder.gt]
    norm_num
  · simp [normalizeExample, exampleHolder, ScoreHolder.isDecoy, List.countP_cons]
  · have h : ¬ ((1 : ℚ) < 100⁻¹) := by norm_num
    simp [normalizeExample, exampleHolder, fdrCutoffScore, List.filter_cons, h]
  · simp [normalizeExample, exampleHolder, decoyScores, IsMedian, List.filter_cons,
      ScoreHolder.isDecoy, List.countP_cons]
    norm_num
  · simp [normalizeExample, exampleHolder]
  · simp [normalizeExample, exampleHolder, Scores.normalizeScores, normalizeScoresScan,
      ScoreHolder.isDecoy]
    norm_num

/-- Claim C8, evaluated on a target holder that carries score 1 on entry, with one feature
of value 2 and weights (3, 4).  The holder appended by `scoreAndAddPSM` has score 11, while
the linear score of the row and `calcScore` both give 10. -/
theorem scoreAndAddPSM_adds_to_entry_score :
    ((Scores.init false).scoreAndAddPSM exampleEnv scoreExample [3, 4] ⟨[]⟩).1.scores_.map
        ScoreHolder.score = [11]
    ∧ linearScore exampleEnv.numFeatures [3, 4] scoreExample.pPSM.features = 10
    ∧ Scores.calcScore exampleEnv scoreExample.pPSM.features [3, 4] = 10 := by
  refine ⟨?_, ?_, ?_⟩
  · simp [Scores.scoreAndAddPSM, exampleEnv, scoreExample, exampleHolder, examplePSM, Scores.init,
      List.range_succ]
    norm_num
  · simp [linearScore, exampleEnv, scoreExample, exampleHolder, examplePSM, Finset.sum_range_succ]
    norm_num
  · simp [Scores.calcScore, exampleEnv, scoreExample, exampleHolder, examplePSM, List.range_succ]
    norm_num

/-- Claim C9, evaluated on one feature with avg = 1, stdv = 2, weights (3, 0) and raw row
(5).  The normalized row is (2) and scores 6 under the weights; `unnormalizeweight` returns
(3/2, -1/2), which scores the raw row 7. -/
theorem unnormalizeweight_score_mismatch :
    (∀ j, j < 1 → stdvExample.stdv.getD j 0 ≠ 0)
    ∧ stdvExample.normalize 1 [5] [0] = [2]
    ∧ stdvExample.unnormalizeweight 1 [3, 0] [0, 0] = [3 / 2, -1 / 2]
    ∧ linearScore 1 [3, 0] (stdvExample.normalize 1 [5] [0]) = 6
    ∧ linearScore 1 (stdvExample.unnormalizeweight 1 [3, 0] [0, 0]) [5] = 7 := by
  have h1 : stdvExample.normalize 1 [5] [0] = [2] := by
    simp [StdvNormalizer.normalize, stdvExample, List.range_succ]
    norm_num
  have h2 : stdvExample.unnormalizeweight 1 [3, 0] [0, 0] = [3 / 2, -1 / 2] := by
    simp [StdvNormalizer.unnormalizeweight, stdvExample, List.range_succ]
    norm_num
  refine ⟨?_, h1, h2, ?_, ?_⟩
  · intro j hj
    have : j = 0 := by omega
    subst this
    simp [stdvExample]
  · rw [h1]
    simp [linearScore, Finset.sum_range_succ]
    norm_num
  · rw [h2]
    simp [linearScore, Finset.sum_range_succ]
    norm_num

/-! ### Target-decoy competition and peptide-unique weeding -/

theorem tdcGroup_eq_iff (x y : ScoreHolder) :
    tdcGroup x = tdcGroup y ↔
      x.pPSM.scan = y.pPSM.scan ∧ x.pPSM.expMass = y.pPSM.expMass
        ∧ x.pPSM.charge = y.pPSM.charge := by
  simp [tdcGroup, Prod.ext_iff]

theorem peptideGroup_eq_iff (x y : ScoreHolder) :
    peptideGroup x = peptideGroup y ↔
      x.pPSM.getPeptideSequence = y.pPSM.getPeptideSequence ∧ x.label = y.label := by
  simp [peptideGroup, Prod.ext_iff]

theorem OrderScanMassCharge_iff (x y : ScoreHolder) :
    OrderScanMassCharge x y = true ↔
      toLex (tdcGroup x, OrderDual.toDual x.score)
        < toLex (tdcGroup y, OrderDual.toDual y.score) := by
  simp only [OrderScanMassCharge, tdcGroup, Prod.Lex.lt_iff, Bool.or_eq_true,
    Bool.and_eq_true, decide_eq_true_eq, gt_iff_lt, ofLex_toLex, OrderDual.toDual_lt_toDual,
    EmbeddingLike.apply_eq_iff_eq, Prod.mk.injEq]
  tauto

theorem lexicOrderProb_iff (x y : ScoreHolder) :
    lexicOrderProb x y = true ↔
      toLex (peptideGroup x, OrderDual.toDual x.score)
        < toLex (peptideGroup y, OrderDual.toDual y.score) := by
  simp only [lexicOrderProb, peptideGroup, Prod.Lex.lt_iff, Bool.or_eq_true,
    Bool.and_eq_true, decide_eq_true_eq, gt_iff_lt, ofLex_toLex, OrderDual.toDual_lt_toDual,
    EmbeddingLike.apply_eq_iff_eq, Prod.mk.injEq]


theorem stdSort_runs {γ : Type} [LinearOrder γ] (comp : ScoreHolder → ScoreHolder → Bool)
    (g : ScoreHolder → γ)
    (h : ∀ x y, comp x y = true ↔
      toLex (g x, OrderDual.toDual x.score) < toLex (g y, OrderDual.toDual y.score))
    (l : List ScoreHolder) :
    (stdSort comp l).Pairwise
      (fun a b => g a < g b ∨ (g a = g b ∧ b.score ≤ a.score)) := by
  have hs := stdSort_pairwise comp (fun x => toLex (g x, OrderDual.toDual x.score)) h l
  refine hs.imp ?_
  intro a b hab
  simpa [Prod.Lex.le_iff] using hab

theorem weedOutRedundantTDC_scores (env : Env) (s : Scores) :
    ((s.weedOutRedundantTDC env).1.scores_).Perm
      (stdUnique UniqueScanMassCharge (stdSort OrderScanMassCharge s.scores_)) := by
  unfold Scores.weedOutRedundantTDC
  rw [postMergeStep_scores]
  exact stdSort_perm _ _

/-- Claim C6.  After `weedOutRedundantTDC` every (scan, expMass, charge) tuple of the input
occurs in exactly one retained holder, every retained holder is an input holder, and no input
holder with the tuple of a retained holder has a higher score. -/
theorem weedOutRedundantTDC_unique_best (env : Env) (s : Scores) :
    (∀ h ∈ s.scores_,
      (s.weedOutRedundantTDC env).1.scores_.countP
        (fun r => decide (r.pPSM.scan = h.pPSM.scan ∧ r.pPSM.expMass = h.pPSM.expMass
          ∧ r.pPSM.charge = h.pPSM.charge)) = 1)
    ∧ (∀ r ∈ (s.weedOutRedundantTDC env).1.scores_, r ∈ s.scores_)
    ∧ (∀ r ∈ (s.weedOutRedundantTDC env).1.scores_, ∀ h ∈ s.scores_,
        r.pPSM.scan = h.pPSM.scan → r.pPSM.expMass = h.pPSM.expMass →
        r.pPSM.charge = h.pPSM.charge → h.score ≤ r.score) := by
  have hpred : ∀ a b, UniqueScanMassCharge a b = true ↔ tdcGroup a = tdcGroup b := by
    intro a b
    rw [tdcGroup_eq_iff]
    simp [UniqueScanMassCharge, and_assoc]
  obtain ⟨i1, i2, i3⟩ := stdUnique_runs tdcGroup ScoreHolder.score UniqueScanMassCharge hpred
    (stdSort OrderScanMassCharge s.scores_)
    (stdSort_runs OrderScanMassCharge tdcGroup OrderScanMassCharge_iff s.scores_)
  obtain ⟨c1, c2, c3⟩ := runs_count_one tdcGroup ScoreHolder.score
    (weedOutRedundantTDC_scores env s) i1 i2 i3
  have hmem : ∀ x, x ∈ stdSort OrderScanMassCharge s.scores_ ↔ x ∈ s.scores_ :=
    fun x => (stdSort_perm _ _).mem_iff
  refine ⟨?_, ?_, ?_⟩
  · intro h hh
    have := c1 h ((hmem h).mpr hh)
    simpa only [tdcGroup_eq_iff] using this
  · intro r hr
    exact (hmem r).mp (c2 r hr)
  · intro r hr h hh e1 e2 e3
    exact c3 r hr h ((hmem h).mpr hh) ((tdcGroup_eq_iff r h).mpr ⟨e1, e2, e3⟩)

theorem take_succ_set {α : Type} (l : List α) (n : Nat) (a : α) (h : n < l.length) :
    (l.set n a).take (n + 1) = l.take n ++ [a] := by
  induction l generalizing n with
  | nil => simp at h
  | cons b t ih =>
    cases n with
    | zero => simp
    | succ m =>
      simp only [List.length_cons, Nat.add_lt_add_iff_right] at h
      simp [ih m h]

theorem weedOutRedundantLoop_spec (R : List ScoreHolder) :
    ∀ (st : WeedState) (i : Nat),
      st.lastWrittenIdx ≤ i → i ≤ st.scores_.length → st.scores_.drop i = R →
      (st.lastWrittenIdx = 0 → ∀ x, R.head? = some x →
        x.pPSM.getPeptideSequence ≠ st.previousPeptide ∨ x.label ≠ st.previousLabel) →
      ∃ st1, weedOutRedundantLoop st (List.range' i R.length) = (st1, none)
        ∧ st1.lastWrittenIdx ≤ st1.scores_.length
        ∧ st1.scores_.take st1.lastWrittenIdx
            = st.scores_.take st.lastWrittenIdx
              ++ keepNew st.previousPeptide st.previousLabel R := by
  induction R with
  | nil =>
    intro st i hlw hi _ _
    exact ⟨st, by simp [weedOutRedundantLoop], by omega, by simp [keepNew]⟩
  | cons x R ih =>
    intro st i hlw hi hdrop hzero
    have hlen : i < st.scores_.length := by
      by_contra hcon
      rw [List.drop_of_length_le (not_lt.mp hcon)] at hdrop
      exact List.noConfusion hdrop
    rw [List.drop_eq_getElem_cons hlen] at hdrop
    have hx : st.scores_[i] = x := (List.cons.inj hdrop).1
    have hR : st.scores_.drop (i + 1) = R := (List.cons.inj hdrop).2
    have hget : st.scores_.get? i = some x := by
      rw [List.get?_eq_getElem?, List.getElem?_eq_getElem hlen, hx]
    rw [List.length_cons, List.range'_succ]
    by_cases hnew : x.pPSM.getPeptideSequence ≠ st.previousPeptide ∨ x.label ≠ st.previousLabel
    · have hlwlen : st.lastWrittenIdx < st.scores_.length := by omega
      have hg1 : (st.scores_.set st.lastWrittenIdx x).get? st.lastWrittenIdx = some x := by
        rw [List.get?_eq_getElem?, List.getElem?_set_self hlwlen]
      have hg2 : (st.scores_.set st.lastWrittenIdx x).get? i = some x := by
        rw [List.get?_eq_getElem?, List.getElem?_set]
        split_ifs with h1
        · rfl
        · rw [List.getElem?_eq_getElem hlen, hx]
      obtain ⟨st1, h1, h2, h3⟩ := ih
        { scores_ := st.scores_.set st.lastWrittenIdx x
          peptidePsmMap_ := st.peptidePsmMap_.pushBack x.pPSM x.pPSM
          previousPeptide := x.pPSM.getPeptideSequence
          previousLabel := x.label
          lastWrittenIdx := st.lastWrittenIdx + 1 } (i + 1)
        (by simp only; omega) (by simp only [List.length_set]; omega)
        (by simp only; rw [List.drop_set_of_lt _ _ (by omega)]; exact hR)
        (by simp)
      refine ⟨st1, ?_, h2, ?_⟩
      · rw [weedOutRedundantLoop]
        simp only [weedOutRedundantStep, hget, hnew, if_true, hlwlen, Nat.add_sub_cancel, hg1, hg2]
        exact h1
      · rw [h3]
        simp only [keepNew, hnew, if_true]
        rw [take_succ_set _ _ _ hlwlen, List.append_assoc]
        rfl
    · have hlw0 : st.lastWrittenIdx ≠ 0 := by
        intro h0
        exact hnew (hzero h0 x rfl)
      have hg1 : ∃ rep, st.scores_.get? (st.lastWrittenIdx - 1) = some rep := by
        have : st.lastWrittenIdx - 1 < st.scores_.length := by omega
        exact ⟨st.scores_[st.lastWrittenIdx - 1], by
          rw [List.get?_eq_getElem?, List.getElem?_eq_getElem this]⟩
      obtain ⟨rep, hrep⟩ := hg1
      obtain ⟨st1, h1, h2, h3⟩ := ih
        { st with peptidePsmMap_ := st.peptidePsmMap_.pushBack rep.pPSM x.pPSM } (i + 1)
        (by simp only; omega) (by simp only; omega) hR
        (by intro h0; exact absurd h0 hlw0)
      refine ⟨st1, ?_, h2, ?_⟩
      · rw [weedOutRedundantLoop]
        simp only [weedOutRedundantStep, hget, hnew, if_false, hlw0, hrep]
        exact h1
      · rw [h3]
        simp only [keepNew, hnew, if_false]

theorem keepNew_eq_stdUniqueAux (t : List ScoreHolder) :
    ∀ a : ScoreHolder,
      keepNew a.pPSM.getPeptideSequence a.label t = stdUniqueAux samePeptideLabel a t := by
  induction t with
  | nil => intro a; rfl
  | cons b t ih =>
    intro a
    by_cases h : b.pPSM.getPeptideSequence ≠ a.pPSM.getPeptideSequence ∨ b.label ≠ a.label
    · have hp : samePeptideLabel a b = false := by
        simp only [samePeptideLabel, Bool.and_eq_false_imp, decide_eq_true_eq,
          decide_eq_false_iff_not]
        intro he hl
        rcases h with h | h
        · exact h he.symm
        · exact h hl.symm
      simp only [keepNew, h, if_true, stdUniqueAux, hp, Bool.false_eq_true, if_false, ih b]
    · have hp : samePeptideLabel a b = true := by
        simp only [not_or, not_not] at h
        simp [samePeptideLabel, h.1, h.2]
      simp only [keepNew, h, if_false, stdUniqueAux, hp, if_true, ih a]

theorem keepNew_eq_stdUnique (l : List ScoreHolder) (hlab : ∀ sh ∈ l, sh.label ≠ 0) :
    keepNew "" 0 l = stdUnique samePeptideLabel l := by
  cases l with
  | nil => rfl
  | cons a t =>
    have h : a.pPSM.getPeptideSequence ≠ "" ∨ a.label ≠ 0 :=
      Or.inr (hlab a (List.mem_cons_self _ _))
    simp only [keepNew, h, if_true, stdUnique, keepNew_eq_stdUniqueAux]

theorem vectorResize_eq_take {α : Type} (v : List α) (n : Nat) (d : α) (h : n ≤ v.length) :
    vectorResize v n d = v.take n := by
  simp [vectorResize, Nat.sub_eq_zero_of_le h]

theorem weedOutRedundant_scores (env : Env) (s : Scores)
    (hlab : ∀ sh ∈ s.scores_, sh.label = 1 ∨ sh.label = -1) :
    (s.weedOutRedundant env).2 ≠ some Exn.out_of_range
    ∧ ((s.weedOutRedundant env).1.scores_).Perm
        (stdUnique samePeptideLabel (stdSort lexicOrderProb s.scores_)) := by
  have hlab0 : ∀ sh ∈ stdSort lexicOrderProb s.scores_, sh.label ≠ 0 := by
    intro sh hsh
    rcases hlab sh ((stdSort_perm _ _).mem_iff.mp hsh) with h | h <;> rw [h] <;> decide
  obtain ⟨st1, h1, h2, h3⟩ := weedOutRedundantLoop_spec (stdSort lexicOrderProb s.scores_)
    { scores_ := stdSort lexicOrderProb s.scores_, peptidePsmMap_ := s.peptidePsmMap_,
      previousPeptide := "", previousLabel := 0, lastWrittenIdx := 0 } 0
    (le_refl _) (Nat.zero_le _) rfl
    (by
      intro _ x hx
      exact Or.inr (hlab0 x (List.mem_of_mem_head? hx)))
  simp only [List.take_zero, List.nil_append] at h3
  rw [keepNew_eq_stdUnique _ hlab0] at h3
  unfold Scores.weedOutRedundant
  simp only [List.range_eq_range', h1, vectorResize_eq_take _ _ _ h2, h3]
  constructor
  · unfold Scores.postMergeStep Scores.checkSeparationAndSetPi0
    simp only
    split_ifs <;> simp
  · rw [postMergeStep_scores]
    exact stdSort_perm _ _

/-- Claim C5.  When all labels are `+1` or `-1`, `weedOutRedundant` runs without an
out-of-range access; afterwards every (peptide, label) pair of the input occurs in exactly one
retained holder, every retained holder is an input holder, and no input holder with the pair
of a retained holder has a higher score. -/
theorem weedOutRedundant_unique_best (env : Env) (s : Scores)
    (hlab : ∀ sh ∈ s.scores_, sh.label = 1 ∨ sh.label = -1) :
    (s.weedOutRedundant env).2 ≠ some Exn.out_of_range
    ∧ (∀ h ∈ s.scores_,
        (s.weedOutRedundant env).1.scores_.countP
          (fun r => decide (r.pPSM.getPeptideSequence = h.pPSM.getPeptideSequence
            ∧ r.label = h.label)) = 1)
    ∧ (∀ r ∈ (s.weedOutRedundant env).1.scores_, r ∈ s.scores_)
    ∧ (∀ r ∈ (s.weedOutRedundant env).1.scores_, ∀ h ∈ s.scores_,
        r.pPSM.getPeptideSequence = h.pPSM.getPeptideSequence → r.label = h.label →
        h.score ≤ r.score) := by
  obtain ⟨hexn, hperm⟩ := weedOutRedundant_scores env s hlab
  have hpred : ∀ a b, samePeptideLabel a b = true ↔ peptideGroup a = peptideGroup b := by
    intro a b
    rw [peptideGroup_eq_iff]
    simp [samePeptideLabel]
  obtain ⟨i1, i2, i3⟩ := stdUnique_runs peptideGroup ScoreHolder.score samePeptideLabel hpred
    (stdSort lexicOrderProb s.scores_)
    (stdSort_runs lexicOrderProb peptideGroup lexicOrderProb_iff s.scores_)
  obtain ⟨c1, c2, c3⟩ := runs_count_one peptideGroup ScoreHolder.score hperm i1 i2 i3
  have hmem : ∀ x, x ∈ stdSort lexicOrderProb s.scores_ ↔ x ∈ s.scores_ :=
    fun x => (stdSort_perm _ _).mem_iff
  refine ⟨hexn, ?_, ?_, ?_⟩
  · intro h hh
    have := c1 h ((hmem h).mpr hh)
    simpa only [peptideGroup_eq_iff] using this
  · intro r hr
    exact (hmem r).mp (c2 r hr)
  · intro r hr h hh e1 e2
    exact c3 r hr h ((hmem h).mpr hh) ((peptideGroup_eq_iff r h).mpr ⟨e1, e2⟩)

/-! ### The cross-validation split -/

theorem drawNonFull_lt (rand : Nat → Nat) (k : Nat) (hk : 0 < k) (remain : List Int) :
    ∀ fuel pos r pos1, drawNonFull rand k remain fuel pos = some (r, pos1) → r < k := by
  intro fuel
  induction fuel with
  | zero => intro pos r pos1 h; simp [drawNonFull] at h
  | succ n ih =>
    intro pos r pos1 h
    simp only [drawNonFull] at h
    split_ifs at h with hc
    · exact ih _ _ _ h
    · simp only [Option.some.injEq, Prod.mk.injEq] at h
      rw [← h.1]
      exact Nat.mod_lt _ hk

theorem sum_set (l : List Int) (i : Nat) (v : Int) (h : i < l.length) :
    (l.set i v).sum = l.sum - l.getD i 0 + v := by
  induction l generalizing i with
  | nil => simp at h
  | cons a t ih =>
    cases i with
    | zero => simp; ring
    | succ m =>
      simp only [List.length_cons, Nat.add_lt_add_iff_right] at h
      simp only [List.set_cons_succ, List.sum_cons, ih m h, List.getD_cons_succ]
      ring

theorem xvalStep_inv (rand : Nat → Nat) (k fuel : Nat) (hk : 0 < k) (st st1 : XvalState)
    (done : List ScoreHolder) (restLen : Nat) (e : Nat × ScoreHolder)
    (hinv : XvalInv k st done (restLen + 1))
    (hscan : e.1 = e.2.pPSM.scan) (hle : st.previousSpectrum ≤ e.1)
    (hstep : xvalStep rand k fuel st e = some st1) :
    XvalInv k st1 (done ++ [e.2]) restLen := by
  obtain ⟨cur, sh⟩ := e
  simp only at hscan hle
  -- the fold chosen
  have hchosen : ∃ r pos, st1 =
      { train := st.train.mapIdx (fun i t => if i = r then t else t.addScoreHolder sh)
        test := st.test.mapIdx (fun i t => if i = r then t.addScoreHolder sh else t)
        remain := st.remain.set r (st.remain.getD r 0 - 1)
        previousSpectrum := cur
        randIndex := r
        randPos := pos } ∧ r < k ∧ (st.previousSpectrum = cur → r = st.randIndex) := by
    unfold xvalStep at hstep
    dsimp only at hstep
    split at hstep
    · exact absurd hstep (by simp)
    · next r pos hch =>
      simp only [Option.some.injEq] at hstep
      refine ⟨r, pos, hstep.symm, ?_, ?_⟩
      · split_ifs at hch with hnew
        · exact drawNonFull_lt rand k hk _ _ _ _ _ hch
        · simp only [Option.some.injEq, Prod.mk.injEq] at hch
          rw [← hch.1]; exact hinv.idx
      · intro hp
        split_ifs at hch with hnew
        · exact absurd hp hnew
        · simp only [Option.some.injEq, Prod.mk.injEq] at hch
          exact hch.1.symm
  obtain ⟨r, pos, rfl, hr, hsame⟩ := hchosen
  -- holders already placed with the current scan are in test fold r only
  have hcur : ∀ h ∈ done, h.pPSM.scan = cur →
      (∀ i t, st.test[i]? = some t → i ≠ r → h ∉ t.scores_)
      ∧ (∀ f, st.train[r]? = some f → h ∉ f.scores_) := by
    intro h hh hc
    by_cases hp : st.previousSpectrum = cur
    · have := hinv.current h hh (hc.trans hp.symm)
      rw [hsame hp]
      exact this
    · have h1 := hinv.bound h hh
      omega
  have htest : ∀ i t1, (st.test.mapIdx
      (fun i t => if i = r then t.addScoreHolder sh else t))[i]? = some t1 →
      ∃ t, st.test[i]? = some t ∧ t1.scores_ = if i = r then t.scores_ ++ [sh] else t.scores_ := by
    intro i t1 h
    rw [List.getElem?_mapIdx] at h
    cases ht : st.test[i]? with
    | none => rw [ht] at h; simp at h
    | some t =>
      rw [ht] at h
      simp only [Option.map_some', Option.some.injEq] at h
      refine ⟨t, rfl, ?_⟩
      rw [← h]
      split_ifs <;> rfl
  have htrain : ∀ i t1, (st.train.mapIdx
      (fun i t => if i = r then t else t.addScoreHolder sh))[i]? = some t1 →
      ∃ t, st.train[i]? = some t ∧ t1.scores_ = if i = r then t.scores_ else t.scores_ ++ [sh] := by
    intro i t1 h
    rw [List.getElem?_mapIdx] at h
    cases ht : st.train[i]? with
    | none => rw [ht] at h; simp at h
    | some t =>
      rw [ht] at h
      simp only [Option.map_some', Option.some.injEq] at h
      refine ⟨t, rfl, ?_⟩
      rw [← h]
      split_ifs <;> rfl
  have hmemTest : ∀ (i : Nat) (t : Scores), st.test[i]? = some t →
      ∀ a ∈ t.scores_, a ∈ done := by
    intro i t ht a ha
    have hi : i < st.train.length := by
      rw [hinv.lenTrain, ← hinv.lenTest]
      exact (List.getElem?_eq_some.mp ht).1
    have := hinv.part i st.train[i] t (List.getElem?_eq_getElem hi) ht
    exact this.mem_iff.mp (List.mem_append_right _ ha)
  have hmemTrain : ∀ (i : Nat) (t : Scores), st.train[i]? = some t →
      ∀ a ∈ t.scores_, a ∈ done := by
    intro i t ht a ha
    have hi : i < st.test.length := by
      rw [hinv.lenTest, ← hinv.lenTrain]
      exact (List.getElem?_eq_some.mp ht).1
    have := hinv.part i t st.test[i] ht (List.getElem?_eq_getElem hi)
    exact this.mem_iff.mp (List.mem_append_left _ ha)
  have hfresh : ∀ h ∈ done, h.pPSM.scan = sh.pPSM.scan →
      (∀ (i : Nat) (t : Scores), st.test[i]? = some t → i ≠ r → h ∉ t.scores_)
      ∧ (∀ f : Scores, st.train[r]? = some f → h ∉ f.scores_) := by
    intro h hh hc
    exact hcur h hh (hc.trans hscan.symm)
  have memT : ∀ (i : Nat) (t0 t1 : Scores) (a : ScoreHolder),
      (t1.scores_ = if i = r then t0.scores_ ++ [sh] else t0.scores_) →
      (a ∈ t1.scores_ ↔ a ∈ t0.scores_ ∨ (i = r ∧ a = sh)) := by
    intro i t0 t1 a h
    rw [h]
    split_ifs with hi <;> simp [hi]
  have memR : ∀ (i : Nat) (t0 t1 : Scores) (a : ScoreHolder),
      (t1.scores_ = if i = r then t0.scores_ else t0.scores_ ++ [sh]) →
      (a ∈ t1.scores_ ↔ a ∈ t0.scores_ ∨ (i ≠ r ∧ a = sh)) := by
    intro i t0 t1 a h
    rw [h]
    split_ifs with hi <;> simp [hi]
  refine
    { lenTrain := by simp only [List.length_mapIdx]; exact hinv.lenTrain
      lenTest := by simp only [List.length_mapIdx]; exact hinv.lenTest
      part := ?_
      placed := ?_
      sameScan := ?_
      apart := ?_
      bound := ?_
      current := ?_
      idx := hr
      lenRemain := by simp only [List.length_set]; exact hinv.lenRemain
      quota := ?_ }
  · intro i r1 t1 h1 h2
    obtain ⟨r0, hr0, er⟩ := htrain i r1 h1
    obtain ⟨t0, ht0, et⟩ := htest i t1 h2
    have hp := hinv.part i r0 t0 hr0 ht0
    rw [er, et]
    by_cases hi : i = r
    · simp only [hi, if_true, ← List.append_assoc]
      exact hp.append_right _
    · simp only [hi, if_false, List.append_assoc]
      refine List.Perm.trans ?_ (hp.append_right [sh])
      rw [List.append_assoc]
      exact List.Perm.append_left _ List.perm_append_comm
  · intro h hh
    rcases List.mem_append.mp hh with hd | hs
    · obtain ⟨i, t, ht, hm⟩ := hinv.placed h hd
      refine ⟨i, if i = r then t.addScoreHolder sh else t, ?_, ?_⟩
      · simp only [List.getElem?_mapIdx, ht, Option.map_some']
      · split_ifs
        · exact List.mem_append_left _ hm
        · exact hm
    · have hrl : r < st.test.length := by rw [hinv.lenTest]; exact hr
      refine ⟨r, st.test[r].addScoreHolder sh, ?_, ?_⟩
      · simp only [List.getElem?_mapIdx, List.getElem?_eq_getElem hrl, Option.map_some',
          if_true]
      · simp only [Scores.addScoreHolder]
        exact List.mem_append_right _ hs
  · intro i j ta tb hta htb a ha b hb hab
    obtain ⟨ta0, hta0, eta⟩ := htest i ta hta
    obtain ⟨tb0, htb0, etb⟩ := htest j tb htb
    rcases (memT i ta0 ta a eta).mp ha with ha0 | ⟨hir, has⟩
    · rcases (memT j tb0 tb b etb).mp hb with hb0 | ⟨hjr, hbs⟩
      · exact hinv.sameScan i j ta0 tb0 hta0 htb0 a ha0 b hb0 hab
      · by_contra hne
        rw [hbs] at hab
        exact (hfresh a (hmemTest i ta0 hta0 a ha0) hab).1 i ta0 hta0 (by omega) ha0
    · rcases (memT j tb0 tb b etb).mp hb with hb0 | ⟨hjr, hbs⟩
      · by_contra hne
        rw [has] at hab
        exact (hfresh b (hmemTest j tb0 htb0 b hb0) hab.symm).1 j tb0 htb0 (by omega) hb0
      · omega
  · intro i r1 t1 h1 h2 a ha b hb
    obtain ⟨r0, hr0, er⟩ := htrain i r1 h1
    obtain ⟨t0, ht0, et⟩ := htest i t1 h2
    rcases (memT i t0 t1 a et).mp ha with ha0 | ⟨hir, has⟩
    · rcases (memR i r0 r1 b er).mp hb with hb0 | ⟨hjr, hbs⟩
      · exact hinv.apart i r0 t0 hr0 ht0 a ha0 b hb0
      · intro hab
        rw [hbs] at hab
        exact (hfresh a (hmemTest i t0 ht0 a ha0) hab).1 i t0 ht0 hjr ha0
    · rcases (memR i r0 r1 b er).mp hb with hb0 | ⟨hjr, hbs⟩
      · intro hab
        rw [has] at hab
        rw [hir] at hr0
        exact (hfresh b (hmemTrain r r0 hr0 b hb0) hab.symm).2 r0 hr0 hb0
      · exact absurd hir hjr
  · intro h hh
    rcases List.mem_append.mp hh with hd | hs
    · exact le_trans (hinv.bound h hd) hle
    · rw [List.mem_singleton.mp hs, hscan]
  · intro h hh hc
    simp only at hc
    constructor
    · intro i t1 ht1 hir
      obtain ⟨t0, ht0, et⟩ := htest i t1 ht1
      rw [memT i t0 t1 h et]
      rintro (h0 | ⟨h1, _⟩)
      · exact (hcur h (hmemTest i t0 ht0 h h0) hc).1 i t0 ht0 hir h0
      · exact hir h1
    · intro r1 hr1
      obtain ⟨r0, hr0, er⟩ := htrain r r1 hr1
      rw [memR r r0 r1 h er]
      rintro (h0 | ⟨h1, _⟩)
      · exact (hcur h (hmemTrain r r0 hr0 h h0) hc).2 r0 hr0 h0
      · exact h1 rfl
  · simp only
    rw [sum_set _ _ _ (by rw [hinv.lenRemain]; exact hr), hinv.quota]
    push_cast
    ring

theorem xvalLoop_inv (rand : Nat → Nat) (k fuel : Nat) (hk : 0 < k)
    (rest : List (Nat × ScoreHolder)) :
    ∀ (st st1 : XvalState) (done : List ScoreHolder),
      XvalInv k st done rest.length →
      rest.Pairwise (fun a b => a.1 ≤ b.1) →
      (∀ e ∈ rest, st.previousSpectrum ≤ e.1 ∧ e.1 = e.2.pPSM.scan) →
      xvalLoop rand k fuel st rest = some st1 →
      XvalInv k st1 (done ++ rest.map Prod.snd) 0 := by
  induction rest with
  | nil =>
    intro st st1 done hinv _ _ h
    simp only [xvalLoop, Option.some.injEq] at h
    subst h
    simpa using hinv
  | cons e rest ih =>
    intro st st1 done hinv hpw hall h
    rw [List.pairwise_cons] at hpw
    simp only [xvalLoop] at h
    cases hs : xvalStep rand k fuel st e with
    | none => rw [hs] at h; simp at h
    | some st2 =>
      rw [hs] at h
      simp only at h
      have he := hall e (List.mem_cons_self _ _)
      have hinv2 := xvalStep_inv rand k fuel hk st st2 done rest.length e hinv he.2 he.1 hs
      have hprev : st2.previousSpectrum = e.1 := by
        unfold xvalStep at hs
        dsimp only at hs
        split at hs
        · exact absurd hs (by simp)
        · simp only [Option.some.injEq] at hs
          rw [← hs]
      have := ih st2 st1 (done ++ [e.2]) hinv2 hpw.2
        (fun e1 he1 => ⟨by rw [hprev]; exact hpw.1 e1 he1,
          (hall e1 (List.mem_cons_of_mem _ he1)).2⟩) h
      simpa using this

theorem drawNonFull_some (rand : Nat → Nat) (k : Nat) (remain : List Int) :
    ∀ fuel pos, (∃ j, j < fuel ∧ 0 < remain.getD (rand (pos + j) % k) 0) →
      ∃ r, drawNonFull rand k remain fuel pos = some r := by
  intro fuel
  induction fuel with
  | zero => intro pos h; obtain ⟨j, hj, _⟩ := h; omega
  | succ n ih =>
    intro pos h
    obtain ⟨j, hj, hpos⟩ := h
    simp only [drawNonFull]
    split_ifs with hc
    · cases j with
      | zero => simp only [Nat.add_zero] at hpos; omega
      | succ m =>
        apply ih (pos + 1)
        refine ⟨m, by omega, ?_⟩
        have : pos + 1 + m = pos + (m + 1) := by omega
        rw [this]; exact hpos
    · exact ⟨_, rfl⟩

theorem exists_pos_of_sum_pos (l : List Int) (h : 0 < l.sum) :
    ∃ i, i < l.length ∧ 0 < l.getD i 0 := by
  induction l with
  | nil => simp at h
  | cons a t ih =>
    by_cases ha : 0 < a
    · exact ⟨0, by simp, by simpa using ha⟩
    · have ht : 0 < t.sum := by
        simp only [List.sum_cons] at h
        omega
      obtain ⟨i, hi, hp⟩ := ih ht
      exact ⟨i + 1, by simpa using hi, by simpa using hp⟩

theorem xvalStep_some (rand : Nat → Nat) (k fuel B : Nat) (hfair : FairDraws rand k B)
    (hB : B ≤ fuel) (st : XvalState) (done : List ScoreHolder) (restLen : Nat)
    (e : Nat × ScoreHolder) (hinv : XvalInv k st done (restLen + 1)) :
    ∃ st1, xvalStep rand k fuel st e = some st1 := by
  unfold xvalStep
  dsimp only
  by_cases hnew : st.previousSpectrum ≠ e.1
  · have hsum : 0 < st.remain.sum := by rw [hinv.quota]; positivity
    obtain ⟨i, hi, hp⟩ := exists_pos_of_sum_pos _ hsum
    rw [hinv.lenRemain] at hi
    obtain ⟨j, hj, hr⟩ := hfair st.randPos i hi
    obtain ⟨r, hd⟩ := drawNonFull_some rand k st.remain fuel st.randPos
      ⟨j, by omega, by rw [hr]; exact hp⟩
    rw [if_pos hnew, hd]
    exact ⟨_, rfl⟩
  · rw [if_neg hnew]
    exact ⟨_, rfl⟩

theorem xvalLoop_some (rand : Nat → Nat) (k fuel B : Nat) (hk : 0 < k)
    (hfair : FairDraws rand k B) (hB : B ≤ fuel) (rest : List (Nat × ScoreHolder)) :
    ∀ (st : XvalState) (done : List ScoreHolder),
      XvalInv k st done rest.length →
      (∀ e ∈ rest, e.1 = e.2.pPSM.scan) →
      rest.Pairwise (fun a b => a.1 ≤ b.1) →
      (∀ e ∈ rest, st.previousSpectrum ≤ e.1) →
      ∃ st1, xvalLoop rand k fuel st rest = some st1 := by
  induction rest with
  | nil => intro st done _ _ _ _; exact ⟨st, rfl⟩
  | cons e rest ih =>
    intro st done hinv hscan hpw hle
    rw [List.pairwise_cons] at hpw
    obtain ⟨st2, hs⟩ := xvalStep_some rand k fuel B hfair hB st done rest.length e hinv
    have hinv2 := xvalStep_inv rand k fuel hk st st2 done rest.length e hinv
      (hscan e (List.mem_cons_self _ _)) (hle e (List.mem_cons_self _ _)) hs
    have hprev : st2.previousSpectrum = e.1 := by
      have hs2 := hs
      unfold xvalStep at hs2
      dsimp only at hs2
      split at hs2
      · exact absurd hs2 (by simp)
      · simp only [Option.some.injEq] at hs2
        rw [← hs2]
    obtain ⟨st1, h1⟩ := ih st2 (done ++ [e.2]) hinv2
      (fun e1 he1 => hscan e1 (List.mem_cons_of_mem _ he1)) hpw.2
      (fun e1 he1 => by rw [hprev]; exact hpw.1 e1 he1)
    refine ⟨st1, ?_⟩
    simp only [xvalLoop, hs]
    exact h1

theorem multimapInsert_perm (m : List (Nat × ScoreHolder)) (e : Nat × ScoreHolder) :
    (multimapInsert m e).Perm (m ++ [e]) := by
  induction m with
  | nil => simp [multimapInsert]
  | cons x rest ih =>
    simp only [multimapInsert]
    split_ifs
    · have h : ([e] ++ (x :: rest)).Perm ((x :: rest) ++ [e]) := List.perm_append_comm
      exact h
    · exact List.Perm.cons x ih

theorem multimapInsert_sorted (m : List (Nat × ScoreHolder)) (e : Nat × ScoreHolder)
    (h : m.Pairwise (fun a b => a.1 ≤ b.1)) :
    (multimapInsert m e).Pairwise (fun a b => a.1 ≤ b.1) := by
  induction m with
  | nil => simp [multimapInsert]
  | cons x rest ih =>
    rw [List.pairwise_cons] at h
    simp only [multimapInsert]
    split_ifs with hlt
    · refine List.pairwise_cons.mpr ⟨?_, List.pairwise_cons.mpr h⟩
      intro y hy
      rcases List.mem_cons.mp hy with rfl | hy
      · exact le_of_lt hlt
      · exact le_trans (le_of_lt hlt) (h.1 y hy)
    · refine List.pairwise_cons.mpr ⟨?_, ih h.2⟩
      intro y hy
      rcases List.mem_append.mp ((multimapInsert_perm rest e).mem_iff.mp hy) with hy | hy
      · exact h.1 y hy
      · rw [List.mem_singleton.mp hy]
        exact not_lt.mp hlt

theorem spectraScores_aux (l : List ScoreHolder) :
    ∀ m : List (Nat × ScoreHolder),
      m.Pairwise (fun a b => a.1 ≤ b.1) → (∀ e ∈ m, e.1 = e.2.pPSM.scan) →
      ((l.foldl (fun m sh => multimapInsert m (sh.pPSM.scan, sh)) m).map Prod.snd).Perm
          (m.map Prod.snd ++ l)
      ∧ (l.foldl (fun m sh => multimapInsert m (sh.pPSM.scan, sh)) m).Pairwise
          (fun a b => a.1 ≤ b.1)
      ∧ (∀ e ∈ l.foldl (fun m sh => multimapInsert m (sh.pPSM.scan, sh)) m,
          e.1 = e.2.pPSM.scan) := by
  induction l with
  | nil => intro m h1 h2; exact ⟨by simp, h1, h2⟩
  | cons a t ih =>
    intro m h1 h2
    have hp := multimapInsert_perm m (a.pPSM.scan, a)
    obtain ⟨i1, i2, i3⟩ := ih (multimapInsert m (a.pPSM.scan, a))
      (multimapInsert_sorted m _ h1)
      (by
        intro e he
        rcases List.mem_append.mp (hp.mem_iff.mp he) with he | he
        · exact h2 e he
        · rw [List.mem_singleton.mp he])
    refine ⟨?_, i2, i3⟩
    simp only [List.foldl_cons]
    refine i1.trans ?_
    have := (hp.map Prod.snd).append_right t
    simpa using this

theorem spectraScores_spec (l : List ScoreHolder) :
    ((spectraScores l).map Prod.snd).Perm l
    ∧ (spectraScores l).Pairwise (fun a b => a.1 ≤ b.1)
    ∧ (∀ e ∈ spectraScores l, e.1 = e.2.pPSM.scan) := by
  have := spectraScores_aux l [] List.Pairwise.nil (by simp)
  simpa [spectraScores] using this

theorem initRemain_spec :
    ∀ (fold : Nat) (ix : Int) (remain : List Int), fold ≤ remain.length →
      (initRemain fold ix remain).length = remain.length
      ∧ (0 < fold → (initRemain fold ix remain).sum = ix + (remain.drop fold).sum) := by
  intro fold
  induction fold with
  | zero => intro ix remain _; exact ⟨rfl, fun h => absurd h (lt_irrefl _)⟩
  | succ f ih =>
    intro ix remain hlen
    obtain ⟨h1, h2⟩ := ih (ix - Int.tdiv ix ((f : Int) + 1))
      (remain.set f (Int.tdiv ix ((f : Int) + 1)))
      (by simp only [List.length_set]; omega)
    simp only [initRemain]
    refine ⟨by rw [h1, List.length_set], fun _ => ?_⟩
    have hdrop : ((remain.set f (Int.tdiv ix ((f : Int) + 1))).drop f).sum
        = Int.tdiv ix ((f : Int) + 1) + (remain.drop (f + 1)).sum := by
      rw [List.drop_eq_getElem_cons (by simp only [List.length_set]; omega)]
      simp only [List.getElem_set_self, List.sum_cons]
      rw [List.drop_set_of_lt _ _ (by omega)]
    rcases Nat.eq_zero_or_pos f with hf | hf
    · subst hf
      simp only [initRemain]
      simp only [List.drop_zero] at hdrop
      rw [hdrop]
      simp
    · rw [h2 hf, hdrop]; ring

theorem initRemain_replicate (k n : Nat) (hk : 0 < k) :
    (initRemain k (n : Int) (List.replicate k 0)).length = k
    ∧ (initRemain k (n : Int) (List.replicate k 0)).sum = (n : Int) := by
  obtain ⟨h1, h2⟩ := initRemain_spec k (n : Int) (List.replicate k 0) (by simp)
  refine ⟨by simpa using h1, ?_⟩
  rw [h2 hk]
  simp

theorem vectorResize_nil {α : Type} (k : Nat) (d : α) :
    vectorResize ([] : List α) k d = List.replicate k d := by
  simp [vectorResize]

theorem xvalInv_init (rand : Nat → Nat) (k pos n first : Nat) (usePi0 : Bool) (hk : 0 < k) :
    XvalInv k
      { train := vectorResize [] k (Scores.init usePi0)
        test := vectorResize [] k (Scores.init usePi0)
        remain := initRemain k (n : Int) (List.replicate k 0)
        previousSpectrum := first
        randIndex := rand pos % k
        randPos := pos + 1 } [] n := by
  have hmem : ∀ (i : Nat) (t : Scores),
      (vectorResize [] k (Scores.init usePi0))[i]? = some t → t.scores_ = [] := by
    intro i t h
    rw [vectorResize_nil] at h
    have := List.getElem?_mem h
    rw [List.eq_of_mem_replicate this]
    rfl
  refine
    { lenTrain := by simp [vectorResize_nil]
      lenTest := by simp [vectorResize_nil]
      part := ?_
      placed := by intro h hh; simp at hh
      sameScan := ?_
      apart := ?_
      bound := by intro h hh; simp at hh
      current := by intro h hh; simp at hh
      idx := Nat.mod_lt _ hk
      lenRemain := (initRemain_replicate k n hk).1
      quota := (initRemain_replicate k n hk).2 }
  · intro i r t hr ht
    simp only at hr ht
    rw [hmem i r hr, hmem i t ht]
    exact List.Perm.refl _
  · intro i j ta tb hta htb a ha
    simp only at hta
    rw [hmem i ta hta] at ha
    simp at ha
  · intro i r t hr ht a ha
    simp only at ht
    rw [hmem i t ht] at ha
    simp at ha

theorem foldScores_map_recalculateSizes (v : List Scores) (i : Nat) :
    foldScores (v.map Scores.recalculateSizes) i = foldScores v i := by
  unfold foldScores
  rw [List.getElem?_map]
  cases v[i]? <;> rfl

theorem foldScores_of_getElem? (v : List Scores) (i : Nat) (t : Scores)
    (h : v[i]? = some t) : foldScores v i = t.scores_ := by
  unfold foldScores
  rw [h]

theorem exists_getElem?_of_lt (v : List Scores) (i : Nat) (h : i < v.length) :
    ∃ t, v[i]? = some t ∧ foldScores v i = t.scores_ :=
  ⟨v[i], List.getElem?_eq_getElem h, foldScores_of_getElem? v i _ (List.getElem?_eq_getElem h)⟩

/-- What a terminated split looks like: the loop ended in a state satisfying the invariant
for a permutation of the input. -/
theorem createXvalSetsBySpectrum_inv (rand : Nat → Nat) (fuel : Nat) (s : Scores)
    (k pos : Nat) (train test : List Scores) (pos1 : Nat)
    (h : s.createXvalSetsBySpectrum rand fuel [] [] k pos = some (train, test, pos1)) :
    0 < k ∧ ∃ st done, XvalInv k st done 0 ∧ done.Perm s.scores_
      ∧ train = st.train.map Scores.recalculateSizes
      ∧ test = st.test.map Scores.recalculateSizes := by
  obtain ⟨e1, e2, e3⟩ := spectraScores_spec s.scores_
  unfold Scores.createXvalSetsBySpectrum at h
  dsimp only at h
  cases hE : spectraScores s.scores_ with
  | nil => rw [hE] at h; simp at h
  | cons first rest =>
    rw [hE] at h e1 e2 e3
    dsimp only at h
    by_cases hk0 : k = 0
    · simp [hk0] at h
    · have hk : 0 < k := Nat.pos_of_ne_zero hk0
      rw [if_neg hk0] at h
      split at h
      · exact absurd h (by simp)
      · next st hloop =>
        simp only [Option.some.injEq, Prod.mk.injEq] at h
        have hlen : s.scores_.length = (first :: rest).length := by
          rw [← e1.length_eq, List.length_map]
        have hinit := xvalInv_init rand k pos s.scores_.length first.1 s.usePi0_ hk
        rw [hlen] at hinit
        have hinv := xvalLoop_inv rand k fuel hk (first :: rest) _ st [] hinit e2
          (by
            intro e he
            refine ⟨?_, e3 e he⟩
            rcases List.mem_cons.mp he with rfl | he
            · exact le_refl _
            · exact (List.pairwise_cons.mp e2).1 e he)
          (by rw [← hlen]; exact hloop)
        exact ⟨hk, st, _, hinv, by simpa using e1, h.1.symm, h.2.1.symm⟩

/-- With a fair stream of draws and enough fuel the split returns. -/
theorem createXvalSetsBySpectrum_isSome (rand : Nat → Nat) (fuel B : Nat) (s : Scores)
    (k pos : Nat) (hne : s.scores_ ≠ []) (hk : 1 ≤ k) (hfair : FairDraws rand k B)
    (hB : B ≤ fuel) :
    (s.createXvalSetsBySpectrum rand fuel [] [] k pos).isSome = true := by
  obtain ⟨e1, e2, e3⟩ := spectraScores_spec s.scores_
  unfold Scores.createXvalSetsBySpectrum
  dsimp only
  cases hE : spectraScores s.scores_ with
  | nil =>
    rw [hE] at e1
    simp only [List.map_nil] at e1
    exact absurd (List.Perm.nil_eq e1).symm hne
  | cons first rest =>
    rw [hE] at e1 e2 e3
    dsimp only
    have hk0 : k ≠ 0 := by omega
    rw [if_neg hk0]
    have hlen : s.scores_.length = (first :: rest).length := by
      rw [← e1.length_eq, List.length_map]
    have hinit := xvalInv_init rand k pos s.scores_.length first.1 s.usePi0_ (by omega)
    rw [hlen] at hinit
    obtain ⟨st, hst⟩ := xvalLoop_some rand k fuel B (by omega) hfair hB (first :: rest) _ []
      hinit e3 e2
      (by
        intro e he
        rcases List.mem_cons.mp he with rfl | he
        · exact le_refl _
        · exact (List.pairwise_cons.mp e2).1 e he)
    rw [← hlen] at hst
    rw [hst]
    rfl

theorem filter_range_ne_length (k i0 : Nat) (h : i0 < k) :
    ((List.range k).filter (fun i => decide (i ≠ i0))).length = k - 1 := by
  have h1 := List.length_eq_countP_add_countP (fun i => decide (i = i0)) (List.range k)
  have h2 : (List.range k).countP (fun i => decide (i = i0)) = 1 := by
    have := List.count_eq_one_of_mem (List.nodup_range k) (List.mem_range.mpr h)
    rw [List.count_eq_countP] at this
    rw [← this]
    apply List.countP_congr
    intro x _
    simp
  rw [List.length_range, h2] at h1
  rw [← List.countP_eq_length_filter]
  have h3 : (List.range k).countP (fun i => decide (i ≠ i0))
      = (List.range k).countP (fun a => ¬ (decide (a = i0)) = true) := by
    apply List.countP_congr
    intro x _
    simp
  rw [h3]
  omega

theorem filter_range_eq_length (k i0 : Nat) (h : i0 < k) :
    ((List.range k).filter (fun i => decide (i = i0))).length = 1 := by
  rw [← List.countP_eq_length_filter]
  have := List.count_eq_one_of_mem (List.nodup_range k) (List.mem_range.mpr h)
  rw [List.count_eq_countP] at this
  rw [← this]
  apply List.countP_congr
  intro x _
  simp

theorem xvalInv_folds (k : Nat) (st : XvalState) (done : List ScoreHolder)
    (hinv : XvalInv k st done 0) :
    (∀ h ∈ done, ∃ i0, i0 < k ∧ h ∈ foldScores st.test i0
        ∧ (∀ i, i < k → (h ∈ foldScores st.test i ↔ i = i0))
        ∧ (∀ i, i < k → (h ∈ foldScores st.train i ↔ i ≠ i0)))
    ∧ (∀ i, i < k → (foldScores st.train i ++ foldScores st.test i).Perm done
        ∧ (foldScores st.train i).Disjoint (foldScores st.test i))
    ∧ (∀ i j, i < k → j < k → ∀ a ∈ foldScores st.test i, ∀ b ∈ foldScores st.test j,
        a.pPSM.scan = b.pPSM.scan → i = j)
    ∧ (∀ i, i < k → ∀ a ∈ foldScores st.test i, ∀ b ∈ foldScores st.train i,
        a.pPSM.scan ≠ b.pPSM.scan) := by
  have hT : ∀ i, i < k → ∃ t, st.test[i]? = some t ∧ foldScores st.test i = t.scores_ :=
    fun i hi => exists_getElem?_of_lt st.test i (by rw [hinv.lenTest]; exact hi)
  have hR : ∀ i, i < k → ∃ t, st.train[i]? = some t ∧ foldScores st.train i = t.scores_ :=
    fun i hi => exists_getElem?_of_lt st.train i (by rw [hinv.lenTrain]; exact hi)
  have hsame : ∀ i j, i < k → j < k → ∀ a ∈ foldScores st.test i,
      ∀ b ∈ foldScores st.test j, a.pPSM.scan = b.pPSM.scan → i = j := by
    intro i j hi hj a ha b hb hab
    obtain ⟨ta, hta, ea⟩ := hT i hi
    obtain ⟨tb, htb, eb⟩ := hT j hj
    rw [ea] at ha
    rw [eb] at hb
    exact hinv.sameScan i j ta tb hta htb a ha b hb hab
  have hapart : ∀ i, i < k → ∀ a ∈ foldScores st.test i, ∀ b ∈ foldScores st.train i,
      a.pPSM.scan ≠ b.pPSM.scan := by
    intro i hi a ha b hb
    obtain ⟨t, ht, et⟩ := hT i hi
    obtain ⟨r, hr, er⟩ := hR i hi
    rw [et] at ha
    rw [er] at hb
    exact hinv.apart i r t hr ht a ha b hb
  have hpart : ∀ i, i < k → (foldScores st.train i ++ foldScores st.test i).Perm done := by
    intro i hi
    obtain ⟨t, ht, et⟩ := hT i hi
    obtain ⟨r, hr, er⟩ := hR i hi
    rw [et, er]
    exact hinv.part i r t hr ht
  refine ⟨?_, ?_, hsame, hapart⟩
  · intro h hh
    obtain ⟨i0, t0, ht0, hm⟩ := hinv.placed h hh
    have hi0 : i0 < k := by
      rw [← hinv.lenTest]
      exact (List.getElem?_eq_some.mp ht0).1
    have hin : h ∈ foldScores st.test i0 := by
      rw [foldScores_of_getElem? _ _ _ ht0]; exact hm
    have huniq : ∀ i, i < k → (h ∈ foldScores st.test i ↔ i = i0) := by
      intro i hi
      constructor
      · intro hi2
        exact hsame i i0 hi hi0 h hi2 h hin rfl
      · intro he
        rw [he]; exact hin
    refine ⟨i0, hi0, hin, huniq, ?_⟩
    intro i hi
    constructor
    · intro hr he
      rw [he] at hr
      exact hapart i0 hi0 h hin h hr rfl
    · intro hne
      have := (hpart i hi).mem_iff.mpr hh
      rcases List.mem_append.mp this with h1 | h1
      · exact h1
      · exact absurd ((huniq i hi).mp h1) hne
  · intro i hi
    refine ⟨hpart i hi, ?_⟩
    intro a har hat
    exact hapart i hi a hat a har rfl

theorem fairDraws_id (k : Nat) (hk : 0 < k) : FairDraws (fun n => n) k k := by
  intro pos i hi
  have hp : pos % k < k := Nat.mod_lt _ hk
  have hdiv := Nat.div_add_mod pos k
  by_cases hle : pos % k ≤ i
  · refine ⟨i - pos % k, by omega, ?_⟩
    have : pos + (i - pos % k) = i + k * (pos / k) := by omega
    simp only [this, Nat.add_mul_mod_self_left]
    exact Nat.mod_eq_of_lt hi
  · refine ⟨i + k - pos % k, by omega, ?_⟩
    have : pos + (i + k - pos % k) = i + k * (pos / k + 1) := by
      rw [Nat.mul_add, Nat.mul_one]; omega
    simp only [this, Nat.add_mul_mod_self_left]
    exact Nat.mod_eq_of_lt hi

/-- Claim C3.  For a non-empty Score Set, `k ≥ 1` folds and empty vectors `train` and
`test`: with a fair stream of draws and enough fuel the split returns; and whenever it returns,
both vectors have `k` folds, every input holder lies in the test fold of exactly one index
`i0` and in the training folds of exactly the other `k - 1` indices, and for every fold
`train[i]` and `test[i]` together are a permutation of the input and have no holder in
common. -/
theorem createXvalSetsBySpectrum_partition (rand : Nat → Nat) (s : Scores) (k pos : Nat)
    (hne : s.scores_ ≠ []) (hk : 1 ≤ k) :
    (∀ B fuel, FairDraws rand k B → B ≤ fuel →
      (s.createXvalSetsBySpectrum rand fuel [] [] k pos).isSome = true)
    ∧ (∀ fuel train test pos1,
        s.createXvalSetsBySpectrum rand fuel [] [] k pos = some (train, test, pos1) →
        train.length = k ∧ test.length = k
        ∧ (∀ h ∈ s.scores_, ∃ i0, i0 < k
            ∧ (∀ i, i < k → (h ∈ foldScores test i ↔ i = i0))
            ∧ (∀ i, i < k → (h ∈ foldScores train i ↔ i ≠ i0))
            ∧ ((List.range k).filter (fun i => decide (h ∈ foldScores test i))).length = 1
            ∧ ((List.range k).filter (fun i => decide (h ∈ foldScores train i))).length
                = k - 1)
        ∧ (∀ i, i < k → (foldScores train i ++ foldScores test i).Perm s.scores_
            ∧ (foldScores train i).Disjoint (foldScores test i))) := by
  refine ⟨fun B fuel hfair hB =>
    createXvalSetsBySpectrum_isSome rand fuel B s k pos hne hk hfair hB, ?_⟩
  intro fuel train test pos1 hres
  obtain ⟨_, st, done, hinv, hperm, htrain, htest⟩ :=
    createXvalSetsBySpectrum_inv rand fuel s k pos train test pos1 hres
  obtain ⟨f1, f2, _, _⟩ := xvalInv_folds k st done hinv
  have eT : ∀ i, foldScores test i = foldScores st.test i := by
    intro i; rw [htest, foldScores_map_recalculateSizes]
  have eR : ∀ i, foldScores train i = foldScores st.train i := by
    intro i; rw [htrain, foldScores_map_recalculateSizes]
  refine ⟨by rw [htrain, List.length_map, hinv.lenTrain],
    by rw [htest, List.length_map, hinv.lenTest], ?_, ?_⟩
  · intro h hh
    obtain ⟨i0, hi0, _, h2, h3⟩ := f1 h (hperm.mem_iff.mpr hh)
    refine ⟨i0, hi0, fun i hi => by rw [eT]; exact h2 i hi,
      fun i hi => by rw [eR]; exact h3 i hi, ?_, ?_⟩
    · rw [← filter_range_eq_length k i0 hi0]
      congr 1
      apply List.filter_congr
      intro i hi
      have := h2 i (List.mem_range.mp hi)
      rw [eT]
      simp only [this]
    · rw [← filter_range_ne_length k i0 hi0]
      congr 1
      apply List.filter_congr
      intro i hi
      have := h3 i (List.mem_range.mp hi)
      rw [eR]
      simp only [this]
  · intro i hi
    rw [eT, eR]
    exact ⟨((f2 i hi).1).trans hperm, (f2 i hi).2⟩

/-- Claim C4.  For a non-empty Score Set, `k ≥ 1` folds and any stream of draws: with a fair
stream and enough fuel the split returns; and whenever it returns, two input holders with the
same scan number lie in one common test fold, holders of one scan never lie in test folds of
different indices, and no scan number of `test[i]` occurs in `train[i]`. -/
theorem createXvalSetsBySpectrum_scan_folds (rand : Nat → Nat) (s : Scores) (k pos : Nat)
    (hne : s.scores_ ≠ []) (hk : 1 ≤ k) :
    (∀ B fuel, FairDraws rand k B → B ≤ fuel →
      (s.createXvalSetsBySpectrum rand fuel [] [] k pos).isSome = true)
    ∧ (∀ fuel train test pos1,
        s.createXvalSetsBySpectrum rand fuel [] [] k pos = some (train, test, pos1) →
        (∀ a ∈ s.scores_, ∀ b ∈ s.scores_, a.pPSM.scan = b.pPSM.scan →
          ∃ i, i < k ∧ a ∈ foldScores test i ∧ b ∈ foldScores test i)
        ∧ (∀ i j, i < k → j < k → ∀ a ∈ foldScores test i, ∀ b ∈ foldScores test j,
            a.pPSM.scan = b.pPSM.scan → i = j)
        ∧ (∀ i, i < k → ∀ a ∈ foldScores test i, ∀ b ∈ foldScores train i,
            a.pPSM.scan ≠ b.pPSM.scan)) := by
  refine ⟨fun B fuel hfair hB =>
    createXvalSetsBySpectrum_isSome rand fuel B s k pos hne hk hfair hB, ?_⟩
  intro fuel train test pos1 hres
  obtain ⟨_, st, done, hinv, hperm, htrain, htest⟩ :=
    createXvalSetsBySpectrum_inv rand fuel s k pos train test pos1 hres
  obtain ⟨f1, _, f3, f4⟩ := xvalInv_folds k st done hinv
  have eT : ∀ i, foldScores test i = foldScores st.test i := by
    intro i; rw [htest, foldScores_map_recalculateSizes]
  have eR : ∀ i, foldScores train i = foldScores st.train i := by
    intro i; rw [htrain, foldScores_map_recalculateSizes]
  simp only [eT, eR]
  refine ⟨?_, f3, f4⟩
  intro a ha b hb hab
  obtain ⟨i0, hi0, ha0, _, _⟩ := f1 a (hperm.mem_iff.mpr ha)
  obtain ⟨j0, hj0, hb0, _, _⟩ := f1 b (hperm.mem_iff.mpr hb)
  have := f3 i0 j0 hi0 hj0 a ha0 b hb0 hab
  subst this
  exact ⟨i0, hi0, ha0, hb0⟩

/-! ### Instances on the example data -/

theorem normalizeExample_labels :
    ∀ sh ∈ normalizeExample.scores_, sh.label = 1 ∨ sh.label = -1 := by
  intro sh h
  simp only [normalizeExample, List.mem_cons, List.mem_singleton, List.not_mem_nil,
    or_false] at h
  rcases h with rfl | rfl | rfl | rfl <;> simp [exampleHolder]

theorem normalizeExample_ne_nil : normalizeExample.scores_ ≠ [] := by
  simp [normalizeExample]

theorem stdvExample_nonzero : ∀ j, j < 1 → stdvExample.stdv.getD j 0 ≠ 0 := by
  intro j hj
  have : j = 0 := by omega
  subst this
  simp [stdvExample]

theorem createXvalSetsBySpectrum_partition_witness :
    (normalizeExample.scores_ ≠ [] ∧ 1 ≤ 3)
    ∧ (normalizeExample.createXvalSetsBySpectrum (fun n => n) 3 [] [] 3 0).isSome = true :=
  ⟨⟨normalizeExample_ne_nil, by decide⟩,
    (createXvalSetsBySpectrum_partition (fun n => n) normalizeExample 3 0
      normalizeExample_ne_nil (by decide)).1 3 3 (fairDraws_id 3 (by decide)) (le_refl 3)⟩

theorem createXvalSetsBySpectrum_scan_folds_witness :
    (normalizeExample.scores_ ≠ [] ∧ 1 ≤ 2)
    ∧ (normalizeExample.createXvalSetsBySpectrum (fun n => n) 2 [] [] 2 0).isSome = true :=
  ⟨⟨normalizeExample_ne_nil, by decide⟩,
    (createXvalSetsBySpectrum_scan_folds (fun n => n) normalizeExample 2 0
      normalizeExample_ne_nil (by decide)).1 2 2 (fairDraws_id 2 (by decide)) (le_refl 2)⟩

theorem weedOutRedundant_unique_best_witness :
    (∀ sh ∈ normalizeExample.scores_, sh.label = 1 ∨ sh.label = -1)
    ∧ (normalizeExample.weedOutRedundant exampleEnv).2 ≠ some Exn.out_of_range :=
  ⟨normalizeExample_labels,
    (weedOutRedundant_unique_best exampleEnv normalizeExample normalizeExample_labels).1⟩

theorem gt_of_scan_lt (a b : ScoreHolder) (hs : a.score = b.score)
    (h : b.pPSM.scan < a.pPSM.scan) : a.gt b = true := by
  simp [ScoreHolder.gt, hs, h]

theorem gt_of_expMass_lt (a b : ScoreHolder) (hs : a.score = b.score)
    (hscan : a.pPSM.scan = b.pPSM.scan) (h : b.pPSM.expMass < a.pPSM.expMass) :
    a.gt b = true := by
  simp [ScoreHolder.gt, hs, hscan, h]

/-- A list that is in strictly descending order is what `std::sort` with `operator>` returns
for every rearrangement of it. -/
theorem stdSort_gt_eq_of_strict (l sorted : List ScoreHolder) (hperm : l.Perm sorted)
    (hs : sorted.Pairwise (fun a b => a.gt b = true)) :
    stdSort ScoreHolder.gt l = sorted := by
  have h1 := stdSort_gt_pairwise l
  have h2 : sorted.Pairwise (fun a b => b.gt a = false) := by
    refine hs.imp ?_
    intro a b hab
    rw [gt_iff_lexKey] at hab
    rw [← Bool.not_eq_true, gt_iff_lexKey]
    exact lt_asymm hab
  have hp : (stdSort ScoreHolder.gt l).Perm sorted := (stdSort_perm _ l).trans hperm
  refine List.Perm.eq_of_sorted ?_ h1 h2 hp
  intro a b ha hb hab hba
  have hb1 : b ∈ sorted := hb
  have ha1 : a ∈ sorted := hp.mem_iff.mp ha
  have hne : ∀ x ∈ sorted, ∀ y ∈ sorted, x.gt y = false → y.gt x = false → x = y := by
    intro x hx y hy hxy hyx
    by_contra hne
    have hsymm : Symmetric (fun x y : ScoreHolder => x = y ∨ x.gt y = true ∨ y.gt x = true) := by
      intro x y h
      rcases h with h | h | h
      · exact Or.inl h.symm
      · exact Or.inr (Or.inr h)
      · exact Or.inr (Or.inl h)
    have hpw : sorted.Pairwise (fun x y : ScoreHolder => x = y ∨ x.gt y = true ∨ y.gt x = true) :=
      hs.imp (fun {x y} h => Or.inr (Or.inl h))
    rcases List.Pairwise.forall_of_forall hsymm (fun x _ => Or.inl rfl) hpw hx hy with h | h | h
    · exact hne h
    · rw [h] at hxy; exact Bool.noConfusion hxy
    · rw [h] at hyx; exact Bool.noConfusion hyx
  exact hne a ha1 b hb1 hba hab

/-- Claim C18, as stated, on the three holders with label `+1`: the holder (1, 5, 100) is not
greater than the holder (1, 7, 100), it is the other way round, and the descending sort of
`postMergeStep` puts the scan-7 holder first and the holder (1, 5, 100) last. -/
theorem tied_scores_scan7_not_last :
    (exampleHolder 1 0 1 (examplePSM 5 100 2 "A" [])).gt
        (exampleHolder 1 0 1 (examplePSM 7 100 2 "C" [])) = false
    ∧ (exampleHolder 1 0 1 (examplePSM 7 100 2 "C" [])).gt
        (exampleHolder 1 0 1 (examplePSM 5 100 2 "A" [])) = true
    ∧ (tiedScores.postMergeStep exampleEnv).1.scores_.map
        (fun sh => (sh.pPSM.scan, sh.pPSM.expMass)) = [(7, 100), (5, 101), (5, 100)] := by
  refine ⟨?_, ?_, ?_⟩
  · simp [ScoreHolder.gt, exampleHolder, examplePSM]
  · simp [ScoreHolder.gt, exampleHolder, examplePSM]
  · rw [postMergeStep_scores]
    have : stdSort ScoreHolder.gt tiedScores.scores_
        = [exampleHolder 1 0 1 (examplePSM 7 100 2 "C" []),
           exampleHolder 1 0 1 (examplePSM 5 101 2 "B" []),
           exampleHolder 1 0 1 (examplePSM 5 100 2 "A" [])] := by
      apply stdSort_gt_eq_of_strict
      · simp only [tiedScores, tiedExample]
        exact (List.Perm.swap _ _ _).trans
          ((List.Perm.cons _ (List.Perm.swap _ _ _)).trans (List.Perm.swap _ _ _))
      · simp [ScoreHolder.gt, exampleHolder, examplePSM]
        norm_num
    rw [this]
    simp [exampleHolder, examplePSM]

/-- Claim C18, amended.  For three holders `a`, `b`, `c` with score 1 and (scan, expMass)
equal to (5, 100), (5, 101) and (7, 100), whatever their labels, `operator>` gives
`c > b > a`, and
`postMergeStep` on a Score Set that holds them in any order returns `c`, `b`, `a`: the scan-7
holder comes first. -/
theorem tied_scores_scan7_first (env : Env) (s : Scores) (a b c : ScoreHolder)
    (hscore : a.score = 1 ∧ b.score = 1 ∧ c.score = 1)
    (ha : a.pPSM.scan = 5 ∧ a.pPSM.expMass = 100)
    (hb : b.pPSM.scan = 5 ∧ b.pPSM.expMass = 101)
    (hc : c.pPSM.scan = 7 ∧ c.pPSM.expMass = 100)
    (hs : s.scores_.Perm [a, b, c]) :
    c.gt b = true ∧ b.gt a = true ∧ c.gt a = true
    ∧ (s.postMergeStep env).1.scores_ = [c, b, a] := by
  have hcb : c.gt b = true :=
    gt_of_scan_lt c b (by rw [hscore.2.2, hscore.2.1]) (by rw [hb.1, hc.1]; decide)
  have hba : b.gt a = true :=
    gt_of_expMass_lt b a (by rw [hscore.2.1, hscore.1]) (by rw [hb.1, ha.1])
      (by rw [hb.2, ha.2]; norm_num)
  have hca : c.gt a = true :=
    gt_of_scan_lt c a (by rw [hscore.2.2, hscore.1]) (by rw [ha.1, hc.1]; decide)
  refine ⟨hcb, hba, hca, ?_⟩
  rw [postMergeStep_scores]
  apply stdSort_gt_eq_of_strict
  · refine hs.trans ?_
    exact (List.Perm.swap _ _ _).trans
      ((List.Perm.cons _ (List.Perm.swap _ _ _)).trans (List.Perm.swap _ _ _))
  · simp [hcb, hba, hca]

theorem tied_scores_scan7_first_witness :
    tiedScores.scores_.Perm tiedExample
    ∧ (tiedScores.postMergeStep exampleEnv).1.scores_
        = [exampleHolder 1 0 1 (examplePSM 7 100 2 "C" []),
           exampleHolder 1 0 1 (examplePSM 5 101 2 "B" []),
           exampleHolder 1 0 1 (examplePSM 5 100 2 "A" [])] :=
  ⟨List.Perm.refl _,
    (tied_scores_scan7_first exampleEnv tiedScores
      (exampleHolder 1 0 1 (examplePSM 5 100 2 "A" []))
      (exampleHolder 1 0 1 (examplePSM 5 101 2 "B" []))
      (exampleHolder 1 0 1 (examplePSM 7 100 2 "C" []))
      ⟨rfl, rfl, rfl⟩ ⟨rfl, rfl⟩ ⟨rfl, rfl⟩ ⟨rfl, rfl⟩ (List.Perm.refl _)).2.2.2⟩

theorem recalculateSizes_counts (l : List ScoreHolder) :
    ∀ c : Nat × Nat,
      l.foldl (fun (c : Nat × Nat) sh =>
          if sh.isTarget then (c.1 + 1, c.2) else (c.1, c.2 + 1)) c
        = (c.1 + l.countP ScoreHolder.isTarget,
           c.2 + l.countP (fun sh => !sh.isTarget)) := by
  induction l with
  | nil => intro c; simp
  | cons a t ih =>
    intro c
    rw [List.foldl_cons, ih]
    by_cases h : a.isTarget = true
    · simp [List.countP_cons, h]; omega
    · simp [List.countP_cons, h]; omega

/-- `postMergeStep` stores the ratio of the data model for every content. -/
theorem postMergeStep_ratio (env : Env) (s : Scores) :
    (s.postMergeStep env).1.targetDecoySizeRatio_
      = some (specRatio (s.postMergeStep env).1.totalNumberOfTargets_
          (s.postMergeStep env).1.totalNumberOfDecoys_) := by
  unfold Scores.postMergeStep
  simp only [(checkSeparationAndSetPi0_fields env _).2.1,
    (checkSeparationAndSetPi0_fields env _).2.2.1,
    (checkSeparationAndSetPi0_fields env _).2.2.2.1, specRatio]

/-- With at least one decoy `recalculateSizes` stores the ratio of the data model; with no
decoy it divides by zero. -/
theorem recalculateSizes_ratio (s : Scores) :
    s.recalculateSizes.targetDecoySizeRatio_
      = if s.recalculateSizes.totalNumberOfDecoys_ = 0 then none
        else some (specRatio s.recalculateSizes.totalNumberOfTargets_
          s.recalculateSizes.totalNumberOfDecoys_) := by
  unfold Scores.recalculateSizes
  simp only [divDouble, specRatio]
  split_ifs with h1 h2 h2
  · rfl
  · exact absurd (by exact_mod_cast h1) h2
  · exact absurd (by rw [h2]; simp) h1
  · congr 1
    rw [max_eq_right]
    have : 0 < (s.scores_.foldl (fun (c : Nat × Nat) sh =>
        if sh.isTarget then (c.1 + 1, c.2) else (c.1, c.2 + 1)) (0, 0)).2 :=
      Nat.pos_of_ne_zero h2
    exact_mod_cast this

/-- Claim C20, evaluated on a Score Set with one target and no decoy.  The data model gives
the ratio 1 / max(1, 0) = 1 and `postMergeStep` stores it; `recalculateSizes` and
`fillFeatures` divide by the number of decoys, here zero, and store no finite ratio. -/
theorem ratio_zero_decoys :
    specRatio 1 0 = 1
    ∧ (noDecoyExample.postMergeStep exampleEnv).1.totalNumberOfDecoys_ = 0
    ∧ (noDecoyExample.postMergeStep exampleEnv).1.targetDecoySizeRatio_ = some 1
    ∧ noDecoyExample.recalculateSizes.totalNumberOfTargets_ = 1
    ∧ noDecoyExample.recalculateSizes.totalNumberOfDecoys_ = 0
    ∧ noDecoyExample.recalculateSizes.targetDecoySizeRatio_ = none
    ∧ ((Scores.init false).fillFeatures exampleEnv noDecoyHandler).2 = none
    ∧ ((Scores.init false).fillFeatures exampleEnv noDecoyHandler).1.totalNumberOfTargets_ = 1
    ∧ ((Scores.init false).fillFeatures exampleEnv noDecoyHandler).1.totalNumberOfDecoys_ = 0
    ∧ ((Scores.init false).fillFeatures exampleEnv noDecoyHandler).1.targetDecoySizeRatio_
        = none := by
  have hsort : stdSort ScoreHolder.gt noDecoyExample.scores_ = noDecoyExample.scores_ := by
    simp [stdSort, noDecoyExample]
  refine ⟨by simp [specRatio], ?_, ?_, ?_, ?_, ?_, ?_, ?_, ?_, ?_⟩
  · unfold Scores.postMergeStep
    rw [(checkSeparationAndSetPi0_fields exampleEnv _).2.2.1, hsort]
    simp [noDecoyExample, exampleHolder, ScoreHolder.isDecoy, List.countP_cons]
  · unfold Scores.postMergeStep
    rw [(checkSeparationAndSetPi0_fields exampleEnv _).2.2.2.1, hsort]
    simp [noDecoyExample, exampleHolder, ScoreHolder.isDecoy, ScoreHolder.isTarget,
      List.countP_cons]
  · simp [Scores.recalculateSizes, noDecoyExample, exampleHolder, ScoreHolder.isTarget]
  · simp [Scores.recalculateSizes, noDecoyExample, exampleHolder, ScoreHolder.isTarget]
  · simp [Scores.recalculateSizes, noDecoyExample, exampleHolder, ScoreHolder.isTarget,
      divDouble]
  · simp [Scores.fillFeatures, exampleEnv, noDecoyHandler]
  · simp [Scores.fillFeatures, exampleEnv, noDecoyHandler]
  · simp [Scores.fillFeatures, exampleEnv, noDecoyHandler]
  · simp [Scores.fillFeatures, exampleEnv, noDecoyHandler, divDouble]

/-- Claim C16.  For a Score Set whose counts add up to its size: `scoreAndAddPSM` appends the
holder, with its label unchanged, exactly when the label is `+1` or `-1`; a refused holder
leaves the holder sequence and both counts as they were; an admitted holder raises the count
of its class by one and leaves the other count; the counts add up to the size afterwards. -/
theorem scoreAndAddPSM_admits (env : Env) (s : Scores) (sh : ScoreHolder) (w : List ℚ)
    (pool : FeatureMemoryPool)
    (hinv : s.totalNumberOfTargets_ + s.totalNumberOfDecoys_ = s.scores_.length) :
    (s.scoreAndAddPSM env sh w pool).2.1.label = sh.label
    ∧ ((sh.label = 1 ∨ sh.label = -1) →
        (s.scoreAndAddPSM env sh w pool).1.scores_
          = s.scores_ ++ [(s.scoreAndAddPSM env sh w pool).2.1])
    ∧ (¬ (sh.label = 1 ∨ sh.label = -1) →
        (s.scoreAndAddPSM env sh w pool).1.scores_ = s.scores_
        ∧ (s.scoreAndAddPSM env sh w pool).1.totalNumberOfTargets_ = s.totalNumberOfTargets_
        ∧ (s.scoreAndAddPSM env sh w pool).1.totalNumberOfDecoys_ = s.totalNumberOfDecoys_)
    ∧ (sh.label = 1 →
        (s.scoreAndAddPSM env sh w pool).1.totalNumberOfTargets_ = s.totalNumberOfTargets_ + 1
        ∧ (s.scoreAndAddPSM env sh w pool).1.totalNumberOfDecoys_ = s.totalNumberOfDecoys_)
    ∧ (sh.label = -1 →
        (s.scoreAndAddPSM env sh w pool).1.totalNumberOfDecoys_ = s.totalNumberOfDecoys_ + 1
        ∧ (s.scoreAndAddPSM env sh w pool).1.totalNumberOfTargets_ = s.totalNumberOfTargets_)
    ∧ (s.scoreAndAddPSM env sh w pool).1.totalNumberOfTargets_
        + (s.scoreAndAddPSM env sh w pool).1.totalNumberOfDecoys_
      = (s.scoreAndAddPSM env sh w pool).1.scores_.length := by
  unfold Scores.scoreAndAddPSM
  simp only [scoreLoop_fold]
  by_cases h1 : sh.label = 1
  · by_cases hd : env.calcDoc = true <;> simp [h1, hd] <;> omega
  · by_cases h2 : sh.label = -1
    · by_cases hd : env.calcDoc = true <;> simp [h2, hd] <;> omega
    · by_cases hd : env.calcDoc = true <;> simp [h1, h2, hd] <;> omega

/-- Claim C13.  With `-I` and `-OI` not given the search-input type stays `auto`, and after
`parseOptions` and the selection step of `run` the mode is: mix-max, with `useMixMax_` set
and `targetDecoyCompetition_` not set, for (separate, no flag), (separate, -y) and
(concatenated, -y); target-decoy competition, with `useMixMax_` not set, for (separate, -Y)
and (concatenated, -Y), where `targetDecoyCompetition_` is set, and for (concatenated, no
flag), where neither flag is set and the competition is the one of the concatenated search. -/
theorem mode_selection_table :
    (∀ y Y c, Caller.init.parseOptionsMode (autoOptions y Y) = some c →
      c.inputSearchType_ = "auto")
    ∧ (∃ c c1, Caller.init.parseOptionsMode (autoOptions false false) = some c
        ∧ c.runModeSelection false = some c1
        ∧ c1.useMixMax_ = true ∧ c1.targetDecoyCompetition_ = false
        ∧ effectiveMode c1 false = some StatMode.mixMax)
    ∧ (∃ c c1, Caller.init.parseOptionsMode (autoOptions true false) = some c
        ∧ c.runModeSelection false = some c1
        ∧ c1.useMixMax_ = true ∧ c1.targetDecoyCompetition_ = false
        ∧ effectiveMode c1 false = some StatMode.mixMax)
    ∧ (∃ c c1, Caller.init.parseOptionsMode (autoOptions true false) = some c
        ∧ c.runModeSelection true = some c1
        ∧ c1.useMixMax_ = true ∧ c1.targetDecoyCompetition_ = false
        ∧ effectiveMode c1 true = some StatMode.mixMax)
    ∧ (∃ c c1, Caller.init.parseOptionsMode (autoOptions false true) = some c
        ∧ c.runModeSelection false = some c1
        ∧ c1.useMixMax_ = false ∧ c1.targetDecoyCompetition_ = true
        ∧ effectiveMode c1 false = some StatMode.tdc)
    ∧ (∃ c c1, Caller.init.parseOptionsMode (autoOptions false false) = some c
        ∧ c.runModeSelection true = some c1
        ∧ c1.useMixMax_ = false ∧ c1.targetDecoyCompetition_ = false
        ∧ effectiveMode c1 true = some StatMode.tdc)
    ∧ (∃ c c1, Caller.init.parseOptionsMode (autoOptions false true) = some c
        ∧ c.runModeSelection true = some c1
        ∧ c1.useMixMax_ = false ∧ c1.targetDecoyCompetition_ = true
        ∧ effectiveMode c1 true = some StatMode.tdc) := by
  refine ⟨?_, ?_, ?_, ?_, ?_, ?_, ?_⟩
  · intro y Y c h
    cases y <;> cases Y <;>
      simp [Caller.parseOptionsMode, autoOptions, Caller.init] at h <;>
      rw [← h]
  all_goals
    refine ⟨_, _, rfl, rfl, ?_⟩
    simp [Caller.parseOptionsMode, autoOptions, Caller.init, Caller.selectMode, effectiveMode]

/-- After the mode statements of `parseOptions` the two flags are never both set. -/
theorem parseOptionsMode_exclusive (cmd : ModeOptions) (c : Caller)
    (h : Caller.init.parseOptionsMode cmd = some c) :
    ¬ (c.useMixMax_ = true ∧ c.targetDecoyCompetition_ = true) := by
  obtain ⟨y, Y, I, OI⟩ := cmd
  unfold Caller.parseOptionsMode at h
  cases y <;> cases Y <;> cases OI <;> cases I <;>
    simp only [Caller.init, Bool.false_eq_true, if_true, if_false, Bool.not_true,
      Bool.not_false, ne_eq] at h <;>
    (try split_ifs at h) <;>
    simp only [Option.some.injEq, reduceCtorEq] at h <;>
    (try subst h) <;>
    simp

/-- Claim C14.  For all settings of `-y`, `-Y`, `-I` and `-OI` that `parseOptions` accepts
and both outcomes of the detection of a concatenated search, the selection step of `run`
passes the assertion that `useMixMax_` and `targetDecoyCompetition_` are not both set. -/
theorem mode_flags_exclusive (cmd : ModeOptions) (c : Caller) (concatenatedSearch : Bool)
    (h : Caller.init.parseOptionsMode cmd = some c) :
    ∃ c1, c.runModeSelection concatenatedSearch = some c1
      ∧ c1 = c.selectMode concatenatedSearch
      ∧ ¬ (c1.useMixMax_ = true ∧ c1.targetDecoyCompetition_ = true) := by
  have hex := parseOptionsMode_exclusive cmd c h
  have hsel : ¬ ((c.selectMode concatenatedSearch).useMixMax_ = true
      ∧ (c.selectMode concatenatedSearch).targetDecoyCompetition_ = true) := by
    unfold Caller.selectMode
    split_ifs with h1 h2 h3
    · exact hex
    · exact hex
    · simp only
      intro hboth
      exact h3 hboth.2
    · exact hex
  refine ⟨c.selectMode concatenatedSearch, ?_, rfl, hsel⟩
  unfold Caller.runModeSelection
  simp only [Bool.and_eq_true]
  rw [if_neg hsel]

theorem mode_flags_exclusive_witness :
    Caller.init.parseOptionsMode { y := false, Y := true, I := some "separate", OI := false }
        = some { useMixMax_ := false, targetDecoyCompetition_ := true,
                 inputSearchType_ := "separate" }
    ∧ ∃ c1, (Caller.mk false true "separate").runModeSelection true = some c1
      ∧ c1 = (Caller.mk false true "separate").selectMode true
      ∧ ¬ (c1.useMixMax_ = true ∧ c1.targetDecoyCompetition_ = true) :=
  ⟨by simp [Caller.parseOptionsMode, Caller.init],
    mode_flags_exclusive { y := false, Y := true, I := some "separate", OI := false }
      (Caller.mk false true "separate") true
      (by simp [Caller.parseOptionsMode, Caller.init])⟩

theorem getD_set_rat (l : List ℚ) (i j : Nat) (a : ℚ) :
    (l.set i a).getD j 0 = if i = j ∧ i < l.length then a else l.getD j 0 := by
  simp only [List.getD_eq_getElem?_getD, List.getElem?_set]
  by_cases h : i = j
  · subst h
    by_cases hl : i < l.length
    · simp [hl]
    · simp [hl, List.getElem?_eq_none (not_lt.mp hl)]
  · simp [h]

/-- A loop `for (ix = 0; ix < F; ix++) v[ix] = f(ix, v[ix])` changes every entry below `F`
once. -/
theorem foldl_range_update (f : Nat → ℚ → ℚ) (v : List ℚ) (F : Nat) :
    ((List.range F).foldl (fun (u : List ℚ) ix => u.set ix (f ix (u.getD ix 0))) v).length
      = v.length
    ∧ ∀ j, ((List.range F).foldl (fun (u : List ℚ) ix => u.set ix (f ix (u.getD ix 0)))
          v).getD j 0
        = if j < F ∧ j < v.length then f j (v.getD j 0) else v.getD j 0 := by
  induction F with
  | zero => simp
  | succ n ih =>
    obtain ⟨h1, h2⟩ := ih
    rw [List.range_succ, List.foldl_append]
    simp only [List.foldl_cons, List.foldl_nil, List.length_set, h1, true_and]
    intro j
    rw [getD_set_rat, h1, h2 n, h2 j]
    by_cases hjn : n = j
    · subst hjn
      by_cases hl : n < v.length
      · simp [hl]
      · simp [hl]
    · have : j < n + 1 ↔ j < n := by omega
      simp [hjn, this]

/-- A loop over the rows that adds `g row ix` to entry `ix` for every `ix < F`. -/
theorem foldl_rows_accumulate (g : List ℚ → Nat → ℚ) (F : Nat) (set : List (List ℚ)) :
    ∀ v : List ℚ,
      (set.foldl (fun (u : List ℚ) row =>
          (List.range F).foldl (fun (w : List ℚ) ix => w.set ix (w.getD ix 0 + g row ix)) u)
        v).length = v.length
      ∧ ∀ j, (set.foldl (fun (u : List ℚ) row =>
          (List.range F).foldl (fun (w : List ℚ) ix => w.set ix (w.getD ix 0 + g row ix)) u)
            v).getD j 0
          = if j < F ∧ j < v.length then v.getD j 0 + (set.map (fun row => g row j)).sum
            else v.getD j 0 := by
  induction set with
  | nil => intro v; simp
  | cons row rest ih =>
    intro v
    obtain ⟨h1, h2⟩ := foldl_range_update (fun ix x => x + g row ix) v F
    obtain ⟨i1, i2⟩ := ih ((List.range F).foldl
      (fun (w : List ℚ) ix => w.set ix (w.getD ix 0 + g row ix)) v)
    simp only [List.foldl_cons]
    refine ⟨by rw [i1, h1], ?_⟩
    intro j
    rw [i2 j, h1, h2 j]
    split_ifs
    · simp only [List.map_cons, List.sum_cons]; ring
    · rfl

theorem foldl_count_rows (F : Nat) (set : List (List ℚ)) :
    ∀ (c : ℚ) (v : List ℚ),
      set.foldl (fun (st : ℚ × List ℚ) features =>
          (st.1 + 1, (List.range F).foldl
            (fun (avg : List ℚ) ix => avg.set ix (avg.getD ix 0 + features.getD ix 0)) st.2))
          (c, v)
        = (c + (set.length : ℚ), set.foldl (fun (u : List ℚ) row =>
            (List.range F).foldl
              (fun (w : List ℚ) ix => w.set ix (w.getD ix 0 + row.getD ix 0)) u) v) := by
  induction set with
  | nil => intro c v; simp
  | cons row rest ih =>
    intro c v
    simp only [List.foldl_cons, ih, List.length_cons]
    congr 1
    push_cast
    ring

theorem foldl_zero_both (l : List Nat) :
    ∀ nz : StdvNormalizer,
      l.foldl (fun (m : StdvNormalizer) ix =>
          ({ avg := m.avg.set ix 0, stdv := m.stdv.set ix 0 } : StdvNormalizer)) nz
        = { avg := l.foldl (fun (u : List ℚ) ix => u.set ix 0) nz.avg,
            stdv := l.foldl (fun (u : List ℚ) ix => u.set ix 0) nz.stdv } := by
  induction l with
  | nil => intro nz; rfl
  | cons a t ih => intro nz; simp only [List.foldl_cons, ih]

theorem foldl_divide (F : Nat) (n : ℚ) (v : List ℚ) :
    ((List.range F).foldl
      (fun (avg : List ℚ) ix => if n > 0 then avg.set ix (avg.getD ix 0 / n) else avg)
      v).length = v.length
    ∧ ∀ i, ((List.range F).foldl
      (fun (avg : List ℚ) ix => if n > 0 then avg.set ix (avg.getD ix 0 / n) else avg)
      v).getD i 0
        = if i < F ∧ i < v.length then (if n > 0 then v.getD i 0 / n else v.getD i 0)
          else v.getD i 0 := by
  by_cases hn : n > 0
  · simp only [hn, if_true]
    exact foldl_range_update (fun _ x => x / n) v F
  · simp only [hn, if_false]
    have : (List.range F).foldl (fun (avg : List ℚ) _ => avg) v = v := by
      induction (List.range F) with
      | nil => rfl
      | cons a t ih => simp
    rw [this]
    simp

theorem foldl_finish (sqrt : ℚ → ℚ) (F : Nat) (n : ℚ) (v : List ℚ) (i : Nat) :
    ((List.range F).foldl
      (fun (sd : List ℚ) ix =>
        if sd.getD ix 0 ≤ 0 ∨ n = 0 then sd.set ix 1
        else sd.set ix (sqrt (sd.getD ix 0 / n))) v).getD i 0
        = if i < F ∧ i < v.length then
            (if v.getD i 0 ≤ 0 ∨ n = 0 then 1 else sqrt (v.getD i 0 / n))
          else v.getD i 0 := by
  have hfun : (fun (sd : List ℚ) ix =>
        if sd.getD ix 0 ≤ 0 ∨ n = 0 then sd.set ix 1
        else sd.set ix (sqrt (sd.getD ix 0 / n)))
      = (fun (sd : List ℚ) ix => sd.set ix
          ((fun _ x => if x ≤ 0 ∨ n = 0 then 1 else sqrt (x / n)) ix (sd.getD ix 0))) := by
    funext sd ix
    by_cases h : sd.getD ix 0 ≤ 0 ∨ n = 0
    · simp only [h, if_true]
    · simp only [h, if_false]
  rw [hfun]
  exact (foldl_range_update (fun _ x => if x ≤ 0 ∨ n = 0 then 1 else sqrt (x / n)) v F).2 i

theorem setSet_stdv_part (sqrt : ℚ → ℚ) (F : Nat) (v0 A : List ℚ) (set : List (List ℚ))
    (n : ℚ) (hlen : v0.length = F) (j : Nat) (hj : j < F) :
    ((List.range F).foldl
      (fun (sd : List ℚ) ix =>
        if sd.getD ix 0 ≤ 0 ∨ n = 0 then sd.set ix 1
        else sd.set ix (sqrt (sd.getD ix 0 / n)))
      (set.foldl
        (fun (stdv : List ℚ) features =>
          (List.range F).foldl
            (fun (sd : List ℚ) ix =>
              sd.set ix (sd.getD ix 0
                + (features.getD ix 0 - A.getD ix 0) * (features.getD ix 0 - A.getD ix 0)))
            stdv)
        ((List.range F).foldl (fun (u : List ℚ) ix => u.set ix 0) v0))).getD j 0
      = if sumSquaredDeviations set j (A.getD j 0) ≤ 0 ∨ n = 0 then 1
        else sqrt (sumSquaredDeviations set j (A.getD j 0) / n) := by
  have hz := foldl_range_update (fun _ _ => 0) v0 F
  have hsd := foldl_rows_accumulate (fun row ix =>
      (row.getD ix 0 - A.getD ix 0) * (row.getD ix 0 - A.getD ix 0))
    F set ((List.range F).foldl (fun (u : List ℚ) ix => u.set ix 0) v0)
  simp only [foldl_finish, hsd.1, hsd.2, hz.1, hz.2, hlen, hj, and_self, if_true, zero_add,
    sumSquaredDeviations]

theorem setSet_avg_part (F : Nat) (v0 : List ℚ) (set : List (List ℚ))
    (hlen : v0.length = F) (j : Nat) (hj : j < F) :
    ((List.range F).foldl
        (fun (avg : List ℚ) ix =>
          if (set.length : ℚ) > 0 then avg.set ix (avg.getD ix 0 / (set.length : ℚ)) else avg)
        (set.foldl (fun (u : List ℚ) row =>
            (List.range F).foldl
              (fun (w : List ℚ) ix => w.set ix (w.getD ix 0 + row.getD ix 0)) u)
          ((List.range F).foldl (fun (u : List ℚ) ix => u.set ix 0) v0))).getD j 0
      = (if (0 : ℚ) < set.length then columnSum set j / set.length else 0) := by
  have hz := foldl_range_update (fun _ _ => 0) v0 F
  have hacc := foldl_rows_accumulate (fun row ix => row.getD ix 0) F set
    ((List.range F).foldl (fun (u : List ℚ) ix => u.set ix 0) v0)
  simp only [(foldl_divide F _ _).2, hacc.1, hacc.2, hz.1, hz.2, hlen, hj, and_self, if_true,
    zero_add]
  by_cases hn : (0 : ℚ) < set.length
  · simp only [gt_iff_lt, hn, if_true, columnSum]
  · simp only [gt_iff_lt, hn, if_false]
    have h0 : set = [] := by
      cases set with
      | nil => rfl
      | cons a t =>
        exfalso
        apply hn
        simp only [List.length_cons]
        positivity
    subst h0
    simp

/-- What `setSet` leaves in `avg` and `stdv`, entry by entry. -/
theorem setSet_entries (sqrt : ℚ → ℚ) (F : Nat) (nz : StdvNormalizer) (set : List (List ℚ))
    (havg : nz.avg.length = F) (hstdv : nz.stdv.length = F) (j : Nat) (hj : j < F) :
    (nz.setSet sqrt F set).avg.getD j 0
      = (if (0 : ℚ) < set.length then columnSum set j / set.length else 0)
    ∧ (nz.setSet sqrt F set).stdv.getD j 0
      = (if sumSquaredDeviations set j ((nz.setSet sqrt F set).avg.getD j 0) ≤ 0
            ∨ (set.length : ℚ) = 0 then 1
          else sqrt (sumSquaredDeviations set j ((nz.setSet sqrt F set).avg.getD j 0)
            / set.length)) := by
  unfold StdvNormalizer.setSet
  simp only [foldl_zero_both, foldl_count_rows, zero_add]
  exact ⟨setSet_avg_part F nz.avg set havg j hj,
    setSet_stdv_part sqrt F nz.stdv _ set _ hstdv j hj⟩

/-- In exact arithmetic, after `setSet` on `n` rows, for every feature `j`: `avg[j]` is the
mean of the rows' `j`-th values, 0 when there is no row; `stdv[j]` is the square root of the
sum of squared deviations from `avg[j]` divided by `n` when that sum is positive and `n > 0`,
and 1 otherwise.  With a square root that is positive on positive numbers, `stdv[j]` is
positive, so the divisor of `normalize` is not zero. -/
theorem setSet_mean_stdv_exact (sqrt : ℚ → ℚ) (F : Nat) (nz : StdvNormalizer)
    (set : List (List ℚ)) (havg : nz.avg.length = F) (hstdv : nz.stdv.length = F) :
    (∀ j, j < F →
      (nz.setSet sqrt F set).avg.getD j 0
        = (if set.length = 0 then 0 else columnSum set j / (set.length : ℚ))
      ∧ (nz.setSet sqrt F set).stdv.getD j 0
        = (if 0 < sumSquaredDeviations set j ((nz.setSet sqrt F set).avg.getD j 0)
              ∧ 0 < set.length then
            sqrt (sumSquaredDeviations set j ((nz.setSet sqrt F set).avg.getD j 0)
              / (set.length : ℚ))
          else 1))
    ∧ ((∀ x, 0 < x → 0 < sqrt x) →
        ∀ j, j < F → 0 < (nz.setSet sqrt F set).stdv.getD j 0
          ∧ (nz.setSet sqrt F set).stdv.getD j 0 ≠ 0) := by
  have hmain : ∀ j, j < F →
      (nz.setSet sqrt F set).avg.getD j 0
        = (if set.length = 0 then 0 else columnSum set j / (set.length : ℚ))
      ∧ (nz.setSet sqrt F set).stdv.getD j 0
        = (if 0 < sumSquaredDeviations set j ((nz.setSet sqrt F set).avg.getD j 0)
              ∧ 0 < set.length then
            sqrt (sumSquaredDeviations set j ((nz.setSet sqrt F set).avg.getD j 0)
              / (set.length : ℚ))
          else 1) := by
    intro j hj
    obtain ⟨h1, h2⟩ := setSet_entries sqrt F nz set havg hstdv j hj
    constructor
    · rw [h1]
      by_cases h0 : set.length = 0
      · simp [h0]
      · have : (0 : ℚ) < set.length := by
          have := Nat.pos_of_ne_zero h0
          exact_mod_cast this
        simp [h0, this]
    · rw [h2]
      by_cases hc : sumSquaredDeviations set j ((nz.setSet sqrt F set).avg.getD j 0) ≤ 0
          ∨ (set.length : ℚ) = 0
      · rw [if_pos hc, if_neg]
        rintro ⟨hp, hl⟩
        rcases hc with hc | hc
        · exact absurd hp (not_lt.mpr hc)
        · have : set.length = 0 := by exact_mod_cast hc
          omega
      · rw [if_neg hc, if_pos]
        simp only [not_or, not_le] at hc
        refine ⟨hc.1, ?_⟩
        have : set.length ≠ 0 := by
          intro h
          apply hc.2
          rw [h]; simp
        omega
  refine ⟨hmain, ?_⟩
  intro hsqrt j hj
  have hpos : 0 < (nz.setSet sqrt F set).stdv.getD j 0 := by
    rw [(hmain j hj).2]
    split_ifs with hc
    · apply hsqrt
      apply div_pos hc.1
      exact_mod_cast hc.2
    · exact one_pos
  exact ⟨hpos, ne_of_gt hpos⟩

theorem normalizeScores_isSome (s : Scores) (fdr : ℚ) (h : s.scores_ ≠ []) :
    ∃ r, s.normalizeScores fdr = some r := by
  unfold Scores.normalizeScores
  split
  · next h0 => exact absurd h0 h
  · exact ⟨_, rfl⟩

theorem scoreAndAddPSM_admits_witness :
    (Scores.init false).totalNumberOfTargets_ + (Scores.init false).totalNumberOfDecoys_
        = (Scores.init false).scores_.length
      ∧ ((Scores.init false).scoreAndAddPSM exampleEnv scoreExample [3, 0] ⟨[]⟩).2.1.label
        = scoreExample.label :=
  ⟨rfl, (scoreAndAddPSM_admits exampleEnv (Scores.init false) scoreExample [3, 0] ⟨[]⟩ rfl).1⟩

theorem psmsOf_cons (e : PSMDescription × List PSMDescription) (t : PsmMap)
    (κ : PSMDescription) :
    PsmMap.psmsOf (e :: t) κ = if e.1 = κ then e.2 else PsmMap.psmsOf t κ := by
  unfold PsmMap.psmsOf
  by_cases h : e.1 = κ
  · simp only [List.find?_cons, h, decide_True, if_true]
  · simp only [List.find?_cons, h, decide_False, if_false]

theorem psmsOf_map_ne (k κ v : PSMDescription) (hk : k ≠ κ) (m : PsmMap) :
    PsmMap.psmsOf (m.map (fun e => if e.1 = k then (e.1, e.2 ++ [v]) else e)) κ
      = PsmMap.psmsOf m κ := by
  induction m with
  | nil => rfl
  | cons e t ih =>
    rw [List.map_cons, psmsOf_cons, psmsOf_cons, ih]
    by_cases hek : e.1 = k
    · have he : e.1 ≠ κ := fun h => hk (hek.symm.trans h)
      simp only [hek, if_true]
      rw [hek] at he
      simp only [he, if_false]
    · simp only [hek, if_false]

theorem psmsOf_map_eq (k v : PSMDescription) (m : PsmMap) (hmem : ∃ e ∈ m, e.1 = k) :
    PsmMap.psmsOf (m.map (fun e => if e.1 = k then (e.1, e.2 ++ [v]) else e)) k
      = PsmMap.psmsOf m k ++ [v] := by
  induction m with
  | nil => obtain ⟨e, he, _⟩ := hmem; simp at he
  | cons e t ih =>
    rw [List.map_cons, psmsOf_cons, psmsOf_cons]
    by_cases hek : e.1 = k
    · simp only [hek, if_true]
    · have hmem2 : ∃ e ∈ t, e.1 = k := by
        obtain ⟨e1, he1, hk1⟩ := hmem
        rcases List.mem_cons.mp he1 with h | h
        · rw [h] at hk1; exact absurd hk1 hek
        · exact ⟨e1, h, hk1⟩
      simp only [hek, if_false]
      exact ih hmem2

theorem psmsOf_append_new (k κ v : PSMDescription) (m : PsmMap) (hmem : ¬ ∃ e ∈ m, e.1 = k) :
    PsmMap.psmsOf (m ++ [(k, [v])]) κ
      = PsmMap.psmsOf m κ ++ (if k = κ then [v] else []) := by
  induction m with
  | nil =>
    rw [List.nil_append, psmsOf_cons]
    by_cases h : k = κ <;> simp [PsmMap.psmsOf, h]
  | cons e t ih =>
    have hek : e.1 ≠ k := fun h => hmem ⟨e, List.mem_cons_self _ _, h⟩
    have hmem2 : ¬ ∃ e ∈ t, e.1 = k := by
      rintro ⟨e1, he1, hk1⟩
      exact hmem ⟨e1, List.mem_cons_of_mem _ he1, hk1⟩
    rw [List.cons_append, psmsOf_cons, psmsOf_cons, ih hmem2]
    by_cases he : e.1 = κ
    · have hk : k ≠ κ := fun h => hek (he.trans h.symm)
      simp only [he, if_true, hk, if_false, List.append_nil]
    · simp only [he, if_false]

/-- The statement `peptidePsmMap_[key].push_back(value)` appends `value` to the entry of `key`
and leaves every other entry as it was. -/
theorem psmsOf_pushBack (m : PsmMap) (k v κ : PSMDescription) :
    PsmMap.psmsOf (m.pushBack k v) κ = PsmMap.psmsOf m κ ++ (if k = κ then [v] else []) := by
  unfold PsmMap.pushBack
  by_cases hany : m.any (fun e => decide (e.1 = k)) = true
  · simp only [hany, if_true]
    have hmem : ∃ e ∈ m, e.1 = k := by
      simpa [List.any_eq_true] using hany
    by_cases hk : k = κ
    · subst hk
      simp only [if_true]
      exact psmsOf_map_eq k v m hmem
    · simp only [hk, if_false, List.append_nil]
      exact psmsOf_map_ne k κ v hk m
  · simp only [hany, if_false]
    have hmem : ¬ ∃ e ∈ m, e.1 = k := by
      simpa [List.any_eq_true] using hany
    exact psmsOf_append_new k κ v m hmem

theorem psmsOf_foldl (κ : PSMDescription) (pairs : List (PSMDescription × PSMDescription)) :
    ∀ m : PsmMap,
      PsmMap.psmsOf (pairs.foldl (fun m p => PsmMap.pushBack m p.1 p.2) m) κ
        = PsmMap.psmsOf m κ ++ (pairs.filter (fun p => decide (p.1 = κ))).map (fun p => p.2) := by
  induction pairs with
  | nil => intro m; simp
  | cons p t ih =>
    intro m
    rw [List.foldl_cons, ih, psmsOf_pushBack]
    by_cases h : p.1 = κ
    · simp [List.filter_cons, h]
    · simp [List.filter_cons, h]

theorem weedOutRedundantLoop_map (R : List ScoreHolder) :
    ∀ (st : WeedState) (i : Nat) (rep : ScoreHolder),
      st.lastWrittenIdx ≤ i → i ≤ st.scores_.length → st.scores_.drop i = R →
      (st.lastWrittenIdx = 0 → ∀ x, R.head? = some x →
        x.pPSM.getPeptideSequence ≠ st.previousPeptide ∨ x.label ≠ st.previousLabel) →
      (st.lastWrittenIdx ≠ 0 → st.scores_.get? (st.lastWrittenIdx - 1) = some rep) →
      ∃ st1, weedOutRedundantLoop st (List.range' i R.length) = (st1, none)
        ∧ st1.peptidePsmMap_
            = recordPairs st.peptidePsmMap_
                (weedPairs rep st.previousPeptide st.previousLabel R) := by
  induction R with
  | nil =>
    intro st i rep hlw hi _ _ _
    exact ⟨st, by simp [weedOutRedundantLoop], by simp [weedPairs, recordPairs]⟩
  | cons x R ih =>
    intro st i rep hlw hi hdrop hzero hrep
    have hlen : i < st.scores_.length := by
      by_contra hcon
      rw [List.drop_of_length_le (not_lt.mp hcon)] at hdrop
      exact List.noConfusion hdrop
    rw [List.drop_eq_getElem_cons hlen] at hdrop
    have hx : st.scores_[i] = x := (List.cons.inj hdrop).1
    have hR : st.scores_.drop (i + 1) = R := (List.cons.inj hdrop).2
    have hget : st.scores_.get? i = some x := by
      rw [List.get?_eq_getElem?, List.getElem?_eq_getElem hlen, hx]
    rw [List.length_cons, List.range'_succ]
    by_cases hnew : x.pPSM.getPeptideSequence ≠ st.previousPeptide ∨ x.label ≠ st.previousLabel
    · have hlwlen : st.lastWrittenIdx < st.scores_.length := by omega
      have hg1 : (st.scores_.set st.lastWrittenIdx x).get? st.lastWrittenIdx = some x := by
        rw [List.get?_eq_getElem?, List.getElem?_set_self hlwlen]
      have hg2 : (st.scores_.set st.lastWrittenIdx x).get? i = some x := by
        rw [List.get?_eq_getElem?, List.getElem?_set]
        split_ifs with h1
        · rfl
        · rw [List.getElem?_eq_getElem hlen, hx]
      obtain ⟨st1, h1, h2⟩ := ih
        { scores_ := st.scores_.set st.lastWrittenIdx x
          peptidePsmMap_ := st.peptidePsmMap_.pushBack x.pPSM x.pPSM
          previousPeptide := x.pPSM.getPeptideSequence
          previousLabel := x.label
          lastWrittenIdx := st.lastWrittenIdx + 1 } (i + 1) x
        (by simp only; omega) (by simp only [List.length_set]; omega)
        (by simp only; rw [List.drop_set_of_lt _ _ (by omega)]; exact hR)
        (by simp)
        (by intro _; simp only [Nat.add_sub_cancel]; exact hg1)
      refine ⟨st1, ?_, ?_⟩
      · rw [weedOutRedundantLoop]
        simp only [weedOutRedundantStep, hget, hnew, if_true, hlwlen, Nat.add_sub_cancel, hg1, hg2]
        exact h1
      · rw [h2]
        simp only [weedPairs, hnew, if_true, recordPairs, List.map_cons, List.foldl_cons]
    · have hlw0 : st.lastWrittenIdx ≠ 0 := by
        intro h0
        exact hnew (hzero h0 x rfl)
      have hrep1 := hrep hlw0
      obtain ⟨st1, h1, h2⟩ := ih
        { st with peptidePsmMap_ := st.peptidePsmMap_.pushBack rep.pPSM x.pPSM } (i + 1) rep
        (by simp only; omega) (by simp only; omega) hR
        (by intro h0; exact absurd h0 hlw0)
        (by intro _; exact hrep1)
      refine ⟨st1, ?_, ?_⟩
      · rw [weedOutRedundantLoop]
        simp only [weedOutRedundantStep, hget, hnew, if_false, hlw0, hrep1]
        exact h1
      · rw [h2]
        simp only [weedPairs, hnew, if_false, recordPairs, List.map_cons, List.foldl_cons]

theorem weedPairs_members (R : List ScoreHolder) :
    ∀ (rep : ScoreHolder) (pp : String) (pl : Int),
      (weedPairs rep pp pl R).map (fun p => p.2) = R := by
  induction R with
  | nil => intro _ _ _; rfl
  | cons x R ih =>
    intro rep pp pl
    simp only [weedPairs]
    split_ifs
    · simp only [List.map_cons, ih]
    · simp only [List.map_cons, ih]

/-- Every recorded pair puts a holder under a representative with the same peptide and label,
and the representative is the holder written last or a holder that the loop keeps. -/
theorem weedPairs_spec (R : List ScoreHolder) :
    ∀ (rep : ScoreHolder) (pp : String) (pl : Int),
      rep.pPSM.getPeptideSequence = pp → rep.label = pl →
      ∀ p ∈ weedPairs rep pp pl R,
        (p.1.pPSM.getPeptideSequence = p.2.pPSM.getPeptideSequence ∧ p.1.label = p.2.label)
        ∧ (p.1 = rep ∨ p.1 ∈ keepNew pp pl R) := by
  induction R with
  | nil => intro _ _ _ _ _ p hp; simp [weedPairs] at hp
  | cons x R ih =>
    intro rep pp pl hpp hpl p hp
    simp only [weedPairs] at hp
    by_cases hnew : x.pPSM.getPeptideSequence ≠ pp ∨ x.label ≠ pl
    · simp only [hnew, if_true, List.mem_cons] at hp
      simp only [keepNew, hnew, if_true, List.mem_cons]
      rcases hp with hp | hp
      · rw [hp]
        exact ⟨⟨rfl, rfl⟩, Or.inr (Or.inl rfl)⟩
      · obtain ⟨h1, h2⟩ := ih x _ _ rfl rfl p hp
        refine ⟨h1, Or.inr ?_⟩
        rcases h2 with h2 | h2
        · exact Or.inl h2
        · exact Or.inr h2
    · simp only [hnew, if_false, List.mem_cons] at hp
      simp only [keepNew, hnew, if_false]
      rcases hp with hp | hp
      · rw [hp]
        simp only [not_or, not_not] at hnew
        exact ⟨⟨hpp.trans hnew.1.symm, hpl.trans hnew.2.symm⟩, Or.inl rfl⟩
      · exact ih rep pp pl hpp hpl p hp

/-- The map that `weedOutRedundant` leaves behind: the pairs of `weedPairs` over the sorted
holders, recorded in the map of the input. -/
theorem weedOutRedundant_map (env : Env) (s : Scores)
    (hlab : ∀ sh ∈ s.scores_, sh.label = 1 ∨ sh.label = -1) :
    (s.weedOutRedundant env).1.peptidePsmMap_
      = recordPairs s.peptidePsmMap_
          (weedPairs ScoreHolder.blank "" 0 (stdSort lexicOrderProb s.scores_)) := by
  have hlab0 : ∀ sh ∈ stdSort lexicOrderProb s.scores_, sh.label ≠ 0 := by
    intro sh hsh
    rcases hlab sh ((stdSort_perm _ _).mem_iff.mp hsh) with h | h <;> rw [h] <;> decide
  obtain ⟨st1, h1, h2⟩ := weedOutRedundantLoop_map (stdSort lexicOrderProb s.scores_)
    { scores_ := stdSort lexicOrderProb s.scores_, peptidePsmMap_ := s.peptidePsmMap_,
      previousPeptide := "", previousLabel := 0, lastWrittenIdx := 0 } 0 ScoreHolder.blank
    (le_refl _) (Nat.zero_le _) rfl
    (by
      intro _ x hx
      exact Or.inr (hlab0 x (List.mem_of_mem_head? hx)))
    (by intro h; exact absurd rfl h)
  unfold Scores.weedOutRedundant
  simp only [List.range_eq_range', h1]
  unfold Scores.postMergeStep
  rw [(checkSeparationAndSetPi0_fields env _).2.2.2.2]
  exact h2

theorem psmsOf_recordPairs (pairs : List (ScoreHolder × ScoreHolder)) (κ : PSMDescription) :
    PsmMap.psmsOf (recordPairs [] pairs) κ
      = (pairs.filter (fun p => decide (p.1.pPSM = κ))).map (fun p => p.2.pPSM) := by
  unfold recordPairs
  rw [psmsOf_foldl]
  simp only [PsmMap.psmsOf, List.find?_nil, List.nil_append, List.filter_map, List.map_map]
  rfl

theorem mem_psmsOf_recordPairs (pairs : List (ScoreHolder × ScoreHolder))
    (κ v : PSMDescription) :
    v ∈ PsmMap.psmsOf (recordPairs [] pairs) κ ↔ ∃ p ∈ pairs, p.1.pPSM = κ ∧ p.2.pPSM = v := by
  rw [psmsOf_recordPairs]
  simp only [List.mem_map, List.mem_filter, decide_eq_true_eq]
  constructor
  · rintro ⟨p, ⟨hp, h1⟩, h2⟩
    exact ⟨p, hp, h1, h2⟩
  · rintro ⟨p, hp, h1, h2⟩
    exact ⟨p, ⟨hp, h1⟩, h2⟩

/-- The pairs recorded over sorted holders with pairwise different PSMs: the representative
of a pair is a kept holder, with the peptide and label of the member, and a pair sits under
the PSM of a kept holder exactly when its member has the peptide and label of that holder. -/
theorem weedPairs_sorted (L : List ScoreHolder) (hlab0 : ∀ sh ∈ L, sh.label ≠ 0)
    (hnd : (L.map (fun sh => sh.pPSM)).Nodup)
    (hp : L.Pairwise (fun a b => peptideGroup a < peptideGroup b
      ∨ (peptideGroup a = peptideGroup b ∧ b.score ≤ a.score))) :
    (∀ p ∈ weedPairs ScoreHolder.blank "" 0 L,
        p.1 ∈ stdUnique samePeptideLabel L ∧ p.2 ∈ L ∧ peptideGroup p.1 = peptideGroup p.2)
    ∧ (∀ r ∈ stdUnique samePeptideLabel L, r ∈ L)
    ∧ (∀ r ∈ stdUnique samePeptideLabel L, ∀ p ∈ weedPairs ScoreHolder.blank "" 0 L,
        (p.1.pPSM = r.pPSM ↔ samePeptideLabel r p.2 = true))
    ∧ (∀ p ∈ weedPairs ScoreHolder.blank "" 0 L, ∀ q ∈ weedPairs ScoreHolder.blank "" 0 L,
        p.2.pPSM = q.2.pPSM → p.1 = q.1) := by
  have hpred : ∀ a b, samePeptideLabel a b = true ↔ peptideGroup a = peptideGroup b := by
    intro a b
    rw [peptideGroup_eq_iff]
    simp [samePeptideLabel]
  obtain ⟨i1, i2, _⟩ := stdUnique_runs peptideGroup ScoreHolder.score samePeptideLabel hpred L hp
  have hinj : ∀ a ∈ L, ∀ b ∈ L, a.pPSM = b.pPSM → a = b :=
    fun a ha b hb h => List.inj_on_of_nodup_map hnd ha hb h
  have hmem2 : ∀ p ∈ weedPairs ScoreHolder.blank "" 0 L, p.2 ∈ L := by
    intro p hp
    have : p.2 ∈ (weedPairs ScoreHolder.blank "" 0 L).map (fun p => p.2) :=
      List.mem_map_of_mem _ hp
    rwa [weedPairs_members] at this
  have hA : ∀ p ∈ weedPairs ScoreHolder.blank "" 0 L,
      p.1 ∈ stdUnique samePeptideLabel L ∧ p.2 ∈ L ∧ peptideGroup p.1 = peptideGroup p.2 := by
    intro p hp
    obtain ⟨h1, h2⟩ := weedPairs_spec L ScoreHolder.blank "" 0 rfl rfl p hp
    refine ⟨?_, hmem2 p hp, (peptideGroup_eq_iff _ _).mpr h1⟩
    rcases h2 with h2 | h2
    · exfalso
      apply hlab0 p.2 (hmem2 p hp)
      rw [← h1.2, h2]
      rfl
    · rwa [keepNew_eq_stdUnique L hlab0] at h2
  refine ⟨hA, fun r hr => i1.subset hr, ?_, ?_⟩
  · intro r hr p hp
    obtain ⟨a1, a2, a3⟩ := hA p hp
    constructor
    · intro h
      have : p.1 = r := hinj _ (i1.subset a1) _ (i1.subset hr) h
      rw [hpred, ← this, a3]
    · intro h
      have : p.1 = r :=
        eq_of_strict peptideGroup _ i2 _ a1 _ hr (a3.trans ((hpred _ _).mp h).symm)
      rw [this]
  · intro p hp q hq h
    obtain ⟨a1, a2, a3⟩ := hA p hp
    obtain ⟨b1, b2, b3⟩ := hA q hq
    have h2 : p.2 = q.2 := hinj _ a2 _ b2 h
    exact eq_of_strict peptideGroup _ i2 _ a1 _ b1 (by rw [a3, b3, h2])

/-- Claim C17.  For a Score Set with labels `+1` or `-1`, an empty peptide-to-PSMs map and
holders that refer to pairwise different PSMs, in the state that `weedOutRedundant` leaves
behind: the entry under the PSM of each retained holder `r` is a rearrangement of the PSMs of
the input holders with the peptide and label of `r`, the PSM of `r` among them; and the PSM of
every input holder is in the entry of a retained holder and in no entry under another key. -/
theorem weedOutRedundant_peptide_to_psms (env : Env) (s : Scores)
    (hlab : ∀ sh ∈ s.scores_, sh.label = 1 ∨ sh.label = -1)
    (hmap : s.peptidePsmMap_ = [])
    (hpsm : (s.scores_.map (fun sh => sh.pPSM)).Nodup) :
    (∀ r ∈ (s.weedOutRedundant env).1.scores_,
        (PsmMap.psmsOf (s.weedOutRedundant env).1.peptidePsmMap_ r.pPSM).Perm
            ((s.scores_.filter (fun h => samePeptideLabel r h)).map (fun h => h.pPSM))
        ∧ r.pPSM ∈ PsmMap.psmsOf (s.weedOutRedundant env).1.peptidePsmMap_ r.pPSM)
    ∧ (∀ h ∈ s.scores_, ∃ r ∈ (s.weedOutRedundant env).1.scores_,
        h.pPSM ∈ PsmMap.psmsOf (s.weedOutRedundant env).1.peptidePsmMap_ r.pPSM
        ∧ ∀ κ, h.pPSM ∈ PsmMap.psmsOf (s.weedOutRedundant env).1.peptidePsmMap_ κ →
            κ = r.pPSM) := by
  have hperm := stdSort_perm lexicOrderProb s.scores_
  have hlab0 : ∀ sh ∈ stdSort lexicOrderProb s.scores_, sh.label ≠ 0 := by
    intro sh hsh
    rcases hlab sh (hperm.mem_iff.mp hsh) with h | h <;> rw [h] <;> decide
  have hnd : ((stdSort lexicOrderProb s.scores_).map (fun sh => sh.pPSM)).Nodup :=
    (hperm.map _).nodup_iff.mpr hpsm
  obtain ⟨f1, f2, f3, f4⟩ := weedPairs_sorted (stdSort lexicOrderProb s.scores_) hlab0 hnd
    (stdSort_runs lexicOrderProb peptideGroup lexicOrderProb_iff s.scores_)
  have hret := (weedOutRedundant_scores env s hlab).2
  rw [weedOutRedundant_map env s hlab, hmap]
  have hentry : ∀ r ∈ stdUnique samePeptideLabel (stdSort lexicOrderProb s.scores_),
      PsmMap.psmsOf (recordPairs []
          (weedPairs ScoreHolder.blank "" 0 (stdSort lexicOrderProb s.scores_))) r.pPSM
        = ((stdSort lexicOrderProb s.scores_).filter
            (fun h => samePeptideLabel r h)).map (fun h => h.pPSM) := by
    intro r hr
    rw [psmsOf_recordPairs]
    have hc : (weedPairs ScoreHolder.blank "" 0 (stdSort lexicOrderProb s.scores_)).filter
          (fun p => decide (p.1.pPSM = r.pPSM))
        = (weedPairs ScoreHolder.blank "" 0 (stdSort lexicOrderProb s.scores_)).filter
          ((fun h => samePeptideLabel r h) ∘ (fun p => p.2)) := by
      apply List.filter_congr
      intro p hp
      have := f3 r hr p hp
      by_cases h : p.1.pPSM = r.pPSM
      · simp only [h, decide_True, Function.comp, this.mp h]
      · have h2 : samePeptideLabel r p.2 = false := by
          rw [← Bool.not_eq_true]
          exact fun hc => h (this.mpr hc)
        simp only [h, decide_False, Function.comp, h2]
    rw [hc]
    have hm := weedPairs_members (stdSort lexicOrderProb s.scores_) ScoreHolder.blank "" 0
    have h3 : ((weedPairs ScoreHolder.blank "" 0 (stdSort lexicOrderProb s.scores_)).filter
          ((fun h => samePeptideLabel r h) ∘ (fun p => p.2))).map (fun p => p.2)
        = (stdSort lexicOrderProb s.scores_).filter (fun h => samePeptideLabel r h) := by
      rw [← List.filter_map, hm]
    rw [← h3, List.map_map]
    rfl
  constructor
  · intro r hr
    have hr2 := hret.mem_iff.mp hr
    rw [hentry r hr2]
    refine ⟨(hperm.filter _).map _, ?_⟩
    apply List.mem_map_of_mem
    apply List.mem_filter.mpr
    refine ⟨f2 r hr2, ?_⟩
    simp [samePeptideLabel]
  · intro h hh
    have hL : h ∈ (weedPairs ScoreHolder.blank "" 0
        (stdSort lexicOrderProb s.scores_)).map (fun p => p.2) := by
      rw [weedPairs_members]
      exact hperm.mem_iff.mpr hh
    obtain ⟨p, hp, hp2⟩ := List.mem_map.mp hL
    refine ⟨p.1, hret.mem_iff.mpr (f1 p hp).1, ?_, ?_⟩
    · rw [mem_psmsOf_recordPairs]
      exact ⟨p, hp, rfl, by rw [hp2]⟩
    · intro κ hκ
      rw [mem_psmsOf_recordPairs] at hκ
      obtain ⟨q, hq, hq1, hq2⟩ := hκ
      rw [← hq1, f4 q hq p hp (by rw [hq2, hp2])]

theorem weedOutRedundant_peptide_to_psms_witness :
    (∀ sh ∈ peptideExample.scores_, sh.label = 1 ∨ sh.label = -1)
    ∧ peptideExample.peptidePsmMap_ = []
    ∧ (peptideExample.scores_.map (fun sh => sh.pPSM)).Nodup
    ∧ (∀ h ∈ peptideExample.scores_,
        ∃ r ∈ (peptideExample.weedOutRedundant exampleEnv).1.scores_,
          h.pPSM ∈ PsmMap.psmsOf
            (peptideExample.weedOutRedundant exampleEnv).1.peptidePsmMap_ r.pPSM
          ∧ ∀ κ, h.pPSM ∈ PsmMap.psmsOf
              (peptideExample.weedOutRedundant exampleEnv).1.peptidePsmMap_ κ →
            κ = r.pPSM) :=
  have h1 : ∀ sh ∈ peptideExample.scores_, sh.label = 1 ∨ sh.label = -1 := by
    simp [peptideExample, Scores.init, exampleHolder]
  have h3 : (peptideExample.scores_.map (fun sh => sh.pPSM)).Nodup := by
    simp [peptideExample, Scores.init, exampleHolder, examplePSM]
  ⟨h1, rfl, h3, (weedOutRedundant_peptide_to_psms exampleEnv peptideExample h1 rfl h3).2⟩

theorem drawNonFull_pos (rand : Nat → Nat) (k : Nat) (remain : List Int) :
    ∀ fuel pos r pos1, drawNonFull rand k remain fuel pos = some (r, pos1) →
      0 < remain.getD r 0 := by
  intro fuel
  induction fuel with
  | zero => intro pos r pos1 h; simp [drawNonFull] at h
  | succ n ih =>
    intro pos r pos1 h
    simp only [drawNonFull] at h
    split_ifs at h with hc
    · exact ih _ _ _ h
    · simp only [Option.some.injEq, Prod.mk.injEq] at h
      rw [← h.1]
      exact not_le.mp hc

theorem getD_set_int (l : List Int) (i j : Nat) (a : Int) (hi : i < l.length) :
    (l.set i a).getD j 0 = if j = i then a else l.getD j 0 := by
  simp only [List.getD_eq_getElem?_getD, List.getElem?_set]
  by_cases h : i = j
  · subst h
    simp [hi]
  · have h2 : ¬ j = i := fun e => h e.symm
    simp [h, h2]

theorem foldScores_mapIdx_test (v : List Scores) (sh : ScoreHolder) (r i : Nat)
    (hi : i < v.length) :
    foldScores (v.mapIdx (fun i t => if i = r then t.addScoreHolder sh else t)) i
      = if i = r then foldScores v i ++ [sh] else foldScores v i := by
  unfold foldScores
  rw [List.getElem?_mapIdx, List.getElem?_eq_getElem hi]
  by_cases h : i = r
  · simp [h, Scores.addScoreHolder]
  · simp [h]

/-- Placing a holder in the test fold `r` keeps the sizes in step with the remainders. -/
theorem xvalSizes_place (k : Nat) (q : List Int) (st : XvalState) (restLen : Nat)
    (sh : ScoreHolder) (r : Nat) (train : List Scores) (c pos : Nat) (hr : r < k)
    (h : XvalSizes k q st (restLen + 1))
    (hnew : 0 < st.remain.getD r 0 ∨ (st.remain.getD r 0 = 0 ∧ q.getD r 0 = 0)) :
    XvalSizes k q
      { train := train
        test := st.test.mapIdx (fun i t => if i = r then t.addScoreHolder sh else t)
        remain := st.remain.set r (st.remain.getD r 0 - 1)
        previousSpectrum := c
        randIndex := r
        randPos := pos } restLen := by
  obtain ⟨h1, h2, h3, h4, h5⟩ := h
  refine ⟨by simp [h1], by simp [h2], ?_, ?_, ?_⟩
  · simp only
    rw [sum_set _ _ _ (by omega), h3]
    push_cast
    ring
  · intro i hi
    simp only
    rw [foldScores_mapIdx_test _ _ _ _ (by omega), getD_set_int _ _ _ _ (by omega)]
    have := h4 i hi
    by_cases hir : i = r
    · subst hir
      simp only [if_true, List.length_append, List.length_singleton]
      push_cast
      omega
    · simp only [hir, if_false]
      exact this
  · intro i hi
    simp only
    rw [getD_set_int _ _ _ _ (by omega)]
    by_cases hir : i = r
    · subst hir
      simp only [if_true]
      omega
    · simp only [hir, if_false]
      exact h5 i hi

theorem xvalStep_sizes (rand : Nat → Nat) (k fuel : Nat) (hk : 0 < k) (q : List Int)
    (st st1 : XvalState) (restLen : Nat) (e : Nat × ScoreHolder)
    (h : XvalSizes k q st (restLen + 1))
    (hs : xvalStep rand k fuel st e = some st1)
    (hcase : st.previousSpectrum ≠ e.1
      ∨ (st.randIndex < k
          ∧ (0 < st.remain.getD st.randIndex 0
              ∨ (st.remain.getD st.randIndex 0 = 0 ∧ q.getD st.randIndex 0 = 0)))) :
    XvalSizes k q st1 restLen ∧ st1.previousSpectrum = e.1 := by
  unfold xvalStep at hs
  dsimp only at hs
  split at hs
  · exact absurd hs (by simp)
  · next r pos hch =>
    simp only [Option.some.injEq] at hs
    rw [← hs]
    refine ⟨?_, rfl⟩
    by_cases hp : st.previousSpectrum ≠ e.1
    · rw [if_pos hp] at hch
      exact xvalSizes_place k q st restLen e.2 r _ _ _
        (drawNonFull_lt rand k hk st.remain fuel _ r pos hch) h
        (Or.inl (drawNonFull_pos rand k st.remain fuel _ r pos hch))
    · rw [if_neg hp] at hch
      simp only [Option.some.injEq, Prod.mk.injEq] at hch
      rcases hcase with hc | hc
      · exact absurd hc hp
      · rw [← hch.1]
        exact xvalSizes_place k q st restLen e.2 _ _ _ _ hc.1 h hc.2

theorem xvalLoop_sizes (rand : Nat → Nat) (k fuel : Nat) (hk : 0 < k) (q : List Int)
    (rest : List (Nat × ScoreHolder)) :
    ∀ (st st1 : XvalState),
      XvalSizes k q st rest.length →
      rest.Pairwise (fun a b => a.1 < b.1) →
      (∀ e ∈ rest, st.previousSpectrum < e.1) →
      xvalLoop rand k fuel st rest = some st1 →
      XvalSizes k q st1 0 := by
  induction rest with
  | nil =>
    intro st st1 h _ _ hl
    simp only [xvalLoop, Option.some.injEq] at hl
    rw [← hl]
    exact h
  | cons e rest ih =>
    intro st st1 h hpw hprev hl
    simp only [xvalLoop] at hl
    cases hs : xvalStep rand k fuel st e with
    | none => rw [hs] at hl; simp at hl
    | some st2 =>
      rw [hs] at hl
      simp only at hl
      obtain ⟨g1, g2⟩ := xvalStep_sizes rand k fuel hk q st st2 rest.length e h hs
        (Or.inl (ne_of_lt (hprev e (List.mem_cons_self _ _))))
      exact ih st2 st1 g1 (List.pairwise_cons.mp hpw).2
        (fun e1 he1 => by rw [g2]; exact (List.pairwise_cons.mp hpw).1 e1 he1) hl

/-- The quotas of a split in three folds: none is negative and two of them differ by at most
one. -/
theorem initRemain_three (n : Nat) :
    ∃ a b c : Int, initRemain 3 (n : Int) (List.replicate 3 0) = [a, b, c]
      ∧ 0 ≤ a ∧ 0 ≤ b ∧ 0 ≤ c
      ∧ a - b ≤ 1 ∧ b - a ≤ 1 ∧ a - c ≤ 1 ∧ c - a ≤ 1 ∧ b - c ≤ 1 ∧ c - b ≤ 1 := by
  have hn : (0 : Int) ≤ n := Int.ofNat_nonneg n
  have e3 : Int.tdiv (n : Int) 3 = (n : Int) / 3 := Int.tdiv_eq_ediv hn (by decide)
  have hle : (n : Int) / 3 ≤ n := by omega
  have e2 : Int.tdiv ((n : Int) - (n : Int) / 3) 2 = ((n : Int) - (n : Int) / 3) / 2 :=
    Int.tdiv_eq_ediv (by omega) (by decide)
  refine ⟨(n : Int) - (n : Int) / 3 - ((n : Int) - (n : Int) / 3) / 2,
    ((n : Int) - (n : Int) / 3) / 2, (n : Int) / 3, ?_, ?_⟩
  · simp [initRemain, e3, e2, List.replicate]
  · omega

theorem sum_three (l : List Int) (h : l.length = 3) :
    l.sum = l.getD 0 0 + l.getD 1 0 + l.getD 2 0 := by
  match l, h with
  | [a, b, c], _ => simp; ring

theorem spectraScores_strict (l : List ScoreHolder)
    (hscan : (l.map (fun sh => sh.pPSM.scan)).Nodup) :
    (spectraScores l).Pairwise (fun a b => a.1 < b.1) := by
  obtain ⟨e1, e2, e3⟩ := spectraScores_spec l
  have hkeys : (spectraScores l).map (fun e => e.1)
      = ((spectraScores l).map Prod.snd).map (fun sh => sh.pPSM.scan) := by
    rw [List.map_map]
    exact List.map_congr_left (fun e he => e3 e he)
  have hnd : ((spectraScores l).map (fun e => e.1)).Nodup := by
    rw [hkeys]
    exact ((e1.map _).nodup_iff).mpr hscan
  have hne : (spectraScores l).Pairwise (fun a b => a.1 ≠ b.1) :=
    List.pairwise_map.mp hnd
  exact (e2.and hne).imp (fun {a b} h => lt_of_le_of_ne h.1 h.2)

/-- The sizes of the test folds after a split in three folds of holders with pairwise
different scan numbers. -/
theorem createXvalSetsBySpectrum_sizes (rand : Nat → Nat) (fuel : Nat) (s : Scores)
    (pos : Nat) (train test : List Scores) (pos1 : Nat)
    (hscan : (s.scores_.map (fun sh => sh.pPSM.scan)).Nodup)
    (h : s.createXvalSetsBySpectrum rand fuel [] [] 3 pos = some (train, test, pos1)) :
    ∀ i j, i < 3 → j < 3 →
      ((foldScores test i).length : Int) - ((foldScores test j).length : Int) ≤ 1 := by
  obtain ⟨e1, _, _⟩ := spectraScores_spec s.scores_
  have hstrict := spectraScores_strict s.scores_ hscan
  obtain ⟨a, b, c, hq, qa, qb, qc, hd⟩ := initRemain_three s.scores_.length
  unfold Scores.createXvalSetsBySpectrum at h
  dsimp only at h
  cases hE : spectraScores s.scores_ with
  | nil => rw [hE] at h; simp at h
  | cons first rest =>
    rw [hE] at h e1 hstrict
    dsimp only at h
    rw [if_neg (by decide)] at h
    split at h
    · exact absurd h (by simp)
    · next st hloop =>
      simp only [Option.some.injEq, Prod.mk.injEq] at h
      have hlen : s.scores_.length = rest.length + 1 := by
        rw [← e1.length_eq, List.length_map, List.length_cons]
      have hq0 : ∀ i, i < 3 → 0 ≤ [a, b, c].getD i 0 := by
        intro i hi
        interval_cases i <;> simpa
      have hinit : XvalSizes 3 [a, b, c]
          { train := vectorResize [] 3 (Scores.init s.usePi0_)
            test := vectorResize [] 3 (Scores.init s.usePi0_)
            remain := initRemain 3 (s.scores_.length : Int) (List.replicate 3 0)
            previousSpectrum := first.1
            randIndex := rand pos % 3
            randPos := pos + 1 } (rest.length + 1) := by
        refine ⟨by simp [vectorResize_nil], (initRemain_replicate 3 _ (by decide)).1, ?_, ?_, ?_⟩
        · simp only
          rw [(initRemain_replicate 3 _ (by decide)).2, hlen]
        · intro i hi
          simp only [hq]
          have : foldScores (vectorResize [] 3 (Scores.init s.usePi0_)) i = [] := by
            rw [vectorResize_nil]
            unfold foldScores
            interval_cases i <;> rfl
          rw [this]
          simp
        · intro i hi
          simp only [hq]
          exact Or.inl (hq0 i hi)
      simp only [xvalLoop] at hloop
      cases hs : xvalStep rand 3 fuel
          { train := vectorResize [] 3 (Scores.init s.usePi0_)
            test := vectorResize [] 3 (Scores.init s.usePi0_)
            remain := initRemain 3 (s.scores_.length : Int) (List.replicate 3 0)
            previousSpectrum := first.1
            randIndex := rand pos % 3
            randPos := pos + 1 } first with
      | none => rw [hs] at hloop; simp at hloop
      | some st2 =>
        rw [hs] at hloop
        simp only at hloop
        have hr : rand pos % 3 < 3 := Nat.mod_lt _ (by decide)
        obtain ⟨g1, g2⟩ := xvalStep_sizes rand 3 fuel (by decide) [a, b, c] _ st2
          rest.length first hinit hs
          (Or.inr ⟨hr, by
            simp only [hq]
            have := hq0 _ hr
            omega⟩)
        have hfin := xvalLoop_sizes rand 3 fuel (by decide) [a, b, c] rest st2 st g1
          (List.pairwise_cons.mp hstrict).2
          (fun e1 he1 => by rw [g2]; exact (List.pairwise_cons.mp hstrict).1 e1 he1) hloop
        obtain ⟨f1, f2, f3, f4, f5⟩ := hfin
        rw [sum_three _ f2] at f3
        have t0 := f4 0 (by decide)
        have t1 := f4 1 (by decide)
        have t2 := f4 2 (by decide)
        have r0 := f5 0 (by decide)
        have r1 := f5 1 (by decide)
        have r2 := f5 2 (by decide)
        simp only [List.getD_cons_zero, List.getD_cons_succ] at t0 t1 t2 r0 r1 r2
        intro i j hi hj
        rw [← h.2.1, foldScores_map_recalculateSizes, foldScores_map_recalculateSizes]
        push_cast at f3
        interval_cases i <;> interval_cases j <;> omega

/-- Claim C19, as the code has it: three holders of one scan all land in the test fold drawn
first, so the sizes of the three test folds are 3, 0 and 0. -/
theorem same_scan_fold_sizes :
    sameScanExample.scores_ ≠ []
    ∧ (sameScanExample.createXvalSetsBySpectrum (fun n => n) 3 [] [] 3 0).map
          (fun r => r.2.1.map (fun t => t.scores_.length))
        = some [3, 0, 0] := by
  decide

/-- Claim C19, amended.  For a non-empty Score Set in which no two holders have the same scan
number, split in three folds from empty vectors: with a fair stream of draws and enough fuel
the split returns, and whenever it returns the numbers of holders of any two test folds
differ by at most one. -/
theorem createXvalSetsBySpectrum_fold_sizes (rand : Nat → Nat) (s : Scores) (pos : Nat)
    (hne : s.scores_ ≠ [])
    (hscan : (s.scores_.map (fun sh => sh.pPSM.scan)).Nodup) :
    (∀ B fuel, FairDraws rand 3 B → B ≤ fuel →
      (s.createXvalSetsBySpectrum rand fuel [] [] 3 pos).isSome = true)
    ∧ (∀ fuel train test pos1,
        s.createXvalSetsBySpectrum rand fuel [] [] 3 pos = some (train, test, pos1) →
        ∀ i j, i < 3 → j < 3 →
          ((foldScores test i).length : Int) - ((foldScores test j).length : Int) ≤ 1) :=
  ⟨fun B fuel hfair hB =>
      createXvalSetsBySpectrum_isSome rand fuel B s 3 pos hne (by decide) hfair hB,
    fun fuel train test pos1 h =>
      createXvalSetsBySpectrum_sizes rand fuel s pos train test pos1 hscan h⟩

theorem createXvalSetsBySpectrum_fold_sizes_witness :
    normalizeExample.scores_ ≠ []
    ∧ (normalizeExample.scores_.map (fun sh => sh.pPSM.scan)).Nodup
    ∧ (normalizeExample.createXvalSetsBySpectrum (fun n => n) 3 [] [] 3 0).isSome = true :=
  have h2 : (normalizeExample.scores_.map (fun sh => sh.pPSM.scan)).Nodup := by
    simp [normalizeExample, exampleHolder, examplePSM]
  ⟨normalizeExample_ne_nil, h2,
    (createXvalSetsBySpectrum_fold_sizes (fun n => n) normalizeExample 0
      normalizeExample_ne_nil h2).1 3 3 (fairDraws_id 3 (by decide)) (le_refl 3)⟩

/-- Claim C22.  `fillFeatures` throws exactly when the data handler reports zero targets or
zero decoys and the no-terminate flag is not set, and what it throws is `MyException`; with
no-terminate set it returns normally whatever the handler supplies; and whenever it returns
normally the stored numbers of targets and decoys are the sizes the handler reports for the
labels `+1` and `-1`. -/
theorem fillFeatures_error_iff (env : Env) (s : Scores) (setHandler : SetHandler) :
    ((s.fillFeatures env setHandler).2 = some Exn.MyException ↔
      (setHandler.getSizeFromLabel 1 = 0 ∨ setHandler.getSizeFromLabel (-1) = 0)
        ∧ env.noTerminate = false)
    ∧ ((s.fillFeatures env setHandler).2 = none
        ∨ (s.fillFeatures env setHandler).2 = some Exn.MyException)
    ∧ (env.noTerminate = true → (s.fillFeatures env setHandler).2 = none)
    ∧ ((s.fillFeatures env setHandler).2 = none →
        (s.fillFeatures env setHandler).1.totalNumberOfTargets_ = setHandler.getSizeFromLabel 1
        ∧ (s.fillFeatures env setHandler).1.totalNumberOfDecoys_
            = setHandler.getSizeFromLabel (-1)) := by
  unfold Scores.fillFeatures
  dsimp only
  by_cases ht : setHandler.getSizeFromLabel 1 = 0 <;>
    by_cases hd : setHandler.getSizeFromLabel (-1) = 0 <;>
    cases hn : env.noTerminate <;> simp [ht, hd]

theorem weedOutRedundantLoop_append (l1 : List Nat) :
    ∀ (st : WeedState) (l2 : List Nat),
      weedOutRedundantLoop st (l1 ++ l2)
        = match weedOutRedundantLoop st l1 with
          | (st1, none) => weedOutRedundantLoop st1 l2
          | (st1, some e) => (st1, some e) := by
  induction l1 with
  | nil => intro st l2; simp [weedOutRedundantLoop]
  | cons a l1 ih =>
    intro st l2
    simp only [List.cons_append, weedOutRedundantLoop]
    cases hs : weedOutRedundantStep st a with
    | mk st1 e =>
      cases e with
      | none => exact ih st1 l2
      | some e => rfl

/-- One iteration of the compaction loop at a read index `j` inside the vector, from a state
with `lastWrittenIdx ≤ j` whose holders have non-zero labels and whose previous label is
still `0` when nothing was written: no `at` throws, and afterwards
`1 ≤ lastWrittenIdx ≤ j + 1`. -/
theorem weedOutRedundantStep_safe (st : WeedState) (j : Nat) (hj : j < st.scores_.length)
    (hlw : st.lastWrittenIdx ≤ j) (hlab : ∀ sh ∈ st.scores_, sh.label ≠ 0)
    (hprev : st.lastWrittenIdx = 0 → st.previousLabel = 0) :
    ∃ st1, weedOutRedundantStep st j = (st1, none)
      ∧ st1.scores_.length = st.scores_.length
      ∧ 1 ≤ st1.lastWrittenIdx ∧ st1.lastWrittenIdx ≤ j + 1
      ∧ (∀ sh ∈ st1.scores_, sh.label ≠ 0) := by
  have hget : st.scores_.get? j = some st.scores_[j] := by
    rw [List.get?_eq_getElem?, List.getElem?_eq_getElem hj]
  have hcur : st.scores_[j].label ≠ 0 := hlab _ (List.getElem_mem hj)
  by_cases hnew : st.scores_[j].pPSM.getPeptideSequence ≠ st.previousPeptide
      ∨ st.scores_[j].label ≠ st.previousLabel
  · have hlwlen : st.lastWrittenIdx < st.scores_.length := by omega
    have hg1 : (st.scores_.set st.lastWrittenIdx st.scores_[j]).get? st.lastWrittenIdx
        = some st.scores_[j] := by
      rw [List.get?_eq_getElem?, List.getElem?_set_self hlwlen]
    have hg2 : (st.scores_.set st.lastWrittenIdx st.scores_[j]).get? j
        = some st.scores_[j] := by
      rw [List.get?_eq_getElem?, List.getElem?_set]
      split_ifs with h1
      · rfl
      · rw [List.getElem?_eq_getElem hj]
    refine ⟨{ scores_ := st.scores_.set st.lastWrittenIdx st.scores_[j]
              peptidePsmMap_ :=
                (st.peptidePsmMap_.pushBack st.scores_[j].pPSM st.scores_[j].pPSM)
              previousPeptide := st.scores_[j].pPSM.getPeptideSequence
              previousLabel := st.scores_[j].label
              lastWrittenIdx := st.lastWrittenIdx + 1 }, ?_, ?_, ?_, ?_, ?_⟩
    · simp only [weedOutRedundantStep, hget, hnew, if_true, hlwlen, Nat.add_sub_cancel, hg1, hg2]
    · simp only [List.length_set]
    · simp only; omega
    · simp only; omega
    · intro sh hsh
      simp only at hsh
      rcases List.mem_or_eq_of_mem_set hsh with h | h
      · exact hlab sh h
      · rw [h]; exact hcur
  · have hlw0 : st.lastWrittenIdx ≠ 0 := by
      intro h0
      apply hnew
      right
      rw [hprev h0]
      exact hcur
    have hrep : st.scores_.get? (st.lastWrittenIdx - 1)
        = some (st.scores_.get ⟨st.lastWrittenIdx - 1, by omega⟩) := by
      rw [List.get?_eq_getElem?, List.getElem?_eq_getElem (by omega)]
      rfl
    have hlt : st.lastWrittenIdx - 1 < st.scores_.length := by omega
    refine ⟨{ st with peptidePsmMap_ := (st.peptidePsmMap_.pushBack
                (st.scores_.get ⟨st.lastWrittenIdx - 1, hlt⟩).pPSM st.scores_[j].pPSM) },
      ?_, rfl, ?_, ?_, ?_⟩
    · simp only [weedOutRedundantStep, hget, hnew, if_false, hlw0, hrep]
    · simp only; omega
    · simp only; omega
    · exact hlab

/-- The compaction loop over the first `j` read indices. -/
theorem weedOutRedundantLoop_prefix (st0 : WeedState) (h0 : st0.lastWrittenIdx = 0)
    (hp0 : st0.previousLabel = 0) (hlab : ∀ sh ∈ st0.scores_, sh.label ≠ 0) :
    ∀ j, j ≤ st0.scores_.length →
      ∃ st, weedOutRedundantLoop st0 (List.range j) = (st, none)
        ∧ st.scores_.length = st0.scores_.length
        ∧ st.lastWrittenIdx ≤ j ∧ (0 < j → 1 ≤ st.lastWrittenIdx)
        ∧ (st.lastWrittenIdx = 0 → st.previousLabel = 0)
        ∧ (∀ sh ∈ st.scores_, sh.label ≠ 0) := by
  intro j
  induction j with
  | zero =>
    intro _
    exact ⟨st0, by simp [weedOutRedundantLoop], rfl, by omega, by omega, fun _ => hp0, hlab⟩
  | succ j ih =>
    intro hj
    obtain ⟨st, e1, e2, e3, _, e5, e6⟩ := ih (by omega)
    obtain ⟨st1, g1, g2, g3, g4, g5⟩ :=
      weedOutRedundantStep_safe st j (by omega) e3 e6 e5
    refine ⟨st1, ?_, by rw [g2, e2], g4, fun _ => g3, fun h => by omega, g5⟩
    rw [List.range_succ, weedOutRedundantLoop_append, e1]
    simp only [weedOutRedundantLoop, g1]

/-- Claim C30.  When all labels are `+1` or `-1` (the Score Set may be empty and peptide
sequences may be empty): for every number `j` of read indices processed, the compaction loop
of `weedOutRedundant` has met no failing `at`, `lastWrittenIdx` is at most `j`, that is the
read index just processed plus one, and it is at least 1 as soon as one index was processed,
so that index `lastWrittenIdx - 1` exists when it is read; and the call as a whole does not
end in `out_of_range`. -/
theorem weedOutRedundant_in_range (env : Env) (s : Scores)
    (hlab : ∀ sh ∈ s.scores_, sh.label = 1 ∨ sh.label = -1) :
    (∀ j, j ≤ s.scores_.length →
      ∃ st, weedOutRedundantLoop
          { scores_ := stdSort lexicOrderProb s.scores_, peptidePsmMap_ := s.peptidePsmMap_,
            previousPeptide := "", previousLabel := 0, lastWrittenIdx := 0 } (List.range j)
          = (st, none)
        ∧ st.lastWrittenIdx ≤ j ∧ (0 < j → 1 ≤ st.lastWrittenIdx))
    ∧ (s.weedOutRedundant env).2 ≠ some Exn.out_of_range := by
  have hlen : (stdSort lexicOrderProb s.scores_).length = s.scores_.length :=
    (stdSort_perm _ _).length_eq
  have hlab0 : ∀ sh ∈ stdSort lexicOrderProb s.scores_, sh.label ≠ 0 := by
    intro sh hsh
    rcases hlab sh ((stdSort_perm _ _).mem_iff.mp hsh) with h | h <;> rw [h] <;> decide
  refine ⟨?_, (weedOutRedundant_scores env s hlab).1⟩
  intro j hj
  obtain ⟨st, e1, _, e3, e4, _, _⟩ := weedOutRedundantLoop_prefix
    { scores_ := stdSort lexicOrderProb s.scores_, peptidePsmMap_ := s.peptidePsmMap_,
      previousPeptide := "", previousLabel := 0, lastWrittenIdx := 0 } rfl rfl hlab0 j
    (by simp only [hlen]; exact hj)
  exact ⟨st, e1, e3, e4⟩

theorem weedOutRedundant_in_range_witness :
    (∀ sh ∈ peptideExample.scores_, sh.label = 1 ∨ sh.label = -1)
    ∧ (peptideExample.weedOutRedundant exampleEnv).2 ≠ some Exn.out_of_range :=
  have h1 : ∀ sh ∈ peptideExample.scores_, sh.label = 1 ∨ sh.label = -1 := by
    simp [peptideExample, Scores.init, exampleHolder]
  ⟨h1, (weedOutRedundant_in_range exampleEnv peptideExample h1).2⟩

theorem normalizeScores_eq_map (s r : Scores) (fdr : ℚ) (h : s.normalizeScores fdr = some r) :
    ∃ f d : ℚ, r.scores_ = s.scores_.map (rescale f d) := by
  unfold Scores.normalizeScores at h
  split at h
  · exact absurd h (by simp)
  · next first rest hs =>
    simp only [Option.some.injEq] at h
    refine ⟨(normalizeScoresScan fdr (max 0 (s.totalNumberOfDecoys_ / 2)) s.scores_ 0
        first.score (first.score + 1)).1,
      (normalizeScoresScan fdr (max 0 (s.totalNumberOfDecoys_ / 2)) s.scores_ 0
        first.score (first.score + 1)).1
      - (normalizeScoresScan fdr (max 0 (s.totalNumberOfDecoys_ / 2)) s.scores_ 0
        first.score (first.score + 1)).2, ?_⟩
    rw [← h]
    apply List.map_congr_left
    intro sh _
    simp only [rescale]
    split_ifs <;> rfl

theorem rescale_lt_iff (f d : ℚ) (a b : ScoreHolder) :
    (rescale f d a).score < (rescale f d b).score ↔ a.score < b.score := by
  simp only [rescale]
  by_cases hd : d > 0
  · simp only [hd, if_true]
    rw [div_lt_div_iff_of_pos_right hd]
    exact sub_lt_sub_iff_right f
  · simp only [hd, if_false]
    exact sub_lt_sub_iff_right f

theorem rescale_eq_iff (f d : ℚ) (a b : ScoreHolder) :
    (rescale f d a).score = (rescale f d b).score ↔ a.score = b.score := by
  constructor
  · intro h
    apply le_antisymm
    · exact not_lt.mp (fun hlt => absurd h (ne_of_gt ((rescale_lt_iff f d b a).mpr hlt)))
    · exact not_lt.mp (fun hlt => absurd h (ne_of_lt ((rescale_lt_iff f d a b).mpr hlt)))
  · intro h
    simp only [rescale, h]

theorem rescale_gt (f d : ℚ) (a b : ScoreHolder) :
    (rescale f d a).gt (rescale f d b) = a.gt b := by
  have h1 := rescale_lt_iff f d b a
  have h2 := rescale_eq_iff f d a b
  have e1 : decide ((rescale f d a).score > (rescale f d b).score)
      = decide (a.score > b.score) := by
    simp only [gt_iff_lt, h1]
  have e2 : decide ((rescale f d a).score = (rescale f d b).score)
      = decide (a.score = b.score) := by
    simp only [h2]
  unfold ScoreHolder.gt
  rw [e1, e2]
  rfl

/-- In exact arithmetic, on a non-empty Score Set `normalizeScores` returns, and it applies
one map to all holders that changes only the score and under which, for any two holders, the
scores compare after the call as they did before (smaller stays smaller, equal stays equal),
so that `operator>` gives the same answer on every pair; hence a sequence in which no holder
is greater than one before it is still such a sequence afterwards. -/
theorem normalizeScores_order_preserving_exact (s : Scores) (fdr : ℚ) (hne : s.scores_ ≠ []) :
    ∃ r g, s.normalizeScores fdr = some r ∧ r.scores_ = s.scores_.map g
      ∧ (∀ a b : ScoreHolder,
          ((g a).score < (g b).score ↔ a.score < b.score)
          ∧ ((g a).score = (g b).score ↔ a.score = b.score)
          ∧ (g a).gt (g b) = a.gt b
          ∧ (g a).pPSM = a.pPSM ∧ (g a).label = a.label)
      ∧ (s.scores_.Pairwise (fun a b => b.gt a = false) →
          r.scores_.Pairwise (fun a b => b.gt a = false)) := by
  obtain ⟨r, hr⟩ := normalizeScores_isSome s fdr hne
  obtain ⟨f, d, hmap⟩ := normalizeScores_eq_map s r fdr hr
  refine ⟨r, rescale f d, hr, hmap, ?_, ?_⟩
  · intro a b
    exact ⟨rescale_lt_iff f d a b, rescale_eq_iff f d a b, rescale_gt f d a b, rfl, rfl⟩
  · intro hs
    rw [hmap, List.pairwise_map]
    refine hs.imp ?_
    intro a b hab
    rw [rescale_gt]
    exact hab

theorem sum_take_succ (l : List Int) :
    ∀ n : Nat, (l.take (n + 1)).sum = (l.take n).sum + l.getD n 0 := by
  induction l with
  | nil => intro n; simp
  | cons a t ih =>
    intro n
    cases n with
    | zero => simp
    | succ m =>
      simp only [List.take_succ_cons, List.sum_cons, ih m, List.getD_cons_succ]
      ring

/-- The quota loop writes the entries below `fold`, from the top down: each is the floor of
what is left for the folds up to it divided by their number. -/
theorem initRemain_values :
    ∀ (fold : Nat) (ix : Int) (remain : List Int), fold ≤ remain.length → 0 ≤ ix →
      (∀ i, fold ≤ i → (initRemain fold ix remain).getD i 0 = remain.getD i 0)
      ∧ (0 < fold → ((initRemain fold ix remain).take fold).sum = ix)
      ∧ (∀ f, f < fold → 0 ≤ (initRemain fold ix remain).getD f 0
          ∧ (initRemain fold ix remain).getD f 0
              = ((initRemain fold ix remain).take (f + 1)).sum / ((f : Int) + 1)) := by
  intro fold
  induction fold with
  | zero =>
    intro ix remain _ _
    exact ⟨fun i _ => rfl, fun h => absurd h (lt_irrefl _), fun f hf => absurd hf (Nat.not_lt_zero _)⟩
  | succ f0 ih =>
    intro ix remain hlen hix
    have hdiv : Int.tdiv ix ((f0 : Int) + 1) = ix / ((f0 : Int) + 1) :=
      Int.tdiv_eq_ediv hix (by omega)
    have hr0 : 0 ≤ ix / ((f0 : Int) + 1) := Int.ediv_nonneg hix (by omega)
    have hrle : ix / ((f0 : Int) + 1) ≤ ix := Int.ediv_le_self _ hix
    obtain ⟨h1, h2, h3⟩ := ih (ix - ix / ((f0 : Int) + 1))
      (remain.set f0 (ix / ((f0 : Int) + 1)))
      (by simp only [List.length_set]; omega) (by omega)
    simp only [initRemain, hdiv]
    have hq0 : (initRemain f0 (ix - ix / ((f0 : Int) + 1))
        (remain.set f0 (ix / ((f0 : Int) + 1)))).getD f0 0 = ix / ((f0 : Int) + 1) := by
      rw [h1 f0 (le_refl _), getD_set_int _ _ _ _ (by omega)]
      simp
    have hsum : ((initRemain f0 (ix - ix / ((f0 : Int) + 1))
        (remain.set f0 (ix / ((f0 : Int) + 1)))).take (f0 + 1)).sum = ix := by
      rw [sum_take_succ, hq0]
      rcases Nat.eq_zero_or_pos f0 with hf | hf
      · subst hf
        simp
      · rw [h2 hf]; ring
    refine ⟨?_, fun _ => hsum, ?_⟩
    · intro i hi
      rw [h1 i (by omega), getD_set_int _ _ _ _ (by omega)]
      have : ¬ i = f0 := by omega
      simp [this]
    · intro f hf
      rcases Nat.lt_succ_iff_lt_or_eq.mp hf with hlt | heq
      · exact h3 f hlt
      · subst heq
        rw [hq0, hsum]
        exact ⟨hr0, rfl⟩

/-- One placement lowers the sum of the remaining quotas by one. -/
theorem xvalStep_quota (rand : Nat → Nat) (k fuel : Nat) (hk : 0 < k) (st st1 : XvalState)
    (e : Nat × ScoreHolder) (hlen : st.remain.length = k) (hidx : st.randIndex < k)
    (hs : xvalStep rand k fuel st e = some st1) :
    st1.remain.length = k ∧ st1.randIndex < k ∧ st1.remain.sum = st.remain.sum - 1 := by
  unfold xvalStep at hs
  dsimp only at hs
  split at hs
  · exact absurd hs (by simp)
  · next r pos hch =>
    simp only [Option.some.injEq] at hs
    have hr : r < k := by
      by_cases hp : st.previousSpectrum ≠ e.1
      · rw [if_pos hp] at hch
        exact drawNonFull_lt rand k hk st.remain fuel _ r pos hch
      · rw [if_neg hp] at hch
        simp only [Option.some.injEq, Prod.mk.injEq] at hch
        rw [← hch.1]
        exact hidx
    rw [← hs]
    refine ⟨by simp only [List.length_set]; exact hlen, hr, ?_⟩
    simp only
    rw [sum_set _ _ _ (by omega)]
    ring

theorem xvalLoop_quota (rand : Nat → Nat) (k fuel : Nat) (hk : 0 < k)
    (l : List (Nat × ScoreHolder)) :
    ∀ (st st1 : XvalState), st.remain.length = k → st.randIndex < k →
      xvalLoop rand k fuel st l = some st1 →
      st1.remain.length = k ∧ st1.randIndex < k
        ∧ st1.remain.sum = st.remain.sum - (l.length : Int) := by
  induction l with
  | nil =>
    intro st st1 hlen hidx h
    simp only [xvalLoop, Option.some.injEq] at h
    rw [← h]
    exact ⟨hlen, hidx, by simp⟩
  | cons e l ih =>
    intro st st1 hlen hidx h
    simp only [xvalLoop] at h
    cases hs : xvalStep rand k fuel st e with
    | none => rw [hs] at h; simp at h
    | some st2 =>
      rw [hs] at h
      simp only at h
      obtain ⟨a1, a2, a3⟩ := xvalStep_quota rand k fuel hk st st2 e hlen hidx hs
      obtain ⟨b1, b2, b3⟩ := ih st2 st1 a1 a2 h
      refine ⟨b1, b2, ?_⟩
      rw [b3, a3, List.length_cons]
      push_cast
      ring

/-- Claim C28.  For a Score Set of `n` holders and `k ≥ 1` folds: the initial quotas are `k`
numbers that add up to `n`, none negative, the quota of fold `f` being the floor of `n` less
the quotas of the folds above `f`, divided by `f + 1`.  From the state in which the
distribution loop starts, after the first `j` entries of the multimap have been placed the
remaining quotas add up to `n - j`; so while holders are left some fold has a positive
remainder, and with a fair stream of draws and enough fuel the redraw loop returns a fold. -/
theorem quotas_cover_remaining (rand : Nat → Nat) (k fuel : Nat) (hk : 1 ≤ k) (s : Scores)
    (pos first : Nat) :
    (initRemain k (s.scores_.length : Int) (List.replicate k 0)).length = k
    ∧ (initRemain k (s.scores_.length : Int) (List.replicate k 0)).sum = (s.scores_.length : Int)
    ∧ (∀ f, f < k →
        0 ≤ (initRemain k (s.scores_.length : Int) (List.replicate k 0)).getD f 0
        ∧ (initRemain k (s.scores_.length : Int) (List.replicate k 0)).getD f 0
            = ((s.scores_.length : Int)
                - ((initRemain k (s.scores_.length : Int) (List.replicate k 0)).drop
                    (f + 1)).sum) / ((f : Int) + 1))
    ∧ (∀ j st, j ≤ s.scores_.length →
        xvalLoop rand k fuel
            { train := vectorResize [] k (Scores.init s.usePi0_)
              test := vectorResize [] k (Scores.init s.usePi0_)
              remain := initRemain k (s.scores_.length : Int) (List.replicate k 0)
              previousSpectrum := first
              randIndex := rand pos % k
              randPos := pos + 1 }
            ((spectraScores s.scores_).take j) = some st →
        st.remain.sum = (s.scores_.length : Int) - (j : Int)
        ∧ (j < s.scores_.length →
            (∃ i, i < k ∧ 0 < st.remain.getD i 0)
            ∧ ∀ B, FairDraws rand k B → B ≤ fuel →
                ∃ r, drawNonFull rand k st.remain fuel st.randPos = some r)) := by
  obtain ⟨q1, q2⟩ := initRemain_replicate k s.scores_.length hk
  obtain ⟨_, _, v3⟩ := initRemain_values k (s.scores_.length : Int) (List.replicate k 0)
    (by simp) (Int.ofNat_nonneg _)
  refine ⟨q1, q2, ?_, ?_⟩
  · intro f hf
    obtain ⟨w1, w2⟩ := v3 f hf
    refine ⟨w1, ?_⟩
    rw [w2]
    congr 1
    have := List.sum_take_add_sum_drop
      (initRemain k (s.scores_.length : Int) (List.replicate k 0)) (f + 1)
    rw [q2] at this
    omega
  · intro j st hj hloop
    have hlenS : (spectraScores s.scores_).length = s.scores_.length := by
      have := (spectraScores_spec s.scores_).1.length_eq
      simpa using this
    obtain ⟨b1, _, b3⟩ := xvalLoop_quota rand k fuel hk _ _ st q1
      (Nat.mod_lt _ hk) hloop
    simp only [q2, List.length_take, hlenS, Nat.min_eq_left hj] at b3
    refine ⟨b3, ?_⟩
    intro hlt
    have hsum : 0 < st.remain.sum := by rw [b3]; omega
    obtain ⟨i, hi, hp⟩ := exists_pos_of_sum_pos _ hsum
    rw [b1] at hi
    refine ⟨⟨i, hi, hp⟩, ?_⟩
    intro B hfair hB
    obtain ⟨m, hm, hr⟩ := hfair st.randPos i hi
    exact drawNonFull_some rand k st.remain fuel st.randPos ⟨m, by omega, by rw [hr]; exact hp⟩

theorem quotas_cover_remaining_witness :
    (initRemain 3 (normalizeExample.scores_.length : Int) (List.replicate 3 0)).sum
      = (normalizeExample.scores_.length : Int) :=
  (quotas_cover_remaining (fun n => n) 3 3 (by decide) normalizeExample 0 1).2.1

/-- The statements on the mode fail exactly for `-y` with `-Y`, for `-I concatenated` with
`-y`, and for a value of `-I` that is none of the three search-input types. -/
theorem parseOptionsMode_none_iff (m : ModeOptions) :
    Caller.init.parseOptionsMode m = none ↔
      (m.y = true ∧ m.Y = true) ∨ (m.I = some "concatenated" ∧ m.y = true)
      ∨ (∃ v, m.I = some v ∧ v ≠ "auto" ∧ v ≠ "concatenated" ∧ v ≠ "separate") := by
  obtain ⟨y, Y, I, OI⟩ := m
  unfold Caller.parseOptionsMode
  cases y <;> cases Y <;> cases OI <;> cases I <;>
    simp [Caller.init] <;>
    (try (split_ifs <;> simp_all)) <;>
    (try exact em _)

theorem isSome_false_iff {α : Type} (o : Option α) : o.isSome = false ↔ o = none := by
  cases o <;> simp

theorem isSome_true_iff {α : Type} (o : Option α) : o.isSome = true ↔ o ≠ none := by
  cases o <;> simp

/-- Claim C23.  `parseOptions` returns failure exactly when `-y` and `-Y` are both set, or
`-U` and `-A` are both set, or `-I` is `concatenated` and `-y` is set, or `-I` has a value
other than `auto`, `concatenated` and `separate`, or there is no positional argument and none
of `-j`, `-k`, `-e`, `-OI` and `--stdinput`, or there is one positional argument together
with `-k`, `-j`, `-e` or `--stdinput`, or there is more than one positional argument. -/
theorem parseOptions_failure_iff (cmd : CommandLine) :
    Caller.parseOptions cmd = none ↔ parseFailure cmd := by
  have hm : Caller.init.parseOptionsMode cmd.modeOptions = none ↔
      (cmd.y = true ∧ cmd.Y = true) ∨ (cmd.I = some "concatenated" ∧ cmd.y = true)
      ∨ (∃ v, cmd.I = some v ∧ v ≠ "auto" ∧ v ≠ "concatenated" ∧ v ≠ "separate") :=
    parseOptionsMode_none_iff cmd.modeOptions
  unfold Caller.parseOptions parseFailure
  dsimp only
  by_cases hUA : cmd.U = true ∧ cmd.A = true
  · simp only [hUA.1, hUA.2, Bool.and_self, if_true, true_iff]
    exact Or.inr (Or.inl ⟨trivial, trivial⟩)
  · have h1 : (cmd.U && cmd.A) = false := by
      rw [← Bool.not_eq_true, Bool.and_eq_true]
      exact hUA
    rw [h1]
    simp only [Bool.false_eq_true, if_false]
    cases hmode : Caller.init.parseOptionsMode cmd.modeOptions with
    | none =>
      simp only [true_iff]
      rcases hm.mp hmode with h | h | h
      · exact Or.inl h
      · exact Or.inr (Or.inr (Or.inl h))
      · exact Or.inr (Or.inr (Or.inr (Or.inl h)))
    | some c =>
      have hn : ¬ ((cmd.y = true ∧ cmd.Y = true) ∨ (cmd.I = some "concatenated" ∧ cmd.y = true)
          ∨ (∃ v, cmd.I = some v ∧ v ≠ "auto" ∧ v ≠ "concatenated" ∧ v ≠ "separate")) := by
        intro h
        rw [hm.mpr h] at hmode
        exact Option.noConfusion hmode
      simp only [isSome_false_iff, isSome_true_iff]
      split_ifs with a1 a2 a3 a4
      · simp only [true_iff]
        exact Or.inr (Or.inr (Or.inr (Or.inr (Or.inl ⟨a1.1, a1.2.1, a1.2.2.1, a1.2.2.2⟩))))
      · simp only [true_iff]
        rcases a2 with ⟨hl, hk | hj⟩
        · exact Or.inr (Or.inr (Or.inr (Or.inr (Or.inr (Or.inl ⟨hl, Or.inl hk⟩)))))
        · exact Or.inr (Or.inr (Or.inr (Or.inr (Or.inr (Or.inl ⟨hl, Or.inr (Or.inl hj)⟩)))))
      · simp only [true_iff]
        rcases a3 with ⟨hl, he | hs⟩
        · exact Or.inr (Or.inr (Or.inr (Or.inr (Or.inr
            (Or.inl ⟨hl, Or.inr (Or.inr (Or.inl he))⟩)))))
        · exact Or.inr (Or.inr (Or.inr (Or.inr (Or.inr
            (Or.inl ⟨hl, Or.inr (Or.inr (Or.inr hs))⟩)))))
      · simp only [true_iff]
        exact Or.inr (Or.inr (Or.inr (Or.inr (Or.inr (Or.inr a4)))))
      · simp only [reduceCtorEq, false_iff]
        intro hf
        rcases hf with hf | hf | hf | hf | hf | hf | hf
        · exact hn (Or.inl hf)
        · exact hUA hf
        · exact hn (Or.inr (Or.inl hf))
        · exact hn (Or.inr (Or.inr hf))
        · exact a1 hf
        · rcases hf with ⟨hl, hk | hj | he | hs⟩
          · exact a2 ⟨hl, Or.inl hk⟩
          · exact a2 ⟨hl, Or.inr hj⟩
          · exact a3 ⟨hl, Or.inl he⟩
          · exact a3 ⟨hl, Or.inr hs⟩
        · exact a4 hf

/-- No statement of `parseOptions` clears `oswInput_`, which the constructor sets. -/
theorem parseOptionsInput_oswInput (cmd : CommandLine) :
    (Caller.parseOptionsInput cmd).oswInput_ = true := by
  obtain ⟨U, A, k, OI, OL, e, j, stdinput, N, y, Y, I, arguments⟩ := cmd
  unfold Caller.parseOptionsInput
  dsimp only
  cases N <;> cases stdinput <;> cases j <;> cases e <;> cases OI <;>
    cases k <;> cases U <;> rfl

theorem parseOptions_oswInput (cmd : CommandLine) (c : Caller) (i : CallerInput)
    (h : Caller.parseOptions cmd = some (c, i)) : i.oswInput_ = true := by
  have ho := parseOptionsInput_oswInput cmd
  unfold Caller.parseOptions at h
  dsimp only at h
  by_cases a0 : (cmd.U && cmd.A) = true
  · rw [if_pos a0] at h
    exact Option.noConfusion h
  · rw [if_neg a0] at h
    cases hmode : Caller.init.parseOptionsMode cmd.modeOptions with
    | none =>
      rw [hmode] at h
      exact Option.noConfusion h
    | some c1 =>
      rw [hmode] at h
      dsimp only at h
      by_cases a1 : cmd.arguments.length = 0 ∧ cmd.j.isSome = false ∧ cmd.k.isSome = false
          ∧ cmd.e = false ∧ cmd.OI.isSome = false ∧ cmd.stdinput = false
      · rw [if_pos a1] at h
        exact Option.noConfusion h
      · rw [if_neg a1] at h
        by_cases a2 : cmd.arguments.length = 1 ∧ (cmd.k.isSome = true ∨ cmd.j.isSome = true)
        · rw [if_pos a2] at h
          exact Option.noConfusion h
        · rw [if_neg a2] at h
          by_cases a3 : cmd.arguments.length = 1 ∧ (cmd.e = true ∨ cmd.stdinput = true)
          · rw [if_pos a3] at h
            exact Option.noConfusion h
          · rw [if_neg a3] at h
            by_cases a4 : cmd.arguments.length > 1
            · rw [if_pos a4] at h
              exact Option.noConfusion h
            · rw [if_neg a4] at h
              simp only [Option.some.injEq, Prod.mk.injEq] at h
              rw [← h.2]
              split_ifs
              · exact ho
              · exact ho

/-- Claim C24, evaluated.  After `percolator pin.tsv` both `tabInput_` and `oswInput_` are
set, the input is read with the tab reader and the results are written through `reportOSW`;
after `percolator -k pin.xml` the input is read with the OSW reader, not the pin-xml reader;
and after every successful `parseOptions` `oswInput_` is set and the results go through
`reportOSW`. -/
theorem input_format_flags :
    (∃ c i, Caller.parseOptions tabCommand = some (c, i)
      ∧ i.tabInput_ = true ∧ i.oswInput_ = true
      ∧ i.inputReader = Reader.readTab ∧ i.resultWriter = Writer.reportOSW)
    ∧ (∃ c i, Caller.parseOptions xmlCommand = some (c, i)
      ∧ i.tabInput_ = false ∧ i.oswInput_ = true
      ∧ i.inputReader = Reader.readOSW ∧ i.resultWriter = Writer.reportOSW)
    ∧ (∀ cmd c i, Caller.parseOptions cmd = some (c, i) →
        i.oswInput_ = true ∧ i.resultWriter = Writer.reportOSW
        ∧ i.inputReader ≠ Reader.readPin) := by
  refine ⟨⟨_, _, rfl, rfl, rfl, rfl, rfl⟩, ⟨_, _, rfl, rfl, rfl, rfl, rfl⟩, ?_⟩
  intro cmd c i h
  have ho := parseOptions_oswInput cmd c i h
  refine ⟨ho, ?_, ?_⟩
  · simp only [CallerInput.resultWriter, ho, if_true]
  · unfold CallerInput.inputReader
    rw [ho]
    by_cases ht : i.tabInput_ = true
    · rw [if_pos ht]
      exact fun hr => Reader.noConfusion hr
    · rw [if_neg ht, if_pos rfl]
      exact fun hr => Reader.noConfusion hr

/-- Claim C26, evaluated.  After `percolator -N 100 pin.tsv` the re-score phase calls
`readAndScoreTab` twice; and over the four settings of `tabInput_` and `oswInput_` with a
positive subset size the calls are: tab reader twice when both are set, tab reader and then
pin-xml reader when only `tabInput_` is set, tab reader once when only `oswInput_` is set,
pin-xml reader once when neither is set. -/
theorem rescore_reader_calls :
    (∃ c i, Caller.parseOptions subsetCommand = some (c, i)
      ∧ i.subsetSize = 100
      ∧ i.rescoreReaders = [Reader.readAndScoreTab, Reader.readAndScoreTab])
    ∧ (∀ i : CallerInput, 0 < i.subsetSize →
        (i.tabInput_ = true → i.oswInput_ = true →
          i.rescoreReaders = [Reader.readAndScoreTab, Reader.readAndScoreTab])
        ∧ (i.tabInput_ = true → i.oswInput_ = false →
          i.rescoreReaders = [Reader.readAndScoreTab, Reader.readAndScorePin])
        ∧ (i.tabInput_ = false → i.oswInput_ = true →
          i.rescoreReaders = [Reader.readAndScoreTab])
        ∧ (i.tabInput_ = false → i.oswInput_ = false →
          i.rescoreReaders = [Reader.readAndScorePin])) := by
  refine ⟨⟨_, _, rfl, rfl, rfl⟩, ?_⟩
  intro i hpos
  unfold CallerInput.rescoreReaders
  rw [if_pos hpos]
  refine ⟨?_, ?_, ?_, ?_⟩ <;> intro h1 h2 <;> rw [h1, h2] <;> rfl

theorem set_layout {α : Type} (l : List α) (i : Nat) (a : α) (rows : List α)
    (hi : i < l.length) :
    (l.set i a).take (i + 1) ++ rows ++ (l.set i a).drop (i + 1 + rows.length)
      = l.take i ++ (a :: rows) ++ l.drop (i + (rows.length + 1)) := by
  rw [List.drop_set_of_lt _ _ (by omega)]
  have h1 : (l.set i a).take (i + 1) = l.take i ++ [a] := by
    rw [List.set_eq_take_append_cons_drop, if_pos hi, List.take_append_eq_append_take]
    simp [Nat.min_eq_left (le_of_lt hi)]
  rw [h1]
  have h2 : i + 1 + rows.length = i + (rows.length + 1) := by omega
  rw [h2]
  simp

/-- What the loop of `generatePositiveTrainingSet` does when the arrays have room for the
holders it writes. -/
theorem positiveLoop_spec (fdr cpos : ℚ) (l : List ScoreHolder) :
    ∀ (data : AlgIn) (ix2 p : Nat),
      ix2 + (selectedUntilBreak fdr l).length ≤ data.vals.length →
      ix2 + (selectedUntilBreak fdr l).length ≤ data.Y.length →
      ix2 + (selectedUntilBreak fdr l).length ≤ data.C.length →
      ∃ d, positiveLoop fdr cpos l data ix2 p
          = some (d, ix2 + (selectedUntilBreak fdr l).length,
              p + (selectedUntilBreak fdr l).length)
        ∧ d.negatives = data.negatives
        ∧ d.vals = data.vals.take ix2
            ++ (selectedUntilBreak fdr l).map (fun sh => sh.pPSM.features)
            ++ data.vals.drop (ix2 + (selectedUntilBreak fdr l).length)
        ∧ d.Y = data.Y.take ix2
            ++ (selectedUntilBreak fdr l).map (fun _ => (1 : ℚ))
            ++ data.Y.drop (ix2 + (selectedUntilBreak fdr l).length)
        ∧ d.C = data.C.take ix2
            ++ (selectedUntilBreak fdr l).map (fun _ => cpos)
            ++ data.C.drop (ix2 + (selectedUntilBreak fdr l).length) := by
  induction l with
  | nil =>
    intro data ix2 p _ _ _
    exact ⟨data, rfl, rfl, by simp [selectedUntilBreak], by simp [selectedUntilBreak],
      by simp [selectedUntilBreak]⟩
  | cons sh rest ih =>
    intro data ix2 p hv hY hC
    by_cases ht : sh.isTarget = true
    · by_cases hq : sh.q > fdr
      · refine ⟨data, ?_, rfl, ?_, ?_, ?_⟩ <;>
          simp [positiveLoop, selectedUntilBreak, ht, hq]
      · simp only [selectedUntilBreak, ht, hq, if_true, if_false, List.length_cons] at hv hY hC
        have hcap : ix2 < data.vals.length ∧ ix2 < data.Y.length ∧ ix2 < data.C.length :=
          ⟨by omega, by omega, by omega⟩
        obtain ⟨d, e1, e2, e3, e4, e5⟩ := ih
          { data with vals := data.vals.set ix2 sh.pPSM.features, Y := data.Y.set ix2 1,
                      C := data.C.set ix2 cpos } (ix2 + 1) (p + 1)
          (by simp only [List.length_set]; omega) (by simp only [List.length_set]; omega)
          (by simp only [List.length_set]; omega)
        refine ⟨d, ?_, e2, ?_, ?_, ?_⟩
        · simp only [positiveLoop, selectedUntilBreak, ht, hq, if_true, if_false, hcap,
            and_self, List.length_cons]
          rw [e1]
          congr 3 <;> omega
        · rw [e3]
          simp only [selectedUntilBreak, ht, hq, if_true, if_false, List.map_cons,
            List.length_cons]
          have := set_layout data.vals ix2 sh.pPSM.features
            ((selectedUntilBreak fdr rest).map (fun sh => sh.pPSM.features)) hcap.1
          simpa only [List.length_map] using this
        · rw [e4]
          simp only [selectedUntilBreak, ht, hq, if_true, if_false, List.map_cons,
            List.length_cons]
          have := set_layout data.Y ix2 1
            ((selectedUntilBreak fdr rest).map (fun _ => (1 : ℚ))) hcap.2.1
          simpa only [List.length_map] using this
        · rw [e5]
          simp only [selectedUntilBreak, ht, hq, if_true, if_false, List.map_cons,
            List.length_cons]
          have := set_layout data.C ix2 cpos
            ((selectedUntilBreak fdr rest).map (fun _ => cpos)) hcap.2.2
          simpa only [List.length_map] using this
    · simp only [selectedUntilBreak, ht, Bool.false_eq_true, if_false] at hv hY hC ⊢
      obtain ⟨d, e1, e2, e3, e4, e5⟩ := ih data ix2 p hv hY hC
      exact ⟨d, by simp only [positiveLoop, ht, Bool.false_eq_true, if_false]; exact e1,
        e2, e3, e4, e5⟩

/-- When the q-values do not decrease along the list, the loop ends only after the last
target with `q ≤ fdr`. -/
theorem selectedUntilBreak_eq_filter (fdr : ℚ) (l : List ScoreHolder)
    (hq : l.Pairwise (fun a b => a.q ≤ b.q)) :
    selectedUntilBreak fdr l = targetsWithin fdr l := by
  induction l with
  | nil => rfl
  | cons sh rest ih =>
    obtain ⟨h1, h2⟩ := List.pairwise_cons.mp hq
    unfold targetsWithin at ih ⊢
    by_cases ht : sh.isTarget = true
    · by_cases hgt : sh.q > fdr
      · have hnot : ¬ sh.q ≤ fdr := not_le.mpr hgt
        simp only [selectedUntilBreak, ht, hgt, if_true, List.filter_cons, hnot,
          decide_False, Bool.and_false, Bool.false_eq_true, if_false]
        symm
        apply List.filter_eq_nil_iff.mpr
        intro b hb
        have : ¬ b.q ≤ fdr := not_le.mpr (lt_of_lt_of_le hgt (h1 b hb))
        simp [this]
      · have hle : sh.q ≤ fdr := not_lt.mp hgt
        simp only [selectedUntilBreak, ht, hgt, if_true, if_false, List.filter_cons, hle,
          decide_True, Bool.and_self, ih h2]
    · simp only [selectedUntilBreak, ht, Bool.false_eq_true, if_false, List.filter_cons,
        Bool.false_and, ih h2]

/-- Claim C25, as stated, at `fdr = 1` on a Score Set with one target whose q-value is 1: the
Score Set is in descending order with non-decreasing q-values and has no target with
`q < fdr`, yet `generatePositiveTrainingSet` writes the target and reports one positive. -/
theorem boundary_target_selected :
    boundaryExample.scores_.Pairwise (fun a b => b.gt a = false)
    ∧ boundaryExample.scores_.Pairwise (fun a b => a.q ≤ b.q)
    ∧ (targetsBelow 1 boundaryExample.scores_).length = 0
    ∧ (boundaryExample.generatePositiveTrainingSet boundaryData 1 2).map
        (fun d => (d.positives, d.m, d.vals, d.Y, d.C)) = some (1, 1, [[1]], [1], [2]) := by
  refine ⟨?_, ?_, ?_, ?_⟩
  · simp [boundaryExample]
  · simp [boundaryExample]
  · simp [targetsBelow, boundaryExample, exampleHolder, ScoreHolder.isTarget]
  · simp [Scores.generatePositiveTrainingSet, positiveLoop, boundaryExample, boundaryData,
      exampleHolder, examplePSM, ScoreHolder.isTarget]

/-- Claim C25, amended.  For a Score Set whose q-values do not decrease along the list and an
`AlgIn` whose arrays have room, after the negatives, for the targets with `q ≤ fdr`:
`generatePositiveTrainingSet` returns; it writes exactly these targets, in their order,
directly after the negatives, each with its feature row, label `+1` and cost `cpos`, and
leaves all other entries of the arrays as they were; `positives` is their number, `negatives`
is unchanged and `m = negatives + positives`. -/
theorem generatePositiveTrainingSet_selects (s : Scores) (data : AlgIn) (fdr cpos : ℚ)
    (hq : s.scores_.Pairwise (fun a b => a.q ≤ b.q))
    (hv : data.negatives + (targetsWithin fdr s.scores_).length ≤ data.vals.length)
    (hY : data.negatives + (targetsWithin fdr s.scores_).length ≤ data.Y.length)
    (hC : data.negatives + (targetsWithin fdr s.scores_).length ≤ data.C.length) :
    ∃ d, s.generatePositiveTrainingSet data fdr cpos = some d
      ∧ d.positives = (targetsWithin fdr s.scores_).length
      ∧ d.negatives = data.negatives
      ∧ d.m = d.negatives + d.positives
      ∧ d.vals = data.vals.take data.negatives
          ++ (targetsWithin fdr s.scores_).map (fun sh => sh.pPSM.features)
          ++ data.vals.drop (data.negatives + (targetsWithin fdr s.scores_).length)
      ∧ d.Y = data.Y.take data.negatives
          ++ (targetsWithin fdr s.scores_).map (fun _ => (1 : ℚ))
          ++ data.Y.drop (data.negatives + (targetsWithin fdr s.scores_).length)
      ∧ d.C = data.C.take data.negatives
          ++ (targetsWithin fdr s.scores_).map (fun _ => cpos)
          ++ data.C.drop (data.negatives + (targetsWithin fdr s.scores_).length) := by
  have hsel := selectedUntilBreak_eq_filter fdr s.scores_ hq
  rw [← hsel] at hv hY hC ⊢
  obtain ⟨d, e1, e2, e3, e4, e5⟩ :=
    positiveLoop_spec fdr cpos s.scores_ data data.negatives 0 hv hY hC
  refine ⟨{ d with positives := 0 + (selectedUntilBreak fdr s.scores_).length,
                   m := data.negatives + (selectedUntilBreak fdr s.scores_).length },
    ?_, by simp, e2, ?_, e3, e4, e5⟩
  · unfold Scores.generatePositiveTrainingSet
    rw [e1]
  · simp only [e2, Nat.zero_add]

theorem generatePositiveTrainingSet_selects_witness :
    ∃ d, boundaryExample.generatePositiveTrainingSet boundaryData 1 2 = some d
      ∧ d.positives = (targetsWithin 1 boundaryExample.scores_).length := by
  have hle : (targetsWithin 1 boundaryExample.scores_).length ≤ 1 :=
    List.length_filter_le _ _
  have hcap : boundaryData.negatives + (targetsWithin 1 boundaryExample.scores_).length ≤ 1 := by
    show 0 + _ ≤ 1
    omega
  obtain ⟨d, h1, h2, _⟩ := generatePositiveTrainingSet_selects boundaryExample boundaryData 1 2
    (by simp [boundaryExample]) hcap hcap hcap
  exact ⟨d, h1, h2⟩

theorem movedTo_unique (moved : Nat → Option Nat) (x r1 r2 : Nat)
    (h1 : MovedTo moved x r1) (h2 : MovedTo moved x r2) : r1 = r2 := by
  induction h1 with
  | stop r hr =>
    cases h2 with
    | stop _ _ => rfl
    | step _ y _ hy _ => rw [hr] at hy; exact Option.noConfusion hy
  | step x y r hxy _ ih =>
    cases h2 with
    | stop _ hr => rw [hr] at hxy; exact Option.noConfusion hxy
    | step _ y2 _ hy2 hc2 =>
      rw [hxy] at hy2
      simp only [Option.some.injEq] at hy2
      subst hy2
      exact ih hc2

theorem movedTo_le (moved : Nat → Option Nat) (hinc : ∀ a b, moved a = some b → a < b)
    (x r : Nat) (h : MovedTo moved x r) : x ≤ r := by
  induction h with
  | stop r _ => exact le_refl _
  | step x y r hxy _ ih => exact le_trans (le_of_lt (hinc x y hxy)) ih

/-- With more fuel than the distance to the end, the look-up returns the end. -/
theorem followMoved_of_movedTo (moved : Nat → Option Nat)
    (hinc : ∀ a b, moved a = some b → a < b) (x r : Nat) (h : MovedTo moved x r) :
    ∀ fuel, r - x < fuel → followMoved moved fuel x = some r := by
  induction h with
  | stop r hr =>
    intro fuel hf
    cases fuel with
    | zero => omega
    | succ n => simp only [followMoved, hr]
  | step x y r hxy hc ih =>
    intro fuel hf
    have hlt := hinc x y hxy
    have hle := movedTo_le moved hinc y r hc
    cases fuel with
    | zero => omega
    | succ n =>
      simp only [followMoved, hxy]
      exact ih n (by omega)

/-- A new entry under a key that no look-up passes leaves a look-up as it was. -/
theorem movedTo_insert_other (moved : Nat → Option Nat) (k old x r : Nat)
    (hk : moved k = none) (h : MovedTo moved x r) (hr : r ≠ k) :
    MovedTo (fun a => if a = k then some old else moved a) x r := by
  induction h with
  | stop r hrn =>
    exact MovedTo.stop r (by simp only [hr, if_false]; exact hrn)
  | step x y r hxy _ ih =>
    have hx : x ≠ k := by
      intro e
      rw [e, hk] at hxy
      exact Option.noConfusion hxy
    exact MovedTo.step x y r (by simp only [hx, if_false]; exact hxy) (ih hr)

/-- A new entry under the key where a look-up ended sends the look-up on to the new value. -/
theorem movedTo_insert_end (moved : Nat → Option Nat) (k old x : Nat)
    (hk : moved k = none) (hold : moved old = none) (hne : old ≠ k)
    (h : MovedTo moved x k) :
    MovedTo (fun a => if a = k then some old else moved a) x old := by
  generalize hkk : k = k2 at h
  induction h with
  | stop r _ =>
    subst hkk
    exact MovedTo.step k old old (by simp) (MovedTo.stop old (by simp only [hne, if_false]; exact hold))
  | step x y r hxy _ ih =>
    subst hkk
    have hx : x ≠ k := by
      intro e
      rw [e, hk] at hxy
      exact Option.noConfusion hxy
    exact MovedTo.step x y old (by simp only [hx, if_false]; exact hxy) (ih rfl)

theorem movedTo_end (moved : Nat → Option Nat) (x r : Nat) (h : MovedTo moved x r) :
    moved r = none := by
  induction h with
  | stop r hr => exact hr
  | step _ _ _ _ _ ih => exact ih

/-- The look-ups after the entry that one pass of the loop may add: a look-up that ended at
the new address now ends at the old one, every other look-up ends where it did. -/
theorem movedTo_after (moved : Nat → Option Nat) (k r x r1 : Nat) (hk : moved k = none)
    (hr : moved r = none) (h : MovedTo moved x r1) :
    MovedTo (if r ≠ k then fun a => if a = k then some r else moved a else moved) x
      (if r1 = k then r else r1) := by
  by_cases hrk : r = k
  · rw [if_neg (not_not.mpr hrk)]
    by_cases h1 : r1 = k
    · rw [if_pos h1, hrk, ← h1]
      exact h
    · rw [if_neg h1]
      exact h
  · rw [if_pos hrk]
    by_cases h1 : r1 = k
    · rw [if_pos h1]
      rw [h1] at h
      exact movedTo_insert_end moved k r x hk hr hrk h
    · rw [if_neg h1]
      exact movedTo_insert_other moved k r x r1 hk h h1

theorem swap_getElem? (rows : List (List ℚ)) (r k : Nat) (hr : r < rows.length)
    (hk : k < rows.length) (i : Nat) :
    ((rows.set r rows[k]).set k rows[r])[i]?
      = if i = k then rows[r]? else if i = r then rows[k]? else rows[i]? := by
  rw [List.getElem?_set]
  by_cases hik : k = i
  · subst hik
    simp [hr, hk]
  · have hik2 : ¬ i = k := fun e => hik e.symm
    rw [if_neg hik, if_neg hik2, List.getElem?_set]
    by_cases hir : r = i
    · subst hir
      simp [hr, hk]
    · have hir2 : ¬ i = r := fun e => hir e.symm
      rw [if_neg hir, if_neg hir2]

/-- One pass of the loop keeps the invariant and does not fail when the fuel is at least the
number of rows. -/
theorem reorderStep_inv (fuel : Nat) (rows0 : List (List ℚ)) (h0 : Nat → Nat)
    (done : List Nat) (p : Nat) (rest : List Nat) (st : PoolState)
    (hnd : (done ++ p :: rest).Nodup) (hfuel : rows0.length ≤ fuel)
    (hinv : PoolInv rows0 h0 done (p :: rest) st) :
    ∃ st1, reorderStep fuel st p = some st1 ∧ PoolInv rows0 h0 (done ++ [p]) rest st1 := by
  obtain ⟨hf, r, hch, hkr, hrN, hrow⟩ := hinv.waiting p (List.mem_cons_self _ _)
  have hinc : ∀ a b, st.movedAddresses a = some b → a < b := fun a b h => (hinv.keys a b h).2
  have hfollow : followMoved st.movedAddresses fuel (st.features p) = some r := by
    rw [hf]
    exact followMoved_of_movedTo _ hinc _ _ hch fuel (by omega)
  have hmk : st.movedAddresses done.length = none := by
    cases hm : st.movedAddresses done.length with
    | none => rfl
    | some b => exact absurd (hinv.keys _ _ hm).1 (lt_irrefl _)
  have hmr : st.movedAddresses r = none := movedTo_end _ _ _ hch
  have hrl : r < st.rows.length := by rw [hinv.len]; exact hrN
  have hkl : done.length < st.rows.length := by omega
  have hpd : p ∉ done := fun hp =>
    (List.nodup_append.mp hnd).2.2 hp (List.mem_cons_self _ _)
  have hpr : p ∉ rest := (List.nodup_cons.mp (List.nodup_append.mp hnd).2.1).1
  have hends : ∀ q ∈ rest, ∀ r1, MovedTo st.movedAddresses (h0 q) r1 → r1 ≠ r := by
    intro q hq r1 h1 e
    rw [e] at h1
    have := hinv.apart q (List.mem_cons_of_mem _ hq) p (List.mem_cons_self _ _) r h1 hch
    exact hpr (this ▸ hq)
  refine ⟨{ rows := (st.rows.set r st.rows[done.length]).set done.length st.rows[r]
            features := fun q => if q = p then done.length else st.features q
            movedAddresses :=
              if r ≠ done.length then
                fun a => if a = done.length then some r else st.movedAddresses a
              else st.movedAddresses
            idx := done.length + 1 }, ?_, ?_⟩
  · unfold reorderStep
    simp only [hfollow, hinv.idx, List.getElem?_eq_getElem hrl, List.getElem?_eq_getElem hkl]
  · refine
      { idx := by simp
        len := by simp only [List.length_set]; exact hinv.len
        placed := ?_
        waiting := ?_
        apart := ?_
        keys := ?_ }
    · intro j q hj
      simp only
      rw [swap_getElem? _ _ _ hrl hkl]
      by_cases hjd : j < done.length
      · rw [List.getElem?_append_left hjd] at hj
        have hq : q ∈ done := List.getElem?_mem hj
        have hqp : q ≠ p := fun e => hpd (e ▸ hq)
        obtain ⟨a1, a2⟩ := hinv.placed j q hj
        rw [if_neg hqp, if_neg (by omega), if_neg (by omega)]
        exact ⟨a1, a2⟩
      · have hlen := (List.getElem?_eq_some.mp hj).1
        simp only [List.length_append, List.length_singleton] at hlen
        have hjk : j = done.length := by omega
        subst hjk
        rw [List.getElem?_append_right (le_refl _)] at hj
        simp only [Nat.sub_self, List.getElem?_cons_zero, Option.some.injEq] at hj
        subst hj
        rw [if_pos rfl, if_pos rfl]
        exact ⟨rfl, hrow⟩
    · intro q hq
      have hqp : q ≠ p := fun e => hpr (e ▸ hq)
      obtain ⟨b1, r1, b2, b3, b4, b5⟩ := hinv.waiting q (List.mem_cons_of_mem _ hq)
      have hr1 : r1 ≠ r := hends q hq r1 b2
      refine ⟨by simp only [hqp, if_false]; exact b1,
        if r1 = done.length then r else r1,
        movedTo_after _ _ _ _ _ hmk hmr b2, ?_, ?_, ?_⟩
      · simp only [List.length_append, List.length_singleton]
        split_ifs with h1
        · rw [h1] at hr1
          omega
        · omega
      · split_ifs <;> assumption
      · simp only
        rw [swap_getElem? _ _ _ hrl hkl]
        by_cases h1 : r1 = done.length
        · rw [if_pos h1]
          have hrk : r ≠ done.length := fun e => hr1 (h1.trans e.symm)
          rw [if_neg hrk, if_pos rfl, ← b5, h1]
        · rw [if_neg h1, if_neg h1, if_neg hr1]
          exact b5
    · intro q hq q2 hq2 e c1 c2
      obtain ⟨_, r1, b2, _⟩ := hinv.waiting q (List.mem_cons_of_mem _ hq)
      obtain ⟨_, r2, d2, _⟩ := hinv.waiting q2 (List.mem_cons_of_mem _ hq2)
      have n1 := movedTo_after _ done.length r _ _ hmk hmr b2
      have n2 := movedTo_after _ done.length r _ _ hmk hmr d2
      have e1 := movedTo_unique _ _ _ _ c1 n1
      have e2 := movedTo_unique _ _ _ _ c2 n2
      have hr1 : r1 ≠ r := hends q hq r1 b2
      have hr2 : r2 ≠ r := hends q2 hq2 r2 d2
      have h12 : r1 = r2 := by
        have he : (if r1 = done.length then r else r1) = (if r2 = done.length then r else r2) :=
          e1.symm.trans e2
        by_cases a1 : r1 = done.length
        · by_cases a2 : r2 = done.length
          · rw [a1, a2]
          · rw [if_pos a1, if_neg a2] at he
            exact absurd he.symm hr2
        · by_cases a2 : r2 = done.length
          · rw [if_neg a1, if_pos a2] at he
            exact absurd he hr1
          · rw [if_neg a1, if_neg a2] at he
            exact he
      rw [← h12] at d2
      exact hinv.apart q (List.mem_cons_of_mem _ hq) q2 (List.mem_cons_of_mem _ hq2) r1 b2 d2
    · intro a b hab
      simp only [List.length_append, List.length_singleton]
      simp only at hab
      by_cases hrk : r = done.length
      · rw [if_neg (not_not.mpr hrk)] at hab
        have := hinv.keys a b hab
        omega
      · rw [if_pos hrk] at hab
        by_cases ha : a = done.length
        · simp only [ha, if_true, Option.some.injEq] at hab
          omega
        · simp only [ha, if_false] at hab
          have := hinv.keys a b hab
          omega

theorem reorderSteps_inv (fuel : Nat) (rows0 : List (List ℚ)) (h0 : Nat → Nat)
    (hfuel : rows0.length ≤ fuel) (rest : List Nat) :
    ∀ (done : List Nat) (st : PoolState), (done ++ rest).Nodup →
      PoolInv rows0 h0 done rest st →
      ∃ st1, reorderSteps fuel rest st = some st1 ∧ PoolInv rows0 h0 (done ++ rest) [] st1 := by
  induction rest with
  | nil =>
    intro done st _ hinv
    exact ⟨st, rfl, by rw [List.append_nil]; exact hinv⟩
  | cons p rest ih =>
    intro done st hnd hinv
    obtain ⟨st1, h1, hinv1⟩ := reorderStep_inv fuel rows0 h0 done p rest st hnd hfuel hinv
    have hnd1 : ((done ++ [p]) ++ rest).Nodup := by
      rw [List.append_assoc]
      exact hnd
    obtain ⟨st2, h2, hinv2⟩ := ih (done ++ [p]) st1 hnd1 hinv1
    refine ⟨st2, by simp only [reorderSteps, h1, h2], ?_⟩
    rw [List.append_assoc] at hinv2
    exact hinv2

theorem reorderSteps_append (fuel : Nat) (l1 : List Nat) :
    ∀ (l2 : List Nat) (st : PoolState),
      reorderSteps fuel (l1 ++ l2) st
        = match reorderSteps fuel l1 st with
          | none => none
          | some st1 => reorderSteps fuel l2 st1 := by
  induction l1 with
  | nil => intro l2 st; rfl
  | cons p l1 ih =>
    intro l2 st
    simp only [List.cons_append, reorderSteps]
    cases reorderStep fuel st p with
    | none => rfl
    | some st1 => exact ih l2 st1

/-- A call of `reorderFeatureRows` applies the body of its loop to the PSMs of the holders of
the wanted class, in their order. -/
theorem reorderFeatureRows_eq_steps (fuel : Nat) (fold : List RowHolder) (isTarget : Bool) :
    ∀ st : PoolState,
      reorderFeatureRows fuel fold isTarget st
        = reorderSteps fuel
            ((fold.filter (fun sh => sh.isTarget == isTarget)).map (fun sh => sh.pPSM)) st := by
  induction fold with
  | nil => intro st; rfl
  | cons sh fold ih =>
    intro st
    by_cases h : sh.isTarget = isTarget
    · have hb : (sh.isTarget == isTarget) = true := by rw [h]; exact beq_self_eq_true _
      have e : reorderFeatureRows fuel (sh :: fold) isTarget st
          = match reorderStep fuel st sh.pPSM with
            | none => none
            | some st1 => reorderFeatureRows fuel fold isTarget st1 := by
        simp only [reorderFeatureRows]
        rw [if_pos h]
      have hfil : (sh :: fold).filter (fun sh => sh.isTarget == isTarget)
          = sh :: fold.filter (fun sh => sh.isTarget == isTarget) :=
        List.filter_cons_of_pos hb
      rw [e, hfil, List.map_cons]
      simp only [reorderSteps]
      cases reorderStep fuel st sh.pPSM with
      | none => rfl
      | some st1 => exact ih st1
    · have hb : ¬ (sh.isTarget == isTarget) = true := by
        rw [beq_iff_eq]
        exact h
      have e : reorderFeatureRows fuel (sh :: fold) isTarget st
          = reorderFeatureRows fuel fold isTarget st := by
        simp only [reorderFeatureRows]
        rw [if_neg h]
      have hfil : (sh :: fold).filter (fun sh => sh.isTarget == isTarget)
          = fold.filter (fun sh => sh.isTarget == isTarget) :=
        List.filter_cons_of_neg hb
      rw [e, hfil]
      exact ih st

theorem foldOrder_eq (fold : List RowHolder) :
    foldOrder fold
      = ((fold.filter (fun sh => sh.isTarget == true)).map (fun sh => sh.pPSM))
        ++ ((fold.filter (fun sh => sh.isTarget == false)).map (fun sh => sh.pPSM)) := by
  unfold foldOrder
  congr 2
  · apply List.filter_congr
    intro sh _
    cases sh.isTarget <;> rfl
  · apply List.filter_congr
    intro sh _
    cases sh.isTarget <;> rfl

/-- The closing pass applies the body of the loop to the PSMs in processing order. -/
theorem reorderPass_eq_steps (fuel : Nat) (test : List (List RowHolder)) :
    ∀ st : PoolState,
      reorderPass fuel test st = reorderSteps fuel (processingOrder test) st := by
  induction test with
  | nil => intro st; rfl
  | cons fold test ih =>
    intro st
    simp only [reorderPass, processingOrder]
    rw [foldOrder_eq, List.append_assoc, reorderSteps_append, reorderFeatureRows_eq_steps]
    cases reorderSteps fuel
        ((fold.filter (fun sh => sh.isTarget == true)).map (fun sh => sh.pPSM)) st with
    | none => rfl
    | some st1 =>
      simp only
      rw [reorderSteps_append, reorderFeatureRows_eq_steps]
      cases reorderSteps fuel
          ((fold.filter (fun sh => sh.isTarget == false)).map (fun sh => sh.pPSM)) st1 with
      | none => rfl
      | some st2 => exact ih st2

/-- Before the pass every PSM is waiting with its own handle. -/
theorem poolInv_init (rows0 : List (List ℚ)) (h0 : Nat → Nat) (order : List Nat)
    (hdist : (order.map h0).Nodup) (hrange : ∀ p ∈ order, h0 p < rows0.length) :
    PoolInv rows0 h0 [] order
      { rows := rows0, features := h0, movedAddresses := fun _ => none, idx := 0 } where
  idx := rfl
  len := rfl
  placed := by intro j p hj; simp at hj
  waiting := by
    intro p hp
    exact ⟨rfl, h0 p, MovedTo.stop _ rfl, Nat.zero_le _, hrange p hp, rfl⟩
  apart := by
    intro p hp p2 hp2 r c1 c2
    have e1 := movedTo_unique _ _ _ _ c1 (MovedTo.stop (h0 p) rfl)
    have e2 := movedTo_unique _ _ _ _ c2 (MovedTo.stop (h0 p2) rfl)
    exact List.inj_on_of_nodup_map hdist hp hp2 (e1.symm.trans e2)
  keys := by intro a b hab; simp at hab

theorem map_eq_range_of_getElem? (order : List Nat) (f : Nat → Nat)
    (h : ∀ j p, order[j]? = some p → f p = j) : order.map f = List.range order.length := by
  apply List.ext_getElem?
  intro j
  rw [List.getElem?_map]
  by_cases hj : j < order.length
  · rw [List.getElem?_range hj, List.getElem?_eq_getElem hj]
    simp only [Option.map_some', Option.some.injEq]
    exact h j _ (List.getElem?_eq_getElem hj)
  · rw [List.getElem?_eq_none (not_lt.mp hj), List.getElem?_eq_none (by simpa using hj)]
    rfl

theorem processingOrder_append (pre post : List (List RowHolder)) :
    processingOrder (pre ++ post) = processingOrder pre ++ processingOrder post := by
  induction pre with
  | nil => rfl
  | cons fold pre ih =>
    show foldOrder fold ++ processingOrder (pre ++ post)
      = (foldOrder fold ++ processingOrder pre) ++ processingOrder post
    rw [ih, List.append_assoc]

theorem map_mid_range (A B C : List Nat) (f : Nat → Nat)
    (h : (A ++ (B ++ C)).map f = List.range (A ++ (B ++ C)).length) :
    B.map f = List.range' A.length B.length := by
  apply List.ext_getElem?
  intro j
  by_cases hj : j < B.length
  · have h2 := congrArg (fun l => l[A.length + j]?) h
    simp only at h2
    rw [List.getElem?_map, List.getElem?_append_right (Nat.le_add_right _ _),
      Nat.add_sub_cancel_left, List.getElem?_append_left hj,
      List.getElem?_range (by simp only [List.length_append]; omega)] at h2
    rw [List.getElem?_map, h2, List.getElem?_range' _ _ hj, Nat.one_mul]
  · rw [List.getElem?_eq_none (by simpa using hj), List.getElem?_eq_none (by simpa using hj)]

/-- Claim C27.  With the feature pool as an array of rows and the PSMs of the test folds
pairwise different, holding pairwise different row indices inside the pool: the reorder pass
at the end of `createXvalSetsBySpectrum` returns when the look-up has fuel for the number of
rows; afterwards the handles of the PSMs in processing order (fold by fold, targets before
the other holders) are 0, 1, 2, ..., so they are pairwise different and those of a fold are
consecutive, starting where the fold before ended; and the row addressed by the handle of a
PSM is the row that its handle addressed before the pass. -/
theorem reorderPass_handles (fuel : Nat) (rows0 : List (List ℚ)) (h0 : Nat → Nat)
    (test : List (List RowHolder))
    (hpsm : (processingOrder test).Nodup)
    (hdist : ((processingOrder test).map h0).Nodup)
    (hrange : ∀ p ∈ processingOrder test, h0 p < rows0.length)
    (hfuel : rows0.length ≤ fuel) :
    ∃ st, reorderPass fuel test
          { rows := rows0, features := h0, movedAddresses := fun _ => none, idx := 0 }
        = some st
      ∧ (processingOrder test).map st.features = List.range (processingOrder test).length
      ∧ ((processingOrder test).map st.features).Nodup
      ∧ (∀ pre fold post, test = pre ++ fold :: post →
          (foldOrder fold).map st.features
            = List.range' (processingOrder pre).length (foldOrder fold).length)
      ∧ (∀ p ∈ processingOrder test,
          ∃ row, rows0[h0 p]? = some row ∧ st.rows[st.features p]? = some row) := by
  obtain ⟨st, hsteps, hinv⟩ := reorderSteps_inv fuel rows0 h0 hfuel (processingOrder test) []
    { rows := rows0, features := h0, movedAddresses := fun _ => none, idx := 0 }
    (by rw [List.nil_append]; exact hpsm)
    (poolInv_init rows0 h0 (processingOrder test) hdist hrange)
  rw [List.nil_append] at hinv
  have hmap : (processingOrder test).map st.features
      = List.range (processingOrder test).length :=
    map_eq_range_of_getElem? _ _ (fun j p hj => (hinv.placed j p hj).1)
  refine ⟨st, by rw [reorderPass_eq_steps]; exact hsteps, hmap, ?_, ?_, ?_⟩
  · rw [hmap]
    exact List.nodup_range _
  · intro pre fold post htest
    have hord : processingOrder test
        = processingOrder pre ++ (foldOrder fold ++ processingOrder post) := by
      rw [htest, processingOrder_append]
      rfl
    rw [hord] at hmap
    exact map_mid_range _ _ _ _ hmap
  · intro p hp
    obtain ⟨j, hj⟩ := List.getElem?_of_mem hp
    obtain ⟨a1, a2⟩ := hinv.placed j p hj
    have hlt := hrange p hp
    refine ⟨rows0[h0 p], List.getElem?_eq_getElem hlt, ?_⟩
    rw [a1, a2, List.getElem?_eq_getElem hlt]

theorem reorderPass_handles_witness :
    (processingOrder poolExample).Nodup
    ∧ ((processingOrder poolExample).map poolHandles).Nodup
    ∧ ∃ st, reorderPass 3 poolExample
          { rows := [[10], [11], [12]], features := poolHandles,
            movedAddresses := fun _ => none, idx := 0 }
        = some st
      ∧ (processingOrder poolExample).map st.features
          = List.range (processingOrder poolExample).length := by
  have h1 : (processingOrder poolExample).Nodup := by decide
  have h2 : ((processingOrder poolExample).map poolHandles).Nodup := by decide
  obtain ⟨st, e1, e2, _⟩ := reorderPass_handles 3 [[10], [11], [12]] poolHandles poolExample
    h1 h2 (by decide) (le_refl _)
  exact ⟨h1, h2, st, e1, e2⟩

/-! ### Double arithmetic: rounding, and the functions that depend on it -/

theorem roundHalfEven_floor_le (x : ℚ) : ⌊x⌋ ≤ roundHalfEven x := by
  unfold roundHalfEven
  split_ifs <;> omega

theorem roundHalfEven_le_floor_succ (x : ℚ) : roundHalfEven x ≤ ⌊x⌋ + 1 := by
  unfold roundHalfEven
  split_ifs <;> omega

theorem roundHalfEven_intCast (z : ℤ) : roundHalfEven (z : ℚ) = z := by
  unfold roundHalfEven
  simp

theorem roundHalfEven_mono {x y : ℚ} (h : x ≤ y) : roundHalfEven x ≤ roundHalfEven y := by
  have hf : ⌊x⌋ ≤ ⌊y⌋ := Int.floor_mono h
  rcases lt_or_eq_of_le hf with hlt | heq
  · calc roundHalfEven x ≤ ⌊x⌋ + 1 := roundHalfEven_le_floor_succ x
      _ ≤ ⌊y⌋ := hlt
      _ ≤ roundHalfEven y := roundHalfEven_floor_le y
  · unfold roundHalfEven
    rw [heq]
    have hxy : x - (⌊y⌋ : ℚ) ≤ y - (⌊y⌋ : ℚ) := by linarith
    split_ifs <;> first | omega | (exfalso; linarith)

theorem roundHalfEven_near (x : ℚ) : |x - roundHalfEven x| ≤ 1 / 2 := by
  have h1 := Int.floor_le x
  have h2 := Int.lt_floor_add_one x
  unfold roundHalfEven
  rw [abs_le]
  split_ifs <;> push_cast <;> constructor <;> linarith

theorem roundHalfEven_eq_of_near (x : ℚ) (m : ℤ) (h : |x - m| < 1 / 2) : roundHalfEven x = m := by
  rw [abs_lt] at h
  have h1 := Int.floor_le x
  have h2 := Int.lt_floor_add_one x
  have hfl : ⌊x⌋ = m ∨ ⌊x⌋ = m - 1 := by
    have a : (m : ℚ) - 1 < (⌊x⌋ : ℚ) + 1 := by linarith
    have b : (⌊x⌋ : ℚ) < (m : ℚ) + 1 := by linarith
    have a1 : m - 1 < ⌊x⌋ + 1 := by exact_mod_cast a
    have b1 : ⌊x⌋ < m + 1 := by exact_mod_cast b
    omega
  unfold roundHalfEven
  rcases hfl with hf | hf
  · rw [hf]
    have : x - (m : ℚ) < 1 / 2 := by linarith
    rw [if_pos this]
  · rw [hf]
    have h3 : ¬ (x - ((m - 1 : ℤ) : ℚ) < 1 / 2) := by push_cast; linarith
    have h4 : 1 / 2 < x - ((m - 1 : ℤ) : ℚ) := by push_cast; linarith
    rw [if_neg h3, if_pos h4]
    omega

theorem roundHalfEven_neg (x : ℚ) : roundHalfEven (-x) = -roundHalfEven x := by
  by_cases hx : (⌊x⌋ : ℚ) = x
  · rw [← hx, ← Int.cast_neg, roundHalfEven_intCast, roundHalfEven_intCast]
  · have h1 := Int.floor_le x
    have h2 := Int.lt_floor_add_one x
    have h3 : (⌊x⌋ : ℚ) < x := lt_of_le_of_ne h1 hx
    have hfl : ⌊-x⌋ = -⌊x⌋ - 1 := by
      rw [Int.floor_eq_iff]
      push_cast
      constructor <;> linarith
    unfold roundHalfEven
    rw [hfl]
    push_cast
    split_ifs <;> first | omega | (exfalso; linarith)

theorem quantumExp_neg (x : ℚ) : quantumExp (-x) = quantumExp x := by
  unfold quantumExp
  rw [abs_neg]

theorem roundNearest_neg (x : ℚ) : roundNearest (-x) = -roundNearest x := by
  unfold roundNearest
  rw [quantumExp_neg, neg_div, roundHalfEven_neg]
  push_cast
  ring

theorem roundNearest_zero : roundNearest 0 = 0 := by
  unfold roundNearest
  rw [zero_div]
  have h := roundHalfEven_intCast 0
  rw [Int.cast_zero] at h
  rw [h]
  simp

theorem two_zpow_pos (e : ℤ) : (0 : ℚ) < 2 ^ e := zpow_pos (by norm_num) e

theorem roundNearest_nonneg {x : ℚ} (h : 0 ≤ x) : 0 ≤ roundNearest x := by
  unfold roundNearest
  have hq := two_zpow_pos (quantumExp x)
  have h0 : (0 : ℚ) ≤ x / 2 ^ quantumExp x := div_nonneg h hq.le
  have h1 := roundHalfEven_mono h0
  have h2 := roundHalfEven_intCast 0
  rw [Int.cast_zero] at h2
  rw [h2] at h1
  have h3 : (0 : ℚ) ≤ (roundHalfEven (x / 2 ^ quantumExp x) : ℚ) := by exact_mod_cast h1
  exact mul_nonneg h3 hq.le

/-- A positive `x` lies below `2 ^ (quantumExp x + 53)`. -/
theorem lt_quantum_top {x : ℚ} (hx : 0 < x) : x < 2 ^ (quantumExp x + 53) := by
  have h1 := Int.lt_zpow_succ_log_self (b := 2) (by norm_num) x
  have h2 : Int.log 2 x + 1 ≤ quantumExp x + 53 := by
    unfold quantumExp
    rw [abs_of_pos hx]
    have := le_max_left (Int.log 2 x) (-1022)
    omega
  have h3 : ((2 : ℕ) : ℚ) ^ (Int.log 2 x + 1) ≤ (2 : ℚ) ^ (quantumExp x + 53) := by
    push_cast
    exact zpow_le_zpow_right₀ (by norm_num) h2
  exact lt_of_lt_of_le h1 h3

theorem roundNearest_le_top {x : ℚ} (hx : 0 < x) : roundNearest x ≤ 2 ^ (quantumExp x + 53) := by
  have hq := two_zpow_pos (quantumExp x)
  have h1 : x / 2 ^ quantumExp x ≤ (((2 : ℤ) ^ 53 : ℤ) : ℚ) := by
    rw [div_le_iff₀ hq]
    have := lt_quantum_top hx
    rw [zpow_add₀ (by norm_num : (2 : ℚ) ≠ 0)] at this
    push_cast
    have e : (2 : ℚ) ^ (53 : ℤ) = 2 ^ 53 := by norm_cast
    rw [e] at this
    linarith
  have h2 := roundHalfEven_mono h1
  rw [roundHalfEven_intCast] at h2
  have h3 : (roundHalfEven (x / 2 ^ quantumExp x) : ℚ) ≤ (((2 : ℤ) ^ 53 : ℤ) : ℚ) := by
    exact_mod_cast h2
  unfold roundNearest
  rw [zpow_add₀ (by norm_num : (2 : ℚ) ≠ 0)]
  have e : (2 : ℚ) ^ (53 : ℤ) = 2 ^ 53 := by norm_cast
  rw [e]
  push_cast at h3
  calc (roundHalfEven (x / 2 ^ quantumExp x) : ℚ) * 2 ^ quantumExp x
      ≤ 2 ^ 53 * 2 ^ quantumExp x := mul_le_mul_of_nonneg_right h3 hq.le
    _ = 2 ^ quantumExp x * 2 ^ 53 := by ring

theorem bottom_le_roundNearest {y : ℚ} (hy : 0 < y) (hn : -1022 ≤ Int.log 2 y) :
    (2 : ℚ) ^ Int.log 2 y ≤ roundNearest y := by
  have hQ : quantumExp y = Int.log 2 y - 52 := by
    unfold quantumExp
    rw [abs_of_pos hy, max_eq_left hn]
  have hq := two_zpow_pos (quantumExp y)
  have h0 := Int.zpow_log_le_self (b := 2) (by norm_num) hy
  push_cast at h0
  have hsplit : (2 : ℚ) ^ Int.log 2 y = 2 ^ 52 * 2 ^ quantumExp y := by
    rw [hQ]
    have e : (2 : ℚ) ^ (52 : ℕ) = 2 ^ (52 : ℤ) := by norm_cast
    rw [e, ← zpow_add₀ (by norm_num : (2 : ℚ) ≠ 0)]
    congr 1
    ring
  have h1 : (((2 : ℤ) ^ 52 : ℤ) : ℚ) ≤ y / 2 ^ quantumExp y := by
    rw [le_div_iff₀ hq]
    have e : (((2 : ℤ) ^ 52 : ℤ) : ℚ) = 2 ^ 52 := by norm_cast
    rw [e, ← hsplit]
    exact h0
  have h2 := roundHalfEven_mono h1
  rw [roundHalfEven_intCast] at h2
  have h3 : (((2 : ℤ) ^ 52 : ℤ) : ℚ) ≤ (roundHalfEven (y / 2 ^ quantumExp y) : ℚ) := by
    exact_mod_cast h2
  have e : (((2 : ℤ) ^ 52 : ℤ) : ℚ) = 2 ^ 52 := by norm_cast
  rw [e] at h3
  unfold roundNearest
  rw [hsplit]
  exact mul_le_mul_of_nonneg_right h3 hq.le

theorem roundNearest_mono_pos {x y : ℚ} (hx : 0 < x) (h : x ≤ y) :
    roundNearest x ≤ roundNearest y := by
  have hy : 0 < y := lt_of_lt_of_le hx h
  have hlog : Int.log 2 x ≤ Int.log 2 y := Int.log_mono_right hx h
  have hQx : quantumExp x = max (Int.log 2 x) (-1022) - 52 := by
    unfold quantumExp; rw [abs_of_pos hx]
  have hQy : quantumExp y = max (Int.log 2 y) (-1022) - 52 := by
    unfold quantumExp; rw [abs_of_pos hy]
  have hQ : quantumExp x ≤ quantumExp y := by
    rw [hQx, hQy]
    have := max_le_max hlog (le_refl (-1022 : ℤ))
    omega
  rcases lt_or_eq_of_le hQ with hlt | heq
  · have hn : -1022 ≤ Int.log 2 y := by
      by_contra hc
      push_neg at hc
      rw [hQx, hQy, max_eq_right hc.le, max_eq_right (le_trans hlog hc.le)] at hlt
      omega
    have hQy2 : quantumExp y = Int.log 2 y - 52 := by rw [hQy, max_eq_left hn]
    have h1 := roundNearest_le_top hx
    have h2 := bottom_le_roundNearest hy hn
    have h3 : (2 : ℚ) ^ (quantumExp x + 53) ≤ 2 ^ Int.log 2 y :=
      zpow_le_zpow_right₀ (by norm_num) (by omega)
    linarith
  · unfold roundNearest
    rw [heq]
    have hq := two_zpow_pos (quantumExp y)
    have h1 : x / 2 ^ quantumExp y ≤ y / 2 ^ quantumExp y := div_le_div_of_nonneg_right h hq.le
    have h2 := roundHalfEven_mono h1
    have h3 : (roundHalfEven (x / 2 ^ quantumExp y) : ℚ) ≤ (roundHalfEven (y / 2 ^ quantumExp y) : ℚ) := by
      exact_mod_cast h2
    exact mul_le_mul_of_nonneg_right h3 hq.le

/-- Rounding is monotone. -/
theorem roundNearest_mono {x y : ℚ} (h : x ≤ y) : roundNearest x ≤ roundNearest y := by
  rcases lt_trichotomy 0 x with hx | hx | hx
  · exact roundNearest_mono_pos hx h
  · rw [← hx, roundNearest_zero]
    exact roundNearest_nonneg (hx ▸ h)
  · rcases le_or_lt 0 y with hy | hy
    · have h1 : 0 ≤ roundNearest (-x) := roundNearest_nonneg (by linarith)
      rw [roundNearest_neg] at h1
      have h2 := roundNearest_nonneg hy
      linarith
    · have h1 : roundNearest (-y) ≤ roundNearest (-x) :=
        roundNearest_mono_pos (by linarith) (by linarith)
      rw [roundNearest_neg, roundNearest_neg] at h1
      linarith

/-- Rounding to `double` is monotone wherever it is finite. -/
theorem roundDouble_mono {x y x1 y1 : ℚ} (h : x ≤ y) (hx : roundDouble x = some x1)
    (hy : roundDouble y = some y1) : x1 ≤ y1 := by
  unfold roundDouble at hx hy
  split at hx
  · split at hy
    · simp only [Option.some.injEq] at hx hy
      rw [← hx, ← hy]
      exact roundNearest_mono h
    · exact absurd hy (by simp)
  · exact absurd hx (by simp)

theorem roundDouble_zero : roundDouble 0 = some 0 := by
  unfold roundDouble
  rw [roundNearest_zero, abs_zero, if_pos (two_zpow_pos 1024)]

theorem log_abs_eq {x : ℚ} {e : ℤ} (hlo : (2 : ℚ) ^ e ≤ |x|) (hhi : |x| < 2 ^ (e + 1)) :
    Int.log 2 |x| = e := by
  have hpos : 0 < |x| := lt_of_lt_of_le (two_zpow_pos e) hlo
  have h1 : e ≤ Int.log 2 |x| := by
    rw [← Int.zpow_le_iff_le_log (by norm_num) hpos]
    push_cast
    exact hlo
  have h2 : Int.log 2 |x| < e + 1 := by
    rw [← Int.lt_zpow_iff_log_lt (by norm_num) hpos]
    push_cast
    exact hhi
  omega

/-- Evaluation of `roundDouble` away from ties: `e` is the binary exponent of `x`, `q` the
exponent of the spacing there and `m` the integer nearest to `x / 2 ^ q`. -/
theorem roundDouble_eq_of (x : ℚ) (e q m : ℤ) (hlo : (2 : ℚ) ^ e ≤ |x|)
    (hhi : |x| < 2 ^ (e + 1)) (hq : max e (-1022) - 52 = q)
    (hm : |x / 2 ^ q - m| < 1 / 2) (hfin : |(m : ℚ) * 2 ^ q| < 2 ^ (1024 : ℤ)) :
    roundDouble x = some ((m : ℚ) * 2 ^ q) := by
  have hQ : quantumExp x = q := by
    unfold quantumExp
    rw [log_abs_eq hlo hhi, hq]
  have hR : roundNearest x = (m : ℚ) * 2 ^ q := by
    unfold roundNearest
    rw [hQ, roundHalfEven_eq_of_near _ m hm]
  unfold roundDouble
  rw [hR, if_pos hfin]

/-- An integer of magnitude below `2 ^ 53` times a power of two with exponent at least `-1074`
is left as it is by the rounding with unbounded exponent. -/
theorem roundNearest_int_mul_zpow (m q : ℤ) (hm : |m| < 2 ^ 53) (hq1 : -1074 ≤ q) :
    roundNearest ((m : ℚ) * 2 ^ q) = (m : ℚ) * 2 ^ q := by
  by_cases hm0 : m = 0
  · rw [hm0, Int.cast_zero, zero_mul]
    exact roundNearest_zero
  · have hq := two_zpow_pos q
    have habs : |(m : ℚ) * 2 ^ q| = (|m| : ℤ) * 2 ^ q := by
      rw [abs_mul, abs_of_pos hq, Int.cast_abs]
    have hmq : ((|m| : ℤ) : ℚ) < 2 ^ (53 : ℤ) := by
      have : ((|m| : ℤ) : ℚ) < (((2 : ℤ) ^ 53 : ℤ) : ℚ) := by exact_mod_cast hm
      have e : (((2 : ℤ) ^ 53 : ℤ) : ℚ) = 2 ^ (53 : ℤ) := by norm_cast
      rw [e] at this
      exact this
    have hpos : 0 < |(m : ℚ) * 2 ^ q| := by
      rw [abs_pos]
      exact mul_ne_zero (by exact_mod_cast hm0) hq.ne'
    have hlt : |(m : ℚ) * 2 ^ q| < 2 ^ (53 + q) := by
      rw [habs, zpow_add₀ (by norm_num : (2 : ℚ) ≠ 0)]
      exact mul_lt_mul_of_pos_right hmq hq
    have hlog : Int.log 2 |(m : ℚ) * 2 ^ q| < 53 + q := by
      rw [← Int.lt_zpow_iff_log_lt (by norm_num) hpos]
      push_cast
      exact hlt
    have hQ : quantumExp ((m : ℚ) * 2 ^ q) ≤ q := by
      unfold quantumExp
      have := max_le (show Int.log 2 |(m : ℚ) * 2 ^ q| ≤ q + 52 by omega)
        (show (-1022 : ℤ) ≤ q + 52 by omega)
      omega
    obtain ⟨k, hk⟩ := Int.eq_ofNat_of_zero_le (show 0 ≤ q - quantumExp ((m : ℚ) * 2 ^ q) by omega)
    have hmul : ∀ Q : ℤ, q - Q = (k : ℤ) → ((m * 2 ^ k : ℤ) : ℚ) * 2 ^ Q = (m : ℚ) * 2 ^ q := by
      intro Q hQk
      have e : q = Q + (k : ℤ) := by omega
      rw [e, zpow_add₀ (by norm_num : (2 : ℚ) ≠ 0), zpow_natCast]
      push_cast
      ring
    have hmul1 := hmul _ hk
    have hdiv : (m : ℚ) * 2 ^ q / 2 ^ quantumExp ((m : ℚ) * 2 ^ q) = ((m * 2 ^ k : ℤ) : ℚ) := by
      rw [div_eq_iff (two_zpow_pos _).ne']
      exact hmul1.symm
    unfold roundNearest
    rw [hdiv, roundHalfEven_intCast]
    exact hmul1

/-- An integer of magnitude below `2 ^ 53` times a power of two with exponent between `-1074`
and `971` is a finite double. -/
theorem isDouble_of (m q : ℤ) (hm : |m| < 2 ^ 53) (hq1 : -1074 ≤ q) (hq2 : q ≤ 971) :
    isDouble ((m : ℚ) * 2 ^ q) := by
  have hq := two_zpow_pos q
  have hmq : ((|m| : ℤ) : ℚ) < 2 ^ (53 : ℤ) := by
    have : ((|m| : ℤ) : ℚ) < (((2 : ℤ) ^ 53 : ℤ) : ℚ) := by exact_mod_cast hm
    have e : (((2 : ℤ) ^ 53 : ℤ) : ℚ) = 2 ^ (53 : ℤ) := by norm_cast
    rw [e] at this
    exact this
  have hlt : |(m : ℚ) * 2 ^ q| < 2 ^ (1024 : ℤ) := by
    rw [abs_mul, abs_of_pos hq, ← Int.cast_abs]
    calc ((|m| : ℤ) : ℚ) * 2 ^ q < 2 ^ (53 : ℤ) * 2 ^ q := mul_lt_mul_of_pos_right hmq hq
      _ = 2 ^ (53 + q) := (zpow_add₀ (by norm_num : (2 : ℚ) ≠ 0) 53 q).symm
      _ ≤ 2 ^ (1024 : ℤ) := zpow_le_zpow_right₀ (by norm_num) (by omega)
  unfold isDouble roundDouble
  rw [roundNearest_int_mul_zpow m q hm hq1, if_pos hlt]

theorem isDouble_intCast (m : ℤ) (hm : |m| < 2 ^ 53) : isDouble (m : ℚ) := by
  have h := isDouble_of m 0 hm (by decide) (by decide)
  rw [zpow_zero, mul_one] at h
  exact h

theorem isDouble_half (m : ℤ) (hm : |m| < 2 ^ 53) : isDouble ((m : ℚ) / 2) := by
  have h := isDouble_of m (-1) hm (by decide) (by decide)
  have e : (m : ℚ) * 2 ^ (-1 : ℤ) = (m : ℚ) / 2 := by
    rw [zpow_neg, zpow_one, div_eq_mul_inv]
  rw [e] at h
  exact h

theorem roundDouble_collapse1 : roundDouble (1 / 2 ^ 60 - 1) = some (-1) := by
  have h := roundDouble_eq_of (1 / 2 ^ 60 - 1) (-1) (-53) (-(2 ^ 53)) (by norm_num [le_abs])
    (by norm_num [abs_lt]) (by decide) (by norm_num [abs_lt]) (by norm_num [abs_lt])
  rw [h]
  norm_num

theorem roundDouble_collapse2 : roundDouble (1 / 2 ^ 61 - 1) = some (-1) := by
  have h := roundDouble_eq_of (1 / 2 ^ 61 - 1) (-1) (-53) (-(2 ^ 53)) (by norm_num [le_abs])
    (by norm_num [abs_lt]) (by decide) (by norm_num [abs_lt]) (by norm_num [abs_lt])
  rw [h]
  norm_num

theorem rescaleDouble_eq_pos (f d : ℚ) (sh : ScoreHolder) (s0 s1 s2 : ℚ) (hs : sh.score = s0)
    (hd : 0 < d) (h1 : dsub s0 f = some s1) (h2 : ddiv s1 d = some s2) :
    rescaleDouble f d sh = some { sh with score := s2 } := by
  unfold rescaleDouble
  rw [hs, h1]
  simp only [Option.bind_eq_bind, Option.some_bind, gt_iff_lt, if_pos hd, h2, Option.pure_def]

theorem rescaleLoopDouble_cons_eq (f d : ℚ) (sh sh1 : ScoreHolder) (rest rest1 : List ScoreHolder)
    (h1 : rescaleDouble f d sh = some sh1) (h2 : rescaleLoopDouble f d rest = some rest1) :
    rescaleLoopDouble f d (sh :: rest) = some (sh1 :: rest1) := by
  rw [rescaleLoopDouble, h1, h2]
  rfl

theorem normalizeScoresDouble_eq (s : Scores) (fdr : ℚ) (first : ScoreHolder)
    (rest l : List ScoreHolder) (f0 m0 f md diff : ℚ) (hs : s.scores_ = first :: rest)
    (hf : first.score = f0) (h1 : dadd f0 1 = some m0)
    (h2 : normalizeScoresScan fdr (max 0 (s.totalNumberOfDecoys_ / 2)) (first :: rest) 0 f0 m0
      = (f, md))
    (h3 : dsub f md = some diff) (h4 : rescaleLoopDouble f diff (first :: rest) = some l) :
    s.normalizeScoresDouble fdr = some { s with scores_ := l } := by
  unfold Scores.normalizeScoresDouble
  rw [hs]
  simp only [hf, h1, Option.bind_eq_bind, Option.some_bind, h2, h3, h4, Option.pure_def]

theorem collapseExample_normalizeScoresDouble :
    collapseExample.normalizeScoresDouble (1 / 2) = some collapseResult := by
  have e1 : dadd 1 1 = some 2 := by
    have h := isDouble_intCast 2 (by decide)
    unfold dadd
    norm_num [isDouble] at h ⊢
    exact h
  have e2 : dsub 1 (-1) = some 2 := by
    have h := isDouble_intCast 2 (by decide)
    unfold dsub
    norm_num [isDouble] at h ⊢
    exact h
  have e3 : dsub 1 1 = some 0 := by
    unfold dsub
    rw [sub_self]
    exact roundDouble_zero
  have e4 : ddiv 0 2 = some 0 := by
    unfold ddiv
    rw [if_neg (by norm_num), zero_div]
    exact roundDouble_zero
  have e5 : dsub (1 / 2 ^ 60) 1 = some (-1) := roundDouble_collapse1
  have e6 : dsub (1 / 2 ^ 61) 1 = some (-1) := roundDouble_collapse2
  have e7 : ddiv (-1) 2 = some (-1 / 2) := by
    have h := isDouble_half (-1) (by decide)
    unfold ddiv
    rw [if_neg (by norm_num)]
    norm_num [isDouble] at h ⊢
    exact h
  have e8 : dsub (-1) 1 = some (-2) := by
    have h := isDouble_intCast (-2) (by decide)
    unfold dsub
    norm_num [isDouble] at h ⊢
    exact h
  have e9 : ddiv (-2) 2 = some (-1) := by
    have h := isDouble_intCast (-1) (by decide)
    unfold ddiv
    rw [if_neg (by norm_num)]
    norm_num [isDouble] at h ⊢
    exact h
  have e10 : dsub (-2) 1 = some (-3) := by
    have h := isDouble_intCast (-3) (by decide)
    unfold dsub
    norm_num [isDouble] at h ⊢
    exact h
  have e11 : ddiv (-3) 2 = some (-3 / 2) := by
    have h := isDouble_half (-3) (by decide)
    unfold ddiv
    rw [if_neg (by norm_num)]
    norm_num [isDouble] at h ⊢
    exact h
  have hscan : normalizeScoresScan (1 / 2) (max 0 (2 / 2))
      [exampleHolder 1 0 1 (examplePSM 1 100 2 "A" [1]),
       exampleHolder (1 / 2 ^ 60) 1 1 (examplePSM 2 100 2 "B" [1]),
       exampleHolder (1 / 2 ^ 61) 1 1 (examplePSM 3 100 2 "C" [1]),
       exampleHolder (-1) 1 (-1) (examplePSM 4 100 2 "D" [1]),
       exampleHolder (-2) 1 (-1) (examplePSM 5 100 2 "E" [1])] 0 1 2 = (1, -1) := by
    simp [normalizeScoresScan, exampleHolder, ScoreHolder.isDecoy]
    norm_num
  have hloop : rescaleLoopDouble 1 2
      [exampleHolder 1 0 1 (examplePSM 1 100 2 "A" [1]),
       exampleHolder (1 / 2 ^ 60) 1 1 (examplePSM 2 100 2 "B" [1]),
       exampleHolder (1 / 2 ^ 61) 1 1 (examplePSM 3 100 2 "C" [1]),
       exampleHolder (-1) 1 (-1) (examplePSM 4 100 2 "D" [1]),
       exampleHolder (-2) 1 (-1) (examplePSM 5 100 2 "E" [1])]
      = some [exampleHolder 0 0 1 (examplePSM 1 100 2 "A" [1]),
       exampleHolder (-1 / 2) 1 1 (examplePSM 2 100 2 "B" [1]),
       exampleHolder (-1 / 2) 1 1 (examplePSM 3 100 2 "C" [1]),
       exampleHolder (-1) 1 (-1) (examplePSM 4 100 2 "D" [1]),
       exampleHolder (-3 / 2) 1 (-1) (examplePSM 5 100 2 "E" [1])] :=
    rescaleLoopDouble_cons_eq 1 2 _ _ _ _ (rescaleDouble_eq_pos 1 2 _ 1 0 0 rfl two_pos e3 e4)
      (rescaleLoopDouble_cons_eq 1 2 _ _ _ _
        (rescaleDouble_eq_pos 1 2 _ (1 / 2 ^ 60) (-1) (-1 / 2) rfl two_pos e5 e7)
        (rescaleLoopDouble_cons_eq 1 2 _ _ _ _
          (rescaleDouble_eq_pos 1 2 _ (1 / 2 ^ 61) (-1) (-1 / 2) rfl two_pos e6 e7)
          (rescaleLoopDouble_cons_eq 1 2 _ _ _ _
            (rescaleDouble_eq_pos 1 2 _ (-1) (-2) (-1) rfl two_pos e8 e9)
            (rescaleLoopDouble_cons_eq 1 2 _ _ _ _
              (rescaleDouble_eq_pos 1 2 _ (-2) (-3) (-3 / 2) rfl two_pos e10 e11) rfl))))
  exact normalizeScoresDouble_eq collapseExample (1 / 2) _ _ _ 1 2 1 (-1) 2 rfl rfl e1 hscan e2
    hloop

theorem rescaleDouble_spec (f d : ℚ) (sh sh1 : ScoreHolder)
    (h : rescaleDouble f d sh = some sh1) :
    ∃ score1, dsub sh.score f = some score1
      ∧ (if d > 0 then ddiv score1 d else some score1) = some sh1.score
      ∧ sh1 = { sh with score := sh1.score } := by
  unfold rescaleDouble at h
  cases h1 : dsub sh.score f with
  | none => rw [h1] at h; simp at h
  | some score1 =>
    rw [h1] at h
    simp only [Option.bind_eq_bind, Option.some_bind] at h
    refine ⟨score1, rfl, ?_⟩
    by_cases hd : d > 0
    · rw [if_pos hd] at h ⊢
      cases h2 : ddiv score1 d with
      | none => rw [h2] at h; simp at h
      | some score2 =>
        rw [h2] at h
        simp only [Option.some_bind, Option.pure_def, Option.some.injEq] at h
        subst h
        exact ⟨rfl, rfl⟩
    · rw [if_neg hd] at h ⊢
      simp only [Option.pure_def, Option.some.injEq] at h
      subst h
      exact ⟨rfl, rfl⟩

theorem ddiv_mono {a b d a1 b1 : ℚ} (hd : 0 < d) (h : a ≤ b) (ha : ddiv a d = some a1)
    (hb : ddiv b d = some b1) : a1 ≤ b1 := by
  unfold ddiv at ha hb
  rw [if_neg hd.ne'] at ha hb
  exact roundDouble_mono (div_le_div_of_nonneg_right h hd.le) ha hb

/-- The rounded rescaling of a holder keeps the order of scores, weakly. -/
theorem rescaleDouble_mono (f d : ℚ) (a b a1 b1 : ScoreHolder) (h : a.score ≤ b.score)
    (ha : rescaleDouble f d a = some a1) (hb : rescaleDouble f d b = some b1) :
    a1.score ≤ b1.score := by
  obtain ⟨sa, hsa, ha2, -⟩ := rescaleDouble_spec f d a a1 ha
  obtain ⟨sb, hsb, hb2, -⟩ := rescaleDouble_spec f d b b1 hb
  have h1 : sa ≤ sb := roundDouble_mono (show a.score - f ≤ b.score - f by linarith) hsa hsb
  by_cases hd : d > 0
  · rw [if_pos hd] at ha2 hb2
    exact ddiv_mono hd h1 ha2 hb2
  · rw [if_neg hd] at ha2 hb2
    simp only [Option.some.injEq] at ha2 hb2
    rw [← ha2, ← hb2]
    exact h1

theorem rescaleLoopDouble_spec (f d : ℚ) :
    ∀ (l l1 : List ScoreHolder), rescaleLoopDouble f d l = some l1 →
      l1 = l.map (fun sh => (rescaleDouble f d sh).getD sh)
      ∧ ∀ sh ∈ l, rescaleDouble f d sh = some ((rescaleDouble f d sh).getD sh) := by
  intro l
  induction l with
  | nil =>
    intro l1 h
    simp only [rescaleLoopDouble, Option.pure_def, Option.some.injEq] at h
    subst h
    simp
  | cons sh rest ih =>
    intro l1 h
    simp only [rescaleLoopDouble, Option.bind_eq_bind, Option.pure_def] at h
    cases h1 : rescaleDouble f d sh with
    | none => rw [h1] at h; simp at h
    | some sh1 =>
      rw [h1] at h
      simp only [Option.some_bind] at h
      cases h2 : rescaleLoopDouble f d rest with
      | none => rw [h2] at h; simp at h
      | some rest1 =>
        rw [h2] at h
        simp only [Option.some_bind, Option.some.injEq] at h
        obtain ⟨e1, e2⟩ := ih rest1 h2
        constructor
        · rw [← h, List.map_cons, h1, Option.getD_some, ← e1]
        · intro x hx
          rcases List.mem_cons.1 hx with rfl | hx
          · rw [h1, Option.getD_some]
          · exact e2 x hx

theorem normalizeScoresDouble_spec (s r : Scores) (fdr : ℚ)
    (h : s.normalizeScoresDouble fdr = some r) :
    ∃ f d, rescaleLoopDouble f d s.scores_ = some r.scores_ ∧ s.scores_ ≠ [] := by
  unfold Scores.normalizeScoresDouble at h
  split at h
  · exact absurd h (by simp)
  · rename_i first rest hs
    simp only [Option.bind_eq_bind, Option.pure_def] at h
    cases h1 : dadd first.score 1 with
    | none => rw [h1] at h; simp at h
    | some m0 =>
      rw [h1] at h
      simp only [Option.some_bind] at h
      cases h2 : dsub (normalizeScoresScan fdr (max 0 (s.totalNumberOfDecoys_ / 2)) s.scores_ 0
          first.score m0).1 (normalizeScoresScan fdr (max 0 (s.totalNumberOfDecoys_ / 2))
          s.scores_ 0 first.score m0).2 with
      | none => rw [h2] at h; simp at h
      | some diff =>
        rw [h2] at h
        simp only [Option.some_bind] at h
        cases h3 : rescaleLoopDouble (normalizeScoresScan fdr
            (max 0 (s.totalNumberOfDecoys_ / 2)) s.scores_ 0 first.score m0).1 diff
            s.scores_ with
        | none => rw [h3] at h; simp at h
        | some l1 =>
          rw [h3] at h
          simp only [Option.some_bind, Option.some.injEq] at h
          refine ⟨(normalizeScoresScan fdr (max 0 (s.totalNumberOfDecoys_ / 2)) s.scores_ 0
            first.score m0).1, diff, ?_, ?_⟩
          · rw [h3, ← h]
          · rw [hs]; simp

theorem roundNearest_two_zpow (k : ℤ) (hk : -1074 ≤ k) : roundNearest (2 ^ k) = 2 ^ k := by
  have h := roundNearest_int_mul_zpow 1 k (by decide) hk
  rw [Int.cast_one, one_mul] at h
  exact h

/-- Rounding does not take a value out of an interval `[-2 ^ k, 2 ^ k]`. -/
theorem abs_roundNearest_le (x : ℚ) (k : ℤ) (hk : -1074 ≤ k) (hx : |x| ≤ 2 ^ k) :
    |roundNearest x| ≤ 2 ^ k := by
  rw [abs_le] at hx ⊢
  have h1 := roundNearest_mono hx.1
  have h2 := roundNearest_mono hx.2
  rw [roundNearest_neg, roundNearest_two_zpow k hk] at h1
  rw [roundNearest_two_zpow k hk] at h2
  exact ⟨h1, h2⟩

/-- An exact result of magnitude at most `2 ^ k`, with `k` below 1024, rounds to a finite
double of magnitude at most `2 ^ k`. -/
theorem roundDouble_of_abs_le (x : ℚ) (k : ℤ) (hk1 : -1074 ≤ k) (hk2 : k < 1024)
    (hx : |x| ≤ 2 ^ k) : ∃ y, roundDouble x = some y ∧ y = roundNearest x ∧ |y| ≤ 2 ^ k := by
  have h := abs_roundNearest_le x k hk1 hx
  refine ⟨roundNearest x, ?_, rfl, h⟩
  unfold roundDouble
  rw [if_pos]
  exact lt_of_le_of_lt h (zpow_lt_zpow_right₀ (by norm_num) hk2)

/-- A multiple of `2 ^ -500` rounds to a multiple of `2 ^ -500`. -/
theorem roundNearest_multiple (x : ℚ) (h : ∃ n : ℤ, x = (n : ℚ) / 2 ^ 500) :
    ∃ n : ℤ, roundNearest x = (n : ℚ) / 2 ^ 500 := by
  obtain ⟨n, hn⟩ := h
  have h500 : (2 : ℚ) ^ (500 : ℕ) = 2 ^ (500 : ℤ) := (zpow_natCast 2 500).symm
  rcases le_or_lt (-500) (quantumExp x) with hQ | hQ
  · obtain ⟨k, hk⟩ := Int.eq_ofNat_of_zero_le (show 0 ≤ quantumExp x + 500 by omega)
    refine ⟨roundHalfEven (x / 2 ^ quantumExp x) * 2 ^ k, ?_⟩
    unfold roundNearest
    have e : quantumExp x = (k : ℤ) + (-500) := by omega
    rw [eq_div_iff (by positivity), h500]
    push_cast
    nth_rewrite 2 [e]
    rw [zpow_add₀ (by norm_num : (2 : ℚ) ≠ 0), zpow_natCast, mul_assoc, mul_assoc,
      ← zpow_add₀ (by norm_num : (2 : ℚ) ≠ 0)]
    norm_num
  · obtain ⟨k, hk⟩ := Int.eq_ofNat_of_zero_le (show 0 ≤ -500 - quantumExp x by omega)
    refine ⟨n, ?_⟩
    have hmul : ∀ Q : ℤ, -500 - Q = (k : ℤ) → ((n * 2 ^ k : ℤ) : ℚ) * 2 ^ Q = x := by
      intro Q hQk
      have e : Q = -500 - (k : ℤ) := by omega
      rw [hn, e, zpow_sub₀ (by norm_num : (2 : ℚ) ≠ 0), zpow_natCast, zpow_neg, h500]
      push_cast
      field_simp
      ring
    have hmul1 := hmul _ hk
    have hdiv : x / 2 ^ quantumExp x = ((n * 2 ^ k : ℤ) : ℚ) := by
      rw [div_eq_iff (two_zpow_pos _).ne']
      exact hmul1.symm
    unfold roundNearest
    rw [hdiv, roundHalfEven_intCast, hmul1, hn]

theorem roundNearest_pos_imp {x : ℚ} (h : 0 < roundNearest x) : 0 < x := by
  by_contra hx
  push_neg at hx
  have := roundNearest_mono hx
  rw [roundNearest_zero] at this
  linarith

/-- The values that the first loop of `normalizeScores` returns are the initial ones or scores
of the list. -/
theorem normalizeScoresScan_mem (fdr : ℚ) (medianIndex : Nat) :
    ∀ (l : List ScoreHolder) (decoys : Nat) (f0 m0 : ℚ),
      ((normalizeScoresScan fdr medianIndex l decoys f0 m0).1 = f0
        ∨ ∃ sh ∈ l, (normalizeScoresScan fdr medianIndex l decoys f0 m0).1 = sh.score)
      ∧ ((normalizeScoresScan fdr medianIndex l decoys f0 m0).2 = m0
        ∨ ∃ sh ∈ l, (normalizeScoresScan fdr medianIndex l decoys f0 m0).2 = sh.score) := by
  intro l
  induction l with
  | nil =>
    intro decoys f0 m0
    exact ⟨Or.inl rfl, Or.inl rfl⟩
  | cons it rest ih =>
    intro decoys f0 m0
    have hf1 : (if it.q < fdr then it.score else f0) = f0
        ∨ (if it.q < fdr then it.score else f0) = it.score := by
      by_cases hq : it.q < fdr
      · rw [if_pos hq]; exact Or.inr rfl
      · rw [if_neg hq]; exact Or.inl rfl
    have lift : ∀ (d : Nat),
        ((normalizeScoresScan fdr medianIndex rest d (if it.q < fdr then it.score else f0) m0).1
            = f0
          ∨ ∃ sh ∈ it :: rest, (normalizeScoresScan fdr medianIndex rest d
              (if it.q < fdr then it.score else f0) m0).1 = sh.score)
        ∧ ((normalizeScoresScan fdr medianIndex rest d (if it.q < fdr then it.score else f0)
              m0).2 = m0
          ∨ ∃ sh ∈ it :: rest, (normalizeScoresScan fdr medianIndex rest d
              (if it.q < fdr then it.score else f0) m0).2 = sh.score) := by
      intro d
      obtain ⟨a, b⟩ := ih d (if it.q < fdr then it.score else f0) m0
      constructor
      · rcases a with a | ⟨sh, hsh, a⟩
        · rcases hf1 with e | e
          · left; rw [a, e]
          · right; exact ⟨it, List.mem_cons_self _ _, by rw [a, e]⟩
        · right; exact ⟨sh, List.mem_cons_of_mem _ hsh, a⟩
      · rcases b with b | ⟨sh, hsh, b⟩
        · left; exact b
        · right; exact ⟨sh, List.mem_cons_of_mem _ hsh, b⟩
    unfold normalizeScoresScan
    dsimp only
    by_cases hd : it.isDecoy = true
    · rw [if_pos hd]
      by_cases hm : decoys + 1 = medianIndex
      · rw [if_pos hm]
        constructor
        · rcases hf1 with e | e
          · left; exact e
          · right; exact ⟨it, List.mem_cons_self _ _, e⟩
        · right; exact ⟨it, List.mem_cons_self _ _, rfl⟩
      · rw [if_neg hm]
        exact lift (decoys + 1)
    · rw [if_neg hd]
      exact lift decoys

theorem rescaleLoopDouble_returns (f diff : ℚ) (hf : |f| ≤ 2 ^ 500)
    (hdiff : diff > 0 → (1 : ℚ) / 2 ^ 500 ≤ diff) :
    ∀ l : List ScoreHolder, (∀ sh ∈ l, |sh.score| ≤ 2 ^ 500) →
      ∃ l1, rescaleLoopDouble f diff l = some l1 := by
  have h501 : (2 : ℚ) ^ (501 : ℕ) = 2 ^ (501 : ℤ) := (zpow_natCast 2 501).symm
  have h1001 : (2 : ℚ) ^ (1001 : ℕ) = 2 ^ (1001 : ℤ) := (zpow_natCast 2 1001).symm
  intro l
  induction l with
  | nil => intro _; exact ⟨[], rfl⟩
  | cons sh rest ih =>
    intro hl
    obtain ⟨rest1, hrest⟩ := ih (fun x hx => hl x (List.mem_cons_of_mem _ hx))
    have hsh := hl sh (List.mem_cons_self _ _)
    have hsub : |sh.score - f| ≤ 2 ^ (501 : ℤ) := by
      rw [← h501]
      calc |sh.score - f| ≤ |sh.score| + |f| := abs_sub _ _
        _ ≤ 2 ^ 500 + 2 ^ 500 := add_le_add hsh hf
        _ = 2 ^ 501 := by norm_num
    obtain ⟨s1, hs1, -, hs1b⟩ := roundDouble_of_abs_le (sh.score - f) 501 (by decide)
      (by decide) hsub
    have hsh1 : ∃ sh1, rescaleDouble f diff sh = some sh1 := by
      unfold rescaleDouble
      have e1 : dsub sh.score f = some s1 := hs1
      rw [e1]
      simp only [Option.bind_eq_bind, Option.some_bind]
      by_cases hd : diff > 0
      · rw [if_pos hd]
        have hlow := hdiff hd
        have hq : |s1 / diff| ≤ 2 ^ (1001 : ℤ) := by
          rw [← h1001, abs_div, abs_of_pos hd, div_le_iff₀ hd]
          rw [← h501] at hs1b
          calc |s1| ≤ 2 ^ 501 := hs1b
            _ = 2 ^ 1001 * (1 / 2 ^ 500) := by norm_num
            _ ≤ 2 ^ 1001 * diff := mul_le_mul_of_nonneg_left hlow (by positivity)
        obtain ⟨s2, hs2, -, -⟩ := roundDouble_of_abs_le (s1 / diff) 1001 (by decide)
          (by decide) hq
        have e2 : ddiv s1 diff = some s2 := by
          unfold ddiv
          rw [if_neg hd.ne']
          exact hs2
        rw [e2]
        exact ⟨_, rfl⟩
      · rw [if_neg hd]
        exact ⟨_, rfl⟩
    obtain ⟨sh1, hsh1⟩ := hsh1
    exact ⟨sh1 :: rest1, rescaleLoopDouble_cons_eq f diff sh sh1 rest rest1 hsh1 hrest⟩

/-- On a non-empty Score Set whose scores are multiples of `2 ^ -500` of magnitude at most
`2 ^ 500`, `normalizeScores` in double arithmetic returns: no operation overflows. -/
theorem normalizeScoresDouble_returns (s : Scores) (fdr : ℚ) (hne : s.scores_ ≠ [])
    (hb : ∀ sh ∈ s.scores_, |sh.score| ≤ 2 ^ 500 ∧ ∃ n : ℤ, sh.score = (n : ℚ) / 2 ^ 500) :
    ∃ r, s.normalizeScoresDouble fdr = some r := by
  have h501 : (2 : ℚ) ^ (501 : ℕ) = 2 ^ (501 : ℤ) := (zpow_natCast 2 501).symm
  have h502 : (2 : ℚ) ^ (502 : ℕ) = 2 ^ (502 : ℤ) := (zpow_natCast 2 502).symm
  have h500 : (2 : ℚ) ^ (500 : ℕ) = 2 ^ (500 : ℤ) := (zpow_natCast 2 500).symm
  have hm500 : (1 : ℚ) / 2 ^ (500 : ℕ) = 2 ^ (-500 : ℤ) := by
    rw [h500, zpow_neg, one_div]
  cases hs : s.scores_ with
  | nil => exact absurd hs hne
  | cons first rest =>
    have hfirst := hb first (by rw [hs]; exact List.mem_cons_self _ _)
    -- the initial median decoy score
    have hadd : |first.score + 1| ≤ 2 ^ (501 : ℤ) := by
      rw [← h501]
      calc |first.score + 1| ≤ |first.score| + |(1 : ℚ)| := abs_add _ _
        _ ≤ 2 ^ 500 + 1 := by rw [abs_one]; exact add_le_add hfirst.1 (le_refl _)
        _ ≤ 2 ^ 501 := by norm_num
    obtain ⟨m0, hm0, hm0r, hm0b⟩ := roundDouble_of_abs_le (first.score + 1) 501 (by decide)
      (by decide) hadd
    have hm0m : ∃ n : ℤ, m0 = (n : ℚ) / 2 ^ 500 := by
      rw [hm0r]
      apply roundNearest_multiple
      obtain ⟨n, hn⟩ := hfirst.2
      obtain ⟨p, hp⟩ : ∃ p : ℤ, (p : ℚ) = 2 ^ 500 :=
        ⟨2 ^ 500, by rw [Int.cast_pow, Int.cast_ofNat]⟩
      refine ⟨n + p, ?_⟩
      rw [hn, Int.cast_add, hp, add_div, div_self (by positivity)]
    -- the values found by the first loop
    obtain ⟨hF, hM⟩ := normalizeScoresScan_mem fdr (max 0 (s.totalNumberOfDecoys_ / 2))
      (first :: rest) 0 first.score m0
    generalize hf : (normalizeScoresScan fdr (max 0 (s.totalNumberOfDecoys_ / 2))
      (first :: rest) 0 first.score m0).1 = f at hF
    generalize hmd : (normalizeScoresScan fdr (max 0 (s.totalNumberOfDecoys_ / 2))
      (first :: rest) 0 first.score m0).2 = md at hM
    have hfb : |f| ≤ 2 ^ 500 ∧ ∃ n : ℤ, f = (n : ℚ) / 2 ^ 500 := by
      rcases hF with e | ⟨sh, hsh, e⟩
      · rw [e]; exact hfirst
      · rw [e]; exact hb sh (by rw [hs]; exact hsh)
    have hmb : |md| ≤ 2 ^ 501 ∧ ∃ n : ℤ, md = (n : ℚ) / 2 ^ 500 := by
      rcases hM with e | ⟨sh, hsh, e⟩
      · rw [e, h501]; exact ⟨hm0b, hm0m⟩
      · rw [e]
        have := hb sh (by rw [hs]; exact hsh)
        exact ⟨le_trans this.1 (by norm_num), this.2⟩
    have hsub : |f - md| ≤ 2 ^ (502 : ℤ) := by
      rw [← h502]
      calc |f - md| ≤ |f| + |md| := abs_sub _ _
        _ ≤ 2 ^ 500 + 2 ^ 501 := add_le_add hfb.1 hmb.1
        _ ≤ 2 ^ 502 := by norm_num
    obtain ⟨diff, hdiff, hdiffr, -⟩ := roundDouble_of_abs_le (f - md) 502 (by decide)
      (by decide) hsub
    have hlow : diff > 0 → (1 : ℚ) / 2 ^ 500 ≤ diff := by
      intro hd
      rw [hdiffr] at hd ⊢
      have hpos : 0 < f - md := roundNearest_pos_imp hd
      obtain ⟨a, ha⟩ := hfb.2
      obtain ⟨b, hb2⟩ := hmb.2
      have hab : (1 : ℚ) / 2 ^ 500 ≤ f - md := by
        rw [ha, hb2, ← sub_div] at hpos ⊢
        have h1 : (0 : ℚ) < (a : ℚ) - b := by
          by_contra hc
          push_neg at hc
          have := div_nonpos_of_nonpos_of_nonneg hc (by positivity : (0 : ℚ) ≤ 2 ^ 500)
          linarith
        have h2 : (1 : ℚ) ≤ (a : ℚ) - b := by
          have : (0 : ℤ) < a - b := by exact_mod_cast h1
          have : (1 : ℤ) ≤ a - b := by omega
          exact_mod_cast this
        exact div_le_div_of_nonneg_right h2 (by positivity)
      have := roundNearest_mono hab
      rw [hm500, roundNearest_two_zpow (-500) (by decide)] at this
      rw [hm500]
      exact this
    obtain ⟨l1, hl1⟩ := rescaleLoopDouble_returns f diff hfb.1 hlow (first :: rest)
      (fun sh hsh => (hb sh (by rw [hs]; exact hsh)).1)
    refine ⟨{ s with scores_ := l1 }, ?_⟩
    have hscan : normalizeScoresScan fdr (max 0 (s.totalNumberOfDecoys_ / 2)) (first :: rest)
        0 first.score m0 = (f, md) := by
      rw [← hf, ← hmd]
    exact normalizeScoresDouble_eq s fdr first rest l1 first.score m0 f md diff hs rfl hm0
      hscan hdiff hl1

/-- Claim C29, amended.  On a non-empty Score Set, `normalizeScores` in double arithmetic
returns whenever the scores are multiples of `2 ^ -500` of magnitude at most `2 ^ 500`, and
whenever it returns, that is, whenever no operation overflows, it has applied one map `g` to
every holder; `g` changes nothing but the score and keeps the order of the scores weakly: of
two holders of the set, the one with the smaller or equal score before has the smaller or
equal score after, and equal scores stay equal.  Hence a set whose scores did not increase
along the list still has scores that do not increase along the list. -/
theorem normalizeScores_weakly_order_preserving (s : Scores) (fdr : ℚ)
    (hne : s.scores_ ≠ []) :
    ((∀ sh ∈ s.scores_, |sh.score| ≤ 2 ^ 500 ∧ ∃ n : ℤ, sh.score = (n : ℚ) / 2 ^ 500) →
      ∃ r, s.normalizeScoresDouble fdr = some r)
    ∧ ∀ r, s.normalizeScoresDouble fdr = some r →
        ∃ g : ScoreHolder → ScoreHolder, r.scores_ = s.scores_.map g
          ∧ (∀ a ∈ s.scores_, ∀ b ∈ s.scores_,
              (a.score ≤ b.score → (g a).score ≤ (g b).score)
              ∧ (a.score = b.score → (g a).score = (g b).score)
              ∧ (g a).pPSM = a.pPSM ∧ (g a).label = a.label)
          ∧ (s.scores_.Pairwise (fun a b => b.score ≤ a.score)
              → r.scores_.Pairwise (fun a b => b.score ≤ a.score)) := by
  refine ⟨normalizeScoresDouble_returns s fdr hne, ?_⟩
  intro r hr
  obtain ⟨f, d, hloop, -⟩ := normalizeScoresDouble_spec s r fdr hr
  obtain ⟨hmap, hsome⟩ := rescaleLoopDouble_spec f d s.scores_ r.scores_ hloop
  refine ⟨fun sh => (rescaleDouble f d sh).getD sh, hmap, ?_, ?_⟩
  · intro a ha b hb
    have hga := hsome a ha
    have hgb := hsome b hb
    refine ⟨fun hab => rescaleDouble_mono f d a b _ _ hab hga hgb, fun hab => ?_, ?_, ?_⟩
    · exact le_antisymm (rescaleDouble_mono f d a b _ _ hab.le hga hgb)
        (rescaleDouble_mono f d b a _ _ hab.ge hgb hga)
    · obtain ⟨-, -, -, e⟩ := rescaleDouble_spec f d a _ hga
      have e2 := congrArg ScoreHolder.pPSM e
      exact e2
    · obtain ⟨-, -, -, e⟩ := rescaleDouble_spec f d a _ hga
      have e2 := congrArg ScoreHolder.label e
      exact e2
  · intro hp
    rw [hmap, List.pairwise_map]
    exact hp.imp_of_mem (fun {a b} ha hb hab =>
      rescaleDouble_mono f d b a _ _ hab (hsome b hb) (hsome a ha))

/-- Claim C29, as stated, at `fdr = 1/2` on a Score Set in descending total order whose second
and third holders have the different scores `2 ^ -60` and `2 ^ -61` and whose cutoff score
is 1.  In double arithmetic `normalizeScores` returns, both differences `score - 1` round to
`-1` and both scores become `-1/2`; the set is no longer in descending total order, because
of the two tied holders the one with the larger scan number comes second. -/
theorem normalizeScores_collapses_scores :
    collapseExample.scores_.map ScoreHolder.score = [1, 1 / 2 ^ 60, 1 / 2 ^ 61, -1, -2]
    ∧ collapseExample.scores_.Pairwise (fun a b => b.gt a = false)
    ∧ ∃ r, collapseExample.normalizeScoresDouble (1 / 2) = some r
        ∧ r.scores_.map ScoreHolder.score = [0, -1 / 2, -1 / 2, -1, -3 / 2]
        ∧ ¬ r.scores_.Pairwise (fun a b => b.gt a = false) := by
  refine ⟨by simp [collapseExample, exampleHolder], ?_,
    collapseResult, collapseExample_normalizeScoresDouble,
    by simp [collapseResult, exampleHolder], ?_⟩
  · simp [collapseExample, exampleHolder, examplePSM, ScoreHolder.gt]
    norm_num
  · simp [collapseResult, exampleHolder, examplePSM, ScoreHolder.gt]

theorem collapseExample_scores_descending :
    collapseExample.scores_.Pairwise (fun a b => b.score ≤ a.score) := by
  simp [collapseExample, exampleHolder]
  norm_num

theorem collapseExample_ne_nil : collapseExample.scores_ ≠ [] := by
  simp [collapseExample]

theorem collapseExample_bounded :
    ∀ sh ∈ collapseExample.scores_,
      |sh.score| ≤ 2 ^ 500 ∧ ∃ n : ℤ, sh.score = (n : ℚ) / 2 ^ 500 := by
  intro sh hsh
  simp only [collapseExample, List.mem_cons, List.mem_singleton, List.not_mem_nil,
    or_false] at hsh
  rcases hsh with rfl | rfl | rfl | rfl | rfl
  · refine ⟨by norm_num [exampleHolder, abs_le], 2 ^ 500, ?_⟩
    rw [Int.cast_pow, Int.cast_ofNat]
    norm_num [exampleHolder]
  · refine ⟨by norm_num [exampleHolder, abs_le], 2 ^ 440, ?_⟩
    rw [Int.cast_pow, Int.cast_ofNat]
    norm_num [exampleHolder]
  · refine ⟨by norm_num [exampleHolder, abs_le], 2 ^ 439, ?_⟩
    rw [Int.cast_pow, Int.cast_ofNat]
    norm_num [exampleHolder]
  · refine ⟨by norm_num [exampleHolder, abs_le], -2 ^ 500, ?_⟩
    rw [Int.cast_neg, Int.cast_pow, Int.cast_ofNat]
    norm_num [exampleHolder]
  · refine ⟨by norm_num [exampleHolder, abs_le], -2 ^ 501, ?_⟩
    rw [Int.cast_neg, Int.cast_pow, Int.cast_ofNat]
    norm_num [exampleHolder]

theorem normalizeScores_weakly_order_preserving_witness :
    collapseExample.scores_ ≠ []
    ∧ (∃ r, collapseExample.normalizeScoresDouble (1 / 2) = some r)
    ∧ collapseExample.normalizeScoresDouble (1 / 2) = some collapseResult
    ∧ collapseExample.scores_.Pairwise (fun a b => b.score ≤ a.score)
    ∧ collapseResult.scores_.Pairwise (fun a b => b.score ≤ a.score) :=
  ⟨collapseExample_ne_nil,
    (normalizeScores_weakly_order_preserving collapseExample (1 / 2)
      collapseExample_ne_nil).1 collapseExample_bounded,
    collapseExample_normalizeScoresDouble, collapseExample_scores_descending,
    ((normalizeScores_weakly_order_preserving collapseExample (1 / 2)
      collapseExample_ne_nil).2 collapseResult
      collapseExample_normalizeScoresDouble).choose_spec.2.2
      collapseExample_scores_descending⟩

theorem foldlM_set_range (fD gD : Nat → Option ℚ) (f g : Nat → ℚ) (out : List ℚ) (c : ℚ)
    (F : Nat) (hf : ∀ i, i < F → fD i = some (f i)) (hg : ∀ i, i < F → gD i = some (g i)) :
    (List.range F).foldlM
      (fun (st : List ℚ × ℚ) i => do
        let o ← fD i
        let sum ← gD i
        pure (st.1.set i o, sum)) (out, c)
    = some ((List.range F).foldl (fun (st : List ℚ × ℚ) i => (st.1.set i (f i), g i))
        (out, c)) := by
  induction F with
  | zero => rfl
  | succ k ih =>
    rw [List.range_succ, List.foldlM_append, List.foldl_append,
      ih (fun i hi => hf i (by omega)) (fun i hi => hg i (by omega))]
    simp only [Option.bind_eq_bind, Option.some_bind, List.foldlM_cons, List.foldlM_nil,
      hf k (by omega), hg k (by omega), Option.pure_def, List.foldl_cons, List.foldl_nil,
      Option.bind_some]

theorem ddiv_of_isDouble {a b : ℚ} (hb : b ≠ 0) (h : isDouble (a / b)) :
    ddiv a b = some (a / b) := by
  unfold ddiv
  rw [if_neg hb]
  exact h

/-- When its quotients and its difference are exact, `unnormalizeweight` in double arithmetic
returns what it returns in exact arithmetic. -/
theorem unnormalizeweightDouble_of_exact (n : StdvNormalizer) (F : Nat) (inp out : List ℚ)
    (hstdv : ∀ j, j < F → n.stdv.getD j 0 ≠ 0)
    (hq : ∀ j, j < F → isDouble (inp.getD j 0 / n.stdv.getD j 0))
    (ha : ∀ j, j < F → isDouble (n.avg.getD j 0 / n.stdv.getD j 0))
    (hd : isDouble (inp.getD F 0
      - (if F = 0 then 0 else n.avg.getD (F - 1) 0 / n.stdv.getD (F - 1) 0))) :
    n.unnormalizeweightDouble F inp out = some (n.unnormalizeweight F inp out) := by
  unfold StdvNormalizer.unnormalizeweightDouble StdvNormalizer.unnormalizeweight
  rw [foldlM_set_range (fun i => ddiv (inp.getD i 0) (n.stdv.getD i 0))
    (fun i => ddiv (n.avg.getD i 0) (n.stdv.getD i 0))
    (fun i => inp.getD i 0 / n.stdv.getD i 0) (fun i => n.avg.getD i 0 / n.stdv.getD i 0)
    out 0 F (fun i hi => ddiv_of_isDouble (hstdv i hi) (hq i hi))
    (fun i hi => ddiv_of_isDouble (hstdv i hi) (ha i hi))]
  have h3 := (foldl_set_range (fun i => inp.getD i 0 / n.stdv.getD i 0)
    (fun i => n.avg.getD i 0 / n.stdv.getD i 0) out 0 F).2.2
  simp only [Option.bind_eq_bind, Option.some_bind, Option.pure_def]
  rw [h3]
  have hd2 : dsub (inp.getD F 0)
      (if F = 0 then 0 else n.avg.getD (F - 1) 0 / n.stdv.getD (F - 1) 0)
      = some (inp.getD F 0
        - (if F = 0 then 0 else n.avg.getD (F - 1) 0 / n.stdv.getD (F - 1) 0)) := hd
  rw [hd2]
  simp only [Option.some_bind]

/-- When its products, its quotients and its sum are exact, `normalizeweight` in double
arithmetic returns what it returns in exact arithmetic. -/
theorem normalizeweightDouble_of_exact (n : StdvNormalizer) (F : Nat) (inp out : List ℚ)
    (hstdv : ∀ j, j < F → n.stdv.getD j 0 ≠ 0)
    (hp : ∀ j, j < F → isDouble (inp.getD j 0 * n.stdv.getD j 0))
    (ha : ∀ j, j < F → isDouble (n.avg.getD j 0 / n.stdv.getD j 0))
    (hs : isDouble (inp.getD F 0
      + (if F = 0 then 0 else n.avg.getD (F - 1) 0 / n.stdv.getD (F - 1) 0))) :
    n.normalizeweightDouble F inp out = some (n.normalizeweight F inp out) := by
  unfold StdvNormalizer.normalizeweightDouble StdvNormalizer.normalizeweight
  rw [foldlM_set_range (fun i => dmul (inp.getD i 0) (n.stdv.getD i 0))
    (fun i => ddiv (n.avg.getD i 0) (n.stdv.getD i 0))
    (fun i => inp.getD i 0 * n.stdv.getD i 0) (fun i => n.avg.getD i 0 / n.stdv.getD i 0)
    out 0 F (fun i hi => hp i hi)
    (fun i hi => ddiv_of_isDouble (hstdv i hi) (ha i hi))]
  have h3 := (foldl_set_range (fun i => inp.getD i 0 * n.stdv.getD i 0)
    (fun i => n.avg.getD i 0 / n.stdv.getD i 0) out 0 F).2.2
  simp only [Option.bind_eq_bind, Option.some_bind, Option.pure_def]
  rw [h3]
  have hs2 : dadd (inp.getD F 0)
      (if F = 0 then 0 else n.avg.getD (F - 1) 0 / n.stdv.getD (F - 1) 0)
      = some (inp.getD F 0
        + (if F = 0 then 0 else n.avg.getD (F - 1) 0 / n.stdv.getD (F - 1) 0)) := hs
  rw [hs2]
  simp only [Option.some_bind]

theorem unnormalizeweightDouble_one (n : StdvNormalizer) (inp out : List ℚ)
    (x0 x1 a s o sum b : ℚ) (hx0 : inp.getD 0 0 = x0) (hx1 : inp.getD 1 0 = x1)
    (ha : n.avg.getD 0 0 = a) (hs : n.stdv.getD 0 0 = s)
    (h1 : ddiv x0 s = some o) (h2 : ddiv a s = some sum) (h3 : dsub x1 sum = some b) :
    n.unnormalizeweightDouble 1 inp out = some ((out.set 0 o).set 1 b) := by
  unfold StdvNormalizer.unnormalizeweightDouble
  simp only [List.range_succ, List.range_zero, List.nil_append, List.foldlM_cons,
    List.foldlM_nil, hx0, hx1, ha, hs, h1, h2, h3, Option.bind_eq_bind, Option.some_bind,
    Option.pure_def, Option.bind_some]

theorem normalizeweightDouble_one (n : StdvNormalizer) (inp out : List ℚ)
    (x0 x1 a s o sum b : ℚ) (hx0 : inp.getD 0 0 = x0) (hx1 : inp.getD 1 0 = x1)
    (ha : n.avg.getD 0 0 = a) (hs : n.stdv.getD 0 0 = s)
    (h1 : dmul x0 s = some o) (h2 : ddiv a s = some sum) (h3 : dadd x1 sum = some b) :
    n.normalizeweightDouble 1 inp out = some ((out.set 0 o).set 1 b) := by
  unfold StdvNormalizer.normalizeweightDouble
  simp only [List.range_succ, List.range_zero, List.nil_append, List.foldlM_cons,
    List.foldlM_nil, hx0, hx1, ha, hs, h1, h2, h3, Option.bind_eq_bind, Option.some_bind,
    Option.pure_def, Option.bind_some]

theorem ddiv_one_49 : ddiv 1 49 = some (5882252574524729 / 2 ^ 58) := by
  unfold ddiv
  rw [if_neg (by norm_num)]
  have h := roundDouble_eq_of (1 / 49) (-6) (-58) 5882252574524729 (by norm_num [le_abs])
    (by norm_num [abs_lt]) (by decide) (by norm_num [abs_lt]) (by norm_num [abs_lt])
  rw [h]
  norm_num

theorem dsub_small_49 :
    dsub (1 / 2 ^ 60) (5882252574524729 / 2 ^ 58) = some (-5882252574524729 / 2 ^ 58) := by
  unfold dsub
  have h := roundDouble_eq_of (1 / 2 ^ 60 - 5882252574524729 / 2 ^ 58) (-6) (-58)
    (-5882252574524729) (by norm_num [le_abs]) (by norm_num [abs_lt]) (by decide)
    (by norm_num [abs_lt]) (by norm_num [abs_lt])
  rw [h]
  norm_num

theorem dadd_small_49 :
    dadd (1 / 2 ^ 60) (5882252574524729 / 2 ^ 58) = some (5882252574524729 / 2 ^ 58) := by
  unfold dadd
  have h := roundDouble_eq_of (1 / 2 ^ 60 + 5882252574524729 / 2 ^ 58) (-6) (-58)
    5882252574524729 (by norm_num [le_abs]) (by norm_num [abs_lt]) (by decide)
    (by norm_num [abs_lt]) (by norm_num [abs_lt])
  rw [h]
  norm_num

theorem dmul_back_49 :
    dmul (5882252574524729 / 2 ^ 58) 49 = some (9007199254740991 / 2 ^ 53) := by
  unfold dmul
  have h := roundDouble_eq_of (5882252574524729 / 2 ^ 58 * 49) (-1) (-53)
    9007199254740991 (by norm_num [le_abs]) (by norm_num [abs_lt]) (by decide)
    (by norm_num [abs_lt]) (by norm_num [abs_lt])
  rw [h]
  norm_num

theorem dadd_cancel_49 :
    dadd (-5882252574524729 / 2 ^ 58) (5882252574524729 / 2 ^ 58) = some 0 := by
  unfold dadd
  have e : (-5882252574524729 / 2 ^ 58 + 5882252574524729 / 2 ^ 58 : ℚ) = 0 := by norm_num
  rw [e]
  exact roundDouble_zero

theorem dsub_cancel_49 :
    dsub (5882252574524729 / 2 ^ 58) (5882252574524729 / 2 ^ 58) = some 0 := by
  unfold dsub
  rw [sub_self]
  exact roundDouble_zero

theorem dmul_one_49 : dmul 1 49 = some 49 := by
  have h := isDouble_intCast 49 (by decide)
  unfold dmul
  norm_num [isDouble] at h ⊢
  exact h

theorem ddiv_49_49 : ddiv 49 49 = some 1 := by
  have h := isDouble_intCast 1 (by decide)
  unfold ddiv
  rw [if_neg (by norm_num)]
  norm_num [isDouble] at h ⊢
  exact h

/-- Claim C10, as stated, on the fitted normalizer with mean 1 and standard deviation 49 and
the weight vector `(1, 2 ^ -60)`.  In double arithmetic both transforms return, but
`normalizeweight` after `unnormalizeweight` gives `(1 - 2 ^ -53, 0)`, because `1 / 49` rounds
and its product with 49 is not 1, and `unnormalizeweight` after `normalizeweight` gives
`(1, 0)`, because the bias `2 ^ -60` is lost when the offset is added to it: neither round
trip returns the weight vector it started from. -/
theorem weight_round_trip_rounds :
    (∀ j, j < 1 → stdvExample49.stdv.getD j 0 ≠ 0)
    ∧ (∃ u v, stdvExample49.unnormalizeweightDouble 1 [1, 1 / 2 ^ 60] [0, 0] = some u
        ∧ stdvExample49.normalizeweightDouble 1 u [0, 0] = some v
        ∧ v = [9007199254740991 / 2 ^ 53, 0] ∧ v ≠ [1, 1 / 2 ^ 60])
    ∧ (∃ u v, stdvExample49.normalizeweightDouble 1 [1, 1 / 2 ^ 60] [0, 0] = some u
        ∧ stdvExample49.unnormalizeweightDouble 1 u [0, 0] = some v
        ∧ v = [1, 0] ∧ v ≠ [1, 1 / 2 ^ 60]) := by
  refine ⟨?_, ?_, ?_⟩
  · intro j hj
    have : j = 0 := by omega
    subst this
    simp [stdvExample49]
  · refine ⟨[5882252574524729 / 2 ^ 58, -5882252574524729 / 2 ^ 58],
      [9007199254740991 / 2 ^ 53, 0], ?_, ?_, rfl, ?_⟩
    · exact unnormalizeweightDouble_one stdvExample49 _ _ 1 (1 / 2 ^ 60) 1 49 _ _ _ rfl rfl rfl
        rfl ddiv_one_49 ddiv_one_49 dsub_small_49
    · exact normalizeweightDouble_one stdvExample49 _ _ (5882252574524729 / 2 ^ 58)
        (-5882252574524729 / 2 ^ 58) 1 49 _ _ _ rfl rfl rfl rfl dmul_back_49 ddiv_one_49
        dadd_cancel_49
    · norm_num
  · refine ⟨[49, 5882252574524729 / 2 ^ 58], [1, 0], ?_, ?_, rfl, ?_⟩
    · exact normalizeweightDouble_one stdvExample49 _ _ 1 (1 / 2 ^ 60) 1 49 _ _ _ rfl rfl rfl
        rfl dmul_one_49 ddiv_one_49 dadd_small_49
    · exact unnormalizeweightDouble_one stdvExample49 _ _ 49 (5882252574524729 / 2 ^ 58) 1 49
        _ _ _ rfl rfl rfl rfl ddiv_49_49 ddiv_one_49 dsub_cancel_49
    · norm_num

/-- Claim C10, amended.  For a fitted normalizer (every `stdv[j]` non-zero) and a weight
vector `w` of `F + 1` doubles, if no operation of the two transforms rounds, that is, if the
quotients `w[j] / stdv[j]` and `avg[j] / stdv[j]`, the products `w[j] * stdv[j]` and the
difference and the sum of the bias slot are finite doubles, then in double arithmetic
`normalizeweight` after `unnormalizeweight` and `unnormalizeweight` after `normalizeweight`
both return `w`, bias slot included. -/
theorem weight_transforms_inverse_when_exact (n : StdvNormalizer) (F : Nat)
    (w out1 out2 : List ℚ)
    (hstdv : ∀ j, j < F → n.stdv.getD j 0 ≠ 0)
    (hw : w.length = F + 1) (h1 : out1.length = F + 1) (h2 : out2.length = F + 1)
    (hwd : ∀ j, j ≤ F → isDouble (w.getD j 0))
    (hq : ∀ j, j < F → isDouble (w.getD j 0 / n.stdv.getD j 0))
    (hp : ∀ j, j < F → isDouble (w.getD j 0 * n.stdv.getD j 0))
    (ha : ∀ j, j < F → isDouble (n.avg.getD j 0 / n.stdv.getD j 0))
    (hd : isDouble (w.getD F 0
      - (if F = 0 then 0 else n.avg.getD (F - 1) 0 / n.stdv.getD (F - 1) 0)))
    (hs : isDouble (w.getD F 0
      + (if F = 0 then 0 else n.avg.getD (F - 1) 0 / n.stdv.getD (F - 1) 0))) :
    (∃ u, n.unnormalizeweightDouble F w out1 = some u
      ∧ n.normalizeweightDouble F u out2 = some w)
    ∧ (∃ v, n.normalizeweightDouble F w out1 = some v
      ∧ n.unnormalizeweightDouble F v out2 = some w) := by
  obtain ⟨e1, e2⟩ := weight_transforms_inverse_exact n F w out1 out2 hstdv hw h1 h2
  obtain ⟨-, uj, uF⟩ := unnormalizeweight_spec n F w out1 h1
  obtain ⟨-, nj, nF⟩ := normalizeweight_spec n F w out1 h1
  constructor
  · refine ⟨n.unnormalizeweight F w out1,
      unnormalizeweightDouble_of_exact n F w out1 hstdv hq ha hd, ?_⟩
    have h := normalizeweightDouble_of_exact n F (n.unnormalizeweight F w out1) out2 hstdv
      (fun j hj => by
        rw [uj j hj, div_mul_cancel₀ _ (hstdv j hj)]
        exact hwd j hj.le)
      ha (by
        rw [uF, sub_add_cancel]
        exact hwd F (le_refl F))
    rw [h, e1]
  · refine ⟨n.normalizeweight F w out1,
      normalizeweightDouble_of_exact n F w out1 hstdv hp ha hs, ?_⟩
    have h := unnormalizeweightDouble_of_exact n F (n.normalizeweight F w out1) out2 hstdv
      (fun j hj => by
        rw [nj j hj, mul_div_cancel_right₀ _ (hstdv j hj)]
        exact hwd j hj.le)
      ha (by
        rw [nF, add_sub_cancel_right]
        exact hwd F (le_refl F))
    rw [h, e2]

theorem stdvExample_exact :
    (∀ j, j ≤ 1 → isDouble (([3, 5] : List ℚ).getD j 0))
    ∧ (∀ j, j < 1 → isDouble (([3, 5] : List ℚ).getD j 0 / stdvExample.stdv.getD j 0))
    ∧ (∀ j, j < 1 → isDouble (([3, 5] : List ℚ).getD j 0 * stdvExample.stdv.getD j 0))
    ∧ (∀ j, j < 1 → isDouble (stdvExample.avg.getD j 0 / stdvExample.stdv.getD j 0))
    ∧ isDouble (([3, 5] : List ℚ).getD 1 0
        - (if 1 = 0 then 0 else stdvExample.avg.getD (1 - 1) 0 / stdvExample.stdv.getD (1 - 1) 0))
    ∧ isDouble (([3, 5] : List ℚ).getD 1 0
        + (if 1 = 0 then 0 else stdvExample.avg.getD (1 - 1) 0 / stdvExample.stdv.getD (1 - 1) 0)) := by
  have d3 := isDouble_intCast 3 (by decide)
  have d5 := isDouble_intCast 5 (by decide)
  have d6 := isDouble_intCast 6 (by decide)
  have q3 := isDouble_half 3 (by decide)
  have q1 := isDouble_half 1 (by decide)
  have q9 := isDouble_half 9 (by decide)
  have q11 := isDouble_half 11 (by decide)
  norm_num at d3 d5 d6 q3 q1 q9 q11
  refine ⟨?_, ?_, ?_, ?_, ?_, ?_⟩
  · intro j hj
    rcases Nat.le_one_iff_eq_zero_or_eq_one.1 hj with rfl | rfl
    · simpa using d3
    · simpa using d5
  · intro j hj
    have : j = 0 := by omega
    subst this
    simpa [stdvExample] using q3
  · intro j hj
    have : j = 0 := by omega
    subst this
    have e : (([3, 5] : List ℚ).getD 0 0 * stdvExample.stdv.getD 0 0) = 6 := by
      norm_num [stdvExample]
    rw [e]
    exact d6
  · intro j hj
    have : j = 0 := by omega
    subst this
    simpa [stdvExample] using q1
  · have e : (([3, 5] : List ℚ).getD 1 0
        - (if 1 = 0 then 0 else stdvExample.avg.getD (1 - 1) 0 / stdvExample.stdv.getD (1 - 1) 0))
        = 9 / 2 := by
      norm_num [stdvExample]
    rw [e]
    exact q9
  · have e : (([3, 5] : List ℚ).getD 1 0
        + (if 1 = 0 then 0 else stdvExample.avg.getD (1 - 1) 0 / stdvExample.stdv.getD (1 - 1) 0))
        = 11 / 2 := by
      norm_num [stdvExample]
    rw [e]
    exact q11

theorem weight_transforms_inverse_when_exact_witness :
    (∀ j, j < 1 → stdvExample.stdv.getD j 0 ≠ 0)
    ∧ (∀ j, j ≤ 1 → isDouble (([3, 5] : List ℚ).getD j 0))
    ∧ (∃ u, stdvExample.unnormalizeweightDouble 1 [3, 5] [0, 0] = some u
        ∧ stdvExample.normalizeweightDouble 1 u [0, 0] = some [3, 5])
    ∧ (∃ v, stdvExample.normalizeweightDouble 1 [3, 5] [0, 0] = some v
        ∧ stdvExample.unnormalizeweightDouble 1 v [0, 0] = some [3, 5]) :=
  ⟨stdvExample_nonzero, stdvExample_exact.1,
    weight_transforms_inverse_when_exact stdvExample 1 [3, 5] [0, 0] [0, 0] stdvExample_nonzero
      rfl rfl rfl stdvExample_exact.1 stdvExample_exact.2.1 stdvExample_exact.2.2.1
      stdvExample_exact.2.2.2.1 stdvExample_exact.2.2.2.2.1 stdvExample_exact.2.2.2.2.2⟩

theorem sqrtDouble_zero : sqrtDouble 0 = some 0 := by
  unfold sqrtDouble
  simp

/-- The run of `setSet` in double arithmetic on three rows of one feature, given the result
of each operation. -/
theorem setSetDouble_three_rows (x1 x2 x3 n1 n2 n3 a1 a2 a3 m d1 q1 s1 d2 q2 s2 d3 q3 s3 v r : ℚ)
    (hn1 : dadd 0 1 = some n1) (hn2 : dadd n1 1 = some n2) (hn3 : dadd n2 1 = some n3)
    (ha1 : dadd 0 x1 = some a1) (ha2 : dadd a1 x2 = some a2) (ha3 : dadd a2 x3 = some a3)
    (hn : n3 > 0) (hm : ddiv a3 n3 = some m)
    (hd1 : dsub x1 m = some d1) (hq1 : dmul d1 d1 = some q1) (hs1 : dadd 0 q1 = some s1)
    (hd2 : dsub x2 m = some d2) (hq2 : dmul d2 d2 = some q2) (hs2 : dadd s1 q2 = some s2)
    (hd3 : dsub x3 m = some d3) (hq3 : dmul d3 d3 = some q3) (hs3 : dadd s2 q3 = some s3)
    (hpos : ¬ (s3 ≤ 0 ∨ n3 = 0)) (hv : ddiv s3 n3 = some v) (hr : sqrtDouble v = some r) :
    (StdvNormalizer.init 1).setSetDouble 1 [[x1], [x2], [x3]] = some { avg := [m], stdv := [r] } := by
  unfold StdvNormalizer.setSetDouble StdvNormalizer.init
  simp only [List.range_succ, List.range_zero, List.nil_append, List.foldl_cons, List.foldl_nil,
    List.foldlM_cons, List.foldlM_nil, List.replicate, List.set_cons_zero,
    List.getD_cons_zero, hn1, hn2, hn3, ha1, ha2, ha3, hm, hd1, hq1, hs1, hd2, hq2, hs2, hd3, hq3,
    hs3, hv, hr, Option.bind_eq_bind, Option.some_bind, Option.pure_def, Option.bind_some,
    if_pos hn, if_neg hpos]

theorem normalizeDouble_zero_stdv (n : StdvNormalizer) (inp out : List ℚ)
    (h : n.stdv.getD 0 0 = 0) : n.normalizeDouble 1 inp out = none := by
  unfold StdvNormalizer.normalizeDouble
  simp only [List.range_succ, List.range_zero, List.nil_append, List.foldlM_cons,
    List.foldlM_nil, h, ddiv, if_pos, Option.bind_eq_bind, Option.bind_none, Option.none_bind]

/-- An integer of magnitude below `2 ^ 53` divided by a power of two with exponent at most
1074 is a finite double. -/
theorem isDouble_div_pow (m : ℤ) (k : ℕ) (hm : |m| < 2 ^ 53) (hk : k ≤ 1074) :
    isDouble ((m : ℚ) / 2 ^ k) := by
  have h := isDouble_of m (-(k : ℤ)) hm (by omega) (by omega)
  rw [zpow_neg, zpow_natCast, ← div_eq_mul_inv] at h
  exact h

/-- Evaluation of `roundDouble` where the result underflows to zero. -/
theorem roundDouble_eq_zero_of (x : ℚ) (e q : ℤ) (hlo : (2 : ℚ) ^ e ≤ |x|)
    (hhi : |x| < 2 ^ (e + 1)) (hq : max e (-1022) - 52 = q) (hm : |x / 2 ^ q| < 1 / 2) :
    roundDouble x = some 0 := by
  have h := roundDouble_eq_of x e q 0 hlo hhi hq (by rw [Int.cast_zero, sub_zero]; exact hm)
    (by rw [Int.cast_zero, zero_mul, abs_zero]; exact two_zpow_pos 1024)
  rw [Int.cast_zero, zero_mul] at h
  exact h

theorem underflow_roundings :
    dadd 0 1 = some 1 ∧ dadd 1 1 = some 2 ∧ dadd 2 1 = some 3
    ∧ dadd 0 0 = some 0 ∧ dadd 0 (3 / 2 ^ 538) = some (3 / 2 ^ 538)
    ∧ ddiv (3 / 2 ^ 538) 3 = some (1 / 2 ^ 538)
    ∧ dsub 0 (1 / 2 ^ 538) = some (-1 / 2 ^ 538)
    ∧ dmul (-1 / 2 ^ 538) (-1 / 2 ^ 538) = some 0
    ∧ dsub (3 / 2 ^ 538) (1 / 2 ^ 538) = some (2 / 2 ^ 538)
    ∧ dmul (2 / 2 ^ 538) (2 / 2 ^ 538) = some (1 / 2 ^ 1074)
    ∧ dadd 0 (1 / 2 ^ 1074) = some (1 / 2 ^ 1074)
    ∧ ddiv (1 / 2 ^ 1074) 3 = some 0 := by
  have i1 : isDouble 1 := by
    have h := isDouble_intCast 1 (by decide)
    rwa [Int.cast_one] at h
  have i2 : isDouble 2 := by
    have h := isDouble_intCast 2 (by decide)
    rwa [Int.cast_ofNat] at h
  have i3 : isDouble 3 := by
    have h := isDouble_intCast 3 (by decide)
    rwa [Int.cast_ofNat] at h
  have t3 : isDouble (3 / 2 ^ 538) := by
    have h := isDouble_div_pow 3 538 (by decide) (by decide)
    rwa [Int.cast_ofNat] at h
  have t1 : isDouble (1 / 2 ^ 538) := by
    have h := isDouble_div_pow 1 538 (by decide) (by decide)
    rwa [Int.cast_one] at h
  have tm : isDouble (-1 / 2 ^ 538) := by
    have h := isDouble_div_pow (-1) 538 (by decide) (by decide)
    rwa [Int.cast_neg, Int.cast_one] at h
  have t2 : isDouble (2 / 2 ^ 538) := by
    have h := isDouble_div_pow 2 538 (by decide) (by decide)
    rwa [Int.cast_ofNat] at h
  have tt : isDouble (1 / 2 ^ 1074) := by
    have h := isDouble_div_pow 1 1074 (by decide) (by decide)
    rwa [Int.cast_one] at h
  have u1 := roundDouble_eq_zero_of (-1 / 2 ^ 538 * (-1 / 2 ^ 538)) (-1076) (-1074)
    (by norm_num [le_abs]) (by norm_num [abs_lt]) (by decide) (by norm_num [abs_lt])
  have u2 := roundDouble_eq_zero_of (1 / 2 ^ 1074 / 3) (-1076) (-1074)
    (by norm_num [le_abs]) (by norm_num [abs_lt]) (by decide) (by norm_num [abs_lt])
  have e1 : ∀ p : ℚ, p ≠ 0 → 3 / p / 3 = 1 / p := by
    intro p hp
    field_simp
    ring
  have e2 : ∀ p : ℚ, 0 - 1 / p = -1 / p := by
    intro p
    ring
  have e3 : ∀ p : ℚ, 3 / p - 1 / p = 2 / p := by
    intro p
    ring
  have e4 : (2 / 2 ^ 538 * (2 / 2 ^ 538) : ℚ) = 1 / 2 ^ 1074 := by norm_num
  unfold isDouble at i1 i2 i3 t3 t1 tm t2 tt
  unfold dadd dsub dmul ddiv
  refine ⟨?_, ?_, ?_, ?_, ?_, ?_, ?_, ?_, ?_, ?_, ?_, ?_⟩
  · rw [zero_add]; exact i1
  · rw [one_add_one_eq_two]; exact i2
  · rw [two_add_one_eq_three]; exact i3
  · rw [add_zero]; exact roundDouble_zero
  · rw [zero_add]; exact t3
  · rw [if_neg (by norm_num), e1 _ (by positivity)]; exact t1
  · rw [e2]; exact tm
  · exact u1
  · rw [e3]; exact t2
  · rw [e4]; exact tt
  · rw [zero_add]; exact tt
  · rw [if_neg (by norm_num)]; exact u2

/-- Claim C11, evaluated on three rows of one feature with the values 0, 0 and `3 * 2 ^ -538`,
whose sum of squared deviations from the mean is positive.  In double arithmetic `setSet`
returns with the mean `2 ^ -538`; the sum of the rounded squares is `2 ^ -1074`, which is
positive, so the guard of line 77 does not set `stdv[0]` to 1, and the quotient by `n = 3`
underflows to zero: `stdv[0]` is 0.  With that normalizer every call of `normalize` divides
by zero. -/
theorem setSet_stdv_underflow :
    0 < sumSquaredDeviations underflowRows 0 (columnSum underflowRows 0 / 3)
    ∧ (StdvNormalizer.init 1).setSetDouble 1 underflowRows
        = some { avg := [1 / 2 ^ 538], stdv := [0] }
    ∧ ∀ row out : List ℚ,
        ({ avg := [1 / 2 ^ 538], stdv := [0] } : StdvNormalizer).normalizeDouble 1 row out
          = none := by
  obtain ⟨hn1, hn2, hn3, h00, ha3, hm, hd1, hq1, hd3, hq3, hs3, hv⟩ := underflow_roundings
  refine ⟨?_, ?_, ?_⟩
  · norm_num [sumSquaredDeviations, columnSum, underflowRows]
  · exact setSetDouble_three_rows 0 0 (3 / 2 ^ 538) 1 2 3 0 0 (3 / 2 ^ 538) (1 / 2 ^ 538)
      (-1 / 2 ^ 538) 0 0 (-1 / 2 ^ 538) 0 0 (2 / 2 ^ 538) (1 / 2 ^ 1074) (1 / 2 ^ 1074) 0 0
      hn1 hn2 hn3 h00 h00 ha3 (by norm_num) hm hd1 hq1 h00 hd1 hq1 h00 hd3 hq3 hs3
      (by norm_num) hv sqrtDouble_zero
  · intro row out
    exact normalizeDouble_zero_stdv _ row out rfl

/-! ### Conformance of the double arithmetic with IEEE 754 -/

theorem roundHalfEven_tie_even (f : ℤ) (hf : f % 2 = 0) :
    roundHalfEven ((f : ℚ) + 1 / 2) = f := by
  have hfl : ⌊(f : ℚ) + 1 / 2⌋ = f := by
    rw [Int.floor_eq_iff]
    constructor <;> linarith
  unfold roundHalfEven
  rw [hfl]
  have h1 : ¬ ((f : ℚ) + 1 / 2 - f < 1 / 2) := by
    rw [add_sub_cancel_left]
    exact lt_irrefl _
  have h2 : ¬ (1 / 2 < (f : ℚ) + 1 / 2 - f) := by
    rw [add_sub_cancel_left]
    exact lt_irrefl _
  rw [if_neg h1, if_neg h2, if_pos hf]

theorem roundHalfEven_tie_odd (f : ℤ) (hf : f % 2 = 1) :
    roundHalfEven ((f : ℚ) + 1 / 2) = f + 1 := by
  have hfl : ⌊(f : ℚ) + 1 / 2⌋ = f := by
    rw [Int.floor_eq_iff]
    constructor <;> linarith
  unfold roundHalfEven
  rw [hfl]
  have h1 : ¬ ((f : ℚ) + 1 / 2 - f < 1 / 2) := by
    rw [add_sub_cancel_left]
    exact lt_irrefl _
  have h2 : ¬ (1 / 2 < (f : ℚ) + 1 / 2 - f) := by
    rw [add_sub_cancel_left]
    exact lt_irrefl _
  rw [if_neg h1, if_neg h2, if_neg (by omega)]

/-- Evaluation of `roundNearest`: `e` is the binary exponent of `x`, `q` the exponent of the
spacing there and `m` the rounding of `x / 2 ^ q` to an integer. -/
theorem roundNearest_eq_of (x : ℚ) (e q m : ℤ) (hlo : (2 : ℚ) ^ e ≤ |x|)
    (hhi : |x| < 2 ^ (e + 1)) (hq : max e (-1022) - 52 = q)
    (hm : roundHalfEven (x / 2 ^ q) = m) : roundNearest x = (m : ℚ) * 2 ^ q := by
  have hQ : quantumExp x = q := by
    unfold quantumExp
    rw [log_abs_eq hlo hhi, hq]
  unfold roundNearest
  rw [hQ, hm]

/-- The rounding conforms to IEEE 754 binary64 at characteristic values: the double nearest
to `1/10`; ties going to the even neighbour, downwards at `2 ^ 53 + 1` and upwards at
`2 ^ 53 + 3`; half the smallest subnormal going to zero and three halves of it to twice it;
the largest finite double `2 ^ 1024 - 2 ^ 971` left as it is; overflow from
`2 ^ 1024 - 2 ^ 970` on. -/
theorem roundDouble_conformance :
    roundDouble (1 / 10) = some (3602879701896397 / 2 ^ 55)
    ∧ roundDouble (2 ^ 53 + 1) = some (2 ^ 53)
    ∧ roundDouble (2 ^ 53 + 3) = some (2 ^ 53 + 4)
    ∧ roundDouble (1 / 2 ^ 1075) = some 0
    ∧ roundDouble (3 / 2 ^ 1075) = some (2 / 2 ^ 1074)
    ∧ roundDouble (2 ^ 1024 - 2 ^ 971) = some (2 ^ 1024 - 2 ^ 971)
    ∧ roundDouble (2 ^ 1024 - 2 ^ 970) = none := by
  refine ⟨?_, ?_, ?_, ?_, ?_, ?_, ?_⟩
  · have h := roundDouble_eq_of (1 / 10) (-4) (-56) 7205759403792794 (by norm_num [le_abs])
      (by norm_num [abs_lt]) (by decide) (by norm_num [abs_lt]) (by norm_num [abs_lt])
    rw [h]
    norm_num
  · have e : ((2 : ℚ) ^ 53 + 1) / 2 ^ (1 : ℤ) = ((2 ^ 52 : ℤ) : ℚ) + 1 / 2 := by norm_num
    have h := roundNearest_eq_of (2 ^ 53 + 1) 53 1 (2 ^ 52) (by norm_num [le_abs])
      (by norm_num [abs_lt]) (by decide) (by rw [e]; exact roundHalfEven_tie_even _ (by decide))
    unfold roundDouble
    rw [h, if_pos (by norm_num [abs_lt])]
    norm_num
  · have e : ((2 : ℚ) ^ 53 + 3) / 2 ^ (1 : ℤ) = ((2 ^ 52 + 1 : ℤ) : ℚ) + 1 / 2 := by norm_num
    have h := roundNearest_eq_of (2 ^ 53 + 3) 53 1 (2 ^ 52 + 1 + 1) (by norm_num [le_abs])
      (by norm_num [abs_lt]) (by decide) (by rw [e]; exact roundHalfEven_tie_odd _ (by decide))
    unfold roundDouble
    rw [h, if_pos (by norm_num [abs_lt])]
    norm_num
  · have e : ((1 : ℚ) / 2 ^ 1075) / 2 ^ (-1074 : ℤ) = ((0 : ℤ) : ℚ) + 1 / 2 := by norm_num
    have h := roundNearest_eq_of (1 / 2 ^ 1075) (-1075) (-1074) 0 (by norm_num [le_abs])
      (by norm_num [abs_lt]) (by decide) (by rw [e]; exact roundHalfEven_tie_even _ (by decide))
    unfold roundDouble
    rw [h, if_pos (by norm_num [abs_lt])]
    norm_num
  · have e : ((3 : ℚ) / 2 ^ 1075) / 2 ^ (-1074 : ℤ) = ((1 : ℤ) : ℚ) + 1 / 2 := by norm_num
    have h := roundNearest_eq_of (3 / 2 ^ 1075) (-1074) (-1074) (1 + 1) (by norm_num [le_abs])
      (by norm_num [abs_lt]) (by decide) (by rw [e]; exact roundHalfEven_tie_odd _ (by decide))
    unfold roundDouble
    rw [h, if_pos (by norm_num [abs_lt])]
    norm_num
  · have h := isDouble_of (2 ^ 53 - 1) 971 (by decide) (by decide) (by decide)
    have e : (((2 ^ 53 - 1 : ℤ) : ℚ)) * 2 ^ (971 : ℤ) = 2 ^ 1024 - 2 ^ 971 := by norm_num
    rw [e] at h
    exact h
  · have e : ((2 : ℚ) ^ 1024 - 2 ^ 970) / 2 ^ (971 : ℤ) = ((2 ^ 53 - 1 : ℤ) : ℚ) + 1 / 2 := by
      norm_num
    have h := roundNearest_eq_of (2 ^ 1024 - 2 ^ 970) 1023 971 (2 ^ 53 - 1 + 1)
      (by norm_num [le_abs]) (by norm_num [abs_lt]) (by decide)
      (by rw [e]; exact roundHalfEven_tie_odd _ (by decide))
    unfold roundDouble
    rw [h, if_neg (by norm_num [abs_lt])]

/-- Evaluation of `sqrtDouble` on a positive argument: `e` is the binary exponent of `x`, `q`
the exponent of the spacing of the doubles around the root and `f` the integer part of the
root in units of `2 ^ q`. -/
theorem sqrtDouble_eq_of (x : ℚ) (e q : ℤ) (f : ℕ) (hlo : (2 : ℚ) ^ e ≤ x)
    (hhi : x < 2 ^ (e + 1)) (hq : max (e / 2) (-1022) - 52 = q)
    (hf1 : ((f * f : ℕ) : ℚ) ≤ x / 4 ^ q) (hf2 : x / 4 ^ q < (((f + 1) * (f + 1) : ℕ) : ℚ)) :
    sqrtDouble x = some (((if x / 4 ^ q < ((f : ℚ) + 1 / 2) ^ 2 then f
      else if ((f : ℚ) + 1 / 2) ^ 2 < x / 4 ^ q then f + 1
      else if f % 2 = 0 then f else f + 1 : ℕ) : ℚ) * 2 ^ q) := by
  have hx : 0 < x := lt_of_lt_of_le (two_zpow_pos e) hlo
  have hlog : Int.log 2 x = e := by
    have h := log_abs_eq (x := x) (e := e) (by rw [abs_of_pos hx]; exact hlo)
      (by rw [abs_of_pos hx]; exact hhi)
    rw [abs_of_pos hx] at h
    exact h
  have hy : 0 ≤ x / 4 ^ q := div_nonneg hx.le (zpow_pos (by norm_num) q).le
  have hsq : Nat.sqrt ⌊x / 4 ^ q⌋₊ = f := by
    symm
    rw [Nat.eq_sqrt]
    constructor
    · exact Nat.le_floor hf1
    · exact (Nat.floor_lt hy).2 hf2
  unfold sqrtDouble
  rw [if_neg (not_lt.mpr hx.le)]
  simp only [hlog, hq, hsq]

/-- The square root conforms to IEEE 754 at characteristic values: the root of 4 is 2, the
root of 2 is the double nearest to it, the root of the smallest subnormal `2 ^ -1074` is
`2 ^ -537`, the root of zero is zero and a negative argument has no finite root. -/
theorem sqrtDouble_conformance :
    sqrtDouble 4 = some 2
    ∧ sqrtDouble 2 = some (6369051672525773 / 2 ^ 52)
    ∧ sqrtDouble (1 / 2 ^ 1074) = some (1 / 2 ^ 537)
    ∧ sqrtDouble 0 = some 0
    ∧ sqrtDouble (-1) = none := by
  refine ⟨?_, ?_, ?_, sqrtDouble_zero, ?_⟩
  · have h := sqrtDouble_eq_of 4 2 (-51) (2 ^ 52) (by norm_num) (by norm_num) (by decide)
      (by norm_num) (by norm_num)
    rw [h]
    norm_num
  · have h := sqrtDouble_eq_of 2 1 (-52) 6369051672525772 (by norm_num) (by norm_num)
      (by decide) (by norm_num) (by norm_num)
    rw [h]
    norm_num
  · have h := sqrtDouble_eq_of (1 / 2 ^ 1074) (-1074) (-589) (2 ^ 52) (by norm_num)
      (by norm_num) (by decide) (by norm_num) (by norm_num)
    rw [h]
    norm_num
  · unfold sqrtDouble
    rw [if_pos (by norm_num)]

/-! ### Agreement of the two arithmetics on the example data -/

theorem normalizeDouble_one (n : StdvNormalizer) (inp out : List ℚ) (x a s d v : ℚ)
    (hx : inp.getD 0 0 = x) (ha : n.avg.getD 0 0 = a) (hs : n.stdv.getD 0 0 = s)
    (h1 : dsub x a = some d) (h2 : ddiv d s = some v) :
    n.normalizeDouble 1 inp out = some (out.set 0 v) := by
  unfold StdvNormalizer.normalizeDouble
  simp only [List.range_succ, List.range_zero, List.nil_append, List.foldlM_cons,
    List.foldlM_nil, hx, ha, hs, h1, h2, Option.bind_eq_bind, Option.some_bind,
    Option.pure_def, Option.bind_some]

theorem roundDouble_int (m : ℤ) (hm : |m| < 2 ^ 53) : roundDouble (m : ℚ) = some (m : ℚ) :=
  isDouble_intCast m hm

theorem roundDouble_half (m : ℤ) (hm : |m| < 2 ^ 53) :
    roundDouble ((m : ℚ) / 2) = some ((m : ℚ) / 2) :=
  isDouble_half m hm

/-- On the example data of the evaluations in exact arithmetic no operation rounds, so that
the double arithmetic gives the same results there: `normalizeScores` on `normalizeExample`,
and `normalize` and `unnormalizeweight` on `stdvExample`. -/
theorem examples_agree_in_double_arithmetic :
    (normalizeExample.normalizeScoresDouble (1 / 100)).map
        (fun r => r.scores_.map ScoreHolder.score) = some [0, -1, -3 / 2, -2]
    ∧ (normalizeExample.normalizeScores (1 / 100)).map
        (fun r => r.scores_.map ScoreHolder.score) = some [0, -1, -3 / 2, -2]
    ∧ stdvExample.normalizeDouble 1 [5] [0] = some (stdvExample.normalize 1 [5] [0])
    ∧ stdvExample.unnormalizeweightDouble 1 [3, 0] [0, 0]
        = some (stdvExample.unnormalizeweight 1 [3, 0] [0, 0]) := by
  have i0 := roundDouble_int 0 (by decide)
  have i2 := roundDouble_int 2 (by decide)
  have i4 := roundDouble_int 4 (by decide)
  have i6 := roundDouble_int 6 (by decide)
  have im1 := roundDouble_int (-1) (by decide)
  have im2 := roundDouble_int (-2) (by decide)
  have im3 := roundDouble_int (-3) (by decide)
  have im4 := roundDouble_int (-4) (by decide)
  have h1 := roundDouble_half 1 (by decide)
  have h3 := roundDouble_half 3 (by decide)
  have hm1 := roundDouble_half (-1) (by decide)
  have hm3 := roundDouble_half (-3) (by decide)
  norm_num at i0 i2 i4 i6 im1 im2 im3 im4 h1 h3 hm1 hm3
  have a1 : dadd 5 1 = some 6 := by unfold dadd; norm_num; exact i6
  have a2 : dsub 5 3 = some 2 := by unfold dsub; norm_num; exact i2
  have a3 : dsub 5 5 = some 0 := by unfold dsub; norm_num; exact i0
  have a4 : ddiv 0 2 = some 0 := by unfold ddiv; norm_num; exact i0
  have a5 : dsub 3 5 = some (-2) := by unfold dsub; norm_num; exact im2
  have a6 : ddiv (-2) 2 = some (-1) := by unfold ddiv; norm_num; exact im1
  have a7 : dsub 2 5 = some (-3) := by unfold dsub; norm_num; exact im3
  have a8 : ddiv (-3) 2 = some (-3 / 2) := by unfold ddiv; norm_num; exact hm3
  have a9 : dsub 1 5 = some (-4) := by unfold dsub; norm_num; exact im4
  have a10 : ddiv (-4) 2 = some (-2) := by unfold ddiv; norm_num; exact im2
  have b1 : dsub 5 1 = some 4 := by unfold dsub; norm_num; exact i4
  have b2 : ddiv 4 2 = some 2 := by unfold ddiv; norm_num; exact i2
  have c1 : ddiv 3 2 = some (3 / 2) := by unfold ddiv; norm_num; exact h3
  have c2 : ddiv 1 2 = some (1 / 2) := by unfold ddiv; norm_num; exact h1
  have c3 : dsub 0 (1 / 2) = some (-1 / 2) := by unfold dsub; norm_num; exact hm1
  have hscan : normalizeScoresScan (1 / 100) (max 0 (3 / 2))
      [exampleHolder 5 0 1 (examplePSM 1 100 2 "A" [5]),
       exampleHolder 3 1 (-1) (examplePSM 2 100 2 "B" [3]),
       exampleHolder 2 1 (-1) (examplePSM 3 100 2 "C" [2]),
       exampleHolder 1 1 (-1) (examplePSM 4 100 2 "D" [1])] 0 5 6 = (5, 3) := by
    simp [normalizeScoresScan, exampleHolder, ScoreHolder.isDecoy]
    norm_num
  have hloop : rescaleLoopDouble 5 2
      [exampleHolder 5 0 1 (examplePSM 1 100 2 "A" [5]),
       exampleHolder 3 1 (-1) (examplePSM 2 100 2 "B" [3]),
       exampleHolder 2 1 (-1) (examplePSM 3 100 2 "C" [2]),
       exampleHolder 1 1 (-1) (examplePSM 4 100 2 "D" [1])]
      = some [exampleHolder 0 0 1 (examplePSM 1 100 2 "A" [5]),
       exampleHolder (-1) 1 (-1) (examplePSM 2 100 2 "B" [3]),
       exampleHolder (-3 / 2) 1 (-1) (examplePSM 3 100 2 "C" [2]),
       exampleHolder (-2) 1 (-1) (examplePSM 4 100 2 "D" [1])] :=
    rescaleLoopDouble_cons_eq 5 2 _ _ _ _ (rescaleDouble_eq_pos 5 2 _ 5 0 0 rfl two_pos a3 a4)
      (rescaleLoopDouble_cons_eq 5 2 _ _ _ _
        (rescaleDouble_eq_pos 5 2 _ 3 (-2) (-1) rfl two_pos a5 a6)
        (rescaleLoopDouble_cons_eq 5 2 _ _ _ _
          (rescaleDouble_eq_pos 5 2 _ 2 (-3) (-3 / 2) rfl two_pos a7 a8)
          (rescaleLoopDouble_cons_eq 5 2 _ _ _ _
            (rescaleDouble_eq_pos 5 2 _ 1 (-4) (-2) rfl two_pos a9 a10) rfl)))
  have hrun := normalizeScoresDouble_eq normalizeExample (1 / 100) _ _ _ 5 6 5 3 2 rfl rfl a1
    hscan a2 hloop
  refine ⟨?_, ?_, ?_, ?_⟩
  · rw [hrun]
    rfl
  · simp [normalizeExample, exampleHolder, Scores.normalizeScores, normalizeScoresScan,
      ScoreHolder.isDecoy]
    norm_num
  · rw [normalizeDouble_one stdvExample [5] [0] 5 1 2 4 2 rfl rfl rfl b1 b2]
    simp [StdvNormalizer.normalize, stdvExample, List.range_succ]
    norm_num
  · rw [unnormalizeweightDouble_one stdvExample [3, 0] [0, 0] 3 0 1 2 (3 / 2) (1 / 2) (-1 / 2)
      rfl rfl rfl rfl c1 c2 c3]
    simp [StdvNormalizer.unnormalizeweight, stdvExample, List.range_succ]
    norm_num

end Percolator
